import Mathlib

/-!
# imageRGB: flood filling and segmentation of LUT-indexed images

A shallow embedding of `imageRGB.c`: image creation, the LUT, copies and
rotations, the PBM and PPM files, the three region filling functions and the
segmentation driver, together with their properties.

Conventions of the embedding

* `uint16` labels, `rgb_t` colours and the `int` pixel counters are natural
  numbers; pixel coordinates are `Int` (the C code uses `int`), and the casts
  `(int)img->width`, `(int)img->height` are `toInt32`.
* The pixel grid `uint16** image` is a list of rows.  A memory access outside
  the allocated rows is undefined behaviour in C; the embedding reports it as
  `Outcome.outOfBounds`.
* Recursion depth and loop iterations are bounded by an explicit fuel
  argument; running out of it is reported as `Outcome.outOfFuel`.
* The LUT is the list of its defined entries (`LUT[0 .. num_colors-1]`).
-/

namespace ImageRGB

/-! ## Data model -/

/-- FIXED SIZE of LUT for storing RGB triplets. -/
def FIXED_LUT_SIZE : Nat := 1000

/-- Modelled from the spec: the header `imageRGB.h` is not part of the sources;
label 0 is the background label WHITE (the LUT is seeded with WHITE at index 0). -/
def WHITE : Nat := 0

/-- Modelled from the spec: the header `imageRGB.h` is not part of the sources;
label 1 is BLACK (the LUT is seeded with BLACK at index 1). -/
def BLACK : Nat := 1

/-- Internal structure for storing RGB images (`struct image`). -/
structure Image where
  width : Nat
  height : Nat
  image : List (List Nat)
  num_colors : Nat
  LUT : List Nat
deriving DecidableEq, Repr

/-- Result of running a piece of the C code: a value, an access outside the
allocated pixel rows (undefined behaviour in C), or exhausted fuel. -/
inductive Outcome (α : Type) where
  | ok : α → Outcome α
  | outOfBounds : Outcome α
  | outOfFuel : Outcome α
deriving DecidableEq, Repr

/-- Sequencing of two computations; a fault of the first one is propagated. -/
def Outcome.bind {α β : Type} (x : Outcome α) (f : α → Outcome β) : Outcome β :=
  match x with
  | .ok a => f a
  | .outOfBounds => .outOfBounds
  | .outOfFuel => .outOfFuel

/-- The cast `(int)x` / `(int32_t)x` of a `uint32` value. -/
def toInt32 (n : Nat) : Int :=
  if n % 2 ^ 32 < 2 ^ 31 then ((n % 2 ^ 32 : Nat) : Int)
  else ((n % 2 ^ 32 : Nat) : Int) - 2 ^ 32

/-- Shape invariant of the pixel grid: `height` rows of `width` labels each. -/
def Image.WF (img : Image) : Prop :=
  img.image.length = img.height ∧ ∀ r ∈ img.image, r.length = img.width

instance (img : Image) : Decidable img.WF := by
  unfold Image.WF
  infer_instance

/-- Header of an image: dimensions, no rows yet, and the LUT with the two fixed
colours WHITE and BLACK. -/
def AllocateImageHeader (width height : Nat) : Image :=
  { width := width, height := height, image := [], num_colors := 2,
    LUT := [0xffffff, 0x000000] }

/-- Allocate row of background (label=0) pixels. -/
def AllocateRowArray (size : Nat) : List Nat := List.replicate size 0

/-- Create a new RGB image. All pixels with the background WHITE color. -/
def ImageCreate (width height : Nat) : Image :=
  { AllocateImageHeader width height with
    image := List.replicate height (AllocateRowArray width) }

/-- Check whether pixel coords (u, v) are inside img. -/
def ImageIsValidPixel (img : Image) (u v : Int) : Bool :=
  decide (0 ≤ u) && decide (u < toInt32 img.width) &&
    decide (0 ≤ v) && decide (v < toInt32 img.height)

/-- The read `img->image[row][col]`; `none` when the access is outside the
allocated rows. -/
def readPixel (img : Image) (row col : Int) : Option Nat :=
  if 0 ≤ row ∧ 0 ≤ col then
    match img.image[row.toNat]? with
    | some r => r[col.toNat]?
    | none => none
  else none

/-- The write `img->image[row][col] = val`; `none` when the access is outside
the allocated rows. -/
def writePixel (img : Image) (row col : Int) (val : Nat) : Option Image :=
  if 0 ≤ row ∧ 0 ≤ col then
    match img.image[row.toNat]? with
    | some r =>
      if col.toNat < r.length then
        some { img with image := img.image.set row.toNat (r.set col.toNat val) }
      else none
    | none => none
  else none

/-! ## Region growing -/

/-- The recursive part of the flood fill.  The first argument bounds the depth
of the recursion (the C call stack). -/
def floodFillRecursive : Nat → Image → Int → Int → Nat → Nat → Outcome (Image × Nat)
  | 0, _, _, _, _, _ => .outOfFuel
  | fuel + 1, img, u, v, background, label =>
    if !ImageIsValidPixel img u v then .ok (img, 0)
    else
      match readPixel img v u with
      | none => .outOfBounds
      | some p =>
        if p ≠ background then .ok (img, 0)
        else
          match writePixel img v u label with
          | none => .outOfBounds
          | some img0 =>
            (floodFillRecursive fuel img0 (u + 1) v background label).bind fun r1 =>
            (floodFillRecursive fuel r1.1 (u - 1) v background label).bind fun r2 =>
            (floodFillRecursive fuel r2.1 u (v + 1) background label).bind fun r3 =>
            (floodFillRecursive fuel r3.1 u (v - 1) background label).bind fun r4 =>
            .ok (r4.1, 1 + r1.2 + r2.2 + r3.2 + r4.2)

/-- Region growing using the recursive flood-filling algorithm. -/
def ImageRegionFillingRecursive (fuel : Nat) (img : Image) (u v : Int) (label : Nat) :
    Outcome (Image × Nat) :=
  if !ImageIsValidPixel img u v then .ok (img, 0)
  else
    match readPixel img v u with
    | none => .outOfBounds
    | some background =>
      if background = label then .ok (img, 0)
      else floodFillRecursive fuel img u v background label

/-- Modelled from the spec: `PixelCoords.h` is not part of the sources; a pixel
coordinate is the pair (u = column, v = row), in this order. -/
structure PixelCoords where
  u : Int
  v : Int
deriving DecidableEq, Repr

/-- Modelled from the spec: `PixelCoordsStack.c` is not part of the sources; a
LIFO container of coordinates, the top is the head of the list. -/
def StackPush (s : List PixelCoords) (p : PixelCoords) : List PixelCoords := p :: s

/-- Modelled from the spec: `PixelCoordsQueue.c` is not part of the sources; a
FIFO container of coordinates, the front is the head of the list. -/
def QueueEnqueue (q : List PixelCoords) (p : PixelCoords) : List PixelCoords := q ++ [p]

/-- State of the iterative fills: the image, the container and the counter. -/
abbrev FillState := Image × List PixelCoords × Nat

/-- One of the four inline neighbour tests of the iterative fills:
`if (guard && img->image[row][col] == background) { img->image[row][col] = label;
count++; insert(container, p); }`. -/
def fillNeighbour (ins : List PixelCoords → PixelCoords → List PixelCoords)
    (background label : Nat) (guard : Bool) (row col : Int) (p : PixelCoords)
    (st : FillState) : Outcome FillState :=
  if guard then
    match readPixel st.1 row col with
    | none => .outOfBounds
    | some q =>
      if q = background then
        match writePixel st.1 row col label with
        | none => .outOfBounds
        | some img1 => .ok (img1, ins st.2.1 p, st.2.2 + 1)
      else .ok st
  else .ok st

/-- Body of the while loop of the iterative fills for the removed coordinate
`p`: right, left, down, up, with the coordinates inserted as the code writes
them (`{x + 1, y}`, `{x - 1, y}`, `{y + 1, x}`, `{y - 1, x}`). -/
def fillVisit (ins : List PixelCoords → PixelCoords → List PixelCoords)
    (background label : Nat) (W H : Int) (p : PixelCoords) (st : FillState) :
    Outcome FillState :=
  (fillNeighbour ins background label (decide (p.u + 1 < W)) p.v (p.u + 1)
    ⟨p.u + 1, p.v⟩ st).bind fun s1 =>
  (fillNeighbour ins background label (decide (p.u > 0)) p.v (p.u - 1)
    ⟨p.u - 1, p.v⟩ s1).bind fun s2 =>
  (fillNeighbour ins background label (decide (p.v + 1 < H)) (p.v + 1) p.u
    ⟨p.v + 1, p.u⟩ s2).bind fun s3 =>
  fillNeighbour ins background label (decide (p.v > 0)) (p.v - 1) p.u
    ⟨p.v - 1, p.u⟩ s3

/-- The while loop of the iterative fills: remove the head of the container and
visit its neighbours until the container is empty.  The first argument bounds
the number of iterations. -/
def fillLoop (ins : List PixelCoords → PixelCoords → List PixelCoords)
    (background label : Nat) (W H : Int) : Nat → FillState → Outcome (Image × Nat)
  | _, (img, [], count) => .ok (img, count)
  | 0, (_, _ :: _, _) => .outOfFuel
  | fuel + 1, (img, p :: rest, count) =>
    match fillVisit ins background label W H p (img, rest, count) with
    | .ok st => fillLoop ins background label W H fuel st
    | .outOfBounds => .outOfBounds
    | .outOfFuel => .outOfFuel

/-- Common text of `ImageRegionFillingWithSTACK` and
`ImageRegionFillingWithQUEUE`, which differ only in the container.  The
creation of the container is taken to succeed. -/
def fillWith (ins : List PixelCoords → PixelCoords → List PixelCoords)
    (fuel : Nat) (img : Image) (u v : Int) (label : Nat) : Outcome (Image × Nat) :=
  if !ImageIsValidPixel img u v then .ok (img, 0)
  else
    match readPixel img v u with
    | none => .outOfBounds
    | some background =>
      if background = label then .ok (img, 0)
      else
        match writePixel img v u label with
        | none => .outOfBounds
        | some img0 =>
          fillLoop ins background label (toInt32 img.width) (toInt32 img.height) fuel
            (img0, ins [] ⟨u, v⟩, 1)

/-- Region growing using a STACK of pixel coordinates. -/
def ImageRegionFillingWithSTACK (fuel : Nat) (img : Image) (u v : Int) (label : Nat) :
    Outcome (Image × Nat) :=
  fillWith StackPush fuel img u v label

/-- Region growing using a QUEUE of pixel coordinates. -/
def ImageRegionFillingWithQUEUE (fuel : Nat) (img : Image) (u v : Int) (label : Nat) :
    Outcome (Image × Nat) :=
  fillWith QueueEnqueue fuel img u v label

/-- Check if img1 and img2 represent equal images: same dimensions, same number
of colours, same LUT entries `0 .. num_colors-1` and same pixel rows. -/
def ImageIsEqual (img1 img2 : Image) : Bool :=
  if img1.width ≠ img2.width ∨ img1.height ≠ img2.height then false
  else if img1.num_colors ≠ img2.num_colors then false
  else if img1.LUT.take img1.num_colors ≠ img2.LUT.take img1.num_colors then false
  else (List.range img1.height).all fun v =>
    decide ((img1.image.getD v []).take img1.width = (img2.image.getD v []).take img1.width)

/-! ## Specification vocabulary -/

/-- The pixel `q = (u, v)` lies inside the image and holds the label `bg`. -/
def bgAt (img : Image) (bg : Nat) (q : Int × Int) : Prop :=
  ImageIsValidPixel img q.1 q.2 = true ∧ readPixel img q.2 q.1 = some bg

/-- Pixel `q` is one of the four neighbours (right, left, down, up) of `p`. -/
def adj4 (p q : Int × Int) : Prop :=
  q = (p.1 + 1, p.2) ∨ q = (p.1 - 1, p.2) ∨ q = (p.1, p.2 + 1) ∨ q = (p.1, p.2 - 1)

/-- Pixel `q` belongs to the 4-connected component of `bg`-labelled pixels of
`img` that contains `p`: there is a path of `bg`-labelled pixels from `p` to `q`
whose consecutive pixels are 4-neighbours. -/
inductive Connected4 (img : Image) (bg : Nat) (p : Int × Int) : Int × Int → Prop where
  | seed : bgAt img bg p → Connected4 img bg p p
  | step {q r : Int × Int} : Connected4 img bg p q → adj4 q r → bgAt img bg r →
      Connected4 img bg p r

/-- The set of pixels of `img` holding the label `bg`. -/
def bgSet (img : Image) (bg : Nat) : Finset (Int × Int) :=
  (Finset.Ico 0 (toInt32 img.width) ×ˢ Finset.Ico 0 (toInt32 img.height)).filter
    (fun q => readPixel img q.2 q.1 = some bg)

/-- From `img` to `img1` exactly the pixels of `C`, all of them labelled `bg`
in `img`, were relabelled with `label`; nothing else changed. -/
def Changed (bg label : Nat) (img img1 : Image) (C : Finset (Int × Int)) : Prop :=
  img1.width = img.width ∧ img1.height = img.height ∧
  img1.num_colors = img.num_colors ∧ img1.LUT = img.LUT ∧ img1.WF ∧
  (∀ q ∈ C, bgAt img bg q) ∧
  (∀ q : Int × Int, readPixel img1 q.2 q.1 = if q ∈ C then some label else readPixel img q.2 q.1)

/-- Postcondition of a call of `floodFillRecursive` at `p`. -/
def FloodSpec (bg label : Nat) (img : Image) (p : Int × Int) (img1 : Image) (c : Nat) : Prop :=
  ∃ C : Finset (Int × Int), Changed bg label img img1 C ∧ c = C.card ∧
    (∀ q ∈ C, Connected4 img bg p q) ∧ ¬ bgAt img1 bg p ∧
    (∀ q ∈ C, ∀ r, adj4 q r → ¬ bgAt img1 bg r)

/-- The pixel grid built by test 5.3 of `test_RegionFillingRecursive`: the
outermost rows and columns hold BLACK, the interior holds WHITE. -/
def borderGrid (w h : Nat) : List (List Nat) :=
  (List.range h).map fun v => (List.range w).map fun u =>
    if u = 0 ∨ u + 1 = w ∨ v = 0 ∨ v + 1 = h then BLACK else WHITE

/-! ## LUT, chess images and segmentation -/

/-- The store `LUT[i] = c`.  The list holds the defined entries of the LUT, so a
store at the first free index appends. -/
def lutStore (lut : List Nat) (i c : Nat) : List Nat :=
  if i < lut.length then lut.set i c else lut ++ [c]

/-- Find color label for given RGB color in img LUT; `none` is the C result -1. -/
def LUTFindColor (img : Image) (color : Nat) : Option Nat :=
  (img.LUT.take img.num_colors).indexOf? color

/-- Return color label for RGB color in img LUT: finds existing color or allocs
new one.  `none` is the fatal exit "LUT Overflow". -/
def LUTAllocColor (img : Image) (color : Nat) : Option (Image × Nat) :=
  match LUTFindColor img color with
  | some index => some (img, index)
  | none =>
    if img.num_colors < FIXED_LUT_SIZE then
      some ({ img with num_colors := img.num_colors + 1,
                       LUT := lutStore img.LUT img.num_colors color }, img.num_colors)
    else none

/-- Return a pseudo-random successor of the given color. -/
def GenerateNextColor (color : Nat) : Nat := (color + 7639) % 0x1000000

/-- Create a new RGB image, with a color chess pattern; the label returned by
`LUTAllocColor` is stored in a `uint8`. -/
def ImageCreateChess (width height edge color : Nat) : Option Image :=
  match LUTAllocColor (ImageCreate width height) color with
  | some (img, index) =>
    some { img with image := (List.range height).map fun i => (List.range width).map fun j =>
      if (i / edge + j / edge) % 2 ≠ 0 then 0 else index % 256 }
  | none => none

/-- The type `FillingFunction` of the three region filling functions. -/
abbrev FillingFunction := Image → Int → Int → Nat → Outcome (Image × Nat)

/-- Local variables of `ImageSegmentation`. -/
structure SegState where
  img : Image
  regionCount : Nat
  currentColor : Nat
  currentLabel : Nat
deriving DecidableEq, Repr

/-- The pixels in the order of the two nested loops of `ImageSegmentation`:
rows `v` from 0, and in each row the columns `u` from 0; entries are `(v, u)`. -/
def scanOrder (W H : Nat) : List (Nat × Nat) :=
  (List.range H).flatMap fun v => (List.range W).map fun u => (v, u)

/-- The two nested loops of `ImageSegmentation` over the remaining pixels. -/
def segLoop (fillFunct : FillingFunction) : List (Nat × Nat) → SegState → Outcome (Image × Nat)
  | [], st => .ok (st.img, st.regionCount)
  | vu :: rest, st =>
    match readPixel st.img vu.1 vu.2 with
    | none => .outOfBounds
    | some p =>
      if p = WHITE then
        if st.currentLabel ≥ FIXED_LUT_SIZE then .ok (st.img, st.regionCount)
        else
          match fillFunct
              { st.img with LUT := lutStore st.img.LUT st.currentLabel st.currentColor,
                            num_colors := st.img.num_colors + 1 }
              (toInt32 vu.2) (toInt32 vu.1) st.currentLabel with
          | .ok r =>
            segLoop fillFunct rest
              { img := r.1, regionCount := st.regionCount + 1,
                currentColor := GenerateNextColor st.currentColor,
                currentLabel := st.currentLabel + 1 }
          | .outOfBounds => .outOfBounds
          | .outOfFuel => .outOfFuel
      else segLoop fillFunct rest st

/-- Label every WHITE region of the image with a new colour, using the given
region filling function; returns the number of regions. -/
def ImageSegmentation (img : Image) (fillFunct : FillingFunction) : Outcome (Image × Nat) :=
  segLoop fillFunct (scanOrder img.width img.height)
    { img := img, regionCount := 0, currentColor := 0x0000FF, currentLabel := img.num_colors }

/-! ## Packed images

For the evaluation of the fills on large concrete images the pixel grid is
packed into one natural number, 16 bits per pixel (pixels are `uint16`), the
pixel of row `r` and column `c` being digit `r * width + c` in base 65536.  The
functions below repeat the text of the fills on this representation. -/

/-- Digit `i` of `n` in base 65536. -/
def digit (n i : Nat) : Nat := (n / 65536 ^ i) % 65536

/-- The number `n` with digit `i` replaced by `v`. -/
def setDigit (n i v : Nat) : Nat :=
  n % 65536 ^ i + v * 65536 ^ i + (n / 65536 ^ (i + 1)) * 65536 ^ (i + 1)

/-- Dimensions of a packed image. -/
structure Shape where
  width : Nat
  height : Nat
deriving DecidableEq, Repr

/-- `readPixel` on a packed grid. -/
def packedRead (s : Shape) (bits : Nat) (row col : Int) : Option Nat :=
  if 0 ≤ row ∧ row < s.height ∧ 0 ≤ col ∧ col < s.width then
    some (digit bits (row.toNat * s.width + col.toNat))
  else none

/-- `writePixel` on a packed grid. -/
def packedWrite (s : Shape) (bits : Nat) (row col : Int) (val : Nat) : Option Nat :=
  if 0 ≤ row ∧ row < s.height ∧ 0 ≤ col ∧ col < s.width then
    some (setDigit bits (row.toNat * s.width + col.toNat) val)
  else none

/-- The grid `bits` holds the pixels of `img`. -/
def Packs (s : Shape) (img : Image) (bits : Nat) : Prop :=
  img.WF ∧ img.width = s.width ∧ img.height = s.height ∧
  ∀ r c : Nat, r < s.height → c < s.width →
    readPixel img r c = some (digit bits (r * s.width + c))

/-- State of the iterative fills on a packed grid. -/
abbrev PackedState := Nat × List PixelCoords × Nat

/-- `fillNeighbour` on a packed grid. -/
def packedNeighbour (s : Shape) (ins : List PixelCoords → PixelCoords → List PixelCoords)
    (background label : Nat) (guard : Bool) (row col : Int) (p : PixelCoords)
    (st : PackedState) : Outcome PackedState :=
  if guard then
    match packedRead s st.1 row col with
    | none => .outOfBounds
    | some q =>
      if q = background then
        match packedWrite s st.1 row col label with
        | none => .outOfBounds
        | some b1 => .ok (b1, ins st.2.1 p, st.2.2 + 1)
      else .ok st
  else .ok st

/-- `fillVisit` on a packed grid. -/
def packedVisit (s : Shape) (ins : List PixelCoords → PixelCoords → List PixelCoords)
    (background label : Nat) (W H : Int) (p : PixelCoords) (st : PackedState) :
    Outcome PackedState :=
  (packedNeighbour s ins background label (decide (p.u + 1 < W)) p.v (p.u + 1)
    ⟨p.u + 1, p.v⟩ st).bind fun s1 =>
  (packedNeighbour s ins background label (decide (p.u > 0)) p.v (p.u - 1)
    ⟨p.u - 1, p.v⟩ s1).bind fun s2 =>
  (packedNeighbour s ins background label (decide (p.v + 1 < H)) (p.v + 1) p.u
    ⟨p.v + 1, p.u⟩ s2).bind fun s3 =>
  packedNeighbour s ins background label (decide (p.v > 0)) (p.v - 1) p.u
    ⟨p.v - 1, p.u⟩ s3

/-- `fillLoop` on a packed grid. -/
def packedLoop (s : Shape) (ins : List PixelCoords → PixelCoords → List PixelCoords)
    (background label : Nat) (W H : Int) : Nat → PackedState → Outcome (Nat × Nat)
  | _, (bits, [], count) => .ok (bits, count)
  | 0, (_, _ :: _, _) => .outOfFuel
  | fuel + 1, (bits, p :: rest, count) =>
    match packedVisit s ins background label W H p (bits, rest, count) with
    | .ok st => packedLoop s ins background label W H fuel st
    | .outOfBounds => .outOfBounds
    | .outOfFuel => .outOfFuel

/-- `ImageIsValidPixel` on a packed grid. -/
def packedValid (s : Shape) (u v : Int) : Bool :=
  decide (0 ≤ u) && decide (u < toInt32 s.width) &&
    decide (0 ≤ v) && decide (v < toInt32 s.height)

/-- `fillWith` on a packed grid. -/
def packedFill (s : Shape) (ins : List PixelCoords → PixelCoords → List PixelCoords)
    (fuel : Nat) (bits : Nat) (u v : Int) (label : Nat) : Outcome (Nat × Nat) :=
  if !packedValid s u v then .ok (bits, 0)
  else
    match packedRead s bits v u with
    | none => .outOfBounds
    | some background =>
      if background = label then .ok (bits, 0)
      else
        match packedWrite s bits v u label with
        | none => .outOfBounds
        | some b0 =>
          packedLoop s ins background label (toInt32 s.width) (toInt32 s.height) fuel
            (b0, ins [] ⟨u, v⟩, 1)

/-- `floodFillRecursive` on a packed grid. -/
def packedFlood (s : Shape) : Nat → Nat → Int → Int → Nat → Nat → Outcome (Nat × Nat)
  | 0, _, _, _, _, _ => .outOfFuel
  | fuel + 1, bits, u, v, background, label =>
    if !packedValid s u v then .ok (bits, 0)
    else
      match packedRead s bits v u with
      | none => .outOfBounds
      | some p =>
        if p ≠ background then .ok (bits, 0)
        else
          match packedWrite s bits v u label with
          | none => .outOfBounds
          | some b0 =>
            (packedFlood s fuel b0 (u + 1) v background label).bind fun r1 =>
            (packedFlood s fuel r1.1 (u - 1) v background label).bind fun r2 =>
            (packedFlood s fuel r2.1 u (v + 1) background label).bind fun r3 =>
            (packedFlood s fuel r3.1 u (v - 1) background label).bind fun r4 =>
            .ok (r4.1, 1 + r1.2 + r2.2 + r3.2 + r4.2)

/-- `ImageRegionFillingRecursive` on a packed grid. -/
def packedFillRecursive (s : Shape) (fuel : Nat) (bits : Nat) (u v : Int) (label : Nat) :
    Outcome (Nat × Nat) :=
  if !packedValid s u v then .ok (bits, 0)
  else
    match packedRead s bits v u with
    | none => .outOfBounds
    | some background =>
      if background = label then .ok (bits, 0)
      else packedFlood s fuel bits u v background label

/-- The variables of `ImageSegmentation` on a packed grid: the grid, the number
of regions, the current label and the number of colours. -/
structure PackedSeg where
  bits : Nat
  regionCount : Nat
  currentLabel : Nat
  numColors : Nat
deriving DecidableEq, Repr

/-- `segLoop` on a packed grid; the result is the final grid, the number of
regions and the number of colours. -/
def packedSegLoop (s : Shape) (fill : Nat → Int → Int → Nat → Outcome (Nat × Nat)) :
    List (Nat × Nat) → PackedSeg → Outcome PackedSeg
  | [], st => .ok st
  | vu :: rest, st =>
    match packedRead s st.bits vu.1 vu.2 with
    | none => .outOfBounds
    | some p =>
      if p = WHITE then
        if st.currentLabel ≥ FIXED_LUT_SIZE then .ok st
        else
          match fill st.bits (toInt32 vu.2) (toInt32 vu.1) st.currentLabel with
          | .ok r =>
            packedSegLoop s fill rest
              { bits := r.1, regionCount := st.regionCount + 1,
                currentLabel := st.currentLabel + 1, numColors := st.numColors + 1 }
          | .outOfBounds => .outOfBounds
          | .outOfFuel => .outOfFuel
      else packedSegLoop s fill rest st

/-- The packed grid of `ImageCreateChess(60,60,30,BLACK)`. -/
def chessBits : Nat :=
  (scanOrder 60 60).foldr
    (fun vu acc => (if (vu.1 / 30 + vu.2 / 30) % 2 ≠ 0 then 0 else 1) + 65536 * acc) 0

/-- Number of regions and number of colours of a packed segmentation. -/
def packedSummary : Outcome PackedSeg → Option (Nat × Nat)
  | .ok r => some (r.regionCount, r.numColors)
  | .outOfBounds => none
  | .outOfFuel => none

/-- Two runs are in simulation: both return, with related values, or both stop
with the same fault. -/
def SimOut {α β : Type} (R : α → β → Prop) : Outcome α → Outcome β → Prop
  | .ok a, .ok b => R a b
  | .outOfBounds, .outOfBounds => True
  | .outOfFuel, .outOfFuel => True
  | _, _ => False

/-- A state of the iterative fills and its packed counterpart, on an image with
`n` colours. -/
def SimState (s : Shape) (n : Nat) (a : FillState) (b : PackedState) : Prop :=
  Packs s a.1 b.1 ∧ a.2 = b.2 ∧ a.1.num_colors = n

/-- A result of a fill and its packed counterpart, on an image with `n` colours. -/
def SimFill (s : Shape) (n : Nat) (a : Image × Nat) (b : Nat × Nat) : Prop :=
  Packs s a.1 b.1 ∧ a.2 = b.2 ∧ a.1.num_colors = n

/-- A result of the segmentation and its packed counterpart. -/
def SimSeg (s : Shape) (a : Image × Nat) (b : PackedSeg) : Prop :=
  Packs s a.1 b.bits ∧ a.2 = b.regionCount ∧ a.1.num_colors = b.numColors

/-- The count returned by a fill on a packed grid. -/
def packedCount : Outcome (Nat × Nat) → Option Nat
  | .ok r => some r.2
  | .outOfBounds => none
  | .outOfFuel => none

/-! ## Palette images, copies and rotations -/

/-- The loop `while (img->num_colors < FIXED_LUT_SIZE)` of `ImageCreatePalete`,
which appends generated colours to the LUT; the first argument bounds the number
of iterations. -/
def paleteLUT : Nat → Image → Nat → Image
  | 0, img, _ => img
  | k + 1, img, color =>
    if img.num_colors < FIXED_LUT_SIZE then
      paleteLUT k
        { img with LUT := lutStore img.LUT img.num_colors (GenerateNextColor color),
                   num_colors := img.num_colors + 1 }
        (GenerateNextColor color)
    else img

/-- Create an image with a palete of generated colors. The tile index
`I * wtiles + J` is computed in 32 bits. -/
def ImageCreatePalete (width height edge : Nat) : Image :=
  { paleteLUT FIXED_LUT_SIZE (ImageCreate width height) 0x000000 with
    image := (List.range height).map fun i => (List.range width).map fun j =>
      (i / edge * (width / edge) + j / edge) % 2 ^ 32 % FIXED_LUT_SIZE }

/-- Create a deep copy of the image: the first `num_colors` LUT entries and, row by
row, the `width` labels of each row. -/
def ImageCopy (img : Image) : Image :=
  { ImageCreate img.width img.height with
    num_colors := img.num_colors
    LUT := img.LUT.take img.num_colors
    image := (List.range img.height).map fun v => (img.image.getD v []).take img.width }

/-- The negation of `ImageIsEqual`. -/
def ImageIsDifferent (img1 img2 : Image) : Bool := !ImageIsEqual img1 img2

/-- The value read by `img->image[row][col]` in the rotations. -/
def pixelAt (img : Image) (row col : Nat) : Nat := (readPixel img row col).getD 0

/-- The assignment `img->image[row][col] = val` in the rotations. -/
def storePixel (img : Image) (row col val : Nat) : Image :=
  (writePixel img row col val).getD img

/-- Rotate 90 degrees clockwise (CW): the pixel (v, u) goes to (u, H - 1 - v). -/
def ImageRotate90CW (img : Image) : Image :=
  (List.range img.height).foldl
    (fun rotated v => (List.range img.width).foldl
      (fun rotated u => storePixel rotated u (img.height - 1 - v) (pixelAt img v u)) rotated)
    { ImageCreate img.height img.width with
      num_colors := img.num_colors, LUT := img.LUT.take img.num_colors }

/-- Rotate 180 degrees clockwise (CW): the pixel (v, u) goes to
(H - 1 - v, W - 1 - u). -/
def ImageRotate180CW (img : Image) : Image :=
  (List.range img.height).foldl
    (fun rotated v => (List.range img.width).foldl
      (fun rotated u =>
        storePixel rotated (img.height - 1 - v) (img.width - 1 - u) (pixelAt img v u)) rotated)
    { ImageCreate img.width img.height with
      num_colors := img.num_colors, LUT := img.LUT.take img.num_colors }

/-- A region filling function that, when it returns, leaves the dimensions, the
number of colours and the LUT of the image as they were. -/
def KeepsHeader (f : FillingFunction) : Prop :=
  ∀ (img : Image) (u v : Int) (label : Nat) (r : Image × Nat), f img u v label = .ok r →
    r.1.width = img.width ∧ r.1.height = img.height ∧
    r.1.num_colors = img.num_colors ∧ r.1.LUT = img.LUT

/-- A 3x2 image with six distinct labels, on which the rotations and the copy are
evaluated. -/
def sampleImage : Image :=
  { width := 3, height := 2, image := [[0, 1, 2], [3, 4, 5]], num_colors := 6,
    LUT := [10, 11, 12, 13, 14, 15] }

/-- The grid, the LUT and the colour count that ImageCreateChess(100, 80, 20, 0xff0000)
builds: the colour gets label 2 and the tiles with an odd index sum stay WHITE. -/
def chess100 : Image :=
  { width := 100, height := 80,
    image := (List.range 80).map fun i => (List.range 100).map fun j =>
      if (i / 20 + j / 20) % 2 ≠ 0 then 0 else 2,
    num_colors := 3, LUT := [0xffffff, 0x000000, 0xff0000] }

/-! ## Packed fills with natural coordinates

The evaluation of `packedLoop` is dominated by the integer arithmetic on the
coordinates and by the appends to the queue.  The functions below run the same
loop with natural coordinates (inside the loop no coordinate is negative) and
with the container split into a front part and a reversed back part. -/

/-- State of the iterative fills on a packed grid: the grid, the container
(`front ++ back.reverse`) and the counter. -/
structure FastState where
  bits : Nat
  front : List (Nat × Nat)
  back : List (Nat × Nat)
  count : Nat
deriving DecidableEq, Repr

/-- The container a `FastState` stands for. -/
def FastState.coords (st : FastState) : List PixelCoords :=
  (st.front ++ st.back.reverse).map fun p => ⟨(p.1 : Int), (p.2 : Int)⟩

/-- The state of `packedLoop` a `FastState` stands for. -/
def FastState.toPacked (st : FastState) : PackedState := (st.bits, st.coords, st.count)

/-- The container operation selected by `lifo`: `StackPush` or `QueueEnqueue`. -/
def containerInsert (lifo : Bool) : List PixelCoords → PixelCoords → List PixelCoords :=
  match lifo with
  | true => StackPush
  | false => QueueEnqueue

/-- `packedNeighbour` with natural coordinates. -/
def fastNeighbour (w h : Nat) (lifo : Bool) (background label : Nat) (guard : Bool)
    (row col : Nat) (p : Nat × Nat) (st : FastState) : Outcome FastState :=
  match guard with
  | false => .ok st
  | true =>
    match Nat.blt row h && Nat.blt col w with
    | false => .outOfBounds
    | true =>
      match Nat.beq (digit st.bits (row * w + col)) background with
      | false => .ok st
      | true =>
        match lifo with
        | true =>
          .ok ⟨setDigit st.bits (row * w + col) label, p :: st.front, st.back, st.count + 1⟩
        | false =>
          .ok ⟨setDigit st.bits (row * w + col) label, st.front, p :: st.back, st.count + 1⟩

/-- `packedVisit` with natural coordinates, for the removed coordinate `(u, v)`. -/
def fastVisit (w h : Nat) (lifo : Bool) (background label : Nat) (u v : Nat)
    (st : FastState) : Outcome FastState :=
  match fastNeighbour w h lifo background label (Nat.blt (u + 1) w) v (u + 1) (u + 1, v) st with
  | .outOfBounds => .outOfBounds
  | .outOfFuel => .outOfFuel
  | .ok s1 =>
    match fastNeighbour w h lifo background label (Nat.blt 0 u) v (u - 1) (u - 1, v) s1 with
    | .outOfBounds => .outOfBounds
    | .outOfFuel => .outOfFuel
    | .ok s2 =>
      match fastNeighbour w h lifo background label (Nat.blt (v + 1) h) (v + 1) u
          (v + 1, u) s2 with
      | .outOfBounds => .outOfBounds
      | .outOfFuel => .outOfFuel
      | .ok s3 =>
        fastNeighbour w h lifo background label (Nat.blt 0 v) (v - 1) u (v - 1, u) s3

/-- Removal of the head of the container. -/
def fastPop (st : FastState) : Option ((Nat × Nat) × FastState) :=
  match st.front with
  | p :: rest => some (p, ⟨st.bits, rest, st.back, st.count⟩)
  | [] =>
    match st.back.reverse with
    | p :: rest => some (p, ⟨st.bits, rest, [], st.count⟩)
    | [] => none

/-- `packedLoop` with natural coordinates. -/
def fastLoop (w h : Nat) (lifo : Bool) (background label : Nat) :
    Nat → FastState → Outcome (Nat × Nat)
  | 0, st =>
    match fastPop st with
    | none => .ok (st.bits, st.count)
    | some _ => .outOfFuel
  | fuel + 1, st =>
    match fastPop st with
    | none => .ok (st.bits, st.count)
    | some (p, st1) =>
      match fastVisit w h lifo background label p.1 p.2 st1 with
      | .ok st2 => fastLoop w h lifo background label fuel st2
      | .outOfBounds => .outOfBounds
      | .outOfFuel => .outOfFuel

/-- `packedFill` with the loop run on natural coordinates. -/
def fastFill (w h : Nat) (lifo : Bool) (fuel : Nat) (bits : Nat) (u v : Int) (label : Nat) :
    Outcome (Nat × Nat) :=
  if !packedValid ⟨w, h⟩ u v then .ok (bits, 0)
  else
    match Nat.blt v.toNat h && Nat.blt u.toNat w with
    | false => .outOfBounds
    | true =>
      if digit bits (v.toNat * w + u.toNat) = label then .ok (bits, 0)
      else
        fastLoop w h lifo (digit bits (v.toNat * w + u.toNat)) label fuel
          ⟨setDigit bits (v.toNat * w + u.toNat) label, [(u.toNat, v.toNat)], [], 1⟩

/-- The return of `packedFlood` at an invalid pixel. -/
def fastSkip (fuel bits : Nat) : Outcome (Nat × Nat) :=
  match fuel with
  | 0 => .outOfFuel
  | _ + 1 => .ok (bits, 0)

/-- `packedFlood` with natural coordinates; the calls at column or row -1 are
replaced by their result. -/
def fastFlood (w h : Nat) : Nat → Nat → Nat → Nat → Nat → Nat → Outcome (Nat × Nat)
  | 0, _, _, _, _, _ => .outOfFuel
  | fuel + 1, bits, u, v, background, label =>
    match Nat.blt u w && Nat.blt v h with
    | false => .ok (bits, 0)
    | true =>
      match Nat.beq (digit bits (v * w + u)) background with
      | false => .ok (bits, 0)
      | true =>
        match fastFlood w h fuel (setDigit bits (v * w + u) label) (u + 1) v background label with
        | .outOfBounds => .outOfBounds
        | .outOfFuel => .outOfFuel
        | .ok r1 =>
          match cond (Nat.blt 0 u) (fastFlood w h fuel r1.1 (u - 1) v background label)
              (fastSkip fuel r1.1) with
          | .outOfBounds => .outOfBounds
          | .outOfFuel => .outOfFuel
          | .ok r2 =>
            match fastFlood w h fuel r2.1 u (v + 1) background label with
            | .outOfBounds => .outOfBounds
            | .outOfFuel => .outOfFuel
            | .ok r3 =>
              match cond (Nat.blt 0 v) (fastFlood w h fuel r3.1 u (v - 1) background label)
                  (fastSkip fuel r3.1) with
              | .outOfBounds => .outOfBounds
              | .outOfFuel => .outOfFuel
              | .ok r4 => .ok (r4.1, 1 + r1.2 + r2.2 + r3.2 + r4.2)

/-- `packedFillRecursive` with the recursion run on natural coordinates. -/
def fastFillRecursive (w h : Nat) (fuel : Nat) (bits : Nat) (u v : Int) (label : Nat) :
    Outcome (Nat × Nat) :=
  if !packedValid ⟨w, h⟩ u v then .ok (bits, 0)
  else
    if digit bits (v.toNat * w + u.toNat) = label then .ok (bits, 0)
    else fastFlood w h fuel bits u.toNat v.toNat (digit bits (v.toNat * w + u.toNat)) label

/-- `packedSegLoop` with the pixel read on natural coordinates. -/
def fastSegLoop (w h : Nat) (fill : Nat → Int → Int → Nat → Outcome (Nat × Nat)) :
    List (Nat × Nat) → PackedSeg → Outcome PackedSeg
  | [], st => .ok st
  | vu :: rest, st =>
    match Nat.blt vu.1 h && Nat.blt vu.2 w with
    | false => .outOfBounds
    | true =>
      match Nat.beq (digit st.bits (vu.1 * w + vu.2)) WHITE with
      | false => fastSegLoop w h fill rest st
      | true =>
        match Nat.ble FIXED_LUT_SIZE st.currentLabel with
        | true => .ok st
        | false =>
          match fill st.bits (Int.ofNat vu.2) (Int.ofNat vu.1) st.currentLabel with
          | .ok r =>
            fastSegLoop w h fill rest
              { bits := r.1, regionCount := st.regionCount + 1,
                currentLabel := st.currentLabel + 1, numColors := st.numColors + 1 }
          | .outOfBounds => .outOfBounds
          | .outOfFuel => .outOfFuel

/-! ## LUT allocation with the final state, PBM and PPM files -/

/-- `LUTAllocColor` together with the image left in memory when the function
stops; the label is `none` when `check` exits with "LUT Overflow". -/
def LUTAllocColorState (img : Image) (color : Nat) : Image × Option Nat :=
  match LUTFindColor img color with
  | some index => (img, some index)
  | none =>
    if img.num_colors < FIXED_LUT_SIZE then
      ({ img with num_colors := img.num_colors + 1,
                  LUT := lutStore img.LUT img.num_colors color }, some img.num_colors)
    else (img, none)

/-- The `uint8` mask of `packBits` and `unpackBits` in the iteration `offset` of
the outer loop: `1 << 7` shifted right `offset` times. -/
def bitMask (offset : Nat) : Nat := (1 <<< 7) >>> offset

/-- The loops of `unpackBits`: for each offset and each byte,
`raw_row[8 * b + offset] = (bytes[b] & mask) != 0`. -/
def unpackBits (nbytes : Nat) (bytes raw_row : List Nat) : List Nat :=
  (List.range 8).foldl
    (fun raw offset => (List.range nbytes).foldl
      (fun raw b =>
        raw.set (8 * b + offset) (if bytes.getD b 0 &&& bitMask offset ≠ 0 then 1 else 0))
      raw)
    raw_row

/-- The loops of `packBits`: for each offset and each byte,
`if (offset == 0) bytes[b] = 0; bytes[b] |= raw_row[8 * b + offset] ? mask : 0`. -/
def packBits (nbytes : Nat) (bytes raw_row : List Nat) : List Nat :=
  (List.range 8).foldl
    (fun bytes offset => (List.range nbytes).foldl
      (fun bytes b =>
        bytes.set b ((if offset = 0 then 0 else bytes.getD b 0) |||
          (if raw_row.getD (8 * b + offset) 0 ≠ 0 then bitMask offset else 0)))
      bytes)
    bytes

/-- The number of bytes for each row of a PBM file, `(w + 8 - 1) / 8`. -/
def rowBytes (w : Nat) : Nat := (w + 8 - 1) / 8

/-- The content of `raw_row` in `ImageSavePBM` before `packBits`: the labels of
the row cast to `uint8`, then the padding pixels set to WHITE by `memset`. -/
def rawRowOf (w : Nat) (row : List Nat) : List Nat :=
  (List.range (rowBytes w * 8)).map fun j => if j < w then row.getD j 0 % 256 else WHITE

/-- The row step of `ImageSavePBM`: the bytes written for one row.  `bytes` is
the content of the byte buffer before the step. -/
def savePBMRow (w : Nat) (row bytes : List Nat) : List Nat :=
  packBits (rowBytes w) bytes (rawRowOf w row)

/-- The row step of `ImageLoadPBM`: the labels stored for the bytes of one row.
`raw_row` is the content of the pixel buffer before the step. -/
def loadPBMRow (w : Nat) (bytes raw_row : List Nat) : List Nat :=
  ((unpackBits (rowBytes w) bytes raw_row).take w).map fun p => p % 65536

/-- A raw PBM file: the character after `P`, the two numbers of the header and
the bytes that follow. -/
structure PBMFile where
  magic : Char
  width : Int
  height : Int
  data : List Nat
deriving DecidableEq, Repr

/-- An ASCII PPM file: the character after `P`, the three numbers of the header
and the numbers that follow. -/
structure PPMFile where
  magic : Char
  width : Int
  height : Int
  levels : Int
  samples : List Int
deriving DecidableEq, Repr

/-- The rows written by `ImageSavePBM`; the byte buffer is carried from one row
to the next. -/
def savePBMRows (w : Nat) : List (List Nat) → List Nat → List Nat
  | [], _ => []
  | row :: rest, bytes => savePBMRow w row bytes ++ savePBMRows w rest (savePBMRow w row bytes)

/-- Save image to PBM file: the file written and the value returned.  Opening
and writing are taken to succeed. -/
def ImageSavePBM (img : Image) : PBMFile × Int :=
  ({ magic := '4', width := toInt32 img.width, height := toInt32 img.height,
     data := savePBMRows img.width
       ((List.range img.height).map fun i => img.image.getD i [])
       (List.replicate (rowBytes img.width) 0) }, 0)

/-- The rows read by `ImageLoadPBM`: `none` when `fread` returns fewer bytes than
a row needs; the pixel buffer is carried from one row to the next. -/
def loadPBMRows (w : Nat) : Nat → List Nat → List Nat → Option (List (List Nat))
  | 0, _, _ => some []
  | n + 1, data, raw_row =>
    if data.length < rowBytes w then none
    else
      match loadPBMRows w n (data.drop (rowBytes w))
          (unpackBits (rowBytes w) (data.take (rowBytes w)) raw_row) with
      | some rows => some (loadPBMRow w (data.take (rowBytes w)) raw_row :: rows)
      | none => none

/-- Load a raw PBM file; `none` when one of the checks exits. -/
def ImageLoadPBM (f : PBMFile) : Option Image :=
  if f.magic = '4' ∧ 0 ≤ f.width ∧ 0 ≤ f.height then
    match loadPBMRows f.width.toNat f.height.toNat f.data
        (List.replicate (rowBytes f.width.toNat * 8) 0) with
    | some rows => some { AllocateImageHeader f.width.toNat f.height.toNat with image := rows }
    | none => none
  else none

/-- The colour `img->LUT[index]` of the pixel of row `v` and column `u`, with
`index = img->image[v][u]`. -/
def pixelColor (img : Image) (v u : Nat) : Nat := img.LUT.getD (pixelAt img v u) 0

/-- The three numbers written for a colour: `color >> 16 & 0xff`,
`color >> 8 & 0xff` and `color & 0xff`. -/
def ppmTriple (color : Nat) : List Int :=
  [((color >>> 16 &&& 0xff : Nat) : Int), ((color >>> 8 &&& 0xff : Nat) : Int),
   ((color &&& 0xff : Nat) : Int)]

/-- Save image to PPM file: the file written and the value returned.  Opening
and writing are taken to succeed. -/
def ImageSavePPM (img : Image) : PPMFile × Int :=
  ({ magic := '3', width := toInt32 img.width, height := toInt32 img.height, levels := 255,
     samples := (scanOrder img.width img.height).flatMap fun vu =>
       ppmTriple (pixelColor img vu.1 vu.2) }, 0)

/-- The pixel loops of `ImageLoadPPM`: three numbers per pixel, checked against
`levels`, packed into a colour, allocated in the LUT and stored as the label.
`none` when a check exits. -/
def loadPPMLoop (levels : Int) : List (Nat × Nat) → Image → List Int → Option Image
  | [], img, _ => some img
  | vu :: rest, img, r :: g :: b :: samples =>
    if 0 ≤ r ∧ r ≤ levels ∧ 0 ≤ g ∧ g ≤ levels ∧ 0 ≤ b ∧ b ≤ levels then
      match LUTAllocColor img (r.toNat <<< 16 ||| g.toNat <<< 8 ||| b.toNat) with
      | some (img1, index) =>
        loadPPMLoop levels rest (storePixel img1 vu.1 vu.2 (index % 65536)) samples
      | none => none
    else none
  | _ :: _, _, _ => none

/-- Load a raw PPM file; `none` when one of the checks exits.  The call
`fprintf(f, "\n")` on the input stream at the end of each row is taken to have
no effect. -/
def ImageLoadPPM (f : PPMFile) : Option Image :=
  if f.magic = '3' ∧ 0 ≤ f.width ∧ 0 ≤ f.height ∧ 0 ≤ f.levels ∧ f.levels ≤ 255 then
    loadPPMLoop f.levels (scanOrder f.width.toNat f.height.toNat)
      (ImageCreate f.width.toNat f.height.toNat) f.samples
  else none

/-- The data-model invariant: between 2 and `FIXED_LUT_SIZE` colours, and every
stored label below `num_colors`. -/
def Image.Inv (img : Image) : Prop :=
  2 ≤ img.num_colors ∧ img.num_colors ≤ FIXED_LUT_SIZE ∧
  ∀ row ∈ img.image, ∀ p ∈ row, p < img.num_colors

/-- State of the pixel loops of `ImageLoadPPM` after the pixels `done`: the
image `J` has the dimensions `W`, `H`, its LUT has no repeated colour and only
colours of `S`, and each pixel of `done` holds a label of its colour `col`. -/
def PPMLoaded (W H : Nat) (S : List Nat) (col : Nat × Nat → Nat) (J : Image)
    (done : List (Nat × Nat)) : Prop :=
  J.WF ∧ J.width = W ∧ J.height = H ∧ J.LUT.length = J.num_colors ∧ J.LUT.Nodup ∧
  (∀ c ∈ J.LUT, c ∈ S) ∧
  ∀ vu ∈ done, ∃ q, readPixel J vu.1 vu.2 = some q ∧ J.LUT[q]? = some (col vu)

instance (img : Image) : Decidable img.Inv := by
  unfold Image.Inv
  infer_instance

/-- The image built by ImageCreateChess(2, 2, 1, 0x0000FF): the colour gets label 2. -/
def chessBlue : Image :=
  { width := 2, height := 2, image := [[2, 0], [0, 2]], num_colors := 3,
    LUT := [0xffffff, 0x000000, 0x0000FF] }

/-- The image `chessBlue` after the segmentation: the two WHITE pixels have the
labels 3 and 4, with the colours 0x0000FF and 0x001ED6. -/
def chessBlueLabelled : Image :=
  { width := 2, height := 2, image := [[2, 3], [4, 2]], num_colors := 5,
    LUT := [0xffffff, 0x000000, 0x0000FF, 0x0000FF, 0x001ED6] }

/-- The image built by ImageCreateChess(2, 2, 1, 0x00FF00). -/
def chessGreen : Image :=
  { width := 2, height := 2, image := [[2, 0], [0, 2]], num_colors := 3,
    LUT := [0xffffff, 0x000000, 0x00FF00] }

/-! ## Iterative fills with a record of the container operations -/

/-- Ghost record of a run of the iterative fills: the coordinates inserted in
the container and the coordinates removed from it, in the order of the run. -/
structure FillLog where
  pushed : List PixelCoords
  popped : List PixelCoords
deriving DecidableEq, Repr

/-- `fillNeighbour` with the record: an insertion is recorded where the code
inserts. -/
def fillNeighbourLog (ins : List PixelCoords → PixelCoords → List PixelCoords)
    (background label : Nat) (guard : Bool) (row col : Int) (p : PixelCoords)
    (st : FillState) (log : FillLog) : FillLog × Outcome FillState :=
  if guard then
    match readPixel st.1 row col with
    | none => (log, .outOfBounds)
    | some q =>
      if q = background then
        match writePixel st.1 row col label with
        | none => (log, .outOfBounds)
        | some img1 =>
          ({ log with pushed := log.pushed ++ [p] }, .ok (img1, ins st.2.1 p, st.2.2 + 1))
      else (log, .ok st)
  else (log, .ok st)

/-- `fillVisit` with the record. -/
def fillVisitLog (ins : List PixelCoords → PixelCoords → List PixelCoords)
    (background label : Nat) (W H : Int) (p : PixelCoords) (st : FillState) (log : FillLog) :
    FillLog × Outcome FillState :=
  match fillNeighbourLog ins background label (decide (p.u + 1 < W)) p.v (p.u + 1)
      ⟨p.u + 1, p.v⟩ st log with
  | (l1, .ok s1) =>
    match fillNeighbourLog ins background label (decide (p.u > 0)) p.v (p.u - 1)
        ⟨p.u - 1, p.v⟩ s1 l1 with
    | (l2, .ok s2) =>
      match fillNeighbourLog ins background label (decide (p.v + 1 < H)) (p.v + 1) p.u
          ⟨p.v + 1, p.u⟩ s2 l2 with
      | (l3, .ok s3) =>
        fillNeighbourLog ins background label (decide (p.v > 0)) (p.v - 1) p.u
          ⟨p.v - 1, p.u⟩ s3 l3
      | (l3, .outOfBounds) => (l3, .outOfBounds)
      | (l3, .outOfFuel) => (l3, .outOfFuel)
    | (l2, .outOfBounds) => (l2, .outOfBounds)
    | (l2, .outOfFuel) => (l2, .outOfFuel)
  | (l1, .outOfBounds) => (l1, .outOfBounds)
  | (l1, .outOfFuel) => (l1, .outOfFuel)

/-- `fillLoop` with the record: each removal is recorded. -/
def fillLoopLog (ins : List PixelCoords → PixelCoords → List PixelCoords)
    (background label : Nat) (W H : Int) :
    Nat → FillState → FillLog → FillLog × Outcome (Image × Nat)
  | _, (img, [], count), log => (log, .ok (img, count))
  | 0, (_, _ :: _, _), log => (log, .outOfFuel)
  | fuel + 1, (img, p :: rest, count), log =>
    match fillVisitLog ins background label W H p (img, rest, count)
        { log with popped := log.popped ++ [p] } with
    | (l1, .ok st) => fillLoopLog ins background label W H fuel st l1
    | (l1, .outOfBounds) => (l1, .outOfBounds)
    | (l1, .outOfFuel) => (l1, .outOfFuel)

/-- `fillWith` with the record of the insertions and removals of the run. -/
def fillWithLog (ins : List PixelCoords → PixelCoords → List PixelCoords)
    (fuel : Nat) (img : Image) (u v : Int) (label : Nat) : FillLog × Outcome (Image × Nat) :=
  if !ImageIsValidPixel img u v then (⟨[], []⟩, .ok (img, 0))
  else
    match readPixel img v u with
    | none => (⟨[], []⟩, .outOfBounds)
    | some background =>
      if background = label then (⟨[], []⟩, .ok (img, 0))
      else
        match writePixel img v u label with
        | none => (⟨[], []⟩, .outOfBounds)
        | some img0 =>
          fillLoopLog ins background label (toInt32 img.width) (toInt32 img.height) fuel
            (img0, ins [] ⟨u, v⟩, 1) ⟨[⟨u, v⟩], []⟩

/-! ## Segmentation with a record of the exit; components; steps of the iterative fills -/

/-- `segLoop` with a record of how the scan ended: the Boolean is `true` when the
function returned from inside the loops at the test `currentLabel >= maxColors`
("LUT overflow"), and `false` when the two loops ran to their end. -/
def segLoopExit (fillFunct : FillingFunction) :
    List (Nat × Nat) → SegState → Outcome (Image × Nat × Bool)
  | [], st => .ok (st.img, st.regionCount, false)
  | vu :: rest, st =>
    match readPixel st.img vu.1 vu.2 with
    | none => .outOfBounds
    | some p =>
      if p = WHITE then
        if st.currentLabel ≥ FIXED_LUT_SIZE then .ok (st.img, st.regionCount, true)
        else
          match fillFunct
              { st.img with LUT := lutStore st.img.LUT st.currentLabel st.currentColor,
                            num_colors := st.img.num_colors + 1 }
              (toInt32 vu.2) (toInt32 vu.1) st.currentLabel with
          | .ok r =>
            segLoopExit fillFunct rest
              { img := r.1, regionCount := st.regionCount + 1,
                currentColor := GenerateNextColor st.currentColor,
                currentLabel := st.currentLabel + 1 }
          | .outOfBounds => .outOfBounds
          | .outOfFuel => .outOfFuel
      else segLoopExit fillFunct rest st

/-- `ImageSegmentation` with the record of the exit taken. -/
def ImageSegmentationExit (img : Image) (fillFunct : FillingFunction) :
    Outcome (Image × Nat × Bool) :=
  segLoopExit fillFunct (scanOrder img.width img.height)
    { img := img, regionCount := 0, currentColor := 0x0000FF, currentLabel := img.num_colors }

/-- The pixels of `reps` are one representative for each 4-connected component of
the `bg`-labelled pixels of `img`: every representative holds `bg`, two different
representatives are not connected, and every `bg`-labelled pixel is connected to a
representative.  The image then has `reps.card` components. -/
def ComponentSystem (img : Image) (bg : Nat) (reps : Finset (Int × Int)) : Prop :=
  (∀ p ∈ reps, bgAt img bg p) ∧
  (∀ p ∈ reps, ∀ q ∈ reps, Connected4 img bg p q → p = q) ∧
  (∀ q, bgAt img bg q → ∃ p ∈ reps, Connected4 img bg p q)

/-- Effect of a part of a run of the iterative fills that goes from the state `st`
with record `log` to the state `st1` with record `l1`: the pixels of a set `D`, all
holding `bg`, were relabelled, and the counter, the container and the record of
the insertions grew by the size of `D`. -/
def FillStep (bg label : Nat) (st st1 : FillState) (log l1 : FillLog) : Prop :=
  ∃ D : Finset (Int × Int), Changed bg label st.1 st1.1 D ∧ st1.2.2 = st.2.2 + D.card ∧
    st1.2.1.length = st.2.1.length + D.card ∧
    l1.pushed.length = log.pushed.length + D.card

/-- A coordinate pair that lies in the square `[0, n) x [0, n)`. -/
def InSquare (n : Int) (p : PixelCoords) : Prop :=
  0 ≤ p.u ∧ p.u < n ∧ 0 ≤ p.v ∧ p.v < n

/-- A 3x3 image with three WHITE components: the pixels (0,0), (1,0), (1,1), the
pixel (0,2) and the pixel (2,2), written as (u, v). -/
def threeRegions : Image :=
  { width := 3, height := 3, image := [[0, 0, 1], [1, 0, 1], [0, 1, 0]],
    num_colors := 2, LUT := [0xffffff, 0x000000] }

/-- The memory of ImageCreate(1, 2) when the two bytes that follow each of its
one-pixel rows hold 0: each row is listed together with that cell. The width is 1
and the height is 2, so only column 0 of each row is a pixel of the image; the
cells of column 1 are what `img->image[v][1]` reads and writes. -/
def rowSlack12 : Image :=
  { width := 1, height := 2, image := [[0, 0], [0, 0]], num_colors := 2,
    LUT := [0xffffff, 0x000000] }

/-- The memory of ImageCreate(1, 16) as a 64-bit heap with blocks of 32 bytes lays
it out: each one-pixel row is followed by 11 cells of padding that hold 0 and by
the size field of the next block, read as the cells 33, 0, 0, 0; each row is listed
with these 15 cells. The width is 1 and the height is 16, so only column 0 of each
row is a pixel of the image. -/
def rowChunks16 : Image :=
  { width := 1, height := 16,
    image := List.replicate 16 [0, 0, 0, 0, 0, 0, 0, 0, 0, 0, 0, 0, 33, 0, 0, 0],
    num_colors := 2, LUT := [0xffffff, 0x000000] }

/-- The memory `rowChunks16` after the segmentation with the queue: the pixels of
the rows 0 to 12 hold the label 2, those of the rows 13 to 15 the label 3. -/
def rowChunks16Labelled : Image :=
  { width := 1, height := 16,
    image := List.replicate 13 [2, 2, 2, 2, 2, 2, 2, 2, 2, 2, 2, 2, 33, 3, 3, 3] ++
      List.replicate 3 [3, 3, 3, 3, 3, 3, 3, 3, 3, 3, 3, 3, 33, 0, 0, 0],
    num_colors := 4, LUT := [0xffffff, 0x000000, 0x0000FF, 0x001ED6] }

/-! ## Pixel reads and writes -/

theorem toInt32_le (n : Nat) : toInt32 n ≤ n := by
  unfold toInt32
  split <;> omega

theorem validPixel_iff (img : Image) (u v : Int) :
    ImageIsValidPixel img u v = true ↔
      0 ≤ u ∧ u < toInt32 img.width ∧ 0 ≤ v ∧ v < toInt32 img.height := by
  simp [ImageIsValidPixel, and_assoc]

theorem writePixel_eq {img img1 : Image} {r c : Int} {val : Nat}
    (h : writePixel img r c val = some img1) :
    ∃ row, 0 ≤ r ∧ 0 ≤ c ∧ img.image[r.toNat]? = some row ∧ c.toNat < row.length ∧
      img1 = { img with image := img.image.set r.toNat (row.set c.toNat val) } := by
  unfold writePixel at h
  split at h
  · rename_i hs
    split at h
    · rename_i row hrow
      split at h
      · rename_i hc
        exact ⟨row, hs.1, hs.2, hrow, hc, (Option.some.inj h).symm⟩
      · cases h
    · cases h
  · cases h

theorem readPixel_writePixel {img img1 : Image} {r c : Int} {val : Nat}
    (h : writePixel img r c val = some img1) (r1 c1 : Int) :
    readPixel img1 r1 c1 = if r1 = r ∧ c1 = c then some val else readPixel img r1 c1 := by
  obtain ⟨row, hr, hc, hrow, hlen, rfl⟩ := writePixel_eq h
  have hrl : r.toNat < img.image.length := by
    rcases List.getElem?_eq_some.1 hrow with ⟨h1, _⟩
    exact h1
  unfold readPixel
  by_cases hs : 0 ≤ r1 ∧ 0 ≤ c1
  · simp only [hs, and_self, if_true]
    by_cases h1 : r1 = r
    · subst h1
      simp only [List.getElem?_set, if_true, hrl, true_and]
      by_cases h2 : c1 = c
      · subst h2
        simp [hlen]
      · have : c.toNat ≠ c1.toNat := by omega
        simp [h2, this, hrow]
    · have : r.toNat ≠ r1.toNat := by omega
      simp [h1, this, List.getElem?_set]
  · have : ¬ (r1 = r ∧ c1 = c) := by
      rintro ⟨rfl, rfl⟩
      exact hs ⟨hr, hc⟩
    simp [hs, this]

theorem writePixel_frame {img img1 : Image} {r c : Int} {val : Nat}
    (h : writePixel img r c val = some img1) :
    img1.width = img.width ∧ img1.height = img.height ∧
      img1.num_colors = img.num_colors ∧ img1.LUT = img.LUT := by
  obtain ⟨row, -, -, -, -, rfl⟩ := writePixel_eq h
  exact ⟨rfl, rfl, rfl, rfl⟩

theorem writePixel_WF {img img1 : Image} {r c : Int} {val : Nat}
    (h : writePixel img r c val = some img1) (hwf : img.WF) : img1.WF := by
  obtain ⟨row, -, -, hrow, -, rfl⟩ := writePixel_eq h
  refine ⟨by simpa using hwf.1, ?_⟩
  intro x hx
  rcases List.mem_or_eq_of_mem_set hx with hx | rfl
  · exact hwf.2 x hx
  · simp only [List.length_set]
    obtain ⟨h1, h2⟩ := List.getElem?_eq_some.1 hrow
    exact hwf.2 row (h2 ▸ List.getElem_mem h1)

theorem writePixel_of_read {img : Image} {r c : Int} {p : Nat}
    (h : readPixel img r c = some p) (val : Nat) : ∃ img1, writePixel img r c val = some img1 := by
  unfold readPixel at h
  unfold writePixel
  split at h
  · rename_i hs
    simp only [hs, and_self, if_true]
    split at h
    · rename_i row hrow
      have : c.toNat < row.length := (List.getElem?_eq_some.1 h).1
      simp [hrow, this]
    · cases h
  · cases h

theorem readPixel_of_valid {img : Image} (hwf : img.WF) {u v : Int}
    (h : ImageIsValidPixel img u v = true) : ∃ p, readPixel img v u = some p := by
  rw [validPixel_iff] at h
  obtain ⟨h1, h2, h3, h4⟩ := h
  have hw := toInt32_le img.width
  have hh := toInt32_le img.height
  have hv : v.toNat < img.image.length := by rw [hwf.1]; omega
  unfold readPixel
  simp only [h1, h3, and_self, if_true]
  rw [List.getElem?_eq_getElem hv]
  have hlen : (img.image[v.toNat]).length = img.width := hwf.2 _ (List.getElem_mem _)
  have hu : u.toNat < (img.image[v.toNat]).length := by rw [hlen]; omega
  exact ⟨_, List.getElem?_eq_getElem hu⟩

/-! ## The recursive flood fill -/

theorem validPixel_congr {img img1 : Image} (hw : img1.width = img.width)
    (hh : img1.height = img.height) (u v : Int) :
    ImageIsValidPixel img1 u v = ImageIsValidPixel img u v := by
  simp [ImageIsValidPixel, hw, hh]

theorem mem_bgSet (img : Image) (bg : Nat) (q : Int × Int) :
    q ∈ bgSet img bg ↔ bgAt img bg q := by
  simp only [bgSet, bgAt, validPixel_iff, Finset.mem_filter, Finset.mem_product, Finset.mem_Ico]
  tauto

theorem Changed.anti {bg label : Nat} {img img1 : Image} {C : Finset (Int × Int)}
    (h : Changed bg label img img1 C) (hne : label ≠ bg) (q : Int × Int)
    (hq : bgAt img1 bg q) : bgAt img bg q := by
  obtain ⟨hw, hh, -, -, -, -, hrd⟩ := h
  refine ⟨by rw [← validPixel_congr hw hh]; exact hq.1, ?_⟩
  have := hq.2
  rw [hrd q] at this
  split at this
  · exact absurd (Option.some.inj this) hne
  · exact this

theorem Changed.persist {bg label : Nat} {img img1 : Image} {C : Finset (Int × Int)}
    (h : Changed bg label img img1 C) (hne : label ≠ bg) (q : Int × Int)
    (hq : ¬ bgAt img bg q) : ¬ bgAt img1 bg q :=
  fun h1 => hq (h.anti hne q h1)

theorem Changed.refl (bg label : Nat) (img : Image) (hwf : img.WF) :
    Changed bg label img img ∅ :=
  ⟨rfl, rfl, rfl, rfl, hwf, by simp, by simp⟩

theorem Changed.comp {bg label : Nat} {img img1 img2 : Image} {C1 C2 : Finset (Int × Int)}
    (h1 : Changed bg label img img1 C1) (h2 : Changed bg label img1 img2 C2)
    (hne : label ≠ bg) :
    Changed bg label img img2 (C1 ∪ C2) ∧ (C1 ∪ C2).card = C1.card + C2.card := by
  have hdis : Disjoint C1 C2 := by
    rw [Finset.disjoint_left]
    intro q hq1 hq2
    have ha := (h2.2.2.2.2.2.1 q hq2).2
    rw [h1.2.2.2.2.2.2 q, if_pos hq1] at ha
    exact hne (Option.some.inj ha)
  refine ⟨⟨h2.1.trans h1.1, h2.2.1.trans h1.2.1, h2.2.2.1.trans h1.2.2.1,
    h2.2.2.2.1.trans h1.2.2.2.1, h2.2.2.2.2.1, ?_, ?_⟩, Finset.card_union_of_disjoint hdis⟩
  · intro q hq
    rcases Finset.mem_union.1 hq with hq | hq
    · exact h1.2.2.2.2.2.1 q hq
    · exact h1.anti hne q (h2.2.2.2.2.2.1 q hq)
  · intro q
    rw [h2.2.2.2.2.2.2 q, h1.2.2.2.2.2.2 q]
    by_cases hq2 : q ∈ C2
    · simp [hq2]
    · by_cases hq1 : q ∈ C1 <;> simp [hq1, hq2]

theorem bgSet_card_le {bg : Nat} {img img1 : Image}
    (h : ∀ q, bgAt img1 bg q → bgAt img bg q) :
    (bgSet img1 bg).card ≤ (bgSet img bg).card := by
  apply Finset.card_le_card
  intro q hq
  rw [mem_bgSet] at hq ⊢
  exact h q hq

theorem bgSet_card_lt {bg : Nat} {img img1 : Image}
    (h : ∀ q, bgAt img1 bg q → bgAt img bg q) (p : Int × Int)
    (hp : bgAt img bg p) (hp1 : ¬ bgAt img1 bg p) :
    (bgSet img1 bg).card < (bgSet img bg).card := by
  apply Finset.card_lt_card
  rw [Finset.ssubset_iff_of_subset]
  · exact ⟨p, (mem_bgSet _ _ _).2 hp, fun hc => hp1 ((mem_bgSet _ _ _).1 hc)⟩
  · intro q hq
    rw [mem_bgSet] at hq ⊢
    exact h q hq

theorem Connected4.bg_end {img : Image} {bg : Nat} {p q : Int × Int}
    (h : Connected4 img bg p q) : bgAt img bg q := by
  cases h with
  | seed h => exact h
  | step _ _ h => exact h

theorem Connected4.bg_start {img : Image} {bg : Nat} {p q : Int × Int}
    (h : Connected4 img bg p q) : bgAt img bg p := by
  induction h with
  | seed h => exact h
  | step _ _ _ ih => exact ih

theorem Connected4.trans {img : Image} {bg : Nat} {p q r : Int × Int}
    (h1 : Connected4 img bg p q) (h2 : Connected4 img bg q r) : Connected4 img bg p r := by
  induction h2 with
  | seed _ => exact h1
  | step _ ha hb ih => exact Connected4.step ih ha hb

theorem Connected4.mono {img img1 : Image} {bg : Nat} {p q : Int × Int}
    (h : ∀ q, bgAt img1 bg q → bgAt img bg q) (hc : Connected4 img1 bg p q) :
    Connected4 img bg p q := by
  induction hc with
  | seed h0 => exact Connected4.seed (h _ h0)
  | step _ ha hb ih => exact Connected4.step ih ha (h _ hb)

theorem FloodSpec.base {bg label : Nat} {img : Image} {p : Int × Int} (hwf : img.WF)
    (hp : ¬ bgAt img bg p) : FloodSpec bg label img p img 0 :=
  ⟨∅, Changed.refl bg label img hwf, by simp, by simp, hp, by simp⟩

theorem Changed.single {bg label : Nat} {img img0 : Image} {u v : Int} (hwf : img.WF)
    (hp : bgAt img bg (u, v)) (h0 : writePixel img v u label = some img0) :
    Changed bg label img img0 {(u, v)} := by
  obtain ⟨hw, hh, hn, hl⟩ := writePixel_frame h0
  refine ⟨hw, hh, hn, hl, writePixel_WF h0 hwf, ?_, ?_⟩
  · intro q hq
    rw [Finset.mem_singleton] at hq
    rw [hq]
    exact hp
  · intro q
    rw [readPixel_writePixel h0]
    by_cases hq : q = (u, v)
    · subst hq
      simp
    · have : ¬ (q.2 = v ∧ q.1 = u) := by
        rintro ⟨h1, h2⟩
        exact hq (Prod.ext h2 h1)
      simp [hq, this]

theorem FloodSpec.step {bg label : Nat} (hne : label ≠ bg)
    {img img0 img1 img2 img3 img4 : Image} {u v : Int} {c1 c2 c3 c4 : Nat}
    (hp : bgAt img bg (u, v)) (h0 : Changed bg label img img0 {(u, v)})
    (s1 : FloodSpec bg label img0 (u + 1, v) img1 c1)
    (s2 : FloodSpec bg label img1 (u - 1, v) img2 c2)
    (s3 : FloodSpec bg label img2 (u, v + 1) img3 c3)
    (s4 : FloodSpec bg label img3 (u, v - 1) img4 c4) :
    FloodSpec bg label img (u, v) img4 (1 + c1 + c2 + c3 + c4) := by
  obtain ⟨C1, hC1, hc1, hcon1, hnb1, hclo1⟩ := s1
  obtain ⟨C2, hC2, hc2, hcon2, hnb2, hclo2⟩ := s2
  obtain ⟨C3, hC3, hc3, hcon3, hnb3, hclo3⟩ := s3
  obtain ⟨C4, hC4, hc4, hcon4, hnb4, hclo4⟩ := s4
  obtain ⟨k1, e1⟩ := h0.comp hC1 hne
  obtain ⟨k2, e2⟩ := k1.comp hC2 hne
  obtain ⟨k3, e3⟩ := k2.comp hC3 hne
  obtain ⟨k4, e4⟩ := k3.comp hC4 hne
  have hseed : Connected4 img bg (u, v) (u, v) := Connected4.seed hp
  have link : ∀ (imgk : Image) (n q : Int × Int), (∀ q, bgAt imgk bg q → bgAt img bg q) →
      adj4 (u, v) n → Connected4 imgk bg n q → Connected4 img bg (u, v) q := by
    intro imgk n q hanti hadj hc
    have hc1 : Connected4 img bg n q := Connected4.mono hanti hc
    exact (Connected4.step hseed hadj hc1.bg_start).trans hc1
  refine ⟨{(u, v)} ∪ C1 ∪ C2 ∪ C3 ∪ C4, k4, ?_, ?_, ?_, ?_⟩
  · rw [e4, e3, e2, e1, Finset.card_singleton, hc1, hc2, hc3, hc4]
  · intro q hq
    simp only [Finset.mem_union, Finset.mem_singleton] at hq
    rcases hq with (((hq | hq) | hq) | hq) | hq
    · rw [hq]; exact hseed
    · exact link img0 _ q (h0.anti hne) (Or.inl rfl) (hcon1 q hq)
    · exact link img1 _ q (k1.anti hne) (Or.inr (Or.inl rfl)) (hcon2 q hq)
    · exact link img2 _ q (k2.anti hne) (Or.inr (Or.inr (Or.inl rfl))) (hcon3 q hq)
    · exact link img3 _ q (k3.anti hne) (Or.inr (Or.inr (Or.inr rfl))) (hcon4 q hq)
  · intro hb
    have := hb.2
    rw [k4.2.2.2.2.2.2 (u, v)] at this
    simp only [Finset.mem_union, Finset.mem_singleton, true_or, if_true] at this
    exact hne (Option.some.inj this)
  · intro q hq r hr
    simp only [Finset.mem_union, Finset.mem_singleton] at hq
    rcases hq with (((hq | hq) | hq) | hq) | hq
    · subst hq
      rcases hr with hr | hr | hr | hr <;> subst hr
      · exact hC4.persist hne _ (hC3.persist hne _ (hC2.persist hne _ hnb1))
      · exact hC4.persist hne _ (hC3.persist hne _ hnb2)
      · exact hC4.persist hne _ hnb3
      · exact hnb4
    · exact hC4.persist hne _ (hC3.persist hne _ (hC2.persist hne _ (hclo1 q hq r hr)))
    · exact hC4.persist hne _ (hC3.persist hne _ (hclo2 q hq r hr))
    · exact hC4.persist hne _ (hclo3 q hq r hr)
    · exact hclo4 q hq r hr

theorem FloodSpec.card_le {bg label : Nat} (hne : label ≠ bg) {img img1 : Image}
    {p : Int × Int} {c : Nat} (h : FloodSpec bg label img p img1 c) :
    (bgSet img1 bg).card ≤ (bgSet img bg).card := by
  obtain ⟨C, hC, -⟩ := h
  exact bgSet_card_le (hC.anti hne)

theorem FloodSpec.wf {bg label : Nat} {img img1 : Image}
    {p : Int × Int} {c : Nat} (h : FloodSpec bg label img p img1 c) : img1.WF := by
  obtain ⟨C, hC, -⟩ := h
  exact hC.2.2.2.2.1

theorem floodFillRecursive_spec (bg label : Nat) (hne : label ≠ bg) :
    ∀ (fuel : Nat) (img : Image) (u v : Int), img.WF → (bgSet img bg).card < fuel →
      ∃ img1 c, floodFillRecursive fuel img u v bg label = .ok (img1, c) ∧
        FloodSpec bg label img (u, v) img1 c := by
  intro fuel
  induction fuel with
  | zero => intro img u v _ h; omega
  | succ n ih =>
    intro img u v hwf hcard
    rw [floodFillRecursive]
    by_cases hv : ImageIsValidPixel img u v = true
    · obtain ⟨p, hp⟩ := readPixel_of_valid hwf hv
      simp only [hv, Bool.not_true, hp]
      by_cases hpb : p = bg
      · subst hpb
        have hbg : bgAt img p (u, v) := ⟨hv, hp⟩
        obtain ⟨img0, h0⟩ := writePixel_of_read hp label
        have hC0 := Changed.single hwf hbg h0
        have hnb0 : ¬ bgAt img0 p (u, v) := by
          intro hb
          have := hb.2
          rw [hC0.2.2.2.2.2.2 (u, v)] at this
          simp only [Finset.mem_singleton, if_true] at this
          exact hne (Option.some.inj this)
        have l0 : (bgSet img0 p).card < n := by
          have := bgSet_card_lt (hC0.anti hne) (u, v) hbg hnb0
          omega
        obtain ⟨img1, c1, e1, s1⟩ := ih img0 (u + 1) v hC0.2.2.2.2.1 l0
        have l1 : (bgSet img1 p).card < n := lt_of_le_of_lt (s1.card_le hne) l0
        obtain ⟨img2, c2, e2, s2⟩ := ih img1 (u - 1) v s1.wf l1
        have l2 : (bgSet img2 p).card < n := lt_of_le_of_lt (s2.card_le hne) l1
        obtain ⟨img3, c3, e3, s3⟩ := ih img2 u (v + 1) s2.wf l2
        have l3 : (bgSet img3 p).card < n := lt_of_le_of_lt (s3.card_le hne) l2
        obtain ⟨img4, c4, e4, s4⟩ := ih img3 u (v - 1) s3.wf l3
        refine ⟨img4, 1 + c1 + c2 + c3 + c4, ?_, FloodSpec.step hne hbg hC0 s1 s2 s3 s4⟩
        simp [h0, e1, e2, e3, e4, Outcome.bind]
      · refine ⟨img, 0, by simp [hpb], FloodSpec.base hwf ?_⟩
        intro hb
        rw [hb.2] at hp
        exact hpb (Option.some.inj hp).symm
    · refine ⟨img, 0, by simp [hv], FloodSpec.base hwf ?_⟩
      intro hb
      exact hv hb.1

theorem bgSet_card_le_size (img : Image) (bg : Nat) :
    (bgSet img bg).card ≤ img.width * img.height := by
  unfold bgSet
  refine le_trans (Finset.card_filter_le _ _) ?_
  rw [Finset.card_product, Int.card_Ico, Int.card_Ico]
  have hw := toInt32_le img.width
  have hh := toInt32_le img.height
  exact Nat.mul_le_mul (by omega) (by omega)

theorem FloodSpec.mem_iff {bg label : Nat} {img img1 : Image}
    {p : Int × Int} {C : Finset (Int × Int)} (hC : Changed bg label img img1 C)
    (hcon : ∀ q ∈ C, Connected4 img bg p q) (hnb : ¬ bgAt img1 bg p)
    (hclo : ∀ q ∈ C, ∀ r, adj4 q r → ¬ bgAt img1 bg r) (q : Int × Int) :
    q ∈ C ↔ Connected4 img bg p q := by
  have key : ∀ r, bgAt img bg r → ¬ bgAt img1 bg r → r ∈ C := by
    intro r hr hr1
    by_contra hnot
    apply hr1
    refine ⟨by rw [validPixel_congr hC.1 hC.2.1]; exact hr.1, ?_⟩
    rw [hC.2.2.2.2.2.2 r, if_neg hnot]
    exact hr.2
  constructor
  · exact hcon q
  · intro h
    induction h with
    | seed h0 => exact key _ h0 hnb
    | step _ hadj hb ih => exact key _ hb (hclo _ ih _ hadj)

/-- The recursive fill relabels exactly the 4-connected component of the seed and
returns its size. -/
theorem recursive_component (fuel : Nat) (img : Image) (u v : Int)
    (label b : Nat) (hwf : img.WF) (hvalid : ImageIsValidPixel img u v = true)
    (hseed : readPixel img v u = some b) (hne : label ≠ b)
    (hfuel : img.width * img.height < fuel) :
    ∃ (img1 : Image) (C : Finset (Int × Int)),
      ImageRegionFillingRecursive fuel img u v label = .ok (img1, C.card) ∧
      (∀ q, q ∈ C ↔ Connected4 img b (u, v) q) ∧
      (∀ q : Int × Int,
        readPixel img1 q.2 q.1 = if q ∈ C then some label else readPixel img q.2 q.1) ∧
      img1.WF ∧ img1.width = img.width ∧ img1.height = img.height ∧
      img1.num_colors = img.num_colors ∧ img1.LUT = img.LUT := by
  have hcard : (bgSet img b).card < fuel := lt_of_le_of_lt (bgSet_card_le_size img b) hfuel
  obtain ⟨img1, c, e, C, hC, hc, hcon, hnb, hclo⟩ :=
    floodFillRecursive_spec b label hne fuel img u v hwf hcard
  refine ⟨img1, C, ?_, FloodSpec.mem_iff hC hcon hnb hclo, hC.2.2.2.2.2.2,
    hC.2.2.2.2.1, hC.1, hC.2.1, hC.2.2.1, hC.2.2.2.1⟩
  unfold ImageRegionFillingRecursive
  have hne1 : ¬ b = label := fun h => hne h.symm
  simp only [hvalid, Bool.not_true, hseed, if_neg hne1, e, hc]
  rfl

/-- Inside a rectangle of `bg`-labelled pixels, two pixels of one row are connected. -/
theorem Connected4.row_line {img : Image} {bg : Nat} {a b c d : Int}
    (hrect : ∀ q : Int × Int, a ≤ q.1 → q.1 < b → c ≤ q.2 → q.2 < d → bgAt img bg q)
    (p : Int × Int) (hp1 : a ≤ p.1) (hp2 : p.1 < b) (hp3 : c ≤ p.2) (hp4 : p.2 < d) :
    ∀ (n : Nat) (x : Int), a ≤ x → x < b → (x - p.1).natAbs = n →
      Connected4 img bg p (x, p.2) := by
  intro n
  induction n with
  | zero =>
    intro x _ _ hx
    have : x = p.1 := by omega
    subst this
    exact Connected4.seed (hrect p hp1 hp2 hp3 hp4)
  | succ n ih =>
    intro x hx1 hx2 hx
    by_cases hlt : p.1 < x
    · have h1 := ih (x - 1) (by omega) (by omega) (by omega)
      refine Connected4.step h1 (Or.inl ?_) (hrect _ hx1 hx2 hp3 hp4)
      simp
    · have h1 := ih (x + 1) (by omega) (by omega) (by omega)
      refine Connected4.step h1 (Or.inr (Or.inl ?_)) (hrect _ hx1 hx2 hp3 hp4)
      simp

/-- Inside a rectangle of `bg`-labelled pixels, two pixels of one column are connected. -/
theorem Connected4.col_line {img : Image} {bg : Nat} {a b c d : Int}
    (hrect : ∀ q : Int × Int, a ≤ q.1 → q.1 < b → c ≤ q.2 → q.2 < d → bgAt img bg q)
    (p : Int × Int) (hp1 : a ≤ p.1) (hp2 : p.1 < b) (hp3 : c ≤ p.2) (hp4 : p.2 < d) :
    ∀ (n : Nat) (y : Int), c ≤ y → y < d → (y - p.2).natAbs = n →
      Connected4 img bg p (p.1, y) := by
  intro n
  induction n with
  | zero =>
    intro y _ _ hy
    have : y = p.2 := by omega
    subst this
    exact Connected4.seed (hrect p hp1 hp2 hp3 hp4)
  | succ n ih =>
    intro y hy1 hy2 hy
    by_cases hlt : p.2 < y
    · have h1 := ih (y - 1) (by omega) (by omega) (by omega)
      refine Connected4.step h1 (Or.inr (Or.inr (Or.inl ?_))) (hrect _ hp1 hp2 hy1 hy2)
      simp
    · have h1 := ih (y + 1) (by omega) (by omega) (by omega)
      refine Connected4.step h1 (Or.inr (Or.inr (Or.inr ?_))) (hrect _ hp1 hp2 hy1 hy2)
      simp

/-- A rectangle of `bg`-labelled pixels is 4-connected. -/
theorem Connected4.rect {img : Image} {bg : Nat} {a b c d : Int}
    (hrect : ∀ q : Int × Int, a ≤ q.1 → q.1 < b → c ≤ q.2 → q.2 < d → bgAt img bg q)
    (p q : Int × Int) (hp1 : a ≤ p.1) (hp2 : p.1 < b) (hp3 : c ≤ p.2) (hp4 : p.2 < d)
    (hq1 : a ≤ q.1) (hq2 : q.1 < b) (hq3 : c ≤ q.2) (hq4 : q.2 < d) :
    Connected4 img bg p q := by
  have h1 := Connected4.row_line hrect p hp1 hp2 hp3 hp4 _ q.1 hq1 hq2 rfl
  have h2 := Connected4.col_line hrect (q.1, p.2) hq1 hq2 hp3 hp4 _ q.2 hq3 hq4 rfl
  exact h1.trans h2

/-- Filling a region that is a full rectangle: when the `b`-labelled pixels of the
image are exactly those of the rectangle `[x0, x1) x [y0, y1)` and the seed lies
in it, the recursive fill relabels exactly the rectangle and returns its area. -/
theorem recursive_rect (fuel : Nat) (img : Image) (u v : Int)
    (label b : Nat) (x0 x1 y0 y1 : Int) (hwf : img.WF)
    (hrect : ∀ q : Int × Int, bgAt img b q ↔ (x0 ≤ q.1 ∧ q.1 < x1 ∧ y0 ≤ q.2 ∧ q.2 < y1))
    (hu0 : x0 ≤ u) (hu1 : u < x1) (hv0 : y0 ≤ v) (hv1 : v < y1)
    (hne : label ≠ b) (hfuel : img.width * img.height < fuel) :
    ∃ img1 : Image,
      ImageRegionFillingRecursive fuel img u v label =
        .ok (img1, (x1 - x0).toNat * (y1 - y0).toNat) ∧
      (∀ q : Int × Int, readPixel img1 q.2 q.1 =
        if x0 ≤ q.1 ∧ q.1 < x1 ∧ y0 ≤ q.2 ∧ q.2 < y1 then some label
        else readPixel img q.2 q.1) ∧
      img1.WF ∧ img1.width = img.width ∧ img1.height = img.height ∧
      img1.num_colors = img.num_colors ∧ img1.LUT = img.LUT := by
  have hseed : bgAt img b (u, v) := (hrect (u, v)).2 ⟨hu0, hu1, hv0, hv1⟩
  obtain ⟨img1, C, e, hmem, hrd, hwf1, hw, hh, hn, hl⟩ :=
    recursive_component fuel img u v label b hwf hseed.1 hseed.2 hne hfuel
  have hC : C = Finset.Ico x0 x1 ×ˢ Finset.Ico y0 y1 := by
    ext q
    rw [hmem, Finset.mem_product, Finset.mem_Ico, Finset.mem_Ico]
    constructor
    · intro hc
      have := (hrect q).1 hc.bg_end
      tauto
    · rintro ⟨⟨h1, h2⟩, h3, h4⟩
      exact Connected4.rect (fun q h1 h2 h3 h4 => (hrect q).2 ⟨h1, h2, h3, h4⟩)
        (u, v) q hu0 hu1 hv0 hv1 h1 h2 h3 h4
  refine ⟨img1, ?_, ?_, hwf1, hw, hh, hn, hl⟩
  · rw [e, hC, Finset.card_product, Int.card_Ico, Int.card_Ico]
  · intro q
    rw [hrd q, hC]
    simp only [Finset.mem_product, Finset.mem_Ico, and_assoc]

theorem toInt32_of_lt {n : Nat} (h : n < 2 ^ 31) : toInt32 n = n := by
  unfold toInt32
  have : n % 2 ^ 32 = n := Nat.mod_eq_of_lt (by omega)
  rw [this, if_pos h]

theorem toInt32_pos_lt {n : Nat} (hn : n < 2 ^ 32) (h : 0 < toInt32 n) : n < 2 ^ 31 := by
  unfold toInt32 at h
  have : n % 2 ^ 32 = n := Nat.mod_eq_of_lt hn
  rw [this] at h
  split at h
  · assumption
  · omega

theorem ImageCreate_WF (w h : Nat) : (ImageCreate w h).WF := by
  constructor
  · simp [ImageCreate, AllocateImageHeader]
  · intro r hr
    simp only [ImageCreate, AllocateRowArray] at hr
    rw [List.eq_of_mem_replicate hr]
    simp [ImageCreate, AllocateImageHeader]

theorem readPixel_ImageCreate {w h : Nat} {r c : Int} {p : Nat}
    (hp : readPixel (ImageCreate w h) r c = some p) : p = 0 := by
  unfold readPixel at hp
  split at hp
  · split at hp
    · rename_i row hrow
      simp only [ImageCreate, AllocateRowArray, List.getElem?_replicate] at hrow
      split at hrow
      · cases hrow
        rw [List.getElem?_replicate] at hp
        split at hp
        · exact (Option.some.inj hp).symm
        · cases hp
      · cases hrow
    · cases hp
  · cases hp

theorem bgAt_ImageCreate (w h : Nat) (q : Int × Int) :
    bgAt (ImageCreate w h) 0 q ↔
      (0 ≤ q.1 ∧ q.1 < toInt32 w ∧ 0 ≤ q.2 ∧ q.2 < toInt32 h) := by
  constructor
  · intro hb
    exact (validPixel_iff _ _ _).1 hb.1
  · intro hq
    have hv : ImageIsValidPixel (ImageCreate w h) q.1 q.2 = true := (validPixel_iff _ _ _).2 hq
    obtain ⟨p, hp⟩ := readPixel_of_valid (ImageCreate_WF w h) hv
    have := readPixel_ImageCreate hp
    subst this
    exact ⟨hv, hp⟩

/-- C6: on the blank image `ImageCreate w h` (all pixels WHITE, LUT = [WHITE, BLACK],
`num_colors = 2`), for every valid seed (which forces `w, h > 0`) and every label
other than 0, `ImageRegionFillingRecursive` returns `w * h` and leaves every pixel
equal to `label`; `w` and `h` are `uint32` values and the fuel covers the image. -/
theorem ImageRegionFillingRecursive_blank (fuel w h : Nat) (u v : Int) (label : Nat)
    (hw : w < 2 ^ 32) (hh : h < 2 ^ 32)
    (hvalid : ImageIsValidPixel (ImageCreate w h) u v = true) (hl : label ≠ 0)
    (hfuel : w * h < fuel) :
    (ImageCreate w h).image = List.replicate h (List.replicate w WHITE) ∧
    (ImageCreate w h).LUT = [0xffffff, 0x000000] ∧ (ImageCreate w h).num_colors = 2 ∧
    ∃ img1 : Image,
      ImageRegionFillingRecursive fuel (ImageCreate w h) u v label = .ok (img1, w * h) ∧
      (∀ r c : Int, 0 ≤ r → r < h → 0 ≤ c → c < w → readPixel img1 r c = some label) ∧
      img1.WF ∧ img1.width = w ∧ img1.height = h ∧
      img1.num_colors = 2 ∧ img1.LUT = [0xffffff, 0x000000] := by
  refine ⟨rfl, rfl, rfl, ?_⟩
  have hv := (validPixel_iff _ _ _).1 hvalid
  have hw1 : (ImageCreate w h).width = w := rfl
  have hh1 : (ImageCreate w h).height = h := rfl
  rw [hw1, hh1] at hv
  have hwlt : w < 2 ^ 31 := toInt32_pos_lt hw (by omega)
  have hhlt : h < 2 ^ 31 := toInt32_pos_lt hh (by omega)
  rw [toInt32_of_lt hwlt, toInt32_of_lt hhlt] at hv
  obtain ⟨img1, e, hrd, hwf1, h1, h2, h3, h4⟩ :=
    recursive_rect fuel (ImageCreate w h) u v label 0 0 w 0 h
      (ImageCreate_WF w h)
      (fun q => by rw [bgAt_ImageCreate, toInt32_of_lt hwlt, toInt32_of_lt hhlt])
      hv.1 hv.2.1 hv.2.2.1 hv.2.2.2 hl hfuel
  refine ⟨img1, ?_, ?_, hwf1, h1, h2, h3, h4⟩
  · rw [e]
    simp
  · intro r c hr0 hr1 hc0 hc1
    have := hrd (c, r)
    simp only [hc0, hc1, hr0, hr1, and_self, if_true] at this
    exact this

theorem borderGrid_WF {img : Image} {w h : Nat} (hw : img.width = w) (hh : img.height = h)
    (hg : img.image = borderGrid w h) : img.WF := by
  constructor
  · rw [hg, hh]
    simp [borderGrid]
  · intro r hr
    rw [hg] at hr
    simp only [borderGrid, List.mem_map] at hr
    obtain ⟨a, -, rfl⟩ := hr
    simp [hw]

theorem readPixel_borderGrid {img : Image} {w h : Nat} (hg : img.image = borderGrid w h)
    {r c : Int} (hr0 : 0 ≤ r) (hr1 : r < h) (hc0 : 0 ≤ c) (hc1 : c < w) :
    readPixel img r c =
      some (if c = 0 ∨ c + 1 = w ∨ r = 0 ∨ r + 1 = h then BLACK else WHITE) := by
  have h1 : r.toNat < h := by omega
  have h2 : c.toNat < w := by omega
  unfold readPixel
  simp only [hr0, hc0, and_self, if_true, hg, borderGrid, List.getElem?_map,
    List.getElem?_range h1, Option.map_some', List.getElem?_range h2]
  congr 1
  have e1 : (c.toNat = 0 ∨ c.toNat + 1 = w ∨ r.toNat = 0 ∨ r.toNat + 1 = h) ↔
      (c = 0 ∨ c + 1 = w ∨ r = 0 ∨ r + 1 = h) := by omega
  simp only [e1]

/-- C9: on a `w x h` image (`w, h >= 3`, dimensions that fit in `int`) whose outermost
rows and columns hold BLACK and whose interior holds WHITE,
`ImageRegionFillingRecursive` from any interior seed with a label other than WHITE
returns `(w-2)*(h-2)`, relabels exactly the interior and leaves the border holding
BLACK. -/
theorem ImageRegionFillingRecursive_bordered (fuel w h : Nat) (img : Image) (u v : Int)
    (label : Nat) (hw3 : 3 ≤ w) (hh3 : 3 ≤ h) (hw : w < 2 ^ 31) (hh : h < 2 ^ 31)
    (hiw : img.width = w) (hih : img.height = h) (hg : img.image = borderGrid w h)
    (hu0 : 1 ≤ u) (hu1 : u + 1 < w) (hv0 : 1 ≤ v) (hv1 : v + 1 < h)
    (hl : label ≠ WHITE) (hfuel : w * h < fuel) :
    ∃ img1 : Image,
      ImageRegionFillingRecursive fuel img u v label = .ok (img1, (w - 2) * (h - 2)) ∧
      (∀ r c : Int, 0 ≤ r → r < h → 0 ≤ c → c < w →
        readPixel img1 r c =
          some (if c = 0 ∨ c + 1 = w ∨ r = 0 ∨ r + 1 = h then BLACK else label)) ∧
      img1.WF ∧ img1.width = w ∧ img1.height = h ∧
      img1.num_colors = img.num_colors ∧ img1.LUT = img.LUT := by
  have hwf := borderGrid_WF hiw hih hg
  have hrect : ∀ q : Int × Int, bgAt img WHITE q ↔
      (1 ≤ q.1 ∧ q.1 < (w : Int) - 1 ∧ 1 ≤ q.2 ∧ q.2 < (h : Int) - 1) := by
    intro q
    unfold bgAt
    rw [validPixel_iff, hiw, hih, toInt32_of_lt hw, toInt32_of_lt hh]
    constructor
    · rintro ⟨⟨h1, h2, h3, h4⟩, h5⟩
      rw [readPixel_borderGrid hg h3 h4 h1 h2] at h5
      have h6 := Option.some.inj h5
      split at h6
      · simp [BLACK, WHITE] at h6
      · omega
    · rintro ⟨h1, h2, h3, h4⟩
      refine ⟨⟨by omega, by omega, by omega, by omega⟩, ?_⟩
      rw [readPixel_borderGrid hg (by omega) (by omega) (by omega) (by omega), if_neg (by omega)]
  obtain ⟨img1, e, hrd, hwf1, h1, h2, h3, h4⟩ :=
    recursive_rect fuel img u v label WHITE 1 ((w : Int) - 1) 1 ((h : Int) - 1)
      hwf hrect hu0 (by omega) hv0 (by omega) hl (by rw [hiw, hih]; exact hfuel)
  refine ⟨img1, ?_, ?_, hwf1, h1.trans hiw, h2.trans hih, h3, h4⟩
  · rw [e]
    have e1 : ((w : Int) - 1 - 1).toNat = w - 2 := by omega
    have e2 : ((h : Int) - 1 - 1).toNat = h - 2 := by omega
    rw [e1, e2]
  · intro r c hr0 hr1 hc0 hc1
    have := hrd (c, r)
    simp only at this
    rw [this, readPixel_borderGrid hg hr0 hr1 hc0 hc1]
    by_cases hb : c = 0 ∨ c + 1 = w ∨ r = 0 ∨ r + 1 = h
    · have hn : ¬ (1 ≤ c ∧ c < (w : Int) - 1 ∧ 1 ≤ r ∧ r < (h : Int) - 1) := by omega
      simp only [if_neg hn, if_pos hb]
    · have hn : 1 ≤ c ∧ c < (w : Int) - 1 ∧ 1 ≤ r ∧ r < (h : Int) - 1 := by omega
      simp only [if_pos hn, if_neg hb]

theorem Outcome.bind_eq_ok {α β : Type} {x : Outcome α} {f : α → Outcome β} {b : β}
    (h : x.bind f = .ok b) : ∃ a, x = .ok a ∧ f a = .ok b := by
  cases x with
  | ok a => exact ⟨a, rfl, h⟩
  | outOfBounds => cases h
  | outOfFuel => cases h

/-- A seed outside the image, or a seed already holding `label`, makes the three
fills return 0 without touching the image. -/
theorem noop_of_seed (fuel : Nat) (img : Image) (u v : Int) (label : Nat)
    (h : ImageIsValidPixel img u v = false ∨ readPixel img v u = some label) :
    ImageRegionFillingRecursive fuel img u v label = .ok (img, 0) ∧
    ImageRegionFillingWithSTACK fuel img u v label = .ok (img, 0) ∧
    ImageRegionFillingWithQUEUE fuel img u v label = .ok (img, 0) := by
  unfold ImageRegionFillingWithSTACK ImageRegionFillingWithQUEUE fillWith
    ImageRegionFillingRecursive
  by_cases hv : ImageIsValidPixel img u v = true
  · rcases h with h | h
    · rw [hv] at h
      cases h
    · simp [hv, h]
  · simp [hv]

/-- The recursive fill always returns (given fuel for the whole image), keeps the
dimensions, and leaves a valid seed pixel holding `label`. -/
theorem ImageRegionFillingRecursive_seed (fuel : Nat) (img : Image) (u v : Int) (label : Nat)
    (hwf : img.WF) (hfuel : img.width * img.height < fuel) :
    ∃ (img1 : Image) (c : Nat),
      ImageRegionFillingRecursive fuel img u v label = .ok (img1, c) ∧
      (ImageIsValidPixel img1 u v = false ∨ readPixel img1 v u = some label) := by
  by_cases hv : ImageIsValidPixel img u v = true
  · obtain ⟨b, hb⟩ := readPixel_of_valid hwf hv
    by_cases hbl : b = label
    · subst hbl
      exact ⟨img, 0, (noop_of_seed fuel img u v b (Or.inr hb)).1, Or.inr hb⟩
    · obtain ⟨img1, C, e, hmem, hrd, -, -, -, -, -⟩ :=
        recursive_component fuel img u v label b hwf hv hb
          (fun h => hbl h.symm) hfuel
      refine ⟨img1, C.card, e, Or.inr ?_⟩
      have hs : (u, v) ∈ C := (hmem (u, v)).2 (Connected4.seed ⟨hv, hb⟩)
      have := hrd (u, v)
      rw [if_pos hs] at this
      exact this
  · have hv1 : ImageIsValidPixel img u v = false := by simpa using hv
    exact ⟨img, 0, (noop_of_seed fuel img u v label (Or.inl hv1)).1, Or.inl hv1⟩

/-- A neighbour test of the iterative fills keeps the dimensions and never
overwrites a pixel that holds `label`. -/
theorem fillNeighbour_keeps {ins : List PixelCoords → PixelCoords → List PixelCoords}
    {background label : Nat} {guard : Bool} {row col : Int} {p : PixelCoords}
    {st st1 : FillState} (h : fillNeighbour ins background label guard row col p st = .ok st1)
    (u v : Int) (hs : readPixel st.1 v u = some label) :
    st1.1.width = st.1.width ∧ st1.1.height = st.1.height ∧
      readPixel st1.1 v u = some label := by
  unfold fillNeighbour at h
  split at h
  · split at h
    · cases h
    · split at h
      · split at h
        · cases h
        · rename_i img1 hw
          cases h
          obtain ⟨h1, h2, -, -⟩ := writePixel_frame hw
          refine ⟨h1, h2, ?_⟩
          simp only
          rw [readPixel_writePixel hw]
          split
          · rfl
          · exact hs
      · cases h
        exact ⟨rfl, rfl, hs⟩
  · cases h
    exact ⟨rfl, rfl, hs⟩

theorem fillVisit_keeps {ins : List PixelCoords → PixelCoords → List PixelCoords}
    {background label : Nat} {W H : Int} {p : PixelCoords}
    {st st1 : FillState} (h : fillVisit ins background label W H p st = .ok st1)
    (u v : Int) (hs : readPixel st.1 v u = some label) :
    st1.1.width = st.1.width ∧ st1.1.height = st.1.height ∧
      readPixel st1.1 v u = some label := by
  unfold fillVisit at h
  obtain ⟨s1, e1, h⟩ := Outcome.bind_eq_ok h
  obtain ⟨s2, e2, h⟩ := Outcome.bind_eq_ok h
  obtain ⟨s3, e3, h⟩ := Outcome.bind_eq_ok h
  obtain ⟨a1, b1, c1⟩ := fillNeighbour_keeps e1 u v hs
  obtain ⟨a2, b2, c2⟩ := fillNeighbour_keeps e2 u v c1
  obtain ⟨a3, b3, c3⟩ := fillNeighbour_keeps e3 u v c2
  obtain ⟨a4, b4, c4⟩ := fillNeighbour_keeps h u v c3
  exact ⟨a4.trans (a3.trans (a2.trans a1)), b4.trans (b3.trans (b2.trans b1)), c4⟩

theorem fillLoop_keeps {ins : List PixelCoords → PixelCoords → List PixelCoords}
    {background label : Nat} {W H : Int} (u v : Int) :
    ∀ (fuel : Nat) (st : FillState) (r : Image × Nat),
      fillLoop ins background label W H fuel st = .ok r →
      readPixel st.1 v u = some label →
      r.1.width = st.1.width ∧ r.1.height = st.1.height ∧ readPixel r.1 v u = some label := by
  intro fuel
  induction fuel with
  | zero =>
    rintro ⟨img, stack, count⟩ r h hs
    cases stack with
    | nil =>
      rw [fillLoop] at h
      cases h
      exact ⟨rfl, rfl, hs⟩
    | cons p rest =>
      rw [fillLoop] at h
      cases h
  | succ n ih =>
    rintro ⟨img, stack, count⟩ r h hs
    cases stack with
    | nil =>
      rw [fillLoop] at h
      cases h
      exact ⟨rfl, rfl, hs⟩
    | cons p rest =>
      rw [fillLoop] at h
      split at h
      · rename_i st1 hv
        obtain ⟨a1, b1, c1⟩ := fillVisit_keeps hv u v hs
        obtain ⟨a2, b2, c2⟩ := ih st1 r h c1
        exact ⟨a2.trans a1, b2.trans b1, c2⟩
      · cases h
      · cases h

theorem fillWith_seed {ins : List PixelCoords → PixelCoords → List PixelCoords}
    {fuel : Nat} {img img1 : Image} {u v : Int} {label c : Nat}
    (h : fillWith ins fuel img u v label = .ok (img1, c)) :
    ImageIsValidPixel img1 u v = false ∨ readPixel img1 v u = some label := by
  unfold fillWith at h
  split at h
  · rename_i hv
    cases h
    left
    simpa using hv
  · split at h
    · cases h
    · rename_i b hb
      split at h
      · rename_i hbl
        cases h
        right
        rw [hb, hbl]
      · split at h
        · cases h
        · rename_i img0 hw
          have h0 : readPixel img0 v u = some label := by
            rw [readPixel_writePixel hw]
            simp
          right
          exact (fillLoop_keeps u v fuel _ _ h h0).2.2

/-- C5: idempotence.  The recursive fill returns (given fuel for the whole image),
and a second call with the same seed and label returns 0 and does not change the
image; the same holds for the second call of the stack and queue variants whenever
their first call returns. -/
theorem fill_idempotent (fuel fuel2 : Nat) (img : Image) (u v : Int) (label : Nat)
    (hwf : img.WF) (hfuel : img.width * img.height < fuel) :
    (∃ (img1 : Image) (c : Nat),
      ImageRegionFillingRecursive fuel img u v label = .ok (img1, c) ∧
      ImageRegionFillingRecursive fuel2 img1 u v label = .ok (img1, 0)) ∧
    (∀ (img1 : Image) (c : Nat),
      ImageRegionFillingWithSTACK fuel img u v label = .ok (img1, c) →
      ImageRegionFillingWithSTACK fuel2 img1 u v label = .ok (img1, 0)) ∧
    (∀ (img1 : Image) (c : Nat),
      ImageRegionFillingWithQUEUE fuel img u v label = .ok (img1, c) →
      ImageRegionFillingWithQUEUE fuel2 img1 u v label = .ok (img1, 0)) := by
  refine ⟨?_, ?_, ?_⟩
  · obtain ⟨img1, c, e, hs⟩ := ImageRegionFillingRecursive_seed fuel img u v label hwf hfuel
    exact ⟨img1, c, e, (noop_of_seed fuel2 img1 u v label hs).1⟩
  · intro img1 c h
    exact (noop_of_seed fuel2 img1 u v label (fillWith_seed h)).2.1
  · intro img1 c h
    exact (noop_of_seed fuel2 img1 u v label (fillWith_seed h)).2.2

/-! ## More fuel never changes a result -/

theorem fillLoop_fuel_mono (ins : List PixelCoords → PixelCoords → List PixelCoords)
    (background label : Nat) (W H : Int) (k : Nat) :
    ∀ (fuel : Nat) (st : FillState) (r : Image × Nat),
      fillLoop ins background label W H fuel st = .ok r →
      fillLoop ins background label W H (fuel + k) st = .ok r := by
  intro fuel
  induction fuel with
  | zero =>
    rintro ⟨img, stack, count⟩ r h
    cases stack with
    | nil =>
      rw [fillLoop] at h
      rw [fillLoop]
      exact h
    | cons p rest =>
      rw [fillLoop] at h
      cases h
  | succ n ih =>
    rintro ⟨img, stack, count⟩ r h
    cases stack with
    | nil =>
      rw [fillLoop] at h
      rw [fillLoop]
      exact h
    | cons p rest =>
      rw [Nat.add_right_comm, fillLoop]
      rw [fillLoop] at h
      split at h
      · rename_i st1 hv
        exact ih st1 r h
      · cases h
      · cases h

theorem fillWith_fuel_mono (ins : List PixelCoords → PixelCoords → List PixelCoords)
    (fuel k : Nat) (img : Image) (u v : Int) (label : Nat) (r : Image × Nat)
    (h : fillWith ins fuel img u v label = .ok r) :
    fillWith ins (fuel + k) img u v label = .ok r := by
  unfold fillWith at h ⊢
  split
  · rename_i hv
    rw [if_pos hv] at h
    exact h
  · rename_i hv
    rw [if_neg hv] at h
    split
    · rename_i hr
      rw [hr] at h
      exact h
    · rename_i b hr
      rw [hr] at h
      simp only at h
      split
      · rename_i hb
        rw [if_pos hb] at h
        exact h
      · rename_i hb
        rw [if_neg hb] at h
        split
        · rename_i hw
          rw [hw] at h
          exact h
        · rename_i img0 hw
          rw [hw] at h
          exact fillLoop_fuel_mono ins b label _ _ k fuel _ r h

theorem floodFillRecursive_fuel_mono (background label k : Nat) :
    ∀ (fuel : Nat) (img : Image) (u v : Int) (r : Image × Nat),
      floodFillRecursive fuel img u v background label = .ok r →
      floodFillRecursive (fuel + k) img u v background label = .ok r := by
  intro fuel
  induction fuel with
  | zero =>
    intro img u v r h
    rw [floodFillRecursive] at h
    cases h
  | succ n ih =>
    intro img u v r h
    rw [Nat.add_right_comm, floodFillRecursive]
    rw [floodFillRecursive] at h
    split
    · rename_i hv
      rw [if_pos hv] at h
      exact h
    · rename_i hv
      rw [if_neg hv] at h
      split
      · rename_i hr
        rw [hr] at h
        exact h
      · rename_i p hr
        rw [hr] at h
        simp only at h
        split
        · rename_i hb
          rw [if_pos hb] at h
          exact h
        · rename_i hb
          rw [if_neg hb] at h
          split
          · rename_i hw
            rw [hw] at h
            exact h
          · rename_i img0 hw
            rw [hw] at h
            simp only at h
            obtain ⟨r1, e1, h⟩ := Outcome.bind_eq_ok h
            obtain ⟨r2, e2, h⟩ := Outcome.bind_eq_ok h
            obtain ⟨r3, e3, h⟩ := Outcome.bind_eq_ok h
            obtain ⟨r4, e4, h⟩ := Outcome.bind_eq_ok h
            rw [ih _ _ _ _ e1]
            simp only [Outcome.bind]
            rw [ih _ _ _ _ e2]
            simp only [Outcome.bind]
            rw [ih _ _ _ _ e3]
            simp only [Outcome.bind]
            rw [ih _ _ _ _ e4]
            exact h

theorem ImageRegionFillingRecursive_fuel_mono (fuel k : Nat) (img : Image) (u v : Int)
    (label : Nat) (r : Image × Nat)
    (h : ImageRegionFillingRecursive fuel img u v label = .ok r) :
    ImageRegionFillingRecursive (fuel + k) img u v label = .ok r := by
  unfold ImageRegionFillingRecursive at h ⊢
  split
  · rename_i hv
    rw [if_pos hv] at h
    exact h
  · rename_i hv
    rw [if_neg hv] at h
    split
    · rename_i hr
      rw [hr] at h
      exact h
    · rename_i b hr
      rw [hr] at h
      simp only at h
      split
      · rename_i hb
        rw [if_pos hb] at h
        exact h
      · rename_i hb
        rw [if_neg hb] at h
        exact floodFillRecursive_fuel_mono b label k fuel img u v r h

theorem segLoop_mono (f g : FillingFunction)
    (hfg : ∀ img u v label r, f img u v label = .ok r → g img u v label = .ok r) :
    ∀ (l : List (Nat × Nat)) (st : SegState) (x : Image × Nat),
      segLoop f l st = .ok x → segLoop g l st = .ok x := by
  intro l
  induction l with
  | nil =>
    intro st x h
    rw [segLoop] at h ⊢
    exact h
  | cons vu rest ih =>
    intro st x h
    rw [segLoop] at h ⊢
    split
    · rename_i hr
      rw [hr] at h
      exact h
    · rename_i p hr
      rw [hr] at h
      simp only at h
      split
      · rename_i hp
        rw [if_pos hp] at h
        split
        · rename_i hc
          rw [if_pos hc] at h
          exact h
        · rename_i hc
          rw [if_neg hc] at h
          split at h
          · rename_i r hf
            rw [hfg _ _ _ _ _ hf]
            exact ih _ _ h
          · cases h
          · cases h
      · rename_i hp
        rw [if_neg hp] at h
        exact ih _ _ h

theorem ImageSegmentation_mono (f g : FillingFunction)
    (hfg : ∀ img u v label r, f img u v label = .ok r → g img u v label = .ok r)
    (img : Image) (x : Image × Nat) (h : ImageSegmentation img f = .ok x) :
    ImageSegmentation img g = .ok x :=
  segLoop_mono f g hfg _ _ x h

/-! ## Claims on the region filling functions -/

/-- C1: for every well-formed image, every valid seed `(u, v)` holding the label `b`
and every `label` different from `b`, `ImageRegionFillingRecursive` (with fuel for
the whole image) sets to `label` exactly the pixels of the 4-connected component of
`b`-labelled pixels containing the seed, leaves every other pixel unchanged, and
returns the number of pixels of that component. -/
theorem ImageRegionFillingRecursive_fills_component (fuel : Nat) (img : Image) (u v : Int)
    (label b : Nat) (hwf : img.WF) (hvalid : ImageIsValidPixel img u v = true)
    (hseed : readPixel img v u = some b) (hne : label ≠ b)
    (hfuel : img.width * img.height < fuel) :
    ∃ (img1 : Image) (C : Finset (Int × Int)),
      ImageRegionFillingRecursive fuel img u v label = .ok (img1, C.card) ∧
      (∀ q, q ∈ C ↔ Connected4 img b (u, v) q) ∧
      (∀ q : Int × Int,
        readPixel img1 q.2 q.1 = if q ∈ C then some label else readPixel img q.2 q.1) ∧
      img1.WF ∧ img1.width = img.width ∧ img1.height = img.height ∧
      img1.num_colors = img.num_colors ∧ img1.LUT = img.LUT :=
  recursive_component fuel img u v label b hwf hvalid hseed hne hfuel

/-- A 3 x 3 image with two WHITE regions, used to instantiate the statements. -/
theorem ImageRegionFillingRecursive_fills_component_witness :
    ∃ (img1 : Image) (C : Finset (Int × Int)),
      ImageRegionFillingRecursive 10
        { width := 3, height := 3, image := [[0, 0, 1], [1, 0, 1], [0, 1, 0]],
          num_colors := 2, LUT := [0xffffff, 0x000000] } 0 0 2 = .ok (img1, C.card) ∧
      (∀ q, q ∈ C ↔ Connected4
        { width := 3, height := 3, image := [[0, 0, 1], [1, 0, 1], [0, 1, 0]],
          num_colors := 2, LUT := [0xffffff, 0x000000] } 0 (0, 0) q) ∧
      (∀ q : Int × Int,
        readPixel img1 q.2 q.1 = if q ∈ C then some 2 else readPixel
          { width := 3, height := 3, image := [[0, 0, 1], [1, 0, 1], [0, 1, 0]],
            num_colors := 2, LUT := [0xffffff, 0x000000] } q.2 q.1) ∧
      img1.WF ∧ img1.width = 3 ∧ img1.height = 3 ∧
      img1.num_colors = 2 ∧ img1.LUT = [0xffffff, 0x000000] :=
  ImageRegionFillingRecursive_fills_component 10
    { width := 3, height := 3, image := [[0, 0, 1], [1, 0, 1], [0, 1, 0]],
      num_colors := 2, LUT := [0xffffff, 0x000000] } 0 0 2 0
    (by decide) (by decide) (by decide) (by decide) (by decide)

/-- C4: for each of the three fill functions, if the seed is outside the image or the
seed pixel already holds `label`, the function returns 0 and the image (pixels, LUT,
`num_colors`, dimensions) is unchanged. -/
theorem fill_noop (fuel : Nat) (img : Image) (u v : Int) (label : Nat)
    (h : ImageIsValidPixel img u v = false ∨ readPixel img v u = some label) :
    ImageRegionFillingRecursive fuel img u v label = .ok (img, 0) ∧
    ImageRegionFillingWithSTACK fuel img u v label = .ok (img, 0) ∧
    ImageRegionFillingWithQUEUE fuel img u v label = .ok (img, 0) :=
  noop_of_seed fuel img u v label h

/-- Instance of C4: a seed outside a 2 x 2 image, and a seed already holding the label. -/
theorem fill_noop_witness :
    (ImageRegionFillingRecursive 3 (ImageCreate 2 2) 5 (-1) 1 = .ok (ImageCreate 2 2, 0) ∧
      ImageRegionFillingWithSTACK 3 (ImageCreate 2 2) 5 (-1) 1 = .ok (ImageCreate 2 2, 0) ∧
      ImageRegionFillingWithQUEUE 3 (ImageCreate 2 2) 5 (-1) 1 = .ok (ImageCreate 2 2, 0)) ∧
    (ImageRegionFillingRecursive 3 (ImageCreate 2 2) 1 1 0 = .ok (ImageCreate 2 2, 0) ∧
      ImageRegionFillingWithSTACK 3 (ImageCreate 2 2) 1 1 0 = .ok (ImageCreate 2 2, 0) ∧
      ImageRegionFillingWithQUEUE 3 (ImageCreate 2 2) 1 1 0 = .ok (ImageCreate 2 2, 0)) :=
  ⟨fill_noop 3 (ImageCreate 2 2) 5 (-1) 1 (Or.inl (by decide)),
   fill_noop 3 (ImageCreate 2 2) 1 1 0 (Or.inr (by decide))⟩

/-- Instance of C5: the test 5.1/5.2, a blank 30 x 30 image filled twice from (15, 15)
with label 2. -/
theorem fill_idempotent_witness :
    (∃ (img1 : Image) (c : Nat),
      ImageRegionFillingRecursive 901 (ImageCreate 30 30) 15 15 2 = .ok (img1, c) ∧
      ImageRegionFillingRecursive 901 img1 15 15 2 = .ok (img1, 0)) ∧
    (∀ (img1 : Image) (c : Nat),
      ImageRegionFillingWithSTACK 901 (ImageCreate 30 30) 15 15 2 = .ok (img1, c) →
      ImageRegionFillingWithSTACK 901 img1 15 15 2 = .ok (img1, 0)) ∧
    (∀ (img1 : Image) (c : Nat),
      ImageRegionFillingWithQUEUE 901 (ImageCreate 30 30) 15 15 2 = .ok (img1, c) →
      ImageRegionFillingWithQUEUE 901 img1 15 15 2 = .ok (img1, 0)) :=
  fill_idempotent 901 901 (ImageCreate 30 30) 15 15 2 (ImageCreate_WF 30 30) (by decide)

/-- Instance of C6: the test 5.1, `ImageCreate(30,30)` filled from (15, 15) with
label 2 returns exactly 900. -/
theorem ImageRegionFillingRecursive_blank_witness :
    ∃ img1 : Image,
      ImageRegionFillingRecursive 901 (ImageCreate 30 30) 15 15 2 = .ok (img1, 900) ∧
      (∀ r c : Int, 0 ≤ r → r < 30 → 0 ≤ c → c < 30 → readPixel img1 r c = some 2) ∧
      img1.WF ∧ img1.width = 30 ∧ img1.height = 30 ∧
      img1.num_colors = 2 ∧ img1.LUT = [0xffffff, 0x000000] :=
  (ImageRegionFillingRecursive_blank 901 30 30 15 15 2 (by decide) (by decide) (by decide)
    (by decide) (by decide)).2.2.2

/-- Instance of C9: the test 5.3, the bordered 40 x 40 image filled from (20, 20)
with label 2 returns exactly 1444. -/
theorem ImageRegionFillingRecursive_bordered_witness :
    ∃ img1 : Image,
      ImageRegionFillingRecursive 1601
        { width := 40, height := 40, image := borderGrid 40 40, num_colors := 2,
          LUT := [0xffffff, 0x000000] } 20 20 2 = .ok (img1, 1444) ∧
      (∀ r c : Int, 0 ≤ r → r < 40 → 0 ≤ c → c < 40 →
        readPixel img1 r c =
          some (if c = 0 ∨ c + 1 = 40 ∨ r = 0 ∨ r + 1 = 40 then BLACK else 2)) ∧
      img1.WF ∧ img1.width = 40 ∧ img1.height = 40 ∧
      img1.num_colors = 2 ∧ img1.LUT = [0xffffff, 0x000000] :=
  ImageRegionFillingRecursive_bordered 1601 40 40
    { width := 40, height := 40, image := borderGrid 40 40, num_colors := 2,
      LUT := [0xffffff, 0x000000] } 20 20 2
    (by decide) (by decide) (by decide) (by decide) rfl rfl rfl
    (by decide) (by decide) (by decide) (by decide) (by decide) (by decide)

/-- C2: the stack variant does not agree with the recursive one.  On the blank 3 x 3
image, seed (0, 0), label 2, the recursive fill relabels the 9 pixels and returns 9
(recursion depth 10 or more); `ImageRegionFillingWithSTACK` returns 8 (8 iterations
or more) and leaves the pixel of row 2, column 0 WHITE, so the two results are not
`ImageIsEqual`. -/
theorem stack_differs_from_recursive :
    (∀ n : Nat, ImageRegionFillingRecursive (10 + n) (ImageCreate 3 3) 0 0 2 =
      .ok ({ ImageCreate 3 3 with image := [[2, 2, 2], [2, 2, 2], [2, 2, 2]] }, 9)) ∧
    (∀ n : Nat, ImageRegionFillingWithSTACK (8 + n) (ImageCreate 3 3) 0 0 2 =
      .ok ({ ImageCreate 3 3 with image := [[2, 2, 2], [2, 2, 2], [0, 2, 2]] }, 8)) ∧
    ImageIsEqual { ImageCreate 3 3 with image := [[2, 2, 2], [2, 2, 2], [0, 2, 2]] }
      { ImageCreate 3 3 with image := [[2, 2, 2], [2, 2, 2], [2, 2, 2]] } = false :=
  ⟨fun n => ImageRegionFillingRecursive_fuel_mono 10 n _ _ _ _ _ (by decide),
   fun n => fillWith_fuel_mono StackPush 8 n _ _ _ _ _ (by decide), by decide⟩

/-- C3: the queue variant does not agree with the stack one.  On the blank 3 x 3
image, seed (0, 0), label 2, `ImageRegionFillingWithQUEUE` returns 9 (9 iterations or
more) and `ImageRegionFillingWithSTACK` returns 8 (8 iterations or more); the
resulting images are not `ImageIsEqual`. -/
theorem queue_differs_from_stack :
    (∀ n : Nat, ImageRegionFillingWithQUEUE (9 + n) (ImageCreate 3 3) 0 0 2 =
      .ok ({ ImageCreate 3 3 with image := [[2, 2, 2], [2, 2, 2], [2, 2, 2]] }, 9)) ∧
    (∀ n : Nat, ImageRegionFillingWithSTACK (8 + n) (ImageCreate 3 3) 0 0 2 =
      .ok ({ ImageCreate 3 3 with image := [[2, 2, 2], [2, 2, 2], [0, 2, 2]] }, 8)) ∧
    ImageIsEqual { ImageCreate 3 3 with image := [[2, 2, 2], [2, 2, 2], [2, 2, 2]] }
      { ImageCreate 3 3 with image := [[2, 2, 2], [2, 2, 2], [0, 2, 2]] } = false :=
  ⟨fun n => fillWith_fuel_mono QueueEnqueue 9 n _ _ _ _ _ (by decide),
   fun n => fillWith_fuel_mono StackPush 8 n _ _ _ _ _ (by decide), by decide⟩

/-! ## Packed images simulate the pixel grid -/

theorem digit_low (n i j : Nat) (h : j < i) :
    digit (n % 65536 ^ i) j = digit n j := by
  unfold digit
  have e1 : ∀ m : Nat, m / 65536 ^ j % 65536 = m % 65536 ^ (j + 1) / 65536 ^ j := by
    intro m
    rw [pow_succ, Nat.mod_mul_right_div_self]
  rw [e1, e1 n]
  have hd : 65536 ^ (j + 1) ∣ 65536 ^ i := pow_dvd_pow _ (by omega)
  rw [Nat.mod_mod_of_dvd _ hd]

theorem setDigit_eq (n i v : Nat) :
    setDigit n i v = n % 65536 ^ i + (v + n / 65536 ^ (i + 1) * 65536) * 65536 ^ i := by
  unfold setDigit
  rw [pow_succ]
  ring

theorem digit_setDigit (n i v j : Nat) (hv : v < 65536) :
    digit (setDigit n i v) j = if j = i then v else digit n j := by
  have hP : 0 < 65536 ^ i := by positivity
  have hlo : n % 65536 ^ i < 65536 ^ i := Nat.mod_lt _ hP
  rcases Nat.lt_trichotomy j i with hlt | heq | hgt
  · rw [if_neg (by omega), ← digit_low n i j hlt, ← digit_low (setDigit n i v) i j hlt]
    congr 1
    rw [setDigit_eq, Nat.add_mul_mod_self_right, Nat.mod_mod]
  · subst heq
    rw [if_pos rfl]
    unfold digit
    rw [setDigit_eq, Nat.add_mul_div_right _ _ hP, Nat.div_eq_of_lt hlo, Nat.zero_add,
      Nat.add_mul_mod_self_right]
    exact Nat.mod_eq_of_lt hv
  · rw [if_neg (by omega)]
    obtain ⟨k, rfl⟩ : ∃ k, j = (i + 1) + k := ⟨j - (i + 1), by omega⟩
    unfold digit
    rw [pow_add, ← Nat.div_div_eq_div_mul, ← Nat.div_div_eq_div_mul]
    congr 2
    unfold setDigit
    have hQ : 0 < 65536 ^ (i + 1) := by positivity
    rw [Nat.add_mul_div_right _ _ hQ]
    have : n % 65536 ^ i + v * 65536 ^ i < 65536 ^ (i + 1) := by
      rw [pow_succ]
      calc n % 65536 ^ i + v * 65536 ^ i < 65536 ^ i + v * 65536 ^ i := by omega
        _ = (v + 1) * 65536 ^ i := by ring
        _ ≤ 65536 * 65536 ^ i := Nat.mul_le_mul_right _ (by omega)
        _ = 65536 ^ i * 65536 := by ring
    rw [Nat.div_eq_of_lt this, Nat.zero_add]

theorem readPixel_some_range {img : Image} (hwf : img.WF) {row col : Int} {p : Nat}
    (h : readPixel img row col = some p) :
    0 ≤ row ∧ row < img.height ∧ 0 ≤ col ∧ col < img.width := by
  unfold readPixel at h
  split at h
  · rename_i hs
    split at h
    · rename_i l hl
      obtain ⟨h1, h2⟩ := List.getElem?_eq_some.1 hl
      obtain ⟨h3, -⟩ := List.getElem?_eq_some.1 h
      have hlen : l.length = img.width := hwf.2 l (h2 ▸ List.getElem_mem h1)
      rw [hwf.1] at h1
      rw [hlen] at h3
      omega
    · cases h
  · cases h

theorem Packs.read {s : Shape} {img : Image} {bits : Nat} (h : Packs s img bits)
    (row col : Int) : readPixel img row col = packedRead s bits row col := by
  obtain ⟨hwf, hw, hh, hrd⟩ := h
  unfold packedRead
  split
  · rename_i hr
    have := hrd row.toNat col.toNat (by omega) (by omega)
    rw [Int.toNat_of_nonneg hr.1, Int.toNat_of_nonneg hr.2.2.1] at this
    exact this
  · rename_i hr
    cases hp : readPixel img row col with
    | none => rfl
    | some p =>
      have := readPixel_some_range hwf hp
      rw [hw, hh] at this
      exact absurd this hr

theorem index_inj {W r c r1 c1 : Nat} (hc : c < W) (hc1 : c1 < W)
    (h : r1 * W + c1 = r * W + c) : r1 = r ∧ c1 = c := by
  have hW : 0 < W := by omega
  have e1 : (r1 * W + c1) / W = r1 := by
    rw [Nat.add_comm, Nat.add_mul_div_right _ _ hW, Nat.div_eq_of_lt hc1, Nat.zero_add]
  have e2 : (r * W + c) / W = r := by
    rw [Nat.add_comm, Nat.add_mul_div_right _ _ hW, Nat.div_eq_of_lt hc, Nat.zero_add]
  have hr : r1 = r := by rw [← e1, ← e2, h]
  subst hr
  exact ⟨rfl, by omega⟩

theorem Packs.write {s : Shape} {img : Image} {bits : Nat} (h : Packs s img bits)
    (row col : Int) {val : Nat} (hv : val < 65536) :
    match packedWrite s bits row col val with
    | none => writePixel img row col val = none
    | some b1 => ∃ img1, writePixel img row col val = some img1 ∧ Packs s img1 b1 ∧
        img1.num_colors = img.num_colors := by
  have hrd := h.read row col
  obtain ⟨hwf, hw, hh, hpt⟩ := h
  unfold packedWrite
  unfold packedRead at hrd
  by_cases hr : 0 ≤ row ∧ row < s.height ∧ 0 ≤ col ∧ col < s.width
  · rw [if_pos hr] at hrd
    rw [if_pos hr]
    obtain ⟨img1, hw1⟩ := writePixel_of_read hrd val
    refine ⟨img1, hw1, ⟨writePixel_WF hw1 hwf, ?_, ?_, ?_⟩, (writePixel_frame hw1).2.2.1⟩
    · rw [(writePixel_frame hw1).1, hw]
    · rw [(writePixel_frame hw1).2.1, hh]
    · intro r c hr1 hc1
      rw [readPixel_writePixel hw1, digit_setDigit _ _ _ _ hv, hpt r c hr1 hc1]
      by_cases he : r * s.width + c = row.toNat * s.width + col.toNat
      · obtain ⟨e1, e2⟩ := index_inj (by omega) hc1 he
        have : (r : Int) = row ∧ (c : Int) = col := by omega
        rw [if_pos this, if_pos he]
      · have : ¬ ((r : Int) = row ∧ (c : Int) = col) := by
          rintro ⟨e1, e2⟩
          apply he
          rw [← e1, ← e2]
          simp
        rw [if_neg this, if_neg he]
  · rw [if_neg hr] at hrd
    rw [if_neg hr]
    cases hw1 : writePixel img row col val with
    | none => rfl
    | some img1 =>
      obtain ⟨l, h1, h2, h3, h4, -⟩ := writePixel_eq hw1
      have : readPixel img row col = some (l[col.toNat]) := by
        unfold readPixel
        simp only [h1, h2, and_self, if_true, h3]
        exact List.getElem?_eq_getElem h4
      rw [hrd] at this
      cases this

theorem SimOut.bind {α β γ δ : Type} {R : α → β → Prop} {Q : γ → δ → Prop}
    {x : Outcome α} {y : Outcome β} {f : α → Outcome γ} {g : β → Outcome δ}
    (h : SimOut R x y) (hf : ∀ a b, R a b → SimOut Q (f a) (g b)) :
    SimOut Q (x.bind f) (y.bind g) := by
  cases x <;> cases y <;> simp only [SimOut] at h
  · exact hf _ _ h
  · trivial
  · trivial

theorem neighbour_sim (s : Shape) (n : Nat)
    (ins : List PixelCoords → PixelCoords → List PixelCoords)
    (background label : Nat) (hl : label < 65536) (guard : Bool) (row col : Int)
    (p : PixelCoords) (st : FillState) (pst : PackedState) (h : SimState s n st pst) :
    SimOut (SimState s n) (fillNeighbour ins background label guard row col p st)
      (packedNeighbour s ins background label guard row col p pst) := by
  obtain ⟨hp, he, hn⟩ := h
  unfold fillNeighbour packedNeighbour
  rw [hp.read row col]
  split
  · cases hq : packedRead s pst.1 row col with
    | none => trivial
    | some q =>
      simp only
      split
      · have hw := hp.write row col hl
        cases hb : packedWrite s pst.1 row col label with
        | none =>
          rw [hb] at hw
          simp only at hw
          rw [hw]
          trivial
        | some b1 =>
          rw [hb] at hw
          obtain ⟨img1, e1, hp1, hn1⟩ := hw
          rw [e1]
          simp only [SimOut]
          refine ⟨hp1, ?_, hn1.trans hn⟩
          simp only [he]
      · exact ⟨hp, he, hn⟩
  · exact ⟨hp, he, hn⟩

theorem visit_sim (s : Shape) (n : Nat)
    (ins : List PixelCoords → PixelCoords → List PixelCoords)
    (background label : Nat) (hl : label < 65536) (W H : Int)
    (p : PixelCoords) (st : FillState) (pst : PackedState) (h : SimState s n st pst) :
    SimOut (SimState s n) (fillVisit ins background label W H p st)
      (packedVisit s ins background label W H p pst) := by
  unfold fillVisit packedVisit
  refine SimOut.bind (neighbour_sim s n ins background label hl _ _ _ _ st pst h) ?_
  intro a1 b1 h1
  refine SimOut.bind (neighbour_sim s n ins background label hl _ _ _ _ a1 b1 h1) ?_
  intro a2 b2 h2
  refine SimOut.bind (neighbour_sim s n ins background label hl _ _ _ _ a2 b2 h2) ?_
  intro a3 b3 h3
  exact neighbour_sim s n ins background label hl _ _ _ _ a3 b3 h3

theorem loop_sim (s : Shape) (n : Nat)
    (ins : List PixelCoords → PixelCoords → List PixelCoords)
    (background label : Nat) (hl : label < 65536) (W H : Int) :
    ∀ (fuel : Nat) (st : FillState) (pst : PackedState), SimState s n st pst →
      SimOut (SimFill s n) (fillLoop ins background label W H fuel st)
        (packedLoop s ins background label W H fuel pst) := by
  intro fuel
  induction fuel with
  | zero =>
    rintro ⟨img, stack, count⟩ ⟨bits, pstack, pcount⟩ ⟨hp, he, hn⟩
    simp only [Prod.mk.injEq] at he
    obtain ⟨rfl, rfl⟩ := he
    cases stack with
    | nil =>
      rw [fillLoop, packedLoop]
      exact ⟨hp, rfl, hn⟩
    | cons p rest =>
      rw [fillLoop, packedLoop]
      trivial
  | succ k ih =>
    rintro ⟨img, stack, count⟩ ⟨bits, pstack, pcount⟩ ⟨hp, he, hn⟩
    simp only [Prod.mk.injEq] at he
    obtain ⟨rfl, rfl⟩ := he
    cases stack with
    | nil =>
      rw [fillLoop, packedLoop]
      exact ⟨hp, rfl, hn⟩
    | cons p rest =>
      rw [fillLoop, packedLoop]
      have hv := visit_sim s n ins background label hl W H p (img, rest, count)
        (bits, rest, count) ⟨hp, rfl, hn⟩
      cases hx : fillVisit ins background label W H p (img, rest, count) <;>
        cases hy : packedVisit s ins background label W H p (bits, rest, count) <;>
        rw [hx, hy] at hv <;> simp only [SimOut] at hv
      · exact ih _ _ hv
      · trivial
      · trivial

theorem Packs.valid {s : Shape} {img : Image} {bits : Nat} (h : Packs s img bits)
    (u v : Int) : ImageIsValidPixel img u v = packedValid s u v := by
  unfold ImageIsValidPixel packedValid
  rw [h.2.1, h.2.2.1]

theorem fill_sim (s : Shape) (ins : List PixelCoords → PixelCoords → List PixelCoords)
    (fuel : Nat) (img : Image) (bits : Nat) (u v : Int) (label : Nat)
    (h : Packs s img bits) (hl : label < 65536) :
    SimOut (SimFill s img.num_colors) (fillWith ins fuel img u v label)
      (packedFill s ins fuel bits u v label) := by
  unfold fillWith packedFill
  rw [h.valid u v, h.read v u, h.2.1, h.2.2.1]
  split
  · exact ⟨h, rfl, rfl⟩
  · cases hq : packedRead s bits v u with
    | none => trivial
    | some q =>
      simp only
      split
      · exact ⟨h, rfl, rfl⟩
      · have hw := h.write v u hl
        cases hb : packedWrite s bits v u label with
        | none =>
          rw [hb] at hw
          simp only at hw
          rw [hw]
          trivial
        | some b1 =>
          rw [hb] at hw
          obtain ⟨img1, e1, hp1, hn1⟩ := hw
          rw [e1]
          exact loop_sim s img.num_colors ins q label hl _ _ fuel _ _ ⟨hp1, rfl, hn1⟩

theorem flood_sim (s : Shape) (n : Nat) (background label : Nat) (hl : label < 65536) :
    ∀ (fuel : Nat) (img : Image) (bits : Nat) (u v : Int), Packs s img bits →
      img.num_colors = n →
      SimOut (SimFill s n) (floodFillRecursive fuel img u v background label)
        (packedFlood s fuel bits u v background label) := by
  intro fuel
  induction fuel with
  | zero =>
    intro img bits u v _ _
    rw [floodFillRecursive, packedFlood]
    trivial
  | succ k ih =>
    intro img bits u v h hn
    rw [floodFillRecursive, packedFlood, h.valid u v, h.read v u]
    split
    · exact ⟨h, rfl, hn⟩
    · cases hq : packedRead s bits v u with
      | none => trivial
      | some q =>
        simp only
        split
        · exact ⟨h, rfl, hn⟩
        · have hw := h.write v u hl
          cases hb : packedWrite s bits v u label with
          | none =>
            rw [hb] at hw
            simp only at hw
            rw [hw]
            trivial
          | some b1 =>
            rw [hb] at hw
            obtain ⟨img1, e1, hp1, hn1⟩ := hw
            rw [e1]
            simp only
            refine SimOut.bind (ih img1 b1 _ _ hp1 (hn1.trans hn)) ?_
            rintro r1 q1 ⟨p1, c1, n1⟩
            refine SimOut.bind (ih r1.1 q1.1 _ _ p1 n1) ?_
            rintro r2 q2 ⟨p2, c2, n2⟩
            refine SimOut.bind (ih r2.1 q2.1 _ _ p2 n2) ?_
            rintro r3 q3 ⟨p3, c3, n3⟩
            refine SimOut.bind (ih r3.1 q3.1 _ _ p3 n3) ?_
            rintro r4 q4 ⟨p4, c4, n4⟩
            refine ⟨p4, ?_, n4⟩
            simp only [c1, c2, c3, c4]

theorem fillRecursive_sim (s : Shape) (fuel : Nat) (img : Image) (bits : Nat) (u v : Int)
    (label : Nat) (h : Packs s img bits) (hl : label < 65536) :
    SimOut (SimFill s img.num_colors) (ImageRegionFillingRecursive fuel img u v label)
      (packedFillRecursive s fuel bits u v label) := by
  unfold ImageRegionFillingRecursive packedFillRecursive
  rw [h.valid u v, h.read v u]
  split
  · exact ⟨h, rfl, rfl⟩
  · cases hq : packedRead s bits v u with
    | none => trivial
    | some q =>
      simp only
      split
      · exact ⟨h, rfl, rfl⟩
      · exact flood_sim s img.num_colors q label hl fuel img bits u v h rfl

theorem seg_sim (s : Shape) (f : FillingFunction)
    (g : Nat → Int → Int → Nat → Outcome (Nat × Nat))
    (hfg : ∀ (img : Image) (bits : Nat) (u v : Int) (label : Nat), Packs s img bits →
      label < 65536 → SimOut (SimFill s img.num_colors) (f img u v label) (g bits u v label)) :
    ∀ (l : List (Nat × Nat)) (st : SegState) (pst : PackedSeg), Packs s st.img pst.bits →
      st.regionCount = pst.regionCount → st.currentLabel = pst.currentLabel →
      st.img.num_colors = pst.numColors →
      SimOut (SimSeg s) (segLoop f l st) (packedSegLoop s g l pst) := by
  intro l
  induction l with
  | nil =>
    intro st pst hp hc _ hn
    rw [segLoop, packedSegLoop]
    exact ⟨hp, hc, hn⟩
  | cons vu rest ih =>
    intro st pst hp hc hlab hn
    rw [segLoop, packedSegLoop, hp.read, hlab]
    cases hq : packedRead s pst.bits vu.1 vu.2 with
    | none => trivial
    | some q =>
      simp only
      split
      · split
        · exact ⟨hp, hc, hn⟩
        · rename_i hlt
          have hl : pst.currentLabel < 65536 := by
            unfold FIXED_LUT_SIZE at hlt
            omega
          have hp1 : Packs s { st.img with
              LUT := lutStore st.img.LUT pst.currentLabel st.currentColor,
              num_colors := st.img.num_colors + 1 } pst.bits := hp
          have hs := hfg _ pst.bits (toInt32 vu.2) (toInt32 vu.1) pst.currentLabel hp1 hl
          cases hx : f { st.img with
              LUT := lutStore st.img.LUT pst.currentLabel st.currentColor,
              num_colors := st.img.num_colors + 1 } (toInt32 vu.2) (toInt32 vu.1)
              pst.currentLabel <;>
            cases hy : g pst.bits (toInt32 vu.2) (toInt32 vu.1) pst.currentLabel <;>
            rw [hx, hy] at hs <;> simp only [SimOut] at hs
          · obtain ⟨h1, h2, h3⟩ := hs
            refine ih _ _ h1 ?_ ?_ ?_
            · simp only [hc]
            · simp only [hlab]
            · simp only [h3, hn]
          · trivial
          · trivial
      · exact ih st pst hp hc hlab hn

theorem segmentation_sim (s : Shape) (f : FillingFunction)
    (g : Nat → Int → Int → Nat → Outcome (Nat × Nat))
    (hfg : ∀ (img : Image) (bits : Nat) (u v : Int) (label : Nat), Packs s img bits →
      label < 65536 → SimOut (SimFill s img.num_colors) (f img u v label) (g bits u v label))
    (img : Image) (bits : Nat) (h : Packs s img bits) (a b : Nat)
    (hev : packedSummary (packedSegLoop s g (scanOrder s.width s.height)
      ⟨bits, 0, img.num_colors, img.num_colors⟩) = some (a, b)) :
    ∃ img1 : Image, ImageSegmentation img f = .ok (img1, a) ∧ img1.num_colors = b := by
  have hs := seg_sim s f g hfg (scanOrder s.width s.height)
    { img := img, regionCount := 0, currentColor := 0x0000FF, currentLabel := img.num_colors }
    ⟨bits, 0, img.num_colors, img.num_colors⟩ h rfl rfl rfl
  unfold ImageSegmentation
  rw [h.2.1, h.2.2.1]
  cases hy : packedSegLoop s g (scanOrder s.width s.height)
      ⟨bits, 0, img.num_colors, img.num_colors⟩ with
  | ok p =>
    rw [hy] at hs hev
    simp only [packedSummary, Option.some.injEq, Prod.mk.injEq] at hev
    cases hx : segLoop f (scanOrder s.width s.height)
        { img := img, regionCount := 0, currentColor := 0x0000FF,
          currentLabel := img.num_colors } with
    | ok r =>
      rw [hx] at hs
      obtain ⟨-, h2, h3⟩ := hs
      refine ⟨r.1, ?_, h3.trans hev.2⟩
      rw [← hev.1, ← h2]
    | outOfBounds => rw [hx] at hs; exact absurd hs (by simp [SimOut])
    | outOfFuel => rw [hx] at hs; exact absurd hs (by simp [SimOut])
  | outOfBounds => rw [hy] at hev; cases hev
  | outOfFuel => rw [hy] at hev; cases hev

/-! ## The loop on natural coordinates is the packed loop -/

theorem blt_eq_decide (a b : Nat) : Nat.blt a b = decide (a < b) := by
  rw [Bool.eq_iff_iff, Nat.blt_eq, decide_eq_true_iff]

theorem beq_eq_decide (a b : Nat) : Nat.beq a b = decide (a = b) := by
  rw [Bool.eq_iff_iff, decide_eq_true_iff]
  exact ⟨Nat.eq_of_beq_eq_true, fun h => h ▸ Nat.beq_refl a⟩

theorem fastNeighbour_eq (w h : Nat) (lifo : Bool) (background label : Nat) (guard : Bool)
    (row col : Nat) (p : Nat × Nat) (st : FastState) (rowI colI : Int) (pc : PixelCoords)
    (hg : guard = true → rowI = row ∧ colI = col ∧ pc = ⟨(p.1 : Int), (p.2 : Int)⟩) :
    (fastNeighbour w h lifo background label guard row col p st).bind
        (fun s => .ok s.toPacked) =
      packedNeighbour ⟨w, h⟩ (containerInsert lifo) background label guard rowI colI pc
        st.toPacked := by
  cases guard with
  | false => simp [fastNeighbour, packedNeighbour, Outcome.bind]
  | true =>
    obtain ⟨rfl, rfl, rfl⟩ := hg rfl
    unfold fastNeighbour packedNeighbour packedRead packedWrite
    rw [blt_eq_decide, blt_eq_decide, beq_eq_decide]
    by_cases hr : row < h
    · by_cases hc : col < w
      · have hI : (0 : Int) ≤ row ∧ (row : Int) < (h : Nat) ∧ (0 : Int) ≤ col ∧
            (col : Int) < (w : Nat) := by
          refine ⟨by omega, by omega, by omega, by omega⟩
        by_cases hq : digit st.bits (row * w + col) = background
        · cases lifo <;>
            simp [hr, hc, hq, Outcome.bind, FastState.toPacked, containerInsert,
              FastState.coords, StackPush, QueueEnqueue]
        · simp [hr, hc, hq, Outcome.bind, FastState.toPacked]
      · simp [hr, hc, Outcome.bind, FastState.toPacked]
    · simp [hr, Outcome.bind, FastState.toPacked]

theorem fastVisit_eq (w h : Nat) (lifo : Bool) (background label : Nat) (u v : Nat)
    (st : FastState) :
    (fastVisit w h lifo background label u v st).bind (fun s => .ok s.toPacked) =
      packedVisit ⟨w, h⟩ (containerInsert lifo) background label (w : Int) (h : Int)
        ⟨u, v⟩ st.toPacked := by
  have g1 : Nat.blt (u + 1) w = decide ((u : Int) + 1 < w) := by
    rw [blt_eq_decide, decide_eq_decide]; omega
  have g2 : Nat.blt 0 u = decide ((u : Int) > 0) := by
    rw [blt_eq_decide, decide_eq_decide]; omega
  have g3 : Nat.blt (v + 1) h = decide ((v : Int) + 1 < h) := by
    rw [blt_eq_decide, decide_eq_decide]; omega
  have g4 : Nat.blt 0 v = decide ((v : Int) > 0) := by
    rw [blt_eq_decide, decide_eq_decide]; omega
  have e1 := fun s => fastNeighbour_eq w h lifo background label (Nat.blt (u + 1) w) v (u + 1)
    (u + 1, v) s (v : Int) ((u : Int) + 1) ⟨(u : Int) + 1, v⟩
    (fun _ => ⟨rfl, by push_cast; rfl, by simp⟩)
  have e2 := fun s => fastNeighbour_eq w h lifo background label (Nat.blt 0 u) v (u - 1)
    (u - 1, v) s (v : Int) ((u : Int) - 1) ⟨(u : Int) - 1, v⟩
    (fun hg => by
      rw [blt_eq_decide, decide_eq_true_iff] at hg
      have : ((u - 1 : Nat) : Int) = (u : Int) - 1 := by omega
      exact ⟨rfl, this.symm, by simp [this]⟩)
  have e3 := fun s => fastNeighbour_eq w h lifo background label (Nat.blt (v + 1) h) (v + 1) u
    (v + 1, u) s ((v : Int) + 1) (u : Int) ⟨(v : Int) + 1, u⟩
    (fun _ => ⟨by push_cast; rfl, rfl, by simp⟩)
  have e4 := fun s => fastNeighbour_eq w h lifo background label (Nat.blt 0 v) (v - 1) u
    (v - 1, u) s ((v : Int) - 1) (u : Int) ⟨(v : Int) - 1, u⟩
    (fun hg => by
      rw [blt_eq_decide, decide_eq_true_iff] at hg
      have : ((v - 1 : Nat) : Int) = (v : Int) - 1 := by omega
      exact ⟨this.symm, rfl, by simp [this]⟩)
  rw [g1] at e1
  rw [g2] at e2
  rw [g3] at e3
  rw [g4] at e4
  unfold fastVisit packedVisit
  dsimp only
  rw [← e1 st, g1]
  cases fastNeighbour w h lifo background label (decide ((u : Int) + 1 < w)) v (u + 1)
      (u + 1, v) st with
  | outOfBounds => rfl
  | outOfFuel => rfl
  | ok s1 =>
    simp only [Outcome.bind]
    rw [← e2 s1, g2]
    cases fastNeighbour w h lifo background label (decide ((u : Int) > 0)) v (u - 1)
        (u - 1, v) s1 with
    | outOfBounds => rfl
    | outOfFuel => rfl
    | ok s2 =>
      simp only [Outcome.bind]
      rw [← e3 s2, g3]
      cases fastNeighbour w h lifo background label (decide ((v : Int) + 1 < h)) (v + 1) u
          (v + 1, u) s2 with
      | outOfBounds => rfl
      | outOfFuel => rfl
      | ok s3 =>
        simp only [Outcome.bind]
        rw [← e4 s3, g4]
        rfl

theorem fastPop_none {st : FastState} (h : fastPop st = none) : st.coords = [] := by
  unfold fastPop at h
  unfold FastState.coords
  cases hf : st.front with
  | cons p rest => rw [hf] at h; cases h
  | nil =>
    rw [hf] at h
    cases hb : st.back.reverse with
    | cons p rest => rw [hb] at h; cases h
    | nil => simp

theorem fastPop_some {st st1 : FastState} {p : Nat × Nat} (h : fastPop st = some (p, st1)) :
    st.coords = ⟨(p.1 : Int), (p.2 : Int)⟩ :: st1.coords ∧ st1.bits = st.bits ∧
      st1.count = st.count := by
  unfold fastPop at h
  unfold FastState.coords
  cases hf : st.front with
  | cons q rest =>
    rw [hf] at h
    simp only [Option.some.injEq, Prod.mk.injEq] at h
    obtain ⟨rfl, rfl⟩ := h
    simp
  | nil =>
    rw [hf] at h
    cases hb : st.back.reverse with
    | nil => rw [hb] at h; cases h
    | cons q rest =>
      rw [hb] at h
      simp only [Option.some.injEq, Prod.mk.injEq] at h
      obtain ⟨rfl, rfl⟩ := h
      simp

theorem fastLoop_eq (w h : Nat) (lifo : Bool) (background label : Nat) :
    ∀ (fuel : Nat) (st : FastState),
      fastLoop w h lifo background label fuel st =
        packedLoop ⟨w, h⟩ (containerInsert lifo) background label (w : Int) (h : Int) fuel
          st.toPacked := by
  intro fuel
  induction fuel with
  | zero =>
    intro st
    unfold fastLoop FastState.toPacked
    cases hp : fastPop st with
    | none => rw [fastPop_none hp]; rfl
    | some r =>
      obtain ⟨p, st1⟩ := r
      rw [(fastPop_some hp).1]; rfl
  | succ n ih =>
    intro st
    unfold fastLoop FastState.toPacked
    cases hp : fastPop st with
    | none => rw [fastPop_none hp]; rfl
    | some r =>
      obtain ⟨p, st1⟩ := r
      obtain ⟨hc, hb, hn⟩ := fastPop_some hp
      rw [hc, packedLoop]
      have hv := fastVisit_eq w h lifo background label p.1 p.2 st1
      unfold FastState.toPacked at hv
      rw [hb, hn] at hv
      rw [← hv]
      dsimp only
      cases fastVisit w h lifo background label p.1 p.2 st1 with
      | outOfBounds => rfl
      | outOfFuel => rfl
      | ok st2 =>
        simp only [Outcome.bind]
        exact ih st2

theorem fastFill_eq (w h : Nat) (hw : w < 2 ^ 31) (hh : h < 2 ^ 31) (lifo : Bool)
    (fuel bits : Nat) (u v : Int) (label : Nat) :
    fastFill w h lifo fuel bits u v label =
      packedFill ⟨w, h⟩ (containerInsert lifo) fuel bits u v label := by
  unfold fastFill packedFill
  by_cases hv : packedValid ⟨w, h⟩ u v = true
  · have hW : toInt32 w = (w : Int) := toInt32_of_lt hw
    have hH : toInt32 h = (h : Int) := toInt32_of_lt hh
    have hv1 := hv
    unfold packedValid at hv1
    simp only [Bool.and_eq_true, decide_eq_true_iff, hW, hH] at hv1
    obtain ⟨⟨⟨h1, h2⟩, h3⟩, h4⟩ := hv1
    have hu : ((u.toNat : Nat) : Int) = u := Int.toNat_of_nonneg h1
    have hvv : ((v.toNat : Nat) : Int) = v := Int.toNat_of_nonneg h3
    have hb : (Nat.blt v.toNat h && Nat.blt u.toNat w) = true := by
      rw [blt_eq_decide, blt_eq_decide, Bool.and_eq_true, decide_eq_true_iff,
        decide_eq_true_iff]
      omega
    have hI : (0 : Int) ≤ v ∧ v < (h : Nat) ∧ (0 : Int) ≤ u ∧ u < (w : Nat) :=
      ⟨h3, h4, h1, h2⟩
    simp only [hv, Bool.not_true, Bool.false_eq_true, if_false, hb, packedRead, packedWrite,
      hI, and_self, if_true, hW, hH]
    by_cases hl : digit bits (v.toNat * w + u.toNat) = label
    · simp only [hl, if_true]
    · simp only [hl, if_false]
      rw [fastLoop_eq]
      have : containerInsert lifo [] ⟨u, v⟩ = [⟨u, v⟩] := by
        cases lifo <;> rfl
      rw [this]
      simp only [FastState.toPacked, FastState.coords, List.reverse_nil, List.append_nil,
        List.map_cons, List.map_nil, hu, hvv]
  · simp only [Bool.not_eq_true] at hv
    simp only [hv, Bool.not_false, if_true]

theorem packedFlood_invalid (s : Shape) (fuel bits : Nat) (u v : Int) (background label : Nat)
    (h : packedValid s u v = false) :
    packedFlood s fuel bits u v background label = fastSkip fuel bits := by
  cases fuel with
  | zero => rfl
  | succ n => simp [packedFlood, fastSkip, h]

theorem packedValid_nat (w h : Nat) (hw : w < 2 ^ 31) (hh : h < 2 ^ 31) (u v : Nat) :
    packedValid ⟨w, h⟩ u v = (Nat.blt u w && Nat.blt v h) := by
  unfold packedValid
  rw [toInt32_of_lt hw, toInt32_of_lt hh, blt_eq_decide, blt_eq_decide, Bool.eq_iff_iff]
  simp only [Bool.and_eq_true, decide_eq_true_iff]
  omega

theorem packedRead_nat (w h bits row col : Nat) (hr : row < h) (hc : col < w) :
    packedRead ⟨w, h⟩ bits row col = some (digit bits (row * w + col)) := by
  unfold packedRead
  have hI : (0 : Int) ≤ row ∧ (row : Int) < (h : Nat) ∧ (0 : Int) ≤ col ∧
      (col : Int) < (w : Nat) := ⟨by omega, by omega, by omega, by omega⟩
  simp only [hI, and_self, if_true, Int.toNat_ofNat]

theorem packedWrite_nat (w h bits row col val : Nat) (hr : row < h) (hc : col < w) :
    packedWrite ⟨w, h⟩ bits row col val = some (setDigit bits (row * w + col) val) := by
  unfold packedWrite
  have hI : (0 : Int) ≤ row ∧ (row : Int) < (h : Nat) ∧ (0 : Int) ≤ col ∧
      (col : Int) < (w : Nat) := ⟨by omega, by omega, by omega, by omega⟩
  simp only [hI, and_self, if_true, Int.toNat_ofNat]

theorem fastFlood_eq (w h : Nat) (hw : w < 2 ^ 31) (hh : h < 2 ^ 31) :
    ∀ (fuel bits u v background label : Nat),
      fastFlood w h fuel bits u v background label =
        packedFlood ⟨w, h⟩ fuel bits u v background label := by
  intro fuel
  induction fuel with
  | zero => intro bits u v background label; rfl
  | succ n ih =>
    intro bits u v background label
    unfold fastFlood packedFlood
    rw [packedValid_nat w h hw hh u v]
    cases hval : (Nat.blt u w && Nat.blt v h) with
    | false => rfl
    | true =>
      rw [Bool.and_eq_true, blt_eq_decide, blt_eq_decide, decide_eq_true_iff,
        decide_eq_true_iff] at hval
      simp only [Bool.not_true, Bool.false_eq_true, if_false,
        packedRead_nat w h bits v u hval.2 hval.1, packedWrite_nat w h bits v u label hval.2 hval.1]
      rw [beq_eq_decide]
      by_cases hq : digit bits (v * w + u) = background
      · simp only [hq, decide_True, ne_eq, not_true_eq_false, if_false]
        have e1 : ((u : Int) + 1) = ((u + 1 : Nat) : Int) := by push_cast; rfl
        have e3 : ((v : Int) + 1) = ((v + 1 : Nat) : Int) := by push_cast; rfl
        rw [e1, e3, ← ih]
        cases fastFlood w h n (setDigit bits (v * w + u) label) (u + 1) v background label with
        | outOfBounds => rfl
        | outOfFuel => rfl
        | ok r1 =>
          simp only [Outcome.bind]
          have e2 : cond (Nat.blt 0 u) (fastFlood w h n r1.1 (u - 1) v background label)
              (fastSkip n r1.1) =
              packedFlood ⟨w, h⟩ n r1.1 ((u : Int) - 1) v background label := by
            cases hg : Nat.blt 0 u with
            | false =>
              rw [blt_eq_decide, decide_eq_false_iff_not] at hg
              rw [cond_false, packedFlood_invalid]
              unfold packedValid
              simp only [Bool.and_eq_false_iff, decide_eq_false_iff_not]
              omega
            | true =>
              rw [blt_eq_decide, decide_eq_true_iff] at hg
              have : ((u : Int) - 1) = ((u - 1 : Nat) : Int) := by omega
              rw [cond_true, this, ← ih]
          rw [e2]
          cases packedFlood ⟨w, h⟩ n r1.1 ((u : Int) - 1) v background label with
          | outOfBounds => rfl
          | outOfFuel => rfl
          | ok r2 =>
            simp only [Outcome.bind]
            rw [← ih]
            cases fastFlood w h n r2.1 u (v + 1) background label with
            | outOfBounds => rfl
            | outOfFuel => rfl
            | ok r3 =>
              simp only [Outcome.bind]
              have e4 : cond (Nat.blt 0 v) (fastFlood w h n r3.1 u (v - 1) background label)
                  (fastSkip n r3.1) =
                  packedFlood ⟨w, h⟩ n r3.1 u ((v : Int) - 1) background label := by
                cases hg : Nat.blt 0 v with
                | false =>
                  rw [blt_eq_decide, decide_eq_false_iff_not] at hg
                  rw [cond_false, packedFlood_invalid]
                  unfold packedValid
                  simp only [Bool.and_eq_false_iff, decide_eq_false_iff_not]
                  omega
                | true =>
                  rw [blt_eq_decide, decide_eq_true_iff] at hg
                  have : ((v : Int) - 1) = ((v - 1 : Nat) : Int) := by omega
                  rw [cond_true, this, ← ih]
              rw [e4]
              cases packedFlood ⟨w, h⟩ n r3.1 u ((v : Int) - 1) background label with
              | outOfBounds => rfl
              | outOfFuel => rfl
              | ok r4 => rfl
      · simp only [hq, decide_False, ne_eq, not_false_eq_true, if_true]

theorem fastFillRecursive_eq (w h : Nat) (hw : w < 2 ^ 31) (hh : h < 2 ^ 31)
    (fuel bits : Nat) (u v : Int) (label : Nat) :
    fastFillRecursive w h fuel bits u v label =
      packedFillRecursive ⟨w, h⟩ fuel bits u v label := by
  unfold fastFillRecursive packedFillRecursive
  by_cases hv : packedValid ⟨w, h⟩ u v = true
  · have hv1 := hv
    unfold packedValid at hv1
    simp only [Bool.and_eq_true, decide_eq_true_iff, toInt32_of_lt hw, toInt32_of_lt hh] at hv1
    obtain ⟨⟨⟨h1, h2⟩, h3⟩, h4⟩ := hv1
    have hu : ((u.toNat : Nat) : Int) = u := Int.toNat_of_nonneg h1
    have hvv : ((v.toNat : Nat) : Int) = v := Int.toNat_of_nonneg h3
    have hr := packedRead_nat w h bits v.toNat u.toNat (by omega) (by omega)
    rw [hu, hvv] at hr
    simp only [hv, Bool.not_true, Bool.false_eq_true, if_false, hr]
    by_cases hl : digit bits (v.toNat * w + u.toNat) = label
    · simp only [hl, if_true]
    · simp only [hl, if_false]
      rw [fastFlood_eq w h hw hh, hu, hvv]
  · simp only [Bool.not_eq_true] at hv
    simp only [hv, Bool.not_false, if_true]

theorem fastSegLoop_eq (w h : Nat) (fill : Nat → Int → Int → Nat → Outcome (Nat × Nat)) :
    ∀ (l : List (Nat × Nat)) (st : PackedSeg),
      (∀ vu ∈ l, vu.1 < 2 ^ 31 ∧ vu.2 < 2 ^ 31) →
      fastSegLoop w h fill l st = packedSegLoop ⟨w, h⟩ fill l st := by
  intro l
  induction l with
  | nil => intro st _; rfl
  | cons vu rest ih =>
    intro st hl
    have hrest : ∀ x ∈ rest, x.1 < 2 ^ 31 ∧ x.2 < 2 ^ 31 :=
      fun x hx => hl x (List.mem_cons_of_mem _ hx)
    obtain ⟨b1, b2⟩ := hl vu (List.mem_cons_self _ _)
    unfold fastSegLoop packedSegLoop
    rw [blt_eq_decide, blt_eq_decide, beq_eq_decide]
    by_cases hr : vu.1 < h
    · by_cases hc : vu.2 < w
      · rw [packedRead_nat w h st.bits vu.1 vu.2 hr hc]
        simp only [hr, hc, decide_True, Bool.and_self]
        by_cases hq : digit st.bits (vu.1 * w + vu.2) = WHITE
        · simp only [hq, decide_True, if_true]
          by_cases hfull : FIXED_LUT_SIZE ≤ st.currentLabel
          · have : Nat.ble FIXED_LUT_SIZE st.currentLabel = true := Nat.ble_eq_true_of_le hfull
            simp only [this, ge_iff_le, hfull, if_true]
          · have : Nat.ble FIXED_LUT_SIZE st.currentLabel = false := by
              rw [← Bool.not_eq_true, Nat.ble_eq]; exact hfull
            simp only [this, ge_iff_le, hfull, if_false]
            rw [toInt32_of_lt b1, toInt32_of_lt b2]
            cases fill st.bits (Int.ofNat vu.2) (Int.ofNat vu.1) st.currentLabel with
            | outOfBounds => rfl
            | outOfFuel => rfl
            | ok r => exact ih _ hrest
        · simp only [hq, decide_False, if_false]
          exact ih _ hrest
      · have : ¬ ((0 : Int) ≤ vu.1 ∧ (vu.1 : Int) < (h : Nat) ∧ (0 : Int) ≤ vu.2 ∧
            (vu.2 : Int) < (w : Nat)) := by
          intro hh; omega
        simp only [packedRead, this, if_false, hc, decide_False, Bool.and_false]
    · have : ¬ ((0 : Int) ≤ vu.1 ∧ (vu.1 : Int) < (h : Nat) ∧ (0 : Int) ≤ vu.2 ∧
          (vu.2 : Int) < (w : Nat)) := by
        intro hh; omega
      simp only [packedRead, this, if_false, hr, decide_False, Bool.false_and]

theorem scanOrder_bound (W H : Nat) :
    ∀ vu ∈ scanOrder W H, vu.1 < H ∧ vu.2 < W := by
  intro vu hvu
  unfold scanOrder at hvu
  simp only [List.mem_flatMap, List.mem_range, List.mem_map] at hvu
  obtain ⟨v, hv, u, hu, rfl⟩ := hvu
  exact ⟨hv, hu⟩

theorem fastSeg_fill (w h : Nat) (hw : w < 2 ^ 31) (hh : h < 2 ^ 31) (lifo : Bool)
    (fuel : Nat) (st : PackedSeg) :
    packedSegLoop ⟨w, h⟩ (packedFill ⟨w, h⟩ (containerInsert lifo) fuel) (scanOrder w h) st =
      fastSegLoop w h (fastFill w h lifo fuel) (scanOrder w h) st := by
  rw [fastSegLoop_eq w h _ _ _ (fun vu hvu =>
    ⟨lt_trans (scanOrder_bound w h vu hvu).1 hh, lt_trans (scanOrder_bound w h vu hvu).2 hw⟩)]
  congr 1
  funext bits u v label
  exact (fastFill_eq w h hw hh lifo fuel bits u v label).symm

theorem fastSeg_stack (w h : Nat) (hw : w < 2 ^ 31) (hh : h < 2 ^ 31) (fuel : Nat)
    (st : PackedSeg) :
    packedSegLoop ⟨w, h⟩ (packedFill ⟨w, h⟩ StackPush fuel) (scanOrder w h) st =
      fastSegLoop w h (fastFill w h true fuel) (scanOrder w h) st :=
  fastSeg_fill w h hw hh true fuel st

theorem fastSeg_queue (w h : Nat) (hw : w < 2 ^ 31) (hh : h < 2 ^ 31) (fuel : Nat)
    (st : PackedSeg) :
    packedSegLoop ⟨w, h⟩ (packedFill ⟨w, h⟩ QueueEnqueue fuel) (scanOrder w h) st =
      fastSegLoop w h (fastFill w h false fuel) (scanOrder w h) st :=
  fastSeg_fill w h hw hh false fuel st

theorem fastFill_stack (w h : Nat) (hw : w < 2 ^ 31) (hh : h < 2 ^ 31)
    (fuel bits : Nat) (u v : Int) (label : Nat) :
    packedFill ⟨w, h⟩ StackPush fuel bits u v label = fastFill w h true fuel bits u v label :=
  (fastFill_eq w h hw hh true fuel bits u v label).symm

theorem fastFill_queue (w h : Nat) (hw : w < 2 ^ 31) (hh : h < 2 ^ 31)
    (fuel bits : Nat) (u v : Int) (label : Nat) :
    packedFill ⟨w, h⟩ QueueEnqueue fuel bits u v label =
      fastFill w h false fuel bits u v label :=
  (fastFill_eq w h hw hh false fuel bits u v label).symm

theorem fastSeg_recursive (w h : Nat) (hw : w < 2 ^ 31) (hh : h < 2 ^ 31)
    (fuel : Nat) (st : PackedSeg) :
    packedSegLoop ⟨w, h⟩ (packedFillRecursive ⟨w, h⟩ fuel) (scanOrder w h) st =
      fastSegLoop w h (fastFillRecursive w h fuel) (scanOrder w h) st := by
  rw [fastSegLoop_eq w h _ _ _ (fun vu hvu =>
    ⟨lt_trans (scanOrder_bound w h vu hvu).1 hh, lt_trans (scanOrder_bound w h vu hvu).2 hw⟩)]
  congr 1
  funext bits u v label
  exact (fastFillRecursive_eq w h hw hh fuel bits u v label).symm

/-! ## Concrete images -/

theorem gridOf_WF {img : Image} {w h : Nat} (f : Nat → Nat → Nat)
    (hw : img.width = w) (hh : img.height = h)
    (hg : img.image = (List.range h).map fun i => (List.range w).map fun j => f i j) :
    img.WF := by
  constructor
  · rw [hg, hh]
    simp
  · intro r hr
    rw [hg] at hr
    simp only [List.mem_map] at hr
    obtain ⟨a, -, rfl⟩ := hr
    simp [hw]

theorem readPixel_gridOf {img : Image} {w h : Nat} (f : Nat → Nat → Nat)
    (hg : img.image = (List.range h).map fun i => (List.range w).map fun j => f i j)
    {r c : Nat} (hr : r < h) (hc : c < w) : readPixel img r c = some (f r c) := by
  unfold readPixel
  simp only [Int.ofNat_zero_le, and_self, if_true, Int.toNat_ofNat, hg, List.getElem?_map,
    List.getElem?_range hr, Option.map_some', List.getElem?_range hc]

theorem chess_create :
    ImageCreateChess 60 60 30 0x000000 = some
      { width := 60, height := 60,
        image := (List.range 60).map fun i => (List.range 60).map fun j =>
          if (i / 30 + j / 30) % 2 ≠ 0 then 0 else 1,
        num_colors := 2, LUT := [0xffffff, 0x000000] } := by
  rfl

theorem chess_digits : ∀ r < 60, ∀ c < 60,
    digit chessBits (r * 60 + c) = if (r / 30 + c / 30) % 2 ≠ 0 then 0 else 1 := by
  decide!

theorem chess_packs {img : Image} (h : ImageCreateChess 60 60 30 0x000000 = some img) :
    Packs ⟨60, 60⟩ img chessBits ∧ img.num_colors = 2 := by
  rw [chess_create] at h
  cases h
  refine ⟨⟨gridOf_WF (fun i j => if (i / 30 + j / 30) % 2 ≠ 0 then 0 else 1) rfl rfl rfl,
    rfl, rfl, ?_⟩, rfl⟩
  intro r c hr hc
  rw [readPixel_gridOf (fun i j => if (i / 30 + j / 30) % 2 ≠ 0 then 0 else 1) rfl hr hc,
    chess_digits r hr c hc]

theorem chess_stack_eval :
    packedSummary (packedSegLoop ⟨60, 60⟩ (packedFill ⟨60, 60⟩ StackPush 3600)
      (scanOrder 60 60) ⟨chessBits, 0, 2, 2⟩) = some (1, 3) := by
  rw [fastSeg_stack 60 60 (by decide) (by decide)]
  decide!

theorem chess_recursive_eval :
    packedSummary (packedSegLoop ⟨60, 60⟩ (packedFillRecursive ⟨60, 60⟩ 3601)
      (scanOrder 60 60) ⟨chessBits, 0, 2, 2⟩) = some (2, 4) := by
  rw [fastSeg_recursive 60 60 (by decide) (by decide)]
  decide!

theorem chess_stack_result {img : Image} (h : ImageCreateChess 60 60 30 0x000000 = some img) :
    ∃ img1 : Image, ImageSegmentation img (ImageRegionFillingWithSTACK 3600) = .ok (img1, 1) ∧
      img1.num_colors = 3 := by
  obtain ⟨hp, hn⟩ := chess_packs h
  refine segmentation_sim ⟨60, 60⟩ _ (packedFill ⟨60, 60⟩ StackPush 3600)
    (fun img bits u v label hp hl => fill_sim _ StackPush 3600 img bits u v label hp hl)
    img chessBits hp 1 3 ?_
  rw [hn]
  exact chess_stack_eval

theorem chess_recursive_result {img : Image}
    (h : ImageCreateChess 60 60 30 0x000000 = some img) :
    ∃ img1 : Image, ImageSegmentation img (ImageRegionFillingRecursive 3601) = .ok (img1, 2) ∧
      img1.num_colors = 4 := by
  obtain ⟨hp, hn⟩ := chess_packs h
  refine segmentation_sim ⟨60, 60⟩ _ (packedFillRecursive ⟨60, 60⟩ 3601)
    (fun img bits u v label hp hl => fillRecursive_sim _ 3601 img bits u v label hp hl)
    img chessBits hp 2 4 ?_
  rw [hn]
  exact chess_recursive_eval

theorem blank_packs (w h : Nat) : Packs ⟨w, h⟩ (ImageCreate w h) 0 := by
  refine ⟨ImageCreate_WF w h, rfl, rfl, ?_⟩
  intro r c hr hc
  have hd : digit 0 (r * w + c) = 0 := by simp [digit]
  rw [hd]
  unfold readPixel
  simp [ImageCreate, AllocateRowArray, List.getElem?_replicate, hr, hc]

theorem fill_count_of_packed (s : Shape)
    (ins : List PixelCoords → PixelCoords → List PixelCoords) (fuel : Nat) (img : Image)
    (bits : Nat) (u v : Int) (label c : Nat) (h : Packs s img bits) (hl : label < 65536)
    (hev : packedCount (packedFill s ins fuel bits u v label) = some c) :
    ∃ img1 : Image, fillWith ins fuel img u v label = .ok (img1, c) := by
  have hs := fill_sim s ins fuel img bits u v label h hl
  cases hy : packedFill s ins fuel bits u v label with
  | ok p =>
    rw [hy] at hs hev
    simp only [packedCount, Option.some.injEq] at hev
    cases hx : fillWith ins fuel img u v label with
    | ok r =>
      rw [hx] at hs
      obtain ⟨-, h2, -⟩ := hs
      exact ⟨r.1, by rw [← hev, ← h2]⟩
    | outOfBounds => rw [hx] at hs; exact absurd hs (by simp [SimOut])
    | outOfFuel => rw [hx] at hs; exact absurd hs (by simp [SimOut])
  | outOfBounds => rw [hy] at hev; cases hev
  | outOfFuel => rw [hy] at hev; cases hev

theorem blank30_stack_eval :
    packedCount (packedFill ⟨30, 30⟩ StackPush 900 0 15 15 2) = some 900 := by
  rw [fastFill_stack 30 30 (by decide) (by decide)]
  decide!

theorem blank30_queue_eval :
    packedCount (packedFill ⟨30, 30⟩ QueueEnqueue 900 0 15 15 2) = some 900 := by
  rw [fastFill_queue 30 30 (by decide) (by decide)]
  decide!

/-- C7: on the blank 3 x 3 image, seed (0, 0), label 2, `ImageRegionFillingWithSTACK`
returns 8, not 9, and the pixel of row 2, column 0 is still WHITE (for every bound of
8 iterations or more); the instance of the test, `ImageCreate(30,30)` filled from
(15, 15) with label 2, does return 900. -/
theorem stack_blank_misses_pixel :
    (∀ n : Nat, ImageRegionFillingWithSTACK (8 + n) (ImageCreate 3 3) 0 0 2 =
      .ok ({ ImageCreate 3 3 with image := [[2, 2, 2], [2, 2, 2], [0, 2, 2]] }, 8)) ∧
    (∀ n : Nat, ∃ img1 : Image,
      ImageRegionFillingWithSTACK (900 + n) (ImageCreate 30 30) 15 15 2 = .ok (img1, 900)) := by
  refine ⟨fun n => fillWith_fuel_mono StackPush 8 n _ _ _ _ _ (by decide), fun n => ?_⟩
  obtain ⟨img1, h⟩ := fill_count_of_packed ⟨30, 30⟩ StackPush 900 (ImageCreate 30 30) 0 15 15 2
    900 (blank_packs 30 30) (by decide) blank30_stack_eval
  exact ⟨img1, fillWith_fuel_mono StackPush 900 n _ _ _ _ _ h⟩

/-- C8: on the blank image of width 1 and height 2, seed (0, 0), label 2,
`ImageRegionFillingWithQUEUE` never returns: with two iterations or more it reads
`img->image[1][1]`, outside the row of one pixel; the instance of the test,
`ImageCreate(30,30)` filled from (15, 15) with label 2, does return 900. -/
theorem queue_blank_out_of_bounds :
    (∀ n : Nat, ImageRegionFillingWithQUEUE (n + 2) (ImageCreate 1 2) 0 0 2 = .outOfBounds) ∧
    (∀ (fuel : Nat) (r : Image × Nat),
      ImageRegionFillingWithQUEUE fuel (ImageCreate 1 2) 0 0 2 ≠ .ok r) ∧
    (∀ n : Nat, ∃ img1 : Image,
      ImageRegionFillingWithQUEUE (900 + n) (ImageCreate 30 30) 15 15 2 = .ok (img1, 900)) := by
  refine ⟨fun _ => rfl, ?_, fun n => ?_⟩
  · intro fuel r h
    rcases fuel with _ | _ | n
    · have e : ImageRegionFillingWithQUEUE 0 (ImageCreate 1 2) 0 0 2 = .outOfFuel := rfl
      rw [e] at h
      cases h
    · have e : ImageRegionFillingWithQUEUE 1 (ImageCreate 1 2) 0 0 2 = .outOfFuel := rfl
      rw [e] at h
      cases h
    · have e : ImageRegionFillingWithQUEUE (n + 2) (ImageCreate 1 2) 0 0 2 = .outOfBounds := rfl
      rw [e] at h
      cases h
  · obtain ⟨img1, h⟩ := fill_count_of_packed ⟨30, 30⟩ QueueEnqueue 900 (ImageCreate 30 30) 0
      15 15 2 900 (blank_packs 30 30) (by decide) blank30_queue_eval
    exact ⟨img1, fillWith_fuel_mono QueueEnqueue 900 n _ _ _ _ _ h⟩

/-- C10, as stated, fails: `ImageSegmentation` with `ImageRegionFillingWithSTACK` on
`ImageCreateChess(60,60,30,BLACK)` returns 1 region and leaves `num_colors = 3`; for
no bound on the iterations does it return 4 regions with `num_colors = 6`. -/
theorem chess_stack_segmentation_not_four :
    (∃ img img1 : Image, ImageCreateChess 60 60 30 0x000000 = some img ∧
      ImageSegmentation img (ImageRegionFillingWithSTACK 3600) = .ok (img1, 1) ∧
      img1.num_colors = 3) ∧
    ¬ ∃ (fuel : Nat) (img img1 : Image), ImageCreateChess 60 60 30 0x000000 = some img ∧
      ImageSegmentation img (ImageRegionFillingWithSTACK fuel) = .ok (img1, 4) ∧
      img1.num_colors = 6 := by
  constructor
  · obtain ⟨img1, h1, h2⟩ := chess_stack_result chess_create
    exact ⟨_, img1, chess_create, h1, h2⟩
  · rintro ⟨fuel, img, img1, hc, hs, -⟩
    obtain ⟨img2, h1, -⟩ := chess_stack_result hc
    have e1 := ImageSegmentation_mono (ImageRegionFillingWithSTACK fuel)
      (ImageRegionFillingWithSTACK (fuel + 3600))
      (fun im u v l r h => fillWith_fuel_mono StackPush fuel 3600 im u v l r h) img _ hs
    have e2 := ImageSegmentation_mono (ImageRegionFillingWithSTACK 3600)
      (ImageRegionFillingWithSTACK (3600 + fuel))
      (fun im u v l r h => fillWith_fuel_mono StackPush 3600 fuel im u v l r h) img _ h1
    rw [Nat.add_comm, e2] at e1
    simp at e1

/-- C10, amended: `ImageCreateChess(60,60,30,BLACK)` has two WHITE squares.
`ImageSegmentation` with `ImageRegionFillingRecursive` returns exactly 2 regions and
leaves `num_colors = 4`; with `ImageRegionFillingWithSTACK` the number `r` of regions
returned and the final `num_colors` satisfy `num_colors = 2 + r` (for every bound on
the recursion depth and on the iterations that covers the 3600 pixels). -/
theorem chess_segmentation :
    ∃ img : Image, ImageCreateChess 60 60 30 0x000000 = some img ∧
      (∀ n : Nat, ∃ img2 : Image,
        ImageSegmentation img (ImageRegionFillingRecursive (3601 + n)) = .ok (img2, 2) ∧
        img2.num_colors = 4) ∧
      (∀ n : Nat, ∃ (img1 : Image) (r : Nat),
        ImageSegmentation img (ImageRegionFillingWithSTACK (3600 + n)) = .ok (img1, r) ∧
        img1.num_colors = 2 + r) := by
  refine ⟨_, chess_create, fun n => ?_, fun n => ?_⟩
  · obtain ⟨img2, h1, h2⟩ := chess_recursive_result chess_create
    exact ⟨img2, ImageSegmentation_mono _ _
      (fun im u v l r h => ImageRegionFillingRecursive_fuel_mono 3601 n im u v l r h)
      _ _ h1, h2⟩
  · obtain ⟨img1, h1, h2⟩ := chess_stack_result chess_create
    exact ⟨img1, 1, ImageSegmentation_mono _ _
      (fun im u v l r h => fillWith_fuel_mono StackPush 3600 n im u v l r h) _ _ h1, h2⟩

/-! ## The fills keep the header of the image -/

theorem floodFillRecursive_header (background label : Nat) :
    ∀ (fuel : Nat) (img : Image) (u v : Int) (r : Image × Nat),
      floodFillRecursive fuel img u v background label = .ok r →
      r.1.width = img.width ∧ r.1.height = img.height ∧
        r.1.num_colors = img.num_colors ∧ r.1.LUT = img.LUT := by
  intro fuel
  induction fuel with
  | zero =>
    intro img u v r h
    rw [floodFillRecursive] at h
    cases h
  | succ n ih =>
    intro img u v r h
    rw [floodFillRecursive] at h
    split at h
    · cases h
      exact ⟨rfl, rfl, rfl, rfl⟩
    · split at h
      · cases h
      · split at h
        · cases h
          exact ⟨rfl, rfl, rfl, rfl⟩
        · split at h
          · cases h
          · rename_i img0 hw
            obtain ⟨r1, e1, h⟩ := Outcome.bind_eq_ok h
            obtain ⟨r2, e2, h⟩ := Outcome.bind_eq_ok h
            obtain ⟨r3, e3, h⟩ := Outcome.bind_eq_ok h
            obtain ⟨r4, e4, h⟩ := Outcome.bind_eq_ok h
            cases h
            obtain ⟨a0, b0, c0, d0⟩ := writePixel_frame hw
            obtain ⟨a1, b1, c1, d1⟩ := ih _ _ _ _ e1
            obtain ⟨a2, b2, c2, d2⟩ := ih _ _ _ _ e2
            obtain ⟨a3, b3, c3, d3⟩ := ih _ _ _ _ e3
            obtain ⟨a4, b4, c4, d4⟩ := ih _ _ _ _ e4
            exact ⟨a4.trans (a3.trans (a2.trans (a1.trans a0))),
              b4.trans (b3.trans (b2.trans (b1.trans b0))),
              c4.trans (c3.trans (c2.trans (c1.trans c0))),
              d4.trans (d3.trans (d2.trans (d1.trans d0)))⟩

theorem recursive_keepsHeader (fuel : Nat) : KeepsHeader (ImageRegionFillingRecursive fuel) := by
  intro img u v label r h
  unfold ImageRegionFillingRecursive at h
  split at h
  · cases h
    exact ⟨rfl, rfl, rfl, rfl⟩
  · split at h
    · cases h
    · split at h
      · cases h
        exact ⟨rfl, rfl, rfl, rfl⟩
      · exact floodFillRecursive_header _ _ fuel img u v r h

theorem fillNeighbour_header {ins : List PixelCoords → PixelCoords → List PixelCoords}
    {background label : Nat} {guard : Bool} {row col : Int} {p : PixelCoords}
    {st st1 : FillState} (h : fillNeighbour ins background label guard row col p st = .ok st1) :
    st1.1.width = st.1.width ∧ st1.1.height = st.1.height ∧
      st1.1.num_colors = st.1.num_colors ∧ st1.1.LUT = st.1.LUT := by
  unfold fillNeighbour at h
  split at h
  · split at h
    · cases h
    · split at h
      · split at h
        · cases h
        · rename_i img1 hw
          cases h
          exact writePixel_frame hw
      · cases h
        exact ⟨rfl, rfl, rfl, rfl⟩
  · cases h
    exact ⟨rfl, rfl, rfl, rfl⟩

theorem fillVisit_header {ins : List PixelCoords → PixelCoords → List PixelCoords}
    {background label : Nat} {W H : Int} {p : PixelCoords}
    {st st1 : FillState} (h : fillVisit ins background label W H p st = .ok st1) :
    st1.1.width = st.1.width ∧ st1.1.height = st.1.height ∧
      st1.1.num_colors = st.1.num_colors ∧ st1.1.LUT = st.1.LUT := by
  unfold fillVisit at h
  obtain ⟨s1, e1, h⟩ := Outcome.bind_eq_ok h
  obtain ⟨s2, e2, h⟩ := Outcome.bind_eq_ok h
  obtain ⟨s3, e3, h⟩ := Outcome.bind_eq_ok h
  obtain ⟨a1, b1, c1, d1⟩ := fillNeighbour_header e1
  obtain ⟨a2, b2, c2, d2⟩ := fillNeighbour_header e2
  obtain ⟨a3, b3, c3, d3⟩ := fillNeighbour_header e3
  obtain ⟨a4, b4, c4, d4⟩ := fillNeighbour_header h
  exact ⟨a4.trans (a3.trans (a2.trans a1)), b4.trans (b3.trans (b2.trans b1)),
    c4.trans (c3.trans (c2.trans c1)), d4.trans (d3.trans (d2.trans d1))⟩

theorem fillLoop_header {ins : List PixelCoords → PixelCoords → List PixelCoords}
    {background label : Nat} {W H : Int} :
    ∀ (fuel : Nat) (st : FillState) (r : Image × Nat),
      fillLoop ins background label W H fuel st = .ok r →
      r.1.width = st.1.width ∧ r.1.height = st.1.height ∧
        r.1.num_colors = st.1.num_colors ∧ r.1.LUT = st.1.LUT := by
  intro fuel
  induction fuel with
  | zero =>
    rintro ⟨img, stack, count⟩ r h
    cases stack with
    | nil =>
      rw [fillLoop] at h
      cases h
      exact ⟨rfl, rfl, rfl, rfl⟩
    | cons p rest =>
      rw [fillLoop] at h
      cases h
  | succ n ih =>
    rintro ⟨img, stack, count⟩ r h
    cases stack with
    | nil =>
      rw [fillLoop] at h
      cases h
      exact ⟨rfl, rfl, rfl, rfl⟩
    | cons p rest =>
      rw [fillLoop] at h
      split at h
      · rename_i st1 hv
        obtain ⟨a1, b1, c1, d1⟩ := fillVisit_header hv
        obtain ⟨a2, b2, c2, d2⟩ := ih st1 r h
        exact ⟨a2.trans a1, b2.trans b1, c2.trans c1, d2.trans d1⟩
      · cases h
      · cases h

theorem fillWith_keepsHeader (ins : List PixelCoords → PixelCoords → List PixelCoords)
    (fuel : Nat) : KeepsHeader (fillWith ins fuel) := by
  intro img u v label r h
  unfold fillWith at h
  split at h
  · cases h
    exact ⟨rfl, rfl, rfl, rfl⟩
  · split at h
    · cases h
    · split at h
      · cases h
        exact ⟨rfl, rfl, rfl, rfl⟩
      · split at h
        · cases h
        · rename_i img0 hw
          obtain ⟨a0, b0, c0, d0⟩ := writePixel_frame hw
          obtain ⟨a1, b1, c1, d1⟩ := fillLoop_header fuel _ r h
          exact ⟨a1.trans a0, b1.trans b0, c1.trans c0, d1.trans d0⟩

theorem stack_keepsHeader (fuel : Nat) : KeepsHeader (ImageRegionFillingWithSTACK fuel) :=
  fillWith_keepsHeader StackPush fuel

theorem queue_keepsHeader (fuel : Nat) : KeepsHeader (ImageRegionFillingWithQUEUE fuel) :=
  fillWith_keepsHeader QueueEnqueue fuel

/-! ## The LUT after a segmentation -/

theorem lutStore_getElem?_lt (l : List Nat) (n c i : Nat) (hi : i < n) (hn : n ≤ l.length) :
    (lutStore l n c)[i]? = l[i]? := by
  unfold lutStore
  split
  · rw [List.getElem?_set_ne (by omega)]
  · rw [List.getElem?_append_left (by omega)]

theorem lutStore_getElem?_self (l : List Nat) (n c : Nat) (hn : n ≤ l.length) :
    (lutStore l n c)[n]? = some c := by
  unfold lutStore
  split
  · rename_i h
    rw [List.getElem?_set_self h]
  · have : l.length = n := by omega
    subst this
    simp

theorem lutStore_length (l : List Nat) (n c : Nat) (hn : n ≤ l.length) :
    n + 1 ≤ (lutStore l n c).length := by
  unfold lutStore
  split
  · rw [List.length_set]
    omega
  · rw [List.length_append]
    simp
    omega

theorem generateNextColor_iterate (i : Nat) :
    GenerateNextColor^[i] 0x0000FF = (0x0000FF + 7639 * i) % 2 ^ 24 := by
  induction i with
  | zero => rfl
  | succ k ih =>
    rw [Function.iterate_succ_apply', ih]
    unfold GenerateNextColor
    omega

theorem segLoop_lut (f : FillingFunction) (hf : KeepsHeader f) :
    ∀ (l : List (Nat × Nat)) (st : SegState) (img1 : Image) (r : Nat),
      segLoop f l st = .ok (img1, r) → st.currentLabel = st.img.num_colors →
      st.img.num_colors ≤ st.img.LUT.length →
      ∃ k : Nat, r = st.regionCount + k ∧ img1.num_colors = st.img.num_colors + k ∧
        img1.width = st.img.width ∧ img1.height = st.img.height ∧
        (∀ i < st.img.num_colors, img1.LUT[i]? = st.img.LUT[i]?) ∧
        (∀ i < k, img1.LUT[st.img.num_colors + i]? =
          some (GenerateNextColor^[i] st.currentColor)) ∧
        (st.img.num_colors ≤ FIXED_LUT_SIZE → img1.num_colors ≤ FIXED_LUT_SIZE) := by
  intro l
  induction l with
  | nil =>
    intro st img1 r h _ _
    rw [segLoop] at h
    cases h
    exact ⟨0, rfl, rfl, rfl, rfl, fun _ _ => rfl, fun i hi => absurd hi (by omega), id⟩
  | cons vu rest ih =>
    intro st img1 r h hlab hlen
    rw [segLoop] at h
    split at h
    · cases h
    · split at h
      · split at h
        · cases h
          exact ⟨0, rfl, rfl, rfl, rfl, fun _ _ => rfl, fun i hi => absurd hi (by omega), id⟩
        · rename_i hlt
          split at h
          · rename_i r1 hfill
            obtain ⟨a1, b1, c1, d1⟩ := hf _ _ _ _ _ hfill
            simp only at a1 b1 c1 d1
            have hlen1 : st.img.num_colors + 1 ≤
                (lutStore st.img.LUT st.currentLabel st.currentColor).length := by
              rw [hlab]
              exact lutStore_length _ _ _ hlen
            obtain ⟨k, hk1, hk2, hk3, hk4, hk5, hk6, hk7⟩ := ih _ img1 r h
              (by simp only [c1, hlab]) (by simp only [c1, d1]; exact hlen1)
            simp only [c1, d1, a1, b1] at hk1 hk2 hk3 hk4 hk5 hk6 hk7
            refine ⟨k + 1, by omega, by omega, hk3, hk4, ?_, ?_, ?_⟩
            · intro i hi
              rw [hk5 i (by omega), hlab]
              exact lutStore_getElem?_lt _ _ _ _ hi hlen
            · intro i hi
              cases i with
              | zero =>
                rw [Nat.add_zero, hk5 _ (by omega), hlab]
                exact lutStore_getElem?_self _ _ _ hlen
              | succ j =>
                have := hk6 j (by omega)
                rw [Function.iterate_succ_apply]
                rw [← this]
                congr 1
                omega
            · intro hle
              apply hk7
              unfold FIXED_LUT_SIZE at hlt hle ⊢
              omega
          · cases h
          · cases h
      · exact ih st img1 r h hlab hlen

theorem segmentation_lut_of_keepsHeader (f : FillingFunction) (hf : KeepsHeader f)
    (img img1 : Image) (r : Nat) (hlut : img.num_colors ≤ img.LUT.length)
    (h : ImageSegmentation img f = .ok (img1, r)) :
    img1.num_colors = img.num_colors + r ∧
    (∀ i < img.num_colors, img1.LUT[i]? = img.LUT[i]?) ∧
    (∀ i < r, img1.LUT[img.num_colors + i]? = some ((0x0000FF + 7639 * i) % 2 ^ 24)) ∧
    (img.num_colors ≤ FIXED_LUT_SIZE → img1.num_colors ≤ FIXED_LUT_SIZE) := by
  unfold ImageSegmentation at h
  obtain ⟨k, hk1, hk2, -, -, hk5, hk6, hk7⟩ := segLoop_lut f hf _ _ img1 r h rfl hlut
  simp only [Nat.zero_add] at hk1
  subst hk1
  refine ⟨hk2, hk5, ?_, hk7⟩
  intro i hi
  rw [hk6 i hi]
  exact congrArg some (generateNextColor_iterate i)

theorem strategies_keepHeader (fuel : Nat) (f : FillingFunction)
    (hf : f ∈ [ImageRegionFillingRecursive fuel, ImageRegionFillingWithSTACK fuel,
      ImageRegionFillingWithQUEUE fuel]) : KeepsHeader f := by
  simp only [List.mem_cons, List.mem_singleton, List.not_mem_nil, or_false] at hf
  rcases hf with rfl | rfl | rfl
  · exact recursive_keepsHeader fuel
  · exact stack_keepsHeader fuel
  · exact queue_keepsHeader fuel

theorem mem_scanOrder (W H : Nat) (vu : Nat × Nat) :
    vu ∈ scanOrder W H ↔ vu.1 < H ∧ vu.2 < W := by
  unfold scanOrder
  simp only [List.mem_flatMap, List.mem_range, List.mem_map]
  constructor
  · rintro ⟨v, hv, u, hu, rfl⟩
    exact ⟨hv, hu⟩
  · rintro ⟨hv, hu⟩
    exact ⟨vu.1, hv, vu.2, hu, rfl⟩

theorem readPixel_of_lt {img : Image} (hwf : img.WF) {v u : Nat} (hv : v < img.height)
    (hu : u < img.width) : ∃ p, readPixel img v u = some p := by
  have hv1 : v < img.image.length := by rw [hwf.1]; exact hv
  unfold readPixel
  simp only [Int.ofNat_zero_le, and_self, if_true, Int.toNat_ofNat]
  rw [List.getElem?_eq_getElem hv1]
  have hlen : (img.image[v]).length = img.width := hwf.2 _ (List.getElem_mem _)
  have hu1 : u < (img.image[v]).length := by rw [hlen]; exact hu
  exact ⟨_, List.getElem?_eq_getElem hu1⟩

theorem segLoop_full (f : FillingFunction) :
    ∀ (l : List (Nat × Nat)) (st : SegState),
      (∀ vu ∈ l, ∃ p, readPixel st.img vu.1 vu.2 = some p) →
      FIXED_LUT_SIZE ≤ st.currentLabel →
      segLoop f l st = .ok (st.img, st.regionCount) := by
  intro l
  induction l with
  | nil =>
    intro st _ _
    rw [segLoop]
  | cons vu rest ih =>
    intro st hrd hfull
    rw [segLoop]
    obtain ⟨p, hp⟩ := hrd vu (List.mem_cons_self _ _)
    rw [hp]
    simp only
    split
    · simp only [ge_iff_le, hfull, if_true]
    · exact ih st (fun x hx => hrd x (List.mem_cons_of_mem _ hx)) hfull

theorem segmentation_full (f : FillingFunction) (img : Image) (hwf : img.WF)
    (hfull : FIXED_LUT_SIZE ≤ img.num_colors) : ImageSegmentation img f = .ok (img, 0) := by
  unfold ImageSegmentation
  refine segLoop_full f _ _ ?_ hfull
  intro vu hvu
  rw [mem_scanOrder] at hvu
  exact readPixel_of_lt hwf hvu.1 hvu.2

theorem paleteLUT_spec :
    ∀ (k : Nat) (img : Image) (color : Nat), img.num_colors ≤ FIXED_LUT_SIZE →
      FIXED_LUT_SIZE ≤ img.num_colors + k →
      (paleteLUT k img color).num_colors = FIXED_LUT_SIZE ∧
      (paleteLUT k img color).width = img.width ∧
      (paleteLUT k img color).height = img.height := by
  intro k
  induction k with
  | zero =>
    intro img color h1 h2
    rw [paleteLUT]
    exact ⟨by omega, rfl, rfl⟩
  | succ n ih =>
    intro img color h1 h2
    rw [paleteLUT]
    split
    · rename_i hlt
      obtain ⟨a, b, c⟩ := ih
        { img with LUT := lutStore img.LUT img.num_colors (GenerateNextColor color),
                   num_colors := img.num_colors + 1 } (GenerateNextColor color)
        (by simp only; omega) (by simp only; omega)
      exact ⟨a, b, c⟩
    · exact ⟨by omega, rfl, rfl⟩

theorem withImage_fields (p : Image) (g : List (List Nat)) :
    ({ p with image := g } : Image).num_colors = p.num_colors ∧
    ({ p with image := g } : Image).width = p.width ∧
    ({ p with image := g } : Image).height = p.height ∧
    ({ p with image := g } : Image).image = g :=
  ⟨rfl, rfl, rfl, rfl⟩

theorem palete_unfold (w h e : Nat) :
    ImageCreatePalete w h e =
      { paleteLUT FIXED_LUT_SIZE (ImageCreate w h) 0x000000 with
        image := (List.range h).map fun i => (List.range w).map fun j =>
          (i / e * (w / e) + j / e) % 2 ^ 32 % FIXED_LUT_SIZE } := by
  unfold ImageCreatePalete
  exact Eq.refl _

theorem palete_header (w h e : Nat) :
    (ImageCreatePalete w h e).num_colors = FIXED_LUT_SIZE ∧
    (ImageCreatePalete w h e).width = w ∧ (ImageCreatePalete w h e).height = h := by
  obtain ⟨a, b, c⟩ := paleteLUT_spec FIXED_LUT_SIZE (ImageCreate w h) 0x000000
    (show 2 ≤ FIXED_LUT_SIZE by decide) (Nat.le_add_left _ _)
  obtain ⟨f1, f2, f3, -⟩ := withImage_fields
    (paleteLUT FIXED_LUT_SIZE (ImageCreate w h) 0x000000)
    ((List.range h).map fun i => (List.range w).map fun j =>
      (i / e * (w / e) + j / e) % 2 ^ 32 % FIXED_LUT_SIZE)
  rw [palete_unfold, f1, f2, f3]
  exact ⟨a, b, c⟩

theorem palete_image (w h e : Nat) :
    (ImageCreatePalete w h e).image = (List.range h).map fun i => (List.range w).map fun j =>
      (i / e * (w / e) + j / e) % 2 ^ 32 % FIXED_LUT_SIZE := by
  rw [palete_unfold]

theorem palete_WF (w h e : Nat) : (ImageCreatePalete w h e).WF :=
  gridOf_WF (fun i j => (i / e * (w / e) + j / e) % 2 ^ 32 % FIXED_LUT_SIZE)
    (palete_header w h e).2.1 (palete_header w h e).2.2 (palete_image w h e)

theorem palete_origin (w h e : Nat) (hw : 0 < w) (hh : 0 < h) :
    readPixel (ImageCreatePalete w h e) 0 0 = some WHITE := by
  have := @readPixel_gridOf (ImageCreatePalete w h e) w h
    (fun i j => (i / e * (w / e) + j / e) % 2 ^ 32 % FIXED_LUT_SIZE) (palete_image w h e)
    0 0 hh hw
  simpa [WHITE] using this

/-! ## Scatter loops: copies and rotations -/

theorem storePixel_header (img : Image) (r c val : Nat) :
    (storePixel img r c val).width = img.width ∧ (storePixel img r c val).height = img.height ∧
      (storePixel img r c val).num_colors = img.num_colors ∧
      (storePixel img r c val).LUT = img.LUT := by
  unfold storePixel
  cases h : writePixel img r c val with
  | none => exact ⟨rfl, rfl, rfl, rfl⟩
  | some img1 => exact writePixel_frame h

theorem storePixel_spec {img : Image} (hwf : img.WF) {r c : Nat} (hr : r < img.height)
    (hc : c < img.width) (val : Nat) :
    (storePixel img r c val).WF ∧
    ∀ r1 c1 : Int, readPixel (storePixel img r c val) r1 c1 =
      if r1 = r ∧ c1 = c then some val else readPixel img r1 c1 := by
  obtain ⟨p, hp⟩ := readPixel_of_lt hwf hr hc
  obtain ⟨img1, h1⟩ := writePixel_of_read hp val
  unfold storePixel
  rw [h1]
  exact ⟨writePixel_WF h1 hwf, fun r1 c1 => readPixel_writePixel h1 r1 c1⟩

theorem scatter_frame (t : Nat × Nat → Nat × Nat) (val : Nat × Nat → Nat) :
    ∀ (ps : List (Nat × Nat)) (rot : Image), rot.WF →
      (∀ p ∈ ps, (t p).1 < rot.height ∧ (t p).2 < rot.width) →
      (ps.foldl (fun rot p => storePixel rot (t p).1 (t p).2 (val p)) rot).WF ∧
      (ps.foldl (fun rot p => storePixel rot (t p).1 (t p).2 (val p)) rot).width = rot.width ∧
      (ps.foldl (fun rot p => storePixel rot (t p).1 (t p).2 (val p)) rot).height = rot.height ∧
      (ps.foldl (fun rot p => storePixel rot (t p).1 (t p).2 (val p)) rot).num_colors =
        rot.num_colors ∧
      (ps.foldl (fun rot p => storePixel rot (t p).1 (t p).2 (val p)) rot).LUT = rot.LUT ∧
      ∀ q : Nat × Nat, (∀ p ∈ ps, t p ≠ q) →
        readPixel (ps.foldl (fun rot p => storePixel rot (t p).1 (t p).2 (val p)) rot) q.1 q.2 =
          readPixel rot q.1 q.2 := by
  intro ps
  induction ps with
  | nil =>
    intro rot hwf _
    exact ⟨hwf, rfl, rfl, rfl, rfl, fun _ _ => rfl⟩
  | cons p rest ih =>
    intro rot hwf hb
    obtain ⟨hb1, hb2⟩ := hb p (List.mem_cons_self _ _)
    obtain ⟨hw1, hrd1⟩ := storePixel_spec hwf hb1 hb2 (val p)
    obtain ⟨e1, e2, e3, e4⟩ := storePixel_header rot (t p).1 (t p).2 (val p)
    obtain ⟨a, b, c, d, e, f⟩ := ih (storePixel rot (t p).1 (t p).2 (val p)) hw1
      (fun x hx => by rw [e1, e2]; exact hb x (List.mem_cons_of_mem _ hx))
    rw [List.foldl_cons]
    refine ⟨a, b.trans e1, c.trans e2, d.trans e3, e.trans e4, ?_⟩
    intro q hq
    rw [f q (fun x hx => hq x (List.mem_cons_of_mem _ hx)), hrd1]
    have hne : t p ≠ q := hq p (List.mem_cons_self _ _)
    have : ¬ ((q.1 : Int) = ((t p).1 : Nat) ∧ (q.2 : Int) = ((t p).2 : Nat)) := by
      rintro ⟨h1, h2⟩
      apply hne
      exact Prod.ext (by omega) (by omega)
    rw [if_neg this]

theorem scatter_spec (t : Nat × Nat → Nat × Nat) (val : Nat × Nat → Nat) :
    ∀ (ps : List (Nat × Nat)) (rot : Image), rot.WF →
      (∀ p ∈ ps, (t p).1 < rot.height ∧ (t p).2 < rot.width) →
      (∀ p ∈ ps, ∀ q ∈ ps, t p = t q → p = q) →
      ∀ p ∈ ps,
        readPixel (ps.foldl (fun rot p => storePixel rot (t p).1 (t p).2 (val p)) rot)
          (t p).1 (t p).2 = some (val p) := by
  intro ps
  induction ps with
  | nil =>
    intro rot _ _ _ p hp
    cases hp
  | cons p0 rest ih =>
    intro rot hwf hb hinj p hp
    obtain ⟨hb1, hb2⟩ := hb p0 (List.mem_cons_self _ _)
    obtain ⟨hw1, hrd1⟩ := storePixel_spec hwf hb1 hb2 (val p0)
    obtain ⟨e1, e2, -, -⟩ := storePixel_header rot (t p0).1 (t p0).2 (val p0)
    have hb' : ∀ x ∈ rest, (t x).1 < (storePixel rot (t p0).1 (t p0).2 (val p0)).height ∧
        (t x).2 < (storePixel rot (t p0).1 (t p0).2 (val p0)).width := fun x hx => by
      rw [e1, e2]; exact hb x (List.mem_cons_of_mem _ hx)
    rw [List.foldl_cons]
    by_cases hin : p ∈ rest
    · exact ih _ hw1 hb'
        (fun a ha b hb2 => hinj a (List.mem_cons_of_mem _ ha) b (List.mem_cons_of_mem _ hb2))
        p hin
    · have hp0 : p = p0 := by
        rcases List.mem_cons.1 hp with h | h
        · exact h
        · exact absurd h hin
      subst hp0
      obtain ⟨-, -, -, -, -, f⟩ := scatter_frame t val rest _ hw1 hb'
      rw [f (t p) (fun x hx hxe => hin
        (hinj x (List.mem_cons_of_mem _ hx) p (List.mem_cons_self _ _) hxe ▸ hx)), hrd1]
      simp

theorem nested_foldl {α : Type} (g : α → Nat → Nat → α) (us : List Nat) :
    ∀ (vs : List Nat) (a : α),
      vs.foldl (fun acc v => us.foldl (fun acc u => g acc v u) acc) a =
        (vs.flatMap fun v => us.map fun u => (v, u)).foldl (fun acc vu => g acc vu.1 vu.2) a := by
  intro vs
  induction vs with
  | nil => intro a; rfl
  | cons v rest ih =>
    intro a
    rw [List.foldl_cons, List.flatMap_cons, List.foldl_append, List.foldl_map, ih]

theorem readPixel_pixelAt {img : Image} (hwf : img.WF) {v u : Nat} (hv : v < img.height)
    (hu : u < img.width) : readPixel img v u = some (pixelAt img v u) := by
  obtain ⟨p, hp⟩ := readPixel_of_lt hwf hv hu
  unfold pixelAt
  rw [hp]
  rfl

theorem rotate90_eq (img : Image) :
    ImageRotate90CW img =
      (scanOrder img.width img.height).foldl
        (fun rot p => storePixel rot
          ((fun vu : Nat × Nat => (vu.2, img.height - 1 - vu.1)) p).1
          ((fun vu : Nat × Nat => (vu.2, img.height - 1 - vu.1)) p).2
          ((fun vu : Nat × Nat => pixelAt img vu.1 vu.2) p))
        { ImageCreate img.height img.width with
          num_colors := img.num_colors, LUT := img.LUT.take img.num_colors } := by
  unfold ImageRotate90CW scanOrder
  exact nested_foldl
    (fun rot v u => storePixel rot u (img.height - 1 - v) (pixelAt img v u)) _ _ _

theorem rotate180_eq (img : Image) :
    ImageRotate180CW img =
      (scanOrder img.width img.height).foldl
        (fun rot p => storePixel rot
          ((fun vu : Nat × Nat => (img.height - 1 - vu.1, img.width - 1 - vu.2)) p).1
          ((fun vu : Nat × Nat => (img.height - 1 - vu.1, img.width - 1 - vu.2)) p).2
          ((fun vu : Nat × Nat => pixelAt img vu.1 vu.2) p))
        { ImageCreate img.width img.height with
          num_colors := img.num_colors, LUT := img.LUT.take img.num_colors } := by
  unfold ImageRotate180CW scanOrder
  exact nested_foldl
    (fun rot v u => storePixel rot (img.height - 1 - v) (img.width - 1 - u) (pixelAt img v u))
    _ _ _

theorem header_WF {img img1 : Image} (h : img1.WF) (hw : img.width = img1.width)
    (hh : img.height = img1.height) (hi : img.image = img1.image) : img.WF := by
  unfold Image.WF at h ⊢
  rw [hw, hh, hi]
  exact h

/-- The rotation by 90 degrees: header of the result and position of every pixel. -/
theorem rotate90_spec (img : Image) (hwf : img.WF) :
    (ImageRotate90CW img).WF ∧ (ImageRotate90CW img).width = img.height ∧
    (ImageRotate90CW img).height = img.width ∧
    (ImageRotate90CW img).num_colors = img.num_colors ∧
    (ImageRotate90CW img).LUT = img.LUT.take img.num_colors ∧
    ∀ v u : Nat, v < img.height → u < img.width →
      readPixel (ImageRotate90CW img) u (img.height - 1 - v : Nat) = readPixel img v u := by
  have hwf0 : ({ ImageCreate img.height img.width with
      num_colors := img.num_colors, LUT := img.LUT.take img.num_colors } : Image).WF :=
    header_WF (ImageCreate_WF img.height img.width) rfl rfl rfl
  have hb : ∀ p ∈ scanOrder img.width img.height,
      ((fun vu : Nat × Nat => (vu.2, img.height - 1 - vu.1)) p).1 < img.width ∧
      ((fun vu : Nat × Nat => (vu.2, img.height - 1 - vu.1)) p).2 < img.height := by
    intro p hp
    rw [mem_scanOrder] at hp
    exact ⟨hp.2, by simp only; omega⟩
  obtain ⟨a, b, c, d, e, -⟩ := scatter_frame
    (fun vu : Nat × Nat => (vu.2, img.height - 1 - vu.1))
    (fun vu : Nat × Nat => pixelAt img vu.1 vu.2) _ _ hwf0 hb
  rw [← rotate90_eq] at a b c d e
  refine ⟨a, b, c, d, e, ?_⟩
  intro v u hv hu
  have := scatter_spec (fun vu : Nat × Nat => (vu.2, img.height - 1 - vu.1))
    (fun vu : Nat × Nat => pixelAt img vu.1 vu.2) _ _ hwf0 hb
    (by
      intro p hp q hq hpq
      rw [mem_scanOrder] at hp hq
      simp only [Prod.mk.injEq] at hpq
      exact Prod.ext (by omega) hpq.1)
    (v, u) ((mem_scanOrder _ _ _).2 ⟨hv, hu⟩)
  rw [← rotate90_eq] at this
  rw [readPixel_pixelAt hwf hv hu]
  exact this

/-- The rotation by 180 degrees: header of the result and position of every pixel. -/
theorem rotate180_spec (img : Image) (hwf : img.WF) :
    (ImageRotate180CW img).WF ∧ (ImageRotate180CW img).width = img.width ∧
    (ImageRotate180CW img).height = img.height ∧
    (ImageRotate180CW img).num_colors = img.num_colors ∧
    (ImageRotate180CW img).LUT = img.LUT.take img.num_colors ∧
    ∀ v u : Nat, v < img.height → u < img.width →
      readPixel (ImageRotate180CW img) (img.height - 1 - v : Nat) (img.width - 1 - u : Nat) =
        readPixel img v u := by
  have hwf0 : ({ ImageCreate img.width img.height with
      num_colors := img.num_colors, LUT := img.LUT.take img.num_colors } : Image).WF :=
    header_WF (ImageCreate_WF img.width img.height) rfl rfl rfl
  have hb : ∀ p ∈ scanOrder img.width img.height,
      ((fun vu : Nat × Nat => (img.height - 1 - vu.1, img.width - 1 - vu.2)) p).1 < img.height ∧
      ((fun vu : Nat × Nat => (img.height - 1 - vu.1, img.width - 1 - vu.2)) p).2 < img.width := by
    intro p hp
    rw [mem_scanOrder] at hp
    exact ⟨by simp only; omega, by simp only; omega⟩
  obtain ⟨a, b, c, d, e, -⟩ := scatter_frame
    (fun vu : Nat × Nat => (img.height - 1 - vu.1, img.width - 1 - vu.2))
    (fun vu : Nat × Nat => pixelAt img vu.1 vu.2) _ _ hwf0 hb
  rw [← rotate180_eq] at a b c d e
  refine ⟨a, b, c, d, e, ?_⟩
  intro v u hv hu
  have := scatter_spec (fun vu : Nat × Nat => (img.height - 1 - vu.1, img.width - 1 - vu.2))
    (fun vu : Nat × Nat => pixelAt img vu.1 vu.2) _ _ hwf0 hb
    (by
      intro p hp q hq hpq
      rw [mem_scanOrder] at hp hq
      simp only [Prod.mk.injEq] at hpq
      exact Prod.ext (by omega) (by omega))
    (v, u) ((mem_scanOrder _ _ _).2 ⟨hv, hu⟩)
  rw [← rotate180_eq] at this
  rw [readPixel_pixelAt hwf hv hu]
  exact this

/-! ## Equality of images, iterated rotations and copies -/

theorem readPixel_nat (img : Image) (r c : Nat) :
    readPixel img r c = (img.image[r]?).bind fun row => row[c]? := by
  unfold readPixel
  simp only [Int.ofNat_zero_le, and_self, if_true, Int.toNat_ofNat]
  cases img.image[r]? <;> rfl

theorem image_ext {a b : Image} (ha : a.WF) (hb : b.WF) (hw : a.width = b.width)
    (hh : a.height = b.height)
    (h : ∀ r c : Nat, r < a.height → c < a.width → readPixel a r c = readPixel b r c) :
    a.image = b.image := by
  apply List.ext_getElem (by rw [ha.1, hb.1, hh])
  intro r h1 h2
  have hr : r < a.height := by rw [← ha.1]; exact h1
  have la : (a.image[r]).length = a.width := ha.2 _ (List.getElem_mem _)
  have lb : (b.image[r]).length = b.width := hb.2 _ (List.getElem_mem _)
  apply List.ext_getElem (by rw [la, lb, hw])
  intro c h3 h4
  have hc : c < a.width := by rw [← la]; exact h3
  have := h r c hr hc
  rw [readPixel_nat, readPixel_nat, List.getElem?_eq_getElem h1, List.getElem?_eq_getElem h2,
    Option.some_bind, Option.some_bind, List.getElem?_eq_getElem h3,
    List.getElem?_eq_getElem h4] at this
  exact Option.some.inj this

theorem isEqual_of_fields {a b : Image} (hw : a.width = b.width) (hh : a.height = b.height)
    (hn : a.num_colors = b.num_colors)
    (hl : a.LUT.take a.num_colors = b.LUT.take a.num_colors) (hi : a.image = b.image) :
    ImageIsEqual a b = true := by
  unfold ImageIsEqual
  simp [hw, hh, hn, ← hi]
  rw [← hn]
  exact hl

theorem isEqual_of_reads {a b : Image} (ha : a.WF) (hb : b.WF) (hw : a.width = b.width)
    (hh : a.height = b.height) (hn : a.num_colors = b.num_colors)
    (hl : a.LUT.take a.num_colors = b.LUT.take a.num_colors)
    (h : ∀ r c : Nat, r < a.height → c < a.width → readPixel a r c = readPixel b r c) :
    ImageIsEqual a b = true :=
  isEqual_of_fields hw hh hn hl (image_ext ha hb hw hh h)

/-- Gather form of the rotation by 90 degrees. -/
theorem rotate90_read (img : Image) (hwf : img.WF) (r c : Nat) (hr : r < img.width)
    (hc : c < img.height) :
    readPixel (ImageRotate90CW img) r c = readPixel img (img.height - 1 - c : Nat) r := by
  have := (rotate90_spec img hwf).2.2.2.2.2 (img.height - 1 - c) r (by omega) hr
  have e : img.height - 1 - (img.height - 1 - c) = c := by omega
  rw [e] at this
  exact this

/-- Gather form of the rotation by 180 degrees. -/
theorem rotate180_read (img : Image) (hwf : img.WF) (r c : Nat) (hr : r < img.height)
    (hc : c < img.width) :
    readPixel (ImageRotate180CW img) r c =
      readPixel img (img.height - 1 - r : Nat) (img.width - 1 - c : Nat) := by
  have := (rotate180_spec img hwf).2.2.2.2.2 (img.height - 1 - r) (img.width - 1 - c)
    (by omega) (by omega)
  have e1 : img.height - 1 - (img.height - 1 - r) = r := by omega
  have e2 : img.width - 1 - (img.width - 1 - c) = c := by omega
  rw [e1, e2] at this
  exact this

/-- Two rotations by 90 degrees: header and pixels. -/
theorem rotate90_twice (img : Image) (hwf : img.WF) :
    (ImageRotate90CW (ImageRotate90CW img)).WF ∧
    (ImageRotate90CW (ImageRotate90CW img)).width = img.width ∧
    (ImageRotate90CW (ImageRotate90CW img)).height = img.height ∧
    (ImageRotate90CW (ImageRotate90CW img)).num_colors = img.num_colors ∧
    (ImageRotate90CW (ImageRotate90CW img)).LUT = img.LUT.take img.num_colors ∧
    ∀ r c : Nat, r < img.height → c < img.width →
      readPixel (ImageRotate90CW (ImageRotate90CW img)) r c =
        readPixel img (img.height - 1 - r : Nat) (img.width - 1 - c : Nat) := by
  obtain ⟨a1, b1, c1, d1, e1, -⟩ := rotate90_spec img hwf
  obtain ⟨a2, b2, c2, d2, e2, -⟩ := rotate90_spec (ImageRotate90CW img) a1
  refine ⟨a2, b2.trans c1, c2.trans b1, d2.trans d1, ?_, ?_⟩
  · rw [e2, d1, e1, List.take_take, Nat.min_self]
  · intro r c hr hc
    rw [rotate90_read _ a1 r c (by rw [b1]; exact hr) (by rw [c1]; exact hc), c1,
      rotate90_read img hwf _ r (by omega) hr]

theorem take_take_self (l : List Nat) (n : Nat) : (l.take n).take n = l.take n := by
  rw [List.take_take, Nat.min_self]

theorem rotate90_four (img : Image) (hwf : img.WF) :
    ImageIsEqual img
      (ImageRotate90CW (ImageRotate90CW (ImageRotate90CW (ImageRotate90CW img)))) = true := by
  obtain ⟨a1, b1, c1, d1, e1, f1⟩ := rotate90_twice img hwf
  obtain ⟨a2, b2, c2, d2, e2, f2⟩ := rotate90_twice _ a1
  refine isEqual_of_reads hwf a2 (b2.trans b1).symm (c2.trans c1).symm (d2.trans d1).symm ?_ ?_
  · rw [e2, d1, e1, take_take_self, take_take_self]
  · intro r c hr hc
    rw [f2 r c (by rw [c1]; exact hr) (by rw [b1]; exact hc), b1, c1,
      f1 _ _ (by omega) (by omega)]
    have e3 : img.height - 1 - (img.height - 1 - r) = r := by omega
    have e4 : img.width - 1 - (img.width - 1 - c) = c := by omega
    rw [e3, e4]

theorem rotate180_twice (img : Image) (hwf : img.WF) :
    ImageIsEqual img (ImageRotate180CW (ImageRotate180CW img)) = true := by
  obtain ⟨a1, b1, c1, d1, e1, -⟩ := rotate180_spec img hwf
  obtain ⟨a2, b2, c2, d2, e2, -⟩ := rotate180_spec _ a1
  refine isEqual_of_reads hwf a2 (b2.trans b1).symm (c2.trans c1).symm (d2.trans d1).symm ?_ ?_
  · rw [e2, d1, e1, take_take_self, take_take_self]
  · intro r c hr hc
    rw [rotate180_read _ a1 r c (by rw [c1]; exact hr) (by rw [b1]; exact hc), b1, c1,
      rotate180_read img hwf _ _ (by omega) (by omega)]
    have e3 : img.height - 1 - (img.height - 1 - r) = r := by omega
    have e4 : img.width - 1 - (img.width - 1 - c) = c := by omega
    rw [e3, e4]

theorem rotate180_eq_rotate90_twice (img : Image) (hwf : img.WF) :
    ImageIsEqual (ImageRotate180CW img) (ImageRotate90CW (ImageRotate90CW img)) = true := by
  obtain ⟨a1, b1, c1, d1, e1, -⟩ := rotate180_spec img hwf
  obtain ⟨a2, b2, c2, d2, e2, f2⟩ := rotate90_twice img hwf
  refine isEqual_of_reads a1 a2 (b1.trans b2.symm) (c1.trans c2.symm) (d1.trans d2.symm) ?_ ?_
  · rw [e1, e2]
  · intro r c hr hc
    rw [c1] at hr
    rw [b1] at hc
    rw [rotate180_read img hwf r c hr hc, f2 r c hr hc]

theorem scatter_dims (t : Nat × Nat → Nat × Nat) (val : Nat × Nat → Nat) :
    ∀ (ps : List (Nat × Nat)) (rot : Image),
      (ps.foldl (fun rot p => storePixel rot (t p).1 (t p).2 (val p)) rot).width = rot.width ∧
      (ps.foldl (fun rot p => storePixel rot (t p).1 (t p).2 (val p)) rot).height =
        rot.height := by
  intro ps
  induction ps with
  | nil => intro rot; exact ⟨rfl, rfl⟩
  | cons p rest ih =>
    intro rot
    rw [List.foldl_cons]
    obtain ⟨e1, e2, -, -⟩ := storePixel_header rot (t p).1 (t p).2 (val p)
    exact ⟨(ih _).1.trans e1, (ih _).2.trans e2⟩

theorem rotate_dims (img : Image) :
    (ImageRotate90CW img).width = img.height ∧ (ImageRotate90CW img).height = img.width ∧
    (ImageRotate180CW img).width = img.width ∧ (ImageRotate180CW img).height = img.height := by
  have h90 := scatter_dims (fun vu : Nat × Nat => (vu.2, img.height - 1 - vu.1))
    (fun vu : Nat × Nat => pixelAt img vu.1 vu.2) (scanOrder img.width img.height)
    { ImageCreate img.height img.width with
      num_colors := img.num_colors, LUT := img.LUT.take img.num_colors }
  have h180 := scatter_dims
    (fun vu : Nat × Nat => (img.height - 1 - vu.1, img.width - 1 - vu.2))
    (fun vu : Nat × Nat => pixelAt img vu.1 vu.2) (scanOrder img.width img.height)
    { ImageCreate img.width img.height with
      num_colors := img.num_colors, LUT := img.LUT.take img.num_colors }
  rw [← rotate90_eq] at h90
  rw [← rotate180_eq] at h180
  exact ⟨h90.1, h90.2, h180.1, h180.2⟩

/-! ## Copies -/

theorem copy_image (img : Image) (hwf : img.WF) : (ImageCopy img).image = img.image := by
  unfold ImageCopy
  simp only
  apply List.ext_getElem (by simp [hwf.1])
  intro r h1 h2
  simp only [List.getElem_map, List.getElem_range]
  rw [List.getD_eq_getElem _ _ h2]
  exact List.take_of_length_le (le_of_eq (hwf.2 _ (List.getElem_mem _)))

theorem copy_isEqual (img : Image) (hwf : img.WF) :
    ImageIsEqual img (ImageCopy img) = true :=
  isEqual_of_fields rfl rfl rfl (take_take_self _ _).symm (copy_image img hwf).symm

/-! ## Claims on the segmentation -/

theorem blank50_queue_eval :
    packedSummary (packedSegLoop ⟨50, 50⟩ (packedFill ⟨50, 50⟩ QueueEnqueue 2500)
      (scanOrder 50 50) ⟨0, 0, 2, 2⟩) = some (1, 3) := by
  rw [fastSeg_queue 50 50 (by decide) (by decide)]
  decide!

theorem queue_mono (fuel k : Nat) (img : Image) (u v : Int) (label : Nat) (r : Image × Nat)
    (h : ImageRegionFillingWithQUEUE fuel img u v label = .ok r) :
    ImageRegionFillingWithQUEUE (fuel + k) img u v label = .ok r :=
  fillWith_fuel_mono QueueEnqueue fuel k img u v label r h

theorem stack_mono (fuel k : Nat) (img : Image) (u v : Int) (label : Nat) (r : Image × Nat)
    (h : ImageRegionFillingWithSTACK fuel img u v label = .ok r) :
    ImageRegionFillingWithSTACK (fuel + k) img u v label = .ok r :=
  fillWith_fuel_mono StackPush fuel k img u v label r h

/-- Claim C12, refuted: on the all-white 3x3 image the segmentation returns 1 region
and 3 colours with ImageRegionFillingRecursive and with ImageRegionFillingWithQUEUE,
but 2 regions and 4 colours with ImageRegionFillingWithSTACK, whose first fill leaves
the pixel of row 2, column 0 WHITE; the two labelled images are not equal. -/
theorem segmentation_strategies_differ :
    (∀ n : Nat, ImageSegmentation (ImageCreate 3 3) (ImageRegionFillingRecursive (10 + n)) =
      .ok ({ width := 3, height := 3, image := [[2, 2, 2], [2, 2, 2], [2, 2, 2]],
             num_colors := 3, LUT := [0xffffff, 0x000000, 0x0000FF] }, 1)) ∧
    (∀ n : Nat, ImageSegmentation (ImageCreate 3 3) (ImageRegionFillingWithSTACK (8 + n)) =
      .ok ({ width := 3, height := 3, image := [[2, 2, 2], [2, 2, 2], [3, 2, 2]],
             num_colors := 4, LUT := [0xffffff, 0x000000, 0x0000FF, 0x001ED6] }, 2)) ∧
    (∀ n : Nat, ImageSegmentation (ImageCreate 3 3) (ImageRegionFillingWithQUEUE (9 + n)) =
      .ok ({ width := 3, height := 3, image := [[2, 2, 2], [2, 2, 2], [2, 2, 2]],
             num_colors := 3, LUT := [0xffffff, 0x000000, 0x0000FF] }, 1)) ∧
    ImageIsEqual
      { width := 3, height := 3, image := [[2, 2, 2], [2, 2, 2], [2, 2, 2]],
        num_colors := 3, LUT := [0xffffff, 0x000000, 0x0000FF] }
      { width := 3, height := 3, image := [[2, 2, 2], [2, 2, 2], [3, 2, 2]],
        num_colors := 4, LUT := [0xffffff, 0x000000, 0x0000FF, 0x001ED6] } = false :=
  ⟨fun n => ImageSegmentation_mono _ _
      (ImageRegionFillingRecursive_fuel_mono 10 n) _ _ (by decide),
   fun n => ImageSegmentation_mono _ _ (stack_mono 8 n) _ _ (by decide),
   fun n => ImageSegmentation_mono _ _ (queue_mono 9 n) _ _ (by decide),
   by decide⟩

theorem readPixel_congr {a b : Image} (h : a.image = b.image) (r c : Int) :
    readPixel a r c = readPixel b r c := by
  unfold readPixel
  rw [h]

/-- Claim C13: when ImageSegmentation, run with any of the three fill strategies on
an image with n colours, returns r, the image has n + r colours afterwards, the LUT
entries 0..n-1 are unchanged, and the appended entry n + i is
(0x0000FF + 7639 * i) mod 2^24 for every i < r. -/
theorem ImageSegmentation_lut_entries (fuel : Nat) (f : FillingFunction)
    (img img1 : Image) (r : Nat)
    (hf : f ∈ [ImageRegionFillingRecursive fuel, ImageRegionFillingWithSTACK fuel,
      ImageRegionFillingWithQUEUE fuel])
    (hlut : img.num_colors ≤ img.LUT.length)
    (h : ImageSegmentation img f = .ok (img1, r)) :
    img1.num_colors = img.num_colors + r ∧
    (∀ i < img.num_colors, img1.LUT[i]? = img.LUT[i]?) ∧
    (∀ i < r, img1.LUT[img.num_colors + i]? = some ((0x0000FF + 7639 * i) % 2 ^ 24)) := by
  obtain ⟨a, b, c, -⟩ := segmentation_lut_of_keepsHeader f (strategies_keepHeader fuel f hf)
    img img1 r hlut h
  exact ⟨a, b, c⟩

theorem ImageSegmentation_lut_entries_witness :
    ImageSegmentation (ImageCreate 3 3) (ImageRegionFillingWithSTACK 8) =
      .ok ({ width := 3, height := 3, image := [[2, 2, 2], [2, 2, 2], [3, 2, 2]],
             num_colors := 4, LUT := [0xffffff, 0x000000, 0x0000FF, 0x001ED6] }, 2) ∧
    ((4 : Nat) = (ImageCreate 3 3).num_colors + 2 ∧
     (∀ i < (ImageCreate 3 3).num_colors,
       [0xffffff, 0x000000, 0x0000FF, 0x001ED6][i]? = (ImageCreate 3 3).LUT[i]?) ∧
     (∀ i < 2, [0xffffff, 0x000000, 0x0000FF, 0x001ED6][(ImageCreate 3 3).num_colors + i]? =
       some ((0x0000FF + 7639 * i) % 2 ^ 24))) :=
  ⟨by decide,
   ImageSegmentation_lut_entries 8 (ImageRegionFillingWithSTACK 8) (ImageCreate 3 3)
     { width := 3, height := 3, image := [[2, 2, 2], [2, 2, 2], [3, 2, 2]],
       num_colors := 4, LUT := [0xffffff, 0x000000, 0x0000FF, 0x001ED6] } 2
     (by simp) (by decide) (by decide)⟩

/-- Claim C14: a scan of ImageSegmentation that reaches a WHITE pixel while the
LUT holds FIXED_LUT_SIZE colours returns at once the image as it is and the count
so far; on a well-formed image with a full LUT it returns 0 and the same image; an
image of ImageCreatePalete has 1000 colours, label 0 at pixel (0, 0), and is
returned unchanged with count 0; and with the three fill strategies num_colors,
if at most 1000 before, is at most 1000 afterwards. -/
theorem segmentation_stops_when_lut_full (f : FillingFunction) :
    (∀ (vu : Nat × Nat) (rest : List (Nat × Nat)) (st : SegState),
      readPixel st.img vu.1 vu.2 = some WHITE → st.currentLabel = st.img.num_colors →
      FIXED_LUT_SIZE ≤ st.img.num_colors →
      segLoop f (vu :: rest) st = .ok (st.img, st.regionCount)) ∧
    (∀ img : Image, img.WF → FIXED_LUT_SIZE ≤ img.num_colors →
      ImageSegmentation img f = .ok (img, 0)) ∧
    (∀ w h e : Nat, 0 < w → 0 < h → 0 < e →
      (ImageCreatePalete w h e).num_colors = 1000 ∧
      readPixel (ImageCreatePalete w h e) 0 0 = some WHITE ∧
      ImageSegmentation (ImageCreatePalete w h e) f = .ok (ImageCreatePalete w h e, 0)) ∧
    (∀ (fuel : Nat) (img img1 : Image) (r : Nat),
      f ∈ [ImageRegionFillingRecursive fuel, ImageRegionFillingWithSTACK fuel,
        ImageRegionFillingWithQUEUE fuel] →
      img.num_colors ≤ img.LUT.length → img.num_colors ≤ 1000 →
      ImageSegmentation img f = .ok (img1, r) → img1.num_colors ≤ 1000) := by
  refine ⟨?_, ?_, ?_, ?_⟩
  · intro vu rest st hp hlab hfull
    rw [segLoop, hp]
    have : st.currentLabel ≥ FIXED_LUT_SIZE := by rw [hlab]; exact hfull
    simp only [if_true, this]
  · intro img hwf hfull
    exact segmentation_full f img hwf hfull
  · intro w h e hw hh _
    refine ⟨(palete_header w h e).1, palete_origin w h e hw hh, ?_⟩
    exact segmentation_full f _ (palete_WF w h e) (le_of_eq (palete_header w h e).1.symm)
  · intro fuel img img1 r hf hlut hle h
    exact (segmentation_lut_of_keepsHeader f (strategies_keepHeader fuel f hf)
      img img1 r hlut h).2.2.2 hle

theorem segmentation_stops_when_lut_full_witness :
    (ImageCreatePalete 4 4 2).num_colors = 1000 ∧
    readPixel (ImageCreatePalete 4 4 2) 0 0 = some WHITE ∧
    ImageSegmentation (ImageCreatePalete 4 4 2) (ImageRegionFillingWithSTACK 16) =
      .ok (ImageCreatePalete 4 4 2, 0) :=
  (segmentation_stops_when_lut_full (ImageRegionFillingWithSTACK 16)).2.2.1 4 4 2
    (by decide) (by decide) (by decide)

/-! ## Claims on the rotations and on the copy -/

/-- Claim C15: ImageRotate90CW of an image of width W and height H has width H,
height W, the same num_colors and the same LUT entries below num_colors, and its
pixel at row u, column H - 1 - v is the pixel of the argument at row v, column u,
for all v < H and u < W. The argument is a value and is not modified. -/
theorem rotate90_pixels (img : Image) (hwf : img.WF) :
    (ImageRotate90CW img).width = img.height ∧ (ImageRotate90CW img).height = img.width ∧
    (ImageRotate90CW img).num_colors = img.num_colors ∧
    (∀ i < img.num_colors, (ImageRotate90CW img).LUT[i]? = img.LUT[i]?) ∧
    (∀ v u : Nat, v < img.height → u < img.width →
      readPixel (ImageRotate90CW img) u (img.height - 1 - v : Nat) = readPixel img v u) ∧
    (ImageRotate90CW img).WF := by
  obtain ⟨a, b, c, d, e, f⟩ := rotate90_spec img hwf
  refine ⟨b, c, d, ?_, f, a⟩
  intro i hi
  rw [e, List.getElem?_take_of_lt hi]

theorem rotate90_pixels_witness :
    sampleImage.WF ∧
    ImageRotate90CW sampleImage =
      { width := 2, height := 3, image := [[3, 0], [4, 1], [5, 2]], num_colors := 6,
        LUT := [10, 11, 12, 13, 14, 15] } ∧
    ((ImageRotate90CW sampleImage).width = sampleImage.height ∧
     (ImageRotate90CW sampleImage).height = sampleImage.width ∧
     (ImageRotate90CW sampleImage).num_colors = sampleImage.num_colors ∧
     (∀ i < sampleImage.num_colors, (ImageRotate90CW sampleImage).LUT[i]? = sampleImage.LUT[i]?) ∧
     (∀ v u : Nat, v < sampleImage.height → u < sampleImage.width →
       readPixel (ImageRotate90CW sampleImage) u (sampleImage.height - 1 - v : Nat) =
         readPixel sampleImage v u) ∧
     (ImageRotate90CW sampleImage).WF) :=
  ⟨by decide, by decide, rotate90_pixels sampleImage (by decide)⟩

/-- Claim C16: four applications of ImageRotate90CW give an image that
ImageIsEqual accepts as equal to the original. -/
theorem rotate90_four_times (img : Image) (hwf : img.WF) :
    ImageIsEqual img
      (ImageRotate90CW (ImageRotate90CW (ImageRotate90CW (ImageRotate90CW img)))) = true :=
  rotate90_four img hwf

theorem rotate90_four_times_witness :
    sampleImage.WF ∧ ImageIsEqual sampleImage
      (ImageRotate90CW (ImageRotate90CW (ImageRotate90CW (ImageRotate90CW
        sampleImage)))) = true :=
  ⟨by decide, rotate90_four_times sampleImage (by decide)⟩

/-- Claim C17: ImageRotate180CW keeps the width and the height, and two
applications give an image that ImageIsEqual accepts as equal to the original. -/
theorem rotate180_involution (img : Image) (hwf : img.WF) :
    (ImageRotate180CW img).width = img.width ∧ (ImageRotate180CW img).height = img.height ∧
    ImageIsEqual img (ImageRotate180CW (ImageRotate180CW img)) = true :=
  ⟨(rotate_dims img).2.2.1, (rotate_dims img).2.2.2, rotate180_twice img hwf⟩

theorem rotate180_involution_witness :
    sampleImage.WF ∧ (ImageRotate180CW sampleImage).width = 3 ∧
    (ImageRotate180CW sampleImage).height = 2 ∧
    ImageIsEqual sampleImage
      (ImageRotate180CW (ImageRotate180CW
        sampleImage)) = true :=
  ⟨by decide, rotate180_involution sampleImage (by decide)⟩

/-- Claim C18: ImageIsEqual accepts ImageRotate180CW of an image and two
applications of ImageRotate90CW to it as equal. -/
theorem rotate180_is_rotate90_twice (img : Image) (hwf : img.WF) :
    ImageIsEqual (ImageRotate180CW img) (ImageRotate90CW (ImageRotate90CW img)) = true :=
  rotate180_eq_rotate90_twice img hwf

theorem rotate180_is_rotate90_twice_witness :
    sampleImage.WF ∧ ImageIsEqual
      (ImageRotate180CW sampleImage)
      (ImageRotate90CW (ImageRotate90CW
        sampleImage)) = true :=
  ⟨by decide, rotate180_is_rotate90_twice sampleImage (by decide)⟩

/-- Claim C19: ImageCopy of an image has the same width, height and num_colors,
ImageIsEqual accepts the image and its copy as equal, and the copy holds the same
grid of labels. The argument is a value and is not modified. -/
theorem copy_equal (img : Image) (hwf : img.WF) :
    (ImageCopy img).width = img.width ∧ (ImageCopy img).height = img.height ∧
    (ImageCopy img).num_colors = img.num_colors ∧
    ImageIsEqual img (ImageCopy img) = true ∧ (ImageCopy img).image = img.image :=
  ⟨rfl, rfl, rfl, copy_isEqual img hwf, copy_image img hwf⟩

theorem copy_equal_witness :
    sampleImage.WF ∧ (ImageCopy sampleImage).width = 3 ∧
    (ImageCopy sampleImage).height = 2 ∧
    (ImageCopy sampleImage).num_colors = 6 ∧
    ImageIsEqual sampleImage
      (ImageCopy sampleImage) = true ∧
    (ImageCopy sampleImage).image = [[0, 1, 2], [3, 4, 5]] :=
  ⟨by decide, copy_equal sampleImage (by decide)⟩

/-! ## The copy of the chess image of the tests -/

theorem chess100_create : ImageCreateChess 100 80 20 0xff0000 = some chess100 := by
  rfl

theorem chess100_WF : chess100.WF :=
  gridOf_WF (fun i j => if (i / 20 + j / 20) % 2 ≠ 0 then 0 else 2) rfl rfl rfl

theorem chess100_seed : readPixel chess100 40 50 = some 2 :=
  @readPixel_gridOf chess100 100 80 (fun i j => if (i / 20 + j / 20) % 2 ≠ 0 then 0 else 2) rfl
    40 50 (by decide) (by decide)

theorem chess100_noop (fuel : Nat) :
    ImageRegionFillingWithSTACK fuel (ImageCopy chess100) 50 40 2 =
      .ok (ImageCopy chess100, 0) := by
  refine (noop_of_seed fuel _ 50 40 2 (Or.inr ?_)).2.1
  rw [readPixel_congr (copy_image _ chess100_WF)]
  exact chess100_seed

/-- Counterexample to claim C20: on the copy of ImageCreateChess(100, 80, 20, 0xff0000)
no run of ImageRegionFillingWithSTACK from (50, 40) with label 2 leaves an image
that ImageIsDifferent tells apart from the original. -/
theorem copy_fill_not_different :
    ∃ original : Image, ImageCreateChess 100 80 20 0xff0000 = some original ∧
      ∀ (fuel : Nat) (r : Image × Nat),
        ImageRegionFillingWithSTACK fuel (ImageCopy original) 50 40 2 = .ok r →
        ImageIsDifferent original r.1 ≠ true := by
  refine ⟨chess100, chess100_create, ?_⟩
  intro fuel r h
  rw [chess100_noop fuel] at h
  cases h
  simp [ImageIsDifferent, copy_isEqual chess100 chess100_WF]

/-- Claim C20, amended: in original = ImageCreateChess(100, 80, 20, 0xff0000) the
pixel of row 40, column 50 already holds label 2, so ImageRegionFillingWithSTACK on
the copy from (50, 40) with label 2 returns 0 and the copy as it was, for every
fuel; the original and the copy remain equal for ImageIsEqual, and ImageIsDifferent
is false. -/
theorem copy_fill_same_label :
    ImageCreateChess 100 80 20 0xff0000 = some chess100 ∧
    readPixel chess100 40 50 = some 2 ∧
    readPixel (ImageCopy chess100) 40 50 = some 2 ∧
    (∀ fuel : Nat, ImageRegionFillingWithSTACK fuel (ImageCopy chess100) 50 40 2 =
      .ok (ImageCopy chess100, 0)) ∧
    ImageIsEqual chess100 (ImageCopy chess100) = true ∧
    ImageIsDifferent chess100 (ImageCopy chess100) = false := by
  refine ⟨chess100_create, chess100_seed, ?_, chess100_noop, copy_isEqual chess100 chess100_WF, ?_⟩
  · rw [readPixel_congr (copy_image _ chess100_WF)]
    exact chess100_seed
  · simp [ImageIsDifferent, copy_isEqual chess100 chess100_WF]

/-! ## Equality of images -/

theorem take_eq_take_iff (n : Nat) (l1 l2 : List Nat) :
    l1.take n = l2.take n ↔ ∀ i < n, l1[i]? = l2[i]? := by
  constructor
  · intro h i hi
    have := congrArg (fun l => l[i]?) h
    simpa [List.getElem?_take, hi] using this
  · intro h
    apply List.ext_getElem?
    intro i
    by_cases hi : i < n
    · simp [List.getElem?_take, hi, h i hi]
    · simp [List.getElem?_take, hi]

theorem rowTake_eq_iff (a b : Image) (v : Nat) :
    (a.image.getD v []).take a.width = (b.image.getD v []).take a.width ↔
      ∀ u < a.width, readPixel a v u = readPixel b v u := by
  rw [take_eq_take_iff]
  have e : ∀ (img : Image) (u : Nat), (img.image.getD v [])[u]? = readPixel img v u := by
    intro img u
    rw [readPixel_nat, List.getD_eq_getElem?_getD]
    cases img.image[v]? <;> simp
  simp only [e]

theorem isEqual_iff (a b : Image) :
    ImageIsEqual a b = true ↔
      a.width = b.width ∧ a.height = b.height ∧ a.num_colors = b.num_colors ∧
      (∀ i < a.num_colors, a.LUT[i]? = b.LUT[i]?) ∧
      (∀ v < a.height, ∀ u < a.width, readPixel a v u = readPixel b v u) := by
  unfold ImageIsEqual
  by_cases hwh : a.width ≠ b.width ∨ a.height ≠ b.height
  · rw [if_pos hwh]
    constructor
    · intro h; cases h
    · rintro ⟨h1, h2, -⟩
      rcases hwh with h | h
      · exact absurd h1 h
      · exact absurd h2 h
  · rw [if_neg hwh]
    have hw : a.width = b.width := by
      by_contra h; exact hwh (Or.inl h)
    have hh : a.height = b.height := by
      by_contra h; exact hwh (Or.inr h)
    by_cases hn : a.num_colors ≠ b.num_colors
    · rw [if_pos hn]
      constructor
      · intro h; cases h
      · rintro ⟨-, -, h3, -⟩
        exact absurd h3 hn
    · rw [if_neg hn]
      have hn1 : a.num_colors = b.num_colors := by
        by_contra h; exact hn h
      by_cases hl : a.LUT.take a.num_colors ≠ b.LUT.take a.num_colors
      · rw [if_pos hl]
        constructor
        · intro h; cases h
        · rintro ⟨-, -, -, h4, -⟩
          exact absurd ((take_eq_take_iff _ _ _).2 h4) hl
      · rw [if_neg hl]
        have hl1 : a.LUT.take a.num_colors = b.LUT.take a.num_colors := by
          by_contra h; exact hl h
        rw [List.all_eq_true]
        simp only [List.mem_range, decide_eq_true_iff]
        constructor
        · intro h
          exact ⟨hw, hh, hn1, (take_eq_take_iff _ _ _).1 hl1,
            fun v hv => (rowTake_eq_iff a b v).1 (h v hv)⟩
        · rintro ⟨-, -, -, -, h5⟩ v hv
          exact (rowTake_eq_iff a b v).2 (h5 v hv)

theorem isDifferent_eq (a b : Image) : ImageIsDifferent a b = !ImageIsEqual a b := rfl

theorem isEqual_false_of_dims (a b : Image) (h : a.width ≠ b.width ∨ a.height ≠ b.height) :
    ImageIsEqual a b = false := by
  unfold ImageIsEqual
  rw [if_pos h]

/-- The three shapes of a chess image: the colour is WHITE (label 0), BLACK
(label 1) or a new colour (label 2, three colours). -/
theorem chess_shape (w h e c : Nat) :
    ∃ label nc lut, ImageCreateChess w h e c = some
        { width := w, height := h,
          image := (List.range h).map fun i => (List.range w).map fun j =>
            if (i / e + j / e) % 2 ≠ 0 then 0 else label,
          num_colors := nc, LUT := lut } ∧
      ((c = 0xffffff ∧ label = 0 ∧ nc = 2 ∧ lut = [0xffffff, 0x000000]) ∨
       (c = 0x000000 ∧ label = 1 ∧ nc = 2 ∧ lut = [0xffffff, 0x000000]) ∨
       (c ≠ 0xffffff ∧ c ≠ 0x000000 ∧ label = 2 ∧ nc = 3 ∧ lut = [0xffffff, 0x000000, c])) := by
  by_cases h1 : c = 0xffffff
  · subst h1
    exact ⟨0, 2, _, rfl, Or.inl ⟨rfl, rfl, rfl, rfl⟩⟩
  · by_cases h2 : c = 0x000000
    · subst h2
      exact ⟨1, 2, _, rfl, Or.inr (Or.inl ⟨rfl, rfl, rfl, rfl⟩)⟩
    · refine ⟨2, 3, [0xffffff, 0x000000, c], ?_, Or.inr (Or.inr ⟨h1, h2, rfl, rfl, rfl⟩)⟩
      have hf : LUTFindColor (ImageCreate w h) c = none := by
        unfold LUTFindColor ImageCreate AllocateImageHeader
        have e1 : (16777215 == c) = false := by
          rw [beq_eq_false_iff_ne]; exact fun h => h1 h.symm
        have e2 : (0 == c) = false := by
          rw [beq_eq_false_iff_ne]; exact fun h => h2 h.symm
        simp [List.indexOf?, List.findIdx?_cons, e1, e2]
      unfold ImageCreateChess LUTAllocColor
      rw [hf]
      rfl

theorem chess_colors_differ (w h e c1 c2 : Nat) (a b : Image) (hw : 0 < w) (hh : 0 < h)
    (hc : c1 ≠ c2) (ha : ImageCreateChess w h e c1 = some a)
    (hb : ImageCreateChess w h e c2 = some b) : ImageIsEqual a b = false := by
  obtain ⟨l1, n1, t1, e1, k1⟩ := chess_shape w h e c1
  obtain ⟨l2, n2, t2, e2, k2⟩ := chess_shape w h e c2
  rw [e1] at ha
  rw [e2] at hb
  cases ha
  cases hb
  rw [← Bool.not_eq_true]
  intro heq
  obtain ⟨-, -, hn, hl, hp⟩ := (isEqual_iff _ _).1 heq
  have hp0 := hp 0 hh 0 hw
  rw [@readPixel_gridOf _ w h (fun i j => if (i / e + j / e) % 2 ≠ 0 then 0 else l1) rfl 0 0 hh hw,
    @readPixel_gridOf _ w h (fun i j => if (i / e + j / e) % 2 ≠ 0 then 0 else l2) rfl 0 0 hh hw]
    at hp0
  simp only [Nat.zero_div, add_zero, Nat.zero_mod, ne_eq, not_true_eq_false, if_false,
    Option.some.injEq] at hp0
  dsimp only at hn hl
  rcases k1 with ⟨a1, a2, a3, a4⟩ | ⟨a1, a2, a3, a4⟩ | ⟨a1, a1', a2, a3, a4⟩ <;>
    rcases k2 with ⟨b1, b2, b3, b4⟩ | ⟨b1, b2, b3, b4⟩ | ⟨b1, b1', b2, b3, b4⟩
  all_goals first
    | (exact hc (a1.trans b1.symm))
    | omega
    | (exfalso
       have h2 := hl 2 (by omega)
       rw [a4, b4] at h2
       simp at h2
       exact hc h2)

/-! ## The LUT functions -/

theorem indexOf?_some_iff (c : Nat) :
    ∀ (l : List Nat) (i : Nat),
      l.indexOf? c = some i ↔ l[i]? = some c ∧ ∀ j < i, l[j]? ≠ some c := by
  intro l
  induction l with
  | nil => intro i; simp
  | cons x xs ih =>
    intro i
    rw [List.indexOf?_cons]
    by_cases hx : x = c
    · subst hx
      simp only [beq_self_eq_true, if_true, Option.some.injEq]
      constructor
      · intro h
        subst h
        exact ⟨List.getElem?_cons_zero, fun j hj => absurd hj (Nat.not_lt_zero j)⟩
      · rintro ⟨-, h2⟩
        cases i with
        | zero => rfl
        | succ k => exact absurd List.getElem?_cons_zero (h2 0 (Nat.succ_pos k))
    · have hb : (x == c) = false := by rw [beq_eq_false_iff_ne]; exact hx
      simp only [hb, Bool.false_eq_true, if_false, Option.map_eq_some']
      cases i with
      | zero =>
        simp only [List.getElem?_cons_zero, Option.some.injEq, hx, false_and, iff_false]
        rintro ⟨a, -, h⟩
        cases h
      | succ k =>
        simp only [Nat.succ.injEq, exists_eq_right, List.getElem?_cons_succ, ih k]
        constructor
        · rintro ⟨h1, h2⟩
          refine ⟨h1, fun j hj => ?_⟩
          cases j with
          | zero =>
            simp only [List.getElem?_cons_zero, ne_eq, Option.some.injEq]
            exact hx
          | succ m =>
            simp only [List.getElem?_cons_succ]
            exact h2 m (by omega)
        · rintro ⟨h1, h2⟩
          refine ⟨h1, fun j hj => ?_⟩
          have := h2 (j + 1) (by omega)
          simpa using this

theorem indexOf?_none_iff (c : Nat) (l : List Nat) :
    l.indexOf? c = none ↔ ∀ i : Nat, l[i]? ≠ some c := by
  rw [List.indexOf?_eq_none_iff]
  constructor
  · intro h i hi
    have hm : c ∈ l := List.getElem?_mem hi
    exact h c hm (by simp)
  · intro h x hx hxc
    have : x = c := by simpa using hxc
    subst this
    obtain ⟨i, hi⟩ := List.getElem?_of_mem hx
    exact h i hi

theorem getElem?_take_lt (l : List Nat) {i n : Nat} (h : i < n) : (l.take n)[i]? = l[i]? := by
  rw [List.getElem?_take, if_pos h]

theorem findColor_some_iff (img : Image) (c i : Nat) :
    LUTFindColor img c = some i ↔
      i < img.num_colors ∧ img.LUT[i]? = some c ∧ ∀ j < i, img.LUT[j]? ≠ some c := by
  unfold LUTFindColor
  rw [indexOf?_some_iff]
  constructor
  · rintro ⟨h1, h2⟩
    have hi : i < img.num_colors := by
      by_contra hn
      rw [List.getElem?_take, if_neg hn] at h1
      cases h1
    rw [getElem?_take_lt _ hi] at h1
    refine ⟨hi, h1, fun j hj => ?_⟩
    have := h2 j hj
    rwa [getElem?_take_lt _ (lt_trans hj hi)] at this
  · rintro ⟨hi, h1, h2⟩
    rw [getElem?_take_lt _ hi]
    refine ⟨h1, fun j hj => ?_⟩
    rw [getElem?_take_lt _ (lt_trans hj hi)]
    exact h2 j hj

theorem findColor_none_iff (img : Image) (c : Nat) :
    LUTFindColor img c = none ↔ ∀ i < img.num_colors, img.LUT[i]? ≠ some c := by
  unfold LUTFindColor
  rw [indexOf?_none_iff]
  constructor
  · intro h i hi
    have := h i
    rwa [getElem?_take_lt _ hi] at this
  · intro h i
    by_cases hi : i < img.num_colors
    · rw [getElem?_take_lt _ hi]; exact h i hi
    · rw [List.getElem?_take, if_neg hi]
      exact fun h => by cases h

theorem allocColor_found (img : Image) (c i : Nat) (h : LUTFindColor img c = some i) :
    LUTAllocColor img c = some (img, i) ∧ LUTAllocColorState img c = (img, some i) := by
  unfold LUTAllocColor LUTAllocColorState
  rw [h]
  exact ⟨rfl, rfl⟩

theorem allocColor_new (img : Image) (c : Nat) (h : LUTFindColor img c = none)
    (hn : img.num_colors < FIXED_LUT_SIZE) :
    LUTAllocColor img c =
      some ({ img with num_colors := img.num_colors + 1,
                       LUT := lutStore img.LUT img.num_colors c }, img.num_colors) ∧
    LUTAllocColorState img c =
      ({ img with num_colors := img.num_colors + 1,
                  LUT := lutStore img.LUT img.num_colors c }, some img.num_colors) := by
  unfold LUTAllocColor LUTAllocColorState
  rw [h]
  simp only [hn, if_true, and_self]

theorem allocColor_full (img : Image) (c : Nat) (h : LUTFindColor img c = none)
    (hn : ¬ img.num_colors < FIXED_LUT_SIZE) :
    LUTAllocColor img c = none ∧ LUTAllocColorState img c = (img, none) := by
  unfold LUTAllocColor LUTAllocColorState
  rw [h]
  simp only [hn, if_false, and_self]

/-- The state-returning form agrees with `LUTAllocColor`. -/
theorem allocColorState_eq (img : Image) (c : Nat) :
    LUTAllocColor img c =
      (LUTAllocColorState img c).2.map fun i => ((LUTAllocColorState img c).1, i) := by
  cases h : LUTFindColor img c with
  | some i => rw [(allocColor_found img c i h).1, (allocColor_found img c i h).2]; rfl
  | none =>
    by_cases hn : img.num_colors < FIXED_LUT_SIZE
    · rw [(allocColor_new img c h hn).1, (allocColor_new img c h hn).2]; rfl
    · rw [(allocColor_full img c h hn).1, (allocColor_full img c h hn).2]; rfl

theorem allocColor_spec (img : Image) (c : Nat) (hlen : img.num_colors ≤ img.LUT.length) :
    (∀ i, i < img.num_colors → img.LUT[i]? = some c → (∀ j < i, img.LUT[j]? ≠ some c) →
      LUTAllocColor img c = some (img, i)) ∧
    ((∀ i < img.num_colors, img.LUT[i]? ≠ some c) → img.num_colors < FIXED_LUT_SIZE →
      ∃ img1, LUTAllocColor img c = some (img1, img.num_colors) ∧
        img1.num_colors = img.num_colors + 1 ∧ img1.LUT[img.num_colors]? = some c ∧
        (∀ i < img.num_colors, img1.LUT[i]? = img.LUT[i]?) ∧
        img1.image = img.image ∧ img1.width = img.width ∧ img1.height = img.height) ∧
    (∀ img1 r, LUTAllocColor img c = some (img1, r) →
      r < img1.num_colors ∧ img1.LUT[r]? = some c ∧ img.num_colors ≤ img1.num_colors ∧
      img1.num_colors ≤ img1.LUT.length) := by
  refine ⟨?_, ?_, ?_⟩
  · intro i h1 h2 h3
    exact (allocColor_found img c i ((findColor_some_iff img c i).2 ⟨h1, h2, h3⟩)).1
  · intro h hn
    refine ⟨_, (allocColor_new img c ((findColor_none_iff img c).2 h) hn).1, rfl,
      lutStore_getElem?_self _ _ _ hlen, fun i hi => lutStore_getElem?_lt _ _ _ _ hi hlen,
      rfl, rfl, rfl⟩
  · intro img1 r h
    cases hf : LUTFindColor img c with
    | some i =>
      rw [(allocColor_found img c i hf).1] at h
      simp only [Option.some.injEq, Prod.mk.injEq] at h
      obtain ⟨rfl, rfl⟩ := h
      obtain ⟨a, b, -⟩ := (findColor_some_iff img c i).1 hf
      exact ⟨a, b, le_refl _, hlen⟩
    | none =>
      by_cases hn : img.num_colors < FIXED_LUT_SIZE
      · rw [(allocColor_new img c hf hn).1] at h
        simp only [Option.some.injEq, Prod.mk.injEq] at h
        obtain ⟨rfl, rfl⟩ := h
        exact ⟨Nat.lt_succ_self _, lutStore_getElem?_self _ _ _ hlen, Nat.le_succ _,
          lutStore_length _ _ _ hlen⟩
      · rw [(allocColor_full img c hf hn).1] at h
        cases h

theorem allocColor_fails_iff (img : Image) (c : Nat) :
    (LUTAllocColor img c = none ↔
      FIXED_LUT_SIZE ≤ img.num_colors ∧ ∀ i < img.num_colors, img.LUT[i]? ≠ some c) ∧
    ((LUTAllocColorState img c).2 = none ↔ LUTAllocColor img c = none) ∧
    ((LUTAllocColorState img c).2 = none → (LUTAllocColorState img c).1 = img) := by
  cases hf : LUTFindColor img c with
  | some i =>
    rw [(allocColor_found img c i hf).1, (allocColor_found img c i hf).2]
    refine ⟨?_, by simp, by simp⟩
    constructor
    · intro h; cases h
    · rintro ⟨-, h⟩
      obtain ⟨a, b, -⟩ := (findColor_some_iff img c i).1 hf
      exact absurd b (h i a)
  | none =>
    have hnone := (findColor_none_iff img c).1 hf
    by_cases hn : img.num_colors < FIXED_LUT_SIZE
    · rw [(allocColor_new img c hf hn).1, (allocColor_new img c hf hn).2]
      refine ⟨?_, by simp, by simp⟩
      constructor
      · intro h; cases h
      · rintro ⟨h, -⟩
        omega
    · rw [(allocColor_full img c hf hn).1, (allocColor_full img c hf hn).2]
      exact ⟨⟨fun _ => ⟨by omega, hnone⟩, fun _ => rfl⟩, by simp, by simp⟩

/-! ## The bit loops of the PBM files -/

theorem map_getD_range (l : List Nat) : (List.range l.length).map (fun b => l.getD b 0) = l := by
  apply List.ext_getElem?
  intro i
  by_cases hi : i < l.length
  · simp [List.getElem?_map, List.getElem?_range hi, List.getD_eq_getElem?_getD,
      List.getElem?_eq_getElem hi]
  · have h1 : l.length ≤ i := by omega
    rw [List.getElem?_eq_none (by simpa using h1), List.getElem?_eq_none h1]

theorem getD_map_range (f : Nat → Nat) {n b : Nat} (hb : b < n) :
    ((List.range n).map f).getD b 0 = f b := by
  simp [List.getD_eq_getElem?_getD, List.getElem?_map, List.getElem?_range hb]

/-- A loop that replaces each entry `b` by a function of `b` and of the entry. -/
theorem foldl_rmw (g : Nat → Nat → Nat) (n : Nat) (f : Nat → Nat) :
    (List.range n).foldl (fun acc b => acc.set b (g b (acc.getD b 0))) ((List.range n).map f) =
      (List.range n).map fun b => g b (f b) := by
  have key : ∀ m, m ≤ n →
      (List.range m).foldl (fun acc b => acc.set b (g b (acc.getD b 0)))
          ((List.range n).map f) =
        (List.range n).map fun b => if b < m then g b (f b) else f b := by
    intro m
    induction m with
    | zero => intro _; simp
    | succ k ih =>
      intro hk
      rw [List.range_succ, List.foldl_append, ih (by omega)]
      simp only [List.foldl_cons, List.foldl_nil]
      rw [getD_map_range _ (by omega : k < n)]
      simp only [lt_self_iff_false, if_false]
      apply List.ext_getElem?
      intro i
      rw [List.getElem?_set]
      by_cases hi : i < n
      · by_cases hik : k = i
        · subst hik
          simp [List.getElem?_map, List.getElem?_range hi, hi]
        · have : (i < k + 1) = (i < k) := by
            apply propext; constructor <;> intro h <;> omega
          simp [List.getElem?_map, List.getElem?_range hi, hik, this]
      · have h1 : n ≤ i := by omega
        have hne : k ≠ i := by omega
        simp [hne, List.getElem?_eq_none, h1]
  rw [key n (le_refl n)]
  apply List.map_congr_left
  intro b hb
  rw [List.mem_range] at hb
  rw [if_pos hb]

/-- A loop that stores `v b` at the entry `8 * b + k`. -/
theorem foldl_stride (v : Nat → Nat) (k n : Nat) (hk : k < 8) (f : Nat → Nat) :
    (List.range n).foldl (fun acc b => acc.set (8 * b + k) (v b)) ((List.range (8 * n)).map f) =
      (List.range (8 * n)).map fun j => if j % 8 = k then v (j / 8) else f j := by
  have key : ∀ m, m ≤ n →
      (List.range m).foldl (fun acc b => acc.set (8 * b + k) (v b))
          ((List.range (8 * n)).map f) =
        (List.range (8 * n)).map fun j => if j % 8 = k ∧ j / 8 < m then v (j / 8) else f j := by
    intro m
    induction m with
    | zero => intro _; simp
    | succ t ih =>
      intro ht
      rw [List.range_succ, List.foldl_append, ih (by omega)]
      simp only [List.foldl_cons, List.foldl_nil]
      apply List.ext_getElem?
      intro i
      rw [List.getElem?_set]
      by_cases hi : i < 8 * n
      · by_cases hik : 8 * t + k = i
        · subst hik
          have h1 : (8 * t + k) % 8 = k := by omega
          have h2 : (8 * t + k) / 8 = t := by omega
          simp [List.getElem?_map, List.getElem?_range hi, hi, h1, h2]
        · have : (i % 8 = k ∧ i / 8 < t + 1) = (i % 8 = k ∧ i / 8 < t) := by
            apply propext; constructor <;> rintro ⟨h1, h2⟩ <;> refine ⟨h1, ?_⟩ <;> omega
          simp [List.getElem?_map, List.getElem?_range hi, hik, this]
      · have h1 : 8 * n ≤ i := by omega
        have hne : 8 * t + k ≠ i := by omega
        simp [hne, List.getElem?_eq_none, h1]
  rw [key n (le_refl n)]
  apply List.map_congr_left
  intro j hj
  rw [List.mem_range] at hj
  have : j / 8 < n := by omega
  simp [this]

theorem range_eight : List.range 8 = [0, 1, 2, 3, 4, 5, 6, 7] := by decide

/-- The bit that `packBits` contributes to byte `b` in the iteration `k`. -/
theorem packBits_eq (n : Nat) (bytes raw : List Nat) (hb : bytes.length = n) :
    packBits n bytes raw = (List.range n).map fun b =>
      (((((((0 ||| (if raw.getD (8 * b + 0) 0 ≠ 0 then bitMask 0 else 0)) |||
        (if raw.getD (8 * b + 1) 0 ≠ 0 then bitMask 1 else 0)) |||
        (if raw.getD (8 * b + 2) 0 ≠ 0 then bitMask 2 else 0)) |||
        (if raw.getD (8 * b + 3) 0 ≠ 0 then bitMask 3 else 0)) |||
        (if raw.getD (8 * b + 4) 0 ≠ 0 then bitMask 4 else 0)) |||
        (if raw.getD (8 * b + 5) 0 ≠ 0 then bitMask 5 else 0)) |||
        (if raw.getD (8 * b + 6) 0 ≠ 0 then bitMask 6 else 0)) |||
        (if raw.getD (8 * b + 7) 0 ≠ 0 then bitMask 7 else 0) := by
  unfold packBits
  have h0 : bytes = (List.range n).map fun b => bytes.getD b 0 := by
    rw [← hb]; exact (map_getD_range bytes).symm
  rw [h0, range_eight]
  rw [List.foldl_cons, List.foldl_cons, List.foldl_cons, List.foldl_cons, List.foldl_cons,
    List.foldl_cons, List.foldl_cons, List.foldl_cons, List.foldl_nil]
  rw [foldl_rmw (fun b x => (if (0 : Nat) = 0 then 0 else x) |||
      (if raw.getD (8 * b + 0) 0 ≠ 0 then bitMask 0 else 0)),
    foldl_rmw (fun b x => (if (1 : Nat) = 0 then 0 else x) |||
      (if raw.getD (8 * b + 1) 0 ≠ 0 then bitMask 1 else 0)),
    foldl_rmw (fun b x => (if (2 : Nat) = 0 then 0 else x) |||
      (if raw.getD (8 * b + 2) 0 ≠ 0 then bitMask 2 else 0)),
    foldl_rmw (fun b x => (if (3 : Nat) = 0 then 0 else x) |||
      (if raw.getD (8 * b + 3) 0 ≠ 0 then bitMask 3 else 0)),
    foldl_rmw (fun b x => (if (4 : Nat) = 0 then 0 else x) |||
      (if raw.getD (8 * b + 4) 0 ≠ 0 then bitMask 4 else 0)),
    foldl_rmw (fun b x => (if (5 : Nat) = 0 then 0 else x) |||
      (if raw.getD (8 * b + 5) 0 ≠ 0 then bitMask 5 else 0)),
    foldl_rmw (fun b x => (if (6 : Nat) = 0 then 0 else x) |||
      (if raw.getD (8 * b + 6) 0 ≠ 0 then bitMask 6 else 0)),
    foldl_rmw (fun b x => (if (7 : Nat) = 0 then 0 else x) |||
      (if raw.getD (8 * b + 7) 0 ≠ 0 then bitMask 7 else 0))]
  apply List.map_congr_left
  intro b _
  simp only [if_true, OfNat.ofNat_ne_zero, if_false]
  rfl

theorem unpackBits_eq (n : Nat) (bytes raw : List Nat) (hr : raw.length = 8 * n) :
    unpackBits n bytes raw = (List.range (8 * n)).map fun j =>
      if bytes.getD (j / 8) 0 &&& bitMask (j % 8) ≠ 0 then 1 else 0 := by
  unfold unpackBits
  have h0 : raw = (List.range (8 * n)).map fun j => raw.getD j 0 := by
    rw [← hr]; exact (map_getD_range raw).symm
  rw [h0, range_eight]
  rw [List.foldl_cons, List.foldl_cons, List.foldl_cons, List.foldl_cons, List.foldl_cons,
    List.foldl_cons, List.foldl_cons, List.foldl_cons, List.foldl_nil]
  rw [foldl_stride (fun b => if bytes.getD b 0 &&& bitMask 0 ≠ 0 then 1 else 0) 0 n (by decide),
    foldl_stride (fun b => if bytes.getD b 0 &&& bitMask 1 ≠ 0 then 1 else 0) 1 n (by decide),
    foldl_stride (fun b => if bytes.getD b 0 &&& bitMask 2 ≠ 0 then 1 else 0) 2 n (by decide),
    foldl_stride (fun b => if bytes.getD b 0 &&& bitMask 3 ≠ 0 then 1 else 0) 3 n (by decide),
    foldl_stride (fun b => if bytes.getD b 0 &&& bitMask 4 ≠ 0 then 1 else 0) 4 n (by decide),
    foldl_stride (fun b => if bytes.getD b 0 &&& bitMask 5 ≠ 0 then 1 else 0) 5 n (by decide),
    foldl_stride (fun b => if bytes.getD b 0 &&& bitMask 6 ≠ 0 then 1 else 0) 6 n (by decide),
    foldl_stride (fun b => if bytes.getD b 0 &&& bitMask 7 ≠ 0 then 1 else 0) 7 n (by decide)]
  apply List.map_congr_left
  intro j _
  have hj : j % 8 < 8 := Nat.mod_lt _ (by decide)
  interval_cases h : j % 8 <;> simp

theorem bitMask_eq : ∀ k < 8, bitMask k = 2 ^ (7 - k) := by decide

theorem bitMask_testBit : ∀ j < 8, ∀ k < 8, (bitMask j).testBit (7 - k) = decide (j = k) := by
  decide

theorem and_two_pow_ne_zero (x i : Nat) : x &&& 2 ^ i ≠ 0 ↔ x.testBit i = true := by
  constructor
  · intro h
    by_contra hx
    apply h
    apply Nat.eq_of_testBit_eq
    intro j
    rw [Nat.testBit_and, Nat.zero_testBit, Nat.testBit_two_pow]
    by_cases hij : i = j
    · subst hij
      simp only [Bool.not_eq_true] at hx
      simp [hx]
    · simp [hij]
  · intro h h0
    have := Nat.testBit_and x (2 ^ i) i
    rw [h0, Nat.zero_testBit, h, Nat.testBit_two_pow_self] at this
    cases this

theorem rowBytes_bounds (w : Nat) : w ≤ rowBytes w * 8 ∧ rowBytes w * 8 < w + 8 := by
  unfold rowBytes
  omega

theorem rawRowOf_getD (w : Nat) (row : List Nat) {j : Nat} (hj : j < rowBytes w * 8) :
    (rawRowOf w row).getD j 0 = if j < w then row.getD j 0 % 256 else WHITE := by
  unfold rawRowOf
  rw [getD_map_range _ hj]

/-- The byte that `packBits` builds: bit `7 - k` of byte `b` tells whether entry
`8 * b + k` of the row is not zero. -/
theorem packBits_testBit (n : Nat) (bytes raw : List Nat) (hb : bytes.length = n)
    {b k : Nat} (hbn : b < n) (hk : k < 8) :
    ((packBits n bytes raw).getD b 0).testBit (7 - k) = decide (raw.getD (8 * b + k) 0 ≠ 0) := by
  rw [packBits_eq n bytes raw hb, getD_map_range _ hbn]
  simp only [Nat.testBit_or, Nat.zero_testBit, Bool.false_or]
  have t : ∀ (c : Prop) [Decidable c] (j : Nat), j < 8 →
      (if c then bitMask j else 0).testBit (7 - k) = (decide c && decide (j = k)) := by
    intro c _ j hj
    by_cases hc : c
    · simp [hc, bitMask_testBit j hj k hk]
    · simp [hc]
  rw [t _ 0 (by decide), t _ 1 (by decide), t _ 2 (by decide), t _ 3 (by decide),
    t _ 4 (by decide), t _ 5 (by decide), t _ 6 (by decide), t _ 7 (by decide)]
  interval_cases k <;> simp

theorem packBits_lt (n : Nat) (bytes raw : List Nat) (hb : bytes.length = n)
    {b : Nat} (hbn : b < n) : (packBits n bytes raw).getD b 0 < 256 := by
  rw [packBits_eq n bytes raw hb, getD_map_range _ hbn]
  have t : ∀ (c : Prop) [Decidable c] (j : Nat), j < 8 → (if c then bitMask j else 0) < 2 ^ 8 := by
    intro c _ j hj
    by_cases hc : c
    · rw [if_pos hc, bitMask_eq j hj]
      exact Nat.pow_lt_pow_right (by decide) (by omega)
    · rw [if_neg hc]; decide
  have z : (0 : Nat) < 2 ^ 8 := by decide
  exact Nat.or_lt_two_pow (Nat.or_lt_two_pow (Nat.or_lt_two_pow (Nat.or_lt_two_pow
    (Nat.or_lt_two_pow (Nat.or_lt_two_pow (Nat.or_lt_two_pow (Nat.or_lt_two_pow z
    (t _ 0 (by decide))) (t _ 1 (by decide))) (t _ 2 (by decide))) (t _ 3 (by decide)))
    (t _ 4 (by decide))) (t _ 5 (by decide))) (t _ 6 (by decide))) (t _ 7 (by decide))

theorem packBits_length (n : Nat) (bytes raw : List Nat) (hb : bytes.length = n) :
    (packBits n bytes raw).length = n := by
  rw [packBits_eq n bytes raw hb, List.length_map, List.length_range]

theorem unpackBits_getElem? (n : Nat) (bytes raw : List Nat) (hr : raw.length = 8 * n)
    {j : Nat} (hj : j < 8 * n) :
    (unpackBits n bytes raw)[j]? =
      some (if (bytes.getD (j / 8) 0).testBit (7 - j % 8) = true then 1 else 0) := by
  rw [unpackBits_eq n bytes raw hr, List.getElem?_map, List.getElem?_range hj]
  have hm : j % 8 < 8 := Nat.mod_lt _ (by decide)
  simp only [Option.map_some', bitMask_eq _ hm, and_two_pow_ne_zero]

theorem unpackBits_length (n : Nat) (bytes raw : List Nat) (hr : raw.length = 8 * n) :
    (unpackBits n bytes raw).length = 8 * n := by
  rw [unpackBits_eq n bytes raw hr, List.length_map, List.length_range]

/-- The labels read from a PBM row are 0 or 1, whatever the bytes. -/
theorem loadPBMRow_spec (w : Nat) (bytes raw : List Nat) (hr : raw.length = rowBytes w * 8) :
    (loadPBMRow w bytes raw).length = w ∧ ∀ p ∈ loadPBMRow w bytes raw, p < 2 := by
  have hr1 : raw.length = 8 * rowBytes w := by omega
  have hw := (rowBytes_bounds w).1
  unfold loadPBMRow
  constructor
  · rw [List.length_map, List.length_take, unpackBits_length _ _ _ hr1]
    omega
  · intro p hp
    rw [List.mem_map] at hp
    obtain ⟨q, hq, rfl⟩ := hp
    have hq1 := List.mem_of_mem_take hq
    obtain ⟨j, hj⟩ := List.getElem?_of_mem hq1
    have hjl : j < 8 * rowBytes w := by
      by_contra hn
      rw [List.getElem?_eq_none (by rw [unpackBits_length _ _ _ hr1]; omega)] at hj
      cases hj
    rw [unpackBits_getElem? _ _ _ hr1 hjl] at hj
    simp only [Option.some.injEq] at hj
    subst hj
    split <;> decide

theorem pbm_row (w : Nat) (row bytes raw : List Nat) (hrow : row.length = w)
    (h01 : ∀ p ∈ row, p < 2) (hb : bytes.length = rowBytes w)
    (hr : raw.length = rowBytes w * 8) :
    (savePBMRow w row bytes).length = rowBytes w ∧
    (∀ b < rowBytes w, (savePBMRow w row bytes).getD b 0 < 256 ∧ ∀ k < 8,
      ((savePBMRow w row bytes).getD b 0).testBit (7 - k) =
        decide (8 * b + k < w ∧ row.getD (8 * b + k) 0 = 1)) ∧
    loadPBMRow w (savePBMRow w row bytes) raw = row := by
  have hr1 : raw.length = 8 * rowBytes w := by omega
  have hw := (rowBytes_bounds w).1
  have hbit : ∀ b < rowBytes w, ∀ k < 8,
      ((savePBMRow w row bytes).getD b 0).testBit (7 - k) =
        decide (8 * b + k < w ∧ row.getD (8 * b + k) 0 = 1) := by
    intro b hbn k hk
    unfold savePBMRow
    rw [packBits_testBit _ _ _ hb hbn hk, rawRowOf_getD w row (by omega), decide_eq_decide]
    by_cases hlt : 8 * b + k < w
    · have hmem : row.getD (8 * b + k) 0 < 2 := by
        have hl : 8 * b + k < row.length := by omega
        rw [List.getD_eq_getElem?_getD, List.getElem?_eq_getElem hl]
        exact h01 _ (List.getElem_mem _)
      rw [if_pos hlt]
      constructor
      · intro h; exact ⟨hlt, by omega⟩
      · rintro ⟨-, h⟩; omega
    · rw [if_neg hlt]
      constructor
      · intro h; exact absurd rfl h
      · rintro ⟨h, -⟩; exact absurd h hlt
  refine ⟨packBits_length _ _ _ hb, fun b hbn => ⟨packBits_lt _ _ _ hb hbn, hbit b hbn⟩, ?_⟩
  apply List.ext_getElem?
  intro j
  unfold loadPBMRow
  rw [List.getElem?_map, List.getElem?_take]
  by_cases hj : j < w
  · have hj8 : j < 8 * rowBytes w := by omega
    have hjl : j < row.length := by omega
    rw [if_pos hj, unpackBits_getElem? _ _ _ hr1 hj8, hbit (j / 8) (by omega) (j % 8)
      (Nat.mod_lt _ (by decide))]
    have e : 8 * (j / 8) + j % 8 = j := Nat.div_add_mod j 8
    rw [e, List.getD_eq_getElem?_getD, List.getElem?_eq_getElem hjl]
    have hm : row[j] < 2 := h01 _ (List.getElem_mem _)
    simp only [Option.getD_some, decide_eq_true_iff, hj, true_and, Option.map_some']
    by_cases h1 : row[j] = 1
    · simp [h1]
    · have : row[j] = 0 := by omega
      simp [this]
  · rw [if_neg hj, Option.map_none', List.getElem?_eq_none (by omega)]

/-! ## The PPM round trip -/

theorem rgb_pack (c : Nat) (hc : c < 2 ^ 24) :
    (c >>> 16 &&& 0xff) <<< 16 ||| (c >>> 8 &&& 0xff) <<< 8 ||| (c &&& 0xff) = c := by
  have e255 : (0xff : Nat) = 2 ^ 8 - 1 := by decide
  apply Nat.eq_of_testBit_eq
  intro i
  rw [e255]
  simp only [Nat.testBit_or, Nat.testBit_shiftLeft, Nat.testBit_and, Nat.testBit_shiftRight,
    Nat.testBit_two_pow_sub_one]
  by_cases h1 : i < 8
  · have a1 : ¬ i ≥ 16 := by omega
    have a2 : ¬ i ≥ 8 := by omega
    simp [a1, a2, h1]
  · by_cases h2 : i < 16
    · have a1 : ¬ i ≥ 16 := by omega
      have a2 : i ≥ 8 := by omega
      have a3 : i - 8 < 8 := by omega
      have a4 : 8 + (i - 8) = i := by omega
      simp [a1, a2, a3, a4, h1]
    · by_cases h3 : i < 24
      · have a1 : i ≥ 16 := by omega
        have a2 : i ≥ 8 := by omega
        have a3 : i - 16 < 8 := by omega
        have a4 : 16 + (i - 16) = i := by omega
        have a5 : ¬ i - 8 < 8 := by omega
        simp [a1, a2, a3, a4, a5, h1]
      · have a3 : ¬ i - 16 < 8 := by omega
        have a5 : ¬ i - 8 < 8 := by omega
        have hz : c.testBit i = false :=
          Nat.testBit_lt_two_pow (lt_of_lt_of_le hc (Nat.pow_le_pow_right (by decide) (by omega)))
        simp [a3, a5, h1, hz]

theorem and_ff_le (x : Nat) : x &&& 0xff ≤ 255 := by
  have e255 : (0xff : Nat) = 2 ^ 8 - 1 := by decide
  rw [e255, Nat.and_pow_two_sub_one_eq_mod]
  have := Nat.mod_lt x (show 0 < 2 ^ 8 by decide)
  omega

theorem lutStore_length_self (l : List Nat) (c : Nat) : lutStore l l.length c = l ++ [c] := by
  unfold lutStore
  rw [if_neg (lt_irrefl _)]

/-- One allocation in the loaded image: the colour gets a label, the LUT keeps
its entries, stays without repetition and inside `S`. -/
theorem allocColor_loaded (S : List Nat) (hS : S.length ≤ FIXED_LUT_SIZE) (J : Image) (c : Nat)
    (hlen : J.LUT.length = J.num_colors) (hnd : J.LUT.Nodup) (hsub : ∀ x ∈ J.LUT, x ∈ S)
    (hc : c ∈ S) :
    ∃ J1 q, LUTAllocColor J c = some (J1, q) ∧ J1.image = J.image ∧ J1.width = J.width ∧
      J1.height = J.height ∧ J1.LUT.length = J1.num_colors ∧ J1.LUT.Nodup ∧
      (∀ x ∈ J1.LUT, x ∈ S) ∧ J1.LUT[q]? = some c ∧ q < FIXED_LUT_SIZE ∧
      (∀ (i x : Nat), J.LUT[i]? = some x → J1.LUT[i]? = some x) := by
  cases hf : LUTFindColor J c with
  | some q =>
    obtain ⟨h1, h2, -⟩ := (findColor_some_iff J c q).1 hf
    refine ⟨J, q, (allocColor_found J c q hf).1, rfl, rfl, rfl, hlen, hnd, hsub, h2, ?_,
      fun _ _ h => h⟩
    have : J.LUT.length ≤ S.length :=
      (List.subperm_of_subset hnd (fun x hx => hsub x hx)).length_le
    omega
  | none =>
    have hnot : c ∉ J.LUT := by
      intro hmem
      obtain ⟨i, hi⟩ := List.getElem?_of_mem hmem
      have hil : i < J.LUT.length := by
        by_contra hn
        rw [List.getElem?_eq_none (by omega)] at hi
        cases hi
      exact (findColor_none_iff J c).1 hf i (by omega) hi
    have hnd1 : (c :: J.LUT).Nodup := List.nodup_cons.2 ⟨hnot, hnd⟩
    have hsub1 : (c :: J.LUT) ⊆ S := by
      intro x hx
      rcases List.mem_cons.1 hx with rfl | hx
      · exact hc
      · exact hsub x hx
    have hl1 : (c :: J.LUT).length ≤ S.length := (List.subperm_of_subset hnd1 hsub1).length_le
    rw [List.length_cons] at hl1
    have hlt : J.num_colors < FIXED_LUT_SIZE := by omega
    refine ⟨_, _, (allocColor_new J c hf hlt).1, rfl, rfl, rfl, ?_, ?_, ?_, ?_, hlt, ?_⟩
    · show (lutStore J.LUT J.num_colors c).length = J.num_colors + 1
      rw [← hlen, lutStore_length_self, List.length_append, List.length_singleton]
    · show (lutStore J.LUT J.num_colors c).Nodup
      rw [← hlen, lutStore_length_self]
      exact List.Nodup.append hnd (List.nodup_singleton c)
        (List.disjoint_singleton.2 hnot)
    · intro x hx
      have hx1 : x ∈ lutStore J.LUT J.num_colors c := hx
      rw [← hlen, lutStore_length_self, List.mem_append, List.mem_singleton] at hx1
      rcases hx1 with hx1 | rfl
      · exact hsub x hx1
      · exact hc
    · show (lutStore J.LUT J.num_colors c)[J.num_colors]? = some c
      exact lutStore_getElem?_self _ _ _ (by omega)
    · intro i x hi
      show (lutStore J.LUT J.num_colors c)[i]? = some x
      have hil : i < J.LUT.length := by
        by_contra hn
        rw [List.getElem?_eq_none (by omega)] at hi
        cases hi
      rw [lutStore_getElem?_lt _ _ _ _ (by omega) (by omega)]
      exact hi

theorem ppmTriple_pack (c : Nat) (hc : c < 2 ^ 24) :
    ∃ r g b : Int, ppmTriple c = [r, g, b] ∧
      (0 ≤ r ∧ r ≤ 255 ∧ 0 ≤ g ∧ g ≤ 255 ∧ 0 ≤ b ∧ b ≤ 255) ∧
      r.toNat <<< 16 ||| g.toNat <<< 8 ||| b.toNat = c := by
  refine ⟨_, _, _, rfl, ⟨Int.ofNat_zero_le _, ?_, Int.ofNat_zero_le _, ?_, Int.ofNat_zero_le _, ?_⟩,
    ?_⟩
  · exact_mod_cast and_ff_le _
  · exact_mod_cast and_ff_le _
  · exact_mod_cast and_ff_le _
  · simp only [Int.toNat_ofNat]
    exact rgb_pack c hc

theorem loadPPMLoop_spec (W H : Nat) (S : List Nat) (hS : S.length ≤ FIXED_LUT_SIZE)
    (col : Nat × Nat → Nat) :
    ∀ (rest : List (Nat × Nat)) (J : Image) (done : List (Nat × Nat)),
      rest.Nodup → (∀ vu ∈ rest, vu ∉ done) → (∀ vu ∈ rest, vu.1 < H ∧ vu.2 < W) →
      (∀ vu ∈ rest, col vu ∈ S ∧ col vu < 2 ^ 24) →
      PPMLoaded W H S col J done →
      ∃ J1, loadPPMLoop 255 rest J (rest.flatMap fun vu => ppmTriple (col vu)) = some J1 ∧
        PPMLoaded W H S col J1 (done ++ rest) := by
  intro rest
  induction rest with
  | nil =>
    intro J done _ _ _ _ hinv
    refine ⟨J, rfl, ?_⟩
    rw [List.append_nil]
    exact hinv
  | cons vu rest ih =>
    intro J done hnd hdis hrange hcol hinv
    obtain ⟨hwf, hw, hh, hlen, hlnd, hsub, hdone⟩ := hinv
    obtain ⟨hcS, hc24⟩ := hcol vu (List.mem_cons_self _ _)
    obtain ⟨hv, hu⟩ := hrange vu (List.mem_cons_self _ _)
    obtain ⟨r, g, b, htr, hchk, hpack⟩ := ppmTriple_pack (col vu) hc24
    obtain ⟨J1, q, ha, hi1, hw1, hh1, hlen1, hnd1, hsub1, hq, hq1000, hkeep⟩ :=
      allocColor_loaded S hS J (col vu) hlen hlnd hsub hcS
    have hwf1 : J1.WF := header_WF hwf hw1 hh1 hi1
    have hqm : q % 65536 = q := Nat.mod_eq_of_lt (lt_trans hq1000 (by decide))
    obtain ⟨hwf2, hread2⟩ := storePixel_spec hwf1 (show vu.1 < J1.height by omega)
      (show vu.2 < J1.width by omega) q
    obtain ⟨sw, sh, sn, sl⟩ := storePixel_header J1 vu.1 vu.2 q
    have hinv2 : PPMLoaded W H S col (storePixel J1 vu.1 vu.2 q) (done ++ [vu]) := by
      refine ⟨hwf2, by omega, by omega, by rw [sl, sn]; exact hlen1, by rw [sl]; exact hnd1,
        by rw [sl]; exact hsub1, ?_⟩
      intro x hx
      rw [sl]
      rcases List.mem_append.1 hx with hx | hx
      · obtain ⟨q0, hr0, hl0⟩ := hdone x hx
        refine ⟨q0, ?_, hkeep _ _ hl0⟩
        rw [hread2, if_neg, readPixel_congr hi1]
        · exact hr0
        · rintro ⟨e1, e2⟩
          have : x = vu := Prod.ext (by exact_mod_cast e1) (by exact_mod_cast e2)
          exact hdis vu (List.mem_cons_self _ _) (this ▸ hx)
      · rw [List.mem_singleton] at hx
        subst hx
        exact ⟨q, by rw [hread2, if_pos ⟨rfl, rfl⟩], hq⟩
    obtain ⟨J3, hrun, hinv3⟩ := ih (storePixel J1 vu.1 vu.2 q) (done ++ [vu])
      (List.nodup_cons.1 hnd).2
      (fun y hy hyd => by
        rcases List.mem_append.1 hyd with hyd | hyd
        · exact hdis y (List.mem_cons_of_mem _ hy) hyd
        · rw [List.mem_singleton] at hyd
          subst hyd
          exact (List.nodup_cons.1 hnd).1 hy)
      (fun y hy => hrange y (List.mem_cons_of_mem _ hy))
      (fun y hy => hcol y (List.mem_cons_of_mem _ hy)) hinv2
    refine ⟨J3, ?_, ?_⟩
    · rw [List.flatMap_cons, htr]
      show loadPPMLoop 255 (vu :: rest) J (r :: g :: b :: _) = some J3
      rw [loadPPMLoop, if_pos hchk, hpack, ha]
      simp only [hqm]
      exact hrun
    · rw [List.append_assoc] at hinv3
      exact hinv3

theorem scanOrder_nodup (W H : Nat) : (scanOrder W H).Nodup := by
  unfold scanOrder
  rw [List.nodup_flatMap]
  constructor
  · intro v _
    exact List.Nodup.map (fun a b h => (Prod.mk.inj h).2) (List.nodup_range W)
  · apply List.Nodup.pairwise_of_forall_ne (List.nodup_range H)
    intro a _ b _ hab
    show List.Disjoint _ _
    intro x hx1 hx2
    rw [List.mem_map] at hx1 hx2
    obtain ⟨u1, -, rfl⟩ := hx1
    obtain ⟨u2, -, h2⟩ := hx2
    exact hab (Prod.mk.inj h2).1.symm

theorem pixelColor_mem (img : Image) (hwf : img.WF) (hlen : img.num_colors ≤ img.LUT.length)
    (hlab : ∀ row ∈ img.image, ∀ p ∈ row, p < img.num_colors) {v u : Nat}
    (hv : v < img.height) (hu : u < img.width) :
    ∃ p, readPixel img v u = some p ∧ p < img.num_colors ∧
      img.LUT[p]? = some (pixelColor img v u) ∧
      pixelColor img v u ∈ img.LUT.take img.num_colors := by
  have hp := readPixel_pixelAt hwf hv hu
  refine ⟨pixelAt img v u, hp, ?_⟩
  have hlt : pixelAt img v u < img.num_colors := by
    rw [readPixel_nat] at hp
    cases hrow : img.image[v]? with
    | none => rw [hrow] at hp; cases hp
    | some row =>
      rw [hrow] at hp
      exact hlab row (List.getElem?_mem hrow) _ (List.getElem?_mem hp)
  have hl : pixelAt img v u < img.LUT.length := by omega
  have hget : img.LUT[pixelAt img v u]? = some (pixelColor img v u) := by
    unfold pixelColor
    rw [List.getD_eq_getElem?_getD, List.getElem?_eq_getElem hl]
    rfl
  refine ⟨hlt, hget, ?_⟩
  have : (img.LUT.take img.num_colors)[pixelAt img v u]? = some (pixelColor img v u) := by
    rw [getElem?_take_lt _ hlt]; exact hget
  exact List.getElem?_mem this

/-- Loading the PPM file written for an image gives back its dimensions and, at
every pixel, a label of the colour the pixel had; no colour has two labels. -/
theorem ppm_round_trip (img : Image) (hwf : img.WF) (hw : img.width < 2 ^ 31)
    (hh : img.height < 2 ^ 31) (hn : img.num_colors ≤ FIXED_LUT_SIZE)
    (hlen : img.num_colors ≤ img.LUT.length)
    (h0 : img.LUT[0]? = some 0xffffff) (h1 : img.LUT[1]? = some 0x000000)
    (hn2 : 2 ≤ img.num_colors)
    (hcol : ∀ c ∈ img.LUT.take img.num_colors, c < 2 ^ 24)
    (hlab : ∀ row ∈ img.image, ∀ p ∈ row, p < img.num_colors) :
    ∃ J, ImageLoadPPM (ImageSavePPM img).1 = some J ∧ J.WF ∧ J.width = img.width ∧
      J.height = img.height ∧ J.num_colors ≤ FIXED_LUT_SIZE ∧
      (∀ v < img.height, ∀ u < img.width, ∃ p q, readPixel img v u = some p ∧
        readPixel J v u = some q ∧ q < J.num_colors ∧ J.LUT[q]? = img.LUT[p]?) ∧
      (∀ q1 q2, q1 < J.num_colors → q2 < J.num_colors → J.LUT[q1]? = J.LUT[q2]? → q1 = q2) := by
  have hS : (img.LUT.take img.num_colors).length ≤ FIXED_LUT_SIZE := by
    rw [List.length_take]; omega
  have hinit : PPMLoaded img.width img.height (img.LUT.take img.num_colors)
      (fun vu => pixelColor img vu.1 vu.2) (ImageCreate img.width img.height) [] := by
    refine ⟨ImageCreate_WF _ _, rfl, rfl, rfl,
      (show [0xffffff, 0x000000].Nodup by decide), ?_, fun vu hvu => by cases hvu⟩
    intro c hc
    have hc1 : c ∈ [0xffffff, 0x000000] := hc
    rw [List.mem_cons, List.mem_singleton] at hc1
    rcases hc1 with rfl | rfl
    · have : (img.LUT.take img.num_colors)[0]? = some 0xffffff := by
        rw [getElem?_take_lt _ (by omega)]; exact h0
      exact List.getElem?_mem this
    · have : (img.LUT.take img.num_colors)[1]? = some 0x000000 := by
        rw [getElem?_take_lt _ (by omega)]; exact h1
      exact List.getElem?_mem this
  obtain ⟨J, hrun, hwfJ, hwJ, hhJ, hlenJ, hndJ, hsubJ, hpix⟩ :=
    loadPPMLoop_spec img.width img.height (img.LUT.take img.num_colors) hS
      (fun vu => pixelColor img vu.1 vu.2) (scanOrder img.width img.height)
      (ImageCreate img.width img.height) [] (scanOrder_nodup _ _)
      (fun _ _ h => by cases h)
      (fun vu hvu => (mem_scanOrder _ _ vu).1 hvu)
      (fun vu hvu => by
        obtain ⟨p, -, hp, hget, hmem⟩ := pixelColor_mem img hwf hlen hlab
          ((mem_scanOrder _ _ vu).1 hvu).1 ((mem_scanOrder _ _ vu).1 hvu).2
        exact ⟨hmem, hcol _ hmem⟩)
      hinit
  have hbound : J.num_colors ≤ FIXED_LUT_SIZE := by
    have : J.LUT.length ≤ (img.LUT.take img.num_colors).length :=
      (List.subperm_of_subset hndJ (fun x hx => hsubJ x hx)).length_le
    omega
  refine ⟨J, ?_, hwfJ, hwJ, hhJ, hbound, ?_, ?_⟩
  · unfold ImageLoadPPM ImageSavePPM
    have e1 : toInt32 img.width = img.width := toInt32_of_lt hw
    have e2 : toInt32 img.height = img.height := toInt32_of_lt hh
    simp only [e1, e2, Int.toNat_ofNat, Int.ofNat_zero_le, true_and]
    rw [if_pos (by decide)]
    exact hrun
  · intro v hv u hu
    obtain ⟨p, hp, hplt, hget, -⟩ := pixelColor_mem img hwf hlen hlab hv hu
    obtain ⟨q, hq, hql⟩ := hpix (v, u) (by
      rw [List.nil_append]; exact (mem_scanOrder _ _ (v, u)).2 ⟨hv, hu⟩)
    refine ⟨p, q, hp, hq, ?_, by rw [hget]; exact hql⟩
    by_contra hnq
    rw [List.getElem?_eq_none (by omega)] at hql
    cases hql
  · intro q1 q2 hq1 _ heq
    exact List.getElem?_inj (by omega) hndJ heq

/-! ## The data-model invariant -/

theorem writePixel_labels {img img1 : Image} {r c : Int} {val n : Nat}
    (h : writePixel img r c val = some img1) (hval : val < n)
    (hl : ∀ row ∈ img.image, ∀ p ∈ row, p < n) :
    ∀ row ∈ img1.image, ∀ p ∈ row, p < n := by
  obtain ⟨row0, -, -, hrow, -, rfl⟩ := writePixel_eq h
  intro row hrow1 p hp
  rcases List.mem_or_eq_of_mem_set hrow1 with hm | rfl
  · exact hl row hm p hp
  · rcases List.mem_or_eq_of_mem_set hp with hm | rfl
    · exact hl row0 (List.getElem?_mem hrow) p hm
    · exact hval

theorem storePixel_labels (img : Image) (r c : Nat) {val n : Nat} (hval : val < n)
    (hl : ∀ row ∈ img.image, ∀ p ∈ row, p < n) :
    ∀ row ∈ (storePixel img r c val).image, ∀ p ∈ row, p < n := by
  unfold storePixel
  cases h : writePixel img r c val with
  | none => exact hl
  | some img1 => exact writePixel_labels h hval hl

/-- A property of images that every store of `label` keeps is kept by the
recursive flood fill. -/
theorem floodFillRecursive_keeps (P : Image → Prop) (background label : Nat)
    (hP : ∀ (img img1 : Image) (r c : Int), writePixel img r c label = some img1 → P img → P img1) :
    ∀ (fuel : Nat) (img : Image) (u v : Int) (r : Image × Nat),
      floodFillRecursive fuel img u v background label = .ok r → P img → P r.1 := by
  intro fuel
  induction fuel with
  | zero =>
    intro img u v r h
    rw [floodFillRecursive] at h
    cases h
  | succ n ih =>
    intro img u v r h hp
    rw [floodFillRecursive] at h
    split at h
    · cases h
      exact hp
    · split at h
      · cases h
      · split at h
        · cases h
          exact hp
        · split at h
          · cases h
          · rename_i img0 hw
            obtain ⟨r1, e1, h⟩ := Outcome.bind_eq_ok h
            obtain ⟨r2, e2, h⟩ := Outcome.bind_eq_ok h
            obtain ⟨r3, e3, h⟩ := Outcome.bind_eq_ok h
            obtain ⟨r4, e4, h⟩ := Outcome.bind_eq_ok h
            cases h
            exact ih _ _ _ r4 e4 (ih _ _ _ r3 e3 (ih _ _ _ r2 e2 (ih _ _ _ r1 e1 (hP _ _ _ _ hw hp))))

theorem recursive_keeps (P : Image → Prop) (label : Nat)
    (hP : ∀ (img img1 : Image) (r c : Int), writePixel img r c label = some img1 → P img → P img1)
    (fuel : Nat) (img : Image) (u v : Int) (r : Image × Nat)
    (h : ImageRegionFillingRecursive fuel img u v label = .ok r) (hp : P img) : P r.1 := by
  unfold ImageRegionFillingRecursive at h
  split at h
  · cases h
    exact hp
  · split at h
    · cases h
    · split at h
      · cases h
        exact hp
      · exact floodFillRecursive_keeps P _ label hP fuel img u v r h hp

theorem fillNeighbour_keeps_prop (P : Image → Prop)
    {ins : List PixelCoords → PixelCoords → List PixelCoords}
    {background label : Nat} {guard : Bool} {row col : Int} {p : PixelCoords}
    (hP : ∀ (img img1 : Image) (r c : Int), writePixel img r c label = some img1 → P img → P img1)
    {st st1 : FillState} (h : fillNeighbour ins background label guard row col p st = .ok st1)
    (hp : P st.1) : P st1.1 := by
  unfold fillNeighbour at h
  split at h
  · split at h
    · cases h
    · split at h
      · split at h
        · cases h
        · rename_i img1 hw
          cases h
          exact hP _ _ _ _ hw hp
      · cases h
        exact hp
  · cases h
    exact hp

theorem fillVisit_keeps_prop (P : Image → Prop)
    {ins : List PixelCoords → PixelCoords → List PixelCoords}
    {background label : Nat} {W H : Int} {p : PixelCoords}
    (hP : ∀ (img img1 : Image) (r c : Int), writePixel img r c label = some img1 → P img → P img1)
    {st st1 : FillState} (h : fillVisit ins background label W H p st = .ok st1)
    (hp : P st.1) : P st1.1 := by
  unfold fillVisit at h
  obtain ⟨s1, e1, h⟩ := Outcome.bind_eq_ok h
  obtain ⟨s2, e2, h⟩ := Outcome.bind_eq_ok h
  obtain ⟨s3, e3, h⟩ := Outcome.bind_eq_ok h
  exact fillNeighbour_keeps_prop P hP h (fillNeighbour_keeps_prop P hP e3
    (fillNeighbour_keeps_prop P hP e2 (fillNeighbour_keeps_prop P hP e1 hp)))

theorem fillLoop_keeps_prop (P : Image → Prop)
    {ins : List PixelCoords → PixelCoords → List PixelCoords}
    {background label : Nat} {W H : Int}
    (hP : ∀ (img img1 : Image) (r c : Int), writePixel img r c label = some img1 → P img → P img1) :
    ∀ (fuel : Nat) (st : FillState) (r : Image × Nat),
      fillLoop ins background label W H fuel st = .ok r → P st.1 → P r.1 := by
  intro fuel
  induction fuel with
  | zero =>
    rintro ⟨img, stack, count⟩ r h hp
    cases stack with
    | nil =>
      rw [fillLoop] at h
      cases h
      exact hp
    | cons p rest =>
      rw [fillLoop] at h
      cases h
  | succ n ih =>
    rintro ⟨img, stack, count⟩ r h hp
    cases stack with
    | nil =>
      rw [fillLoop] at h
      cases h
      exact hp
    | cons p rest =>
      rw [fillLoop] at h
      split at h
      · rename_i st1 hv
        exact ih st1 r h (fillVisit_keeps_prop P hP hv hp)
      · cases h
      · cases h

theorem fillWith_keeps_prop (P : Image → Prop)
    (ins : List PixelCoords → PixelCoords → List PixelCoords) (label : Nat)
    (hP : ∀ (img img1 : Image) (r c : Int), writePixel img r c label = some img1 → P img → P img1)
    (fuel : Nat) (img : Image) (u v : Int) (r : Image × Nat)
    (h : fillWith ins fuel img u v label = .ok r) (hp : P img) : P r.1 := by
  unfold fillWith at h
  split at h
  · cases h
    exact hp
  · split at h
    · cases h
    · split at h
      · cases h
        exact hp
      · split at h
        · cases h
        · rename_i img0 hw
          exact fillLoop_keeps_prop P hP fuel _ r h (hP _ _ _ _ hw hp)

/-- The three fills keep every property that the stores of `label` keep. -/
theorem strategies_keep (P : Image → Prop) (label : Nat)
    (hP : ∀ (img img1 : Image) (r c : Int), writePixel img r c label = some img1 → P img → P img1)
    (fuel : Nat) (f : FillingFunction)
    (hf : f ∈ [ImageRegionFillingRecursive fuel, ImageRegionFillingWithSTACK fuel,
      ImageRegionFillingWithQUEUE fuel])
    (img : Image) (u v : Int) (r : Image × Nat) (h : f img u v label = .ok r) (hp : P img) :
    P r.1 := by
  simp only [List.mem_cons, List.mem_singleton, List.not_mem_nil, or_false] at hf
  rcases hf with rfl | rfl | rfl
  · exact recursive_keeps P label hP fuel img u v r h hp
  · exact fillWith_keeps_prop P StackPush label hP fuel img u v r h hp
  · exact fillWith_keeps_prop P QueueEnqueue label hP fuel img u v r h hp

theorem inv_create (w h : Nat) : (ImageCreate w h).Inv := by
  refine ⟨le_refl 2, (show 2 ≤ FIXED_LUT_SIZE by decide), ?_⟩
  intro row hrow p hp
  simp only [ImageCreate, AllocateRowArray] at hrow
  rw [List.eq_of_mem_replicate hrow] at hp
  rw [List.eq_of_mem_replicate hp]
  exact (show 0 < 2 by decide)

theorem inv_chess (w h e c : Nat) (img : Image) (hc : ImageCreateChess w h e c = some img) :
    img.Inv := by
  obtain ⟨label, nc, lut, he, hk⟩ := chess_shape w h e c
  rw [he] at hc
  cases hc
  have hlab : label < nc ∧ 2 ≤ nc ∧ nc ≤ FIXED_LUT_SIZE := by
    rcases hk with ⟨-, a, b, -⟩ | ⟨-, a, b, -⟩ | ⟨-, -, a, b, -⟩ <;>
      · subst a; subst b; decide
  refine ⟨hlab.2.1, hlab.2.2, ?_⟩
  intro row hrow p hp
  simp only [List.mem_map, List.mem_range] at hrow
  obtain ⟨i, -, rfl⟩ := hrow
  simp only [List.mem_map, List.mem_range] at hp
  obtain ⟨j, -, rfl⟩ := hp
  show (if (i / e + j / e) % 2 ≠ 0 then 0 else label) < nc
  split
  · omega
  · exact hlab.1

theorem inv_palete (w h e : Nat) : (ImageCreatePalete w h e).Inv := by
  obtain ⟨hn, -, -⟩ := palete_header w h e
  refine ⟨by rw [hn]; decide, by rw [hn], ?_⟩
  rw [palete_image, hn]
  intro row hrow p hp
  simp only [List.mem_map, List.mem_range] at hrow
  obtain ⟨i, -, rfl⟩ := hrow
  simp only [List.mem_map, List.mem_range] at hp
  obtain ⟨j, -, rfl⟩ := hp
  exact Nat.mod_lt _ (by decide)

theorem inv_copy (img : Image) (h : img.Inv) : (ImageCopy img).Inv := by
  obtain ⟨h2, hm, hl⟩ := h
  refine ⟨h2, hm, ?_⟩
  intro row hrow p hp
  have hrow1 : row ∈ (List.range img.height).map
      fun v => (img.image.getD v []).take img.width := hrow
  simp only [List.mem_map, List.mem_range] at hrow1
  obtain ⟨v, -, rfl⟩ := hrow1
  have hp1 := List.mem_of_mem_take hp
  rw [List.getD_eq_getElem?_getD] at hp1
  cases hr : img.image[v]? with
  | none => rw [hr] at hp1; cases hp1
  | some r0 =>
    rw [hr] at hp1
    exact hl r0 (List.getElem?_mem hr) p hp1

theorem pixelAt_lt (img : Image) {n : Nat} (hn : 0 < n)
    (hl : ∀ row ∈ img.image, ∀ p ∈ row, p < n) (v u : Nat) : pixelAt img v u < n := by
  unfold pixelAt
  cases hr : readPixel img v u with
  | none => exact hn
  | some p =>
    rw [readPixel_nat] at hr
    cases hrow : img.image[v]? with
    | none => rw [hrow] at hr; cases hr
    | some row =>
      rw [hrow] at hr
      exact hl row (List.getElem?_mem hrow) p (List.getElem?_mem hr)

theorem scatter_labels (t : Nat × Nat → Nat × Nat) (val : Nat × Nat → Nat) (n : Nat)
    (hval : ∀ p, val p < n) :
    ∀ (ps : List (Nat × Nat)) (rot : Image),
      (∀ row ∈ rot.image, ∀ p ∈ row, p < n) →
      (∀ row ∈ (ps.foldl (fun rot p => storePixel rot (t p).1 (t p).2 (val p)) rot).image,
        ∀ p ∈ row, p < n) ∧
      (ps.foldl (fun rot p => storePixel rot (t p).1 (t p).2 (val p)) rot).num_colors =
        rot.num_colors := by
  intro ps
  induction ps with
  | nil => intro rot h; exact ⟨h, rfl⟩
  | cons p rest ih =>
    intro rot h
    rw [List.foldl_cons]
    obtain ⟨a, b⟩ := ih (storePixel rot (t p).1 (t p).2 (val p))
      (storePixel_labels rot _ _ (hval p) h)
    exact ⟨a, b.trans (storePixel_header rot _ _ _).2.2.1⟩

theorem blank_labels (w h n : Nat) (hn : 0 < n) (img : Image)
    (hi : img.image = (ImageCreate w h).image) : ∀ row ∈ img.image, ∀ p ∈ row, p < n := by
  intro row hrow p hp
  rw [hi] at hrow
  simp only [ImageCreate, AllocateRowArray] at hrow
  rw [List.eq_of_mem_replicate hrow] at hp
  rw [List.eq_of_mem_replicate hp]
  exact hn

theorem inv_rotate (img : Image) (h : img.Inv) :
    (ImageRotate90CW img).Inv ∧ (ImageRotate180CW img).Inv := by
  obtain ⟨h2, hm, hl⟩ := h
  have hpos : 0 < img.num_colors := by omega
  constructor
  · rw [rotate90_eq]
    obtain ⟨a, b⟩ := scatter_labels (fun vu : Nat × Nat => (vu.2, img.height - 1 - vu.1))
      (fun vu : Nat × Nat => pixelAt img vu.1 vu.2) img.num_colors
      (fun p => pixelAt_lt img hpos hl _ _) (scanOrder img.width img.height)
      { ImageCreate img.height img.width with
        num_colors := img.num_colors, LUT := img.LUT.take img.num_colors }
      (blank_labels img.height img.width _ hpos _ rfl)
    exact ⟨by rw [b]; exact h2, by rw [b]; exact hm, by rw [b]; exact a⟩
  · rw [rotate180_eq]
    obtain ⟨a, b⟩ := scatter_labels
      (fun vu : Nat × Nat => (img.height - 1 - vu.1, img.width - 1 - vu.2))
      (fun vu : Nat × Nat => pixelAt img vu.1 vu.2) img.num_colors
      (fun p => pixelAt_lt img hpos hl _ _) (scanOrder img.width img.height)
      { ImageCreate img.width img.height with
        num_colors := img.num_colors, LUT := img.LUT.take img.num_colors }
      (blank_labels img.width img.height _ hpos _ rfl)
    exact ⟨by rw [b]; exact h2, by rw [b]; exact hm, by rw [b]; exact a⟩

theorem loadPBMRows_labels (w : Nat) :
    ∀ (n : Nat) (data raw : List Nat) (rows : List (List Nat)),
      raw.length = rowBytes w * 8 → loadPBMRows w n data raw = some rows →
      rows.length = n ∧ ∀ row ∈ rows, row.length = w ∧ ∀ p ∈ row, p < 2 := by
  intro n
  induction n with
  | zero =>
    intro data raw rows _ h
    rw [loadPBMRows] at h
    cases h
    exact ⟨rfl, fun row hrow => by cases hrow⟩
  | succ k ih =>
    intro data raw rows hr h
    rw [loadPBMRows] at h
    split at h
    · cases h
    · split at h
      · rename_i rest hrest
        cases h
        have hr1 : (unpackBits (rowBytes w) (data.take (rowBytes w)) raw).length =
            rowBytes w * 8 := by
          rw [unpackBits_length _ _ _ (by omega)]; omega
        obtain ⟨a, b⟩ := ih _ _ _ hr1 hrest
        refine ⟨by rw [List.length_cons, a], ?_⟩
        intro row hrow
        rcases List.mem_cons.1 hrow with rfl | hrow
        · exact loadPBMRow_spec w _ raw hr
        · exact b row hrow
      · cases h

theorem inv_loadPBM (f : PBMFile) (img : Image) (h : ImageLoadPBM f = some img) :
    img.Inv ∧ img.WF := by
  unfold ImageLoadPBM at h
  split at h
  · split at h
    · rename_i rows hrows
      cases h
      obtain ⟨a, b⟩ := loadPBMRows_labels _ _ _ _ _ (by rw [List.length_replicate]) hrows
      refine ⟨⟨le_refl 2, (show 2 ≤ FIXED_LUT_SIZE by decide), fun row hrow p hp => ?_⟩,
        ⟨a, fun row hrow => (b row hrow).1⟩⟩
      exact (b row hrow).2 p hp
    · cases h
  · cases h

theorem allocColor_inv (J : Image) (c : Nat) (J1 : Image) (q : Nat)
    (h : LUTAllocColor J c = some (J1, q)) (hinv : J.Inv) :
    J1.Inv ∧ q < J1.num_colors ∧ J1.image = J.image ∧ J.num_colors ≤ J1.num_colors := by
  obtain ⟨h2, hm, hl⟩ := hinv
  cases hf : LUTFindColor J c with
  | some i =>
    rw [(allocColor_found J c i hf).1] at h
    simp only [Option.some.injEq, Prod.mk.injEq] at h
    obtain ⟨rfl, rfl⟩ := h
    exact ⟨⟨h2, hm, hl⟩, ((findColor_some_iff J c i).1 hf).1, rfl, le_refl _⟩
  | none =>
    by_cases hn : J.num_colors < FIXED_LUT_SIZE
    · rw [(allocColor_new J c hf hn).1] at h
      simp only [Option.some.injEq, Prod.mk.injEq] at h
      obtain ⟨rfl, rfl⟩ := h
      refine ⟨⟨Nat.le_succ_of_le h2, hn, fun row hrow p hp => ?_⟩, Nat.lt_succ_self _, rfl,
        Nat.le_succ _⟩
      exact Nat.lt_succ_of_lt (hl row hrow p hp)
    · rw [(allocColor_full J c hf hn).1] at h
      cases h

theorem loadPPMLoop_inv (levels : Int) :
    ∀ (l : List (Nat × Nat)) (J : Image) (samples : List Int) (J1 : Image),
      loadPPMLoop levels l J samples = some J1 → J.Inv → J1.Inv := by
  intro l
  induction l with
  | nil =>
    intro J samples J1 h hinv
    rw [loadPPMLoop] at h
    cases h
    exact hinv
  | cons vu rest ih =>
    intro J samples J1 h hinv
    match samples, h with
    | r :: g :: b :: more, h =>
      rw [loadPPMLoop] at h
      split at h
      · split at h
        · rename_i J2 q ha
          obtain ⟨hi2, hq, -, -⟩ := allocColor_inv J _ J2 q ha hinv
          refine ih _ _ _ h ?_
          obtain ⟨sw, sh, sn, sl⟩ := storePixel_header J2 vu.1 vu.2 (q % 65536)
          refine ⟨by rw [sn]; exact hi2.1, by rw [sn]; exact hi2.2.1, ?_⟩
          rw [sn]
          exact storePixel_labels J2 _ _ (lt_of_le_of_lt (Nat.mod_le _ _) hq) hi2.2.2
        · cases h
      · cases h
    | [], h => simp [loadPPMLoop] at h
    | [_], h => simp [loadPPMLoop] at h
    | [_, _], h => simp [loadPPMLoop] at h

theorem inv_loadPPM (f : PPMFile) (img : Image) (h : ImageLoadPPM f = some img) : img.Inv := by
  unfold ImageLoadPPM at h
  split at h
  · exact loadPPMLoop_inv _ _ _ _ _ h (inv_create _ _)
  · cases h

/-- The three fills, called with a label below `num_colors`, keep the invariant
and the number of colours. -/
theorem inv_fill (fuel : Nat) (f : FillingFunction)
    (hf : f ∈ [ImageRegionFillingRecursive fuel, ImageRegionFillingWithSTACK fuel,
      ImageRegionFillingWithQUEUE fuel])
    (img : Image) (u v : Int) (label : Nat) (r : Image × Nat) (hinv : img.Inv)
    (hlab : label < img.num_colors) (h : f img u v label = .ok r) :
    r.1.Inv ∧ r.1.num_colors = img.num_colors := by
  obtain ⟨-, -, hn, -⟩ := strategies_keepHeader fuel f hf img u v label r h
  refine ⟨⟨by rw [hn]; exact hinv.1, by rw [hn]; exact hinv.2.1, ?_⟩, hn⟩
  rw [hn]
  exact strategies_keep (fun im => ∀ row ∈ im.image, ∀ p ∈ row, p < img.num_colors) label
    (fun _ _ _ _ hw hp => writePixel_labels hw hlab hp) fuel f hf img u v r h hinv.2.2

theorem segLoop_inv (f : FillingFunction)
    (hf : ∀ (img : Image) (u v : Int) (label : Nat) (r : Image × Nat), img.Inv →
      label < img.num_colors → f img u v label = .ok r →
      r.1.Inv ∧ r.1.num_colors = img.num_colors) :
    ∀ (l : List (Nat × Nat)) (st : SegState) (img1 : Image) (r : Nat),
      st.currentLabel = st.img.num_colors → st.img.Inv →
      segLoop f l st = .ok (img1, r) → img1.Inv ∧ st.img.num_colors ≤ img1.num_colors := by
  intro l
  induction l with
  | nil =>
    intro st img1 r _ hinv h
    rw [segLoop] at h
    cases h
    exact ⟨hinv, le_refl _⟩
  | cons vu rest ih =>
    intro st img1 r hlab hinv h
    rw [segLoop] at h
    split at h
    · cases h
    · split at h
      · split at h
        · cases h
          exact ⟨hinv, le_refl _⟩
        · rename_i hfull
          split at h
          · rename_i r1 hfill
            have hlt : st.img.num_colors < FIXED_LUT_SIZE := by omega
            have hinv1 : ({ st.img with
                LUT := lutStore st.img.LUT st.currentLabel st.currentColor,
                num_colors := st.img.num_colors + 1 } : Image).Inv :=
              ⟨Nat.le_succ_of_le hinv.1, hlt,
                fun row hrow p hp => Nat.lt_succ_of_lt (hinv.2.2 row hrow p hp)⟩
            obtain ⟨hi1, hn1⟩ := hf _ _ _ _ r1 hinv1
              (show st.currentLabel < st.img.num_colors + 1 by omega) hfill
            obtain ⟨a, b⟩ := ih _ img1 r (show st.currentLabel + 1 = r1.1.num_colors by
              rw [hn1]; show st.currentLabel + 1 = st.img.num_colors + 1; omega) hi1 h
            refine ⟨a, ?_⟩
            rw [hn1] at b
            exact le_trans (Nat.le_succ _) b
          · cases h
          · cases h
      · exact ih st img1 r hlab hinv h

theorem inv_segmentation (fuel : Nat) (f : FillingFunction)
    (hf : f ∈ [ImageRegionFillingRecursive fuel, ImageRegionFillingWithSTACK fuel,
      ImageRegionFillingWithQUEUE fuel])
    (img img1 : Image) (r : Nat) (hinv : img.Inv) (h : ImageSegmentation img f = .ok (img1, r)) :
    img1.Inv ∧ img.num_colors ≤ img1.num_colors :=
  segLoop_inv f (fun im u v label r0 hi hl hr => inv_fill fuel f hf im u v label r0 hi hl hr)
    _ _ img1 r rfl hinv h

/-! ## The recorded runs are the runs of the fills -/

theorem fillNeighbourLog_snd (ins : List PixelCoords → PixelCoords → List PixelCoords)
    (background label : Nat) (guard : Bool) (row col : Int) (p : PixelCoords)
    (st : FillState) (log : FillLog) :
    (fillNeighbourLog ins background label guard row col p st log).2 =
      fillNeighbour ins background label guard row col p st := by
  unfold fillNeighbourLog fillNeighbour
  cases guard with
  | false => rfl
  | true =>
    simp only [if_true]
    cases hr : readPixel st.1 row col with
    | none => rfl
    | some q =>
      simp only
      by_cases hq : q = background
      · simp only [hq, if_true]
        cases hw : writePixel st.1 row col label with
        | none => rfl
        | some img1 => rfl
      · simp only [hq, if_false]

theorem fillVisitLog_snd (ins : List PixelCoords → PixelCoords → List PixelCoords)
    (background label : Nat) (W H : Int) (p : PixelCoords) (st : FillState) (log : FillLog) :
    (fillVisitLog ins background label W H p st log).2 =
      fillVisit ins background label W H p st := by
  unfold fillVisitLog fillVisit
  have e1 := fillNeighbourLog_snd ins background label (decide (p.u + 1 < W)) p.v (p.u + 1)
    ⟨p.u + 1, p.v⟩ st log
  rcases h1 : fillNeighbourLog ins background label (decide (p.u + 1 < W)) p.v (p.u + 1)
    ⟨p.u + 1, p.v⟩ st log with ⟨l1, o1⟩
  rw [h1] at e1
  simp only at e1
  rw [← e1]
  cases o1 with
  | outOfBounds => rfl
  | outOfFuel => rfl
  | ok s1 =>
    simp only [Outcome.bind]
    have e2 := fillNeighbourLog_snd ins background label (decide (p.u > 0)) p.v (p.u - 1)
      ⟨p.u - 1, p.v⟩ s1 l1
    rcases h2 : fillNeighbourLog ins background label (decide (p.u > 0)) p.v (p.u - 1)
      ⟨p.u - 1, p.v⟩ s1 l1 with ⟨l2, o2⟩
    rw [h2] at e2
    simp only at e2
    rw [← e2]
    cases o2 with
    | outOfBounds => rfl
    | outOfFuel => rfl
    | ok s2 =>
      simp only [Outcome.bind]
      have e3 := fillNeighbourLog_snd ins background label (decide (p.v + 1 < H)) (p.v + 1) p.u
        ⟨p.v + 1, p.u⟩ s2 l2
      rcases h3 : fillNeighbourLog ins background label (decide (p.v + 1 < H)) (p.v + 1) p.u
        ⟨p.v + 1, p.u⟩ s2 l2 with ⟨l3, o3⟩
      rw [h3] at e3
      simp only at e3
      rw [← e3]
      cases o3 with
      | outOfBounds => rfl
      | outOfFuel => rfl
      | ok s3 =>
        simp only [Outcome.bind]
        exact fillNeighbourLog_snd _ _ _ _ _ _ _ _ _

theorem fillLoopLog_snd (ins : List PixelCoords → PixelCoords → List PixelCoords)
    (background label : Nat) (W H : Int) :
    ∀ (fuel : Nat) (st : FillState) (log : FillLog),
      (fillLoopLog ins background label W H fuel st log).2 =
        fillLoop ins background label W H fuel st := by
  intro fuel
  induction fuel with
  | zero =>
    rintro ⟨img, stack, count⟩ log
    cases stack with
    | nil => rw [fillLoopLog, fillLoop]
    | cons p rest => rw [fillLoopLog, fillLoop]
  | succ n ih =>
    rintro ⟨img, stack, count⟩ log
    cases stack with
    | nil => rw [fillLoopLog, fillLoop]
    | cons p rest =>
      rw [fillLoopLog, fillLoop]
      have e := fillVisitLog_snd ins background label W H p (img, rest, count)
        { log with popped := log.popped ++ [p] }
      rcases hv : fillVisitLog ins background label W H p (img, rest, count)
        { log with popped := log.popped ++ [p] } with ⟨l1, o1⟩
      rw [hv] at e
      simp only at e
      rw [← e]
      cases o1 with
      | outOfBounds => rfl
      | outOfFuel => rfl
      | ok st1 => exact ih st1 l1

theorem fillWithLog_snd (ins : List PixelCoords → PixelCoords → List PixelCoords)
    (fuel : Nat) (img : Image) (u v : Int) (label : Nat) :
    (fillWithLog ins fuel img u v label).2 = fillWith ins fuel img u v label := by
  unfold fillWithLog fillWith
  by_cases hv : (!ImageIsValidPixel img u v) = true
  · rw [if_pos hv, if_pos hv]
  · rw [if_neg hv, if_neg hv]
    cases hr : readPixel img v u with
    | none => rfl
    | some background =>
      simp only
      by_cases hb : background = label
      · rw [if_pos hb, if_pos hb]
      · rw [if_neg hb, if_neg hb]
        cases hw : writePixel img v u label with
        | none => rfl
        | some img0 => exact fillLoopLog_snd _ _ _ _ _ _ _ _

/-- Each insertion goes with one relabelled pixel: the number of inserted
coordinates follows the counter. -/
theorem fillNeighbourLog_count (ins : List PixelCoords → PixelCoords → List PixelCoords)
    (background label : Nat) (guard : Bool) (row col : Int) (p : PixelCoords)
    (st st1 : FillState) (log l1 : FillLog)
    (h : fillNeighbourLog ins background label guard row col p st log = (l1, .ok st1))
    (hc : log.pushed.length = st.2.2) : l1.pushed.length = st1.2.2 := by
  unfold fillNeighbourLog at h
  cases guard with
  | false =>
    simp only [Bool.false_eq_true, if_false, Prod.mk.injEq, Outcome.ok.injEq] at h
    obtain ⟨rfl, rfl⟩ := h
    exact hc
  | true =>
    simp only [if_true] at h
    cases hr : readPixel st.1 row col with
    | none => rw [hr] at h; simp at h
    | some q =>
      rw [hr] at h
      simp only at h
      by_cases hq : q = background
      · simp only [hq, if_true] at h
        cases hw : writePixel st.1 row col label with
        | none => rw [hw] at h; simp at h
        | some img1 =>
          rw [hw] at h
          simp only [Prod.mk.injEq, Outcome.ok.injEq] at h
          obtain ⟨rfl, rfl⟩ := h
          simp only [List.length_append, List.length_singleton, hc]
      · simp only [hq, if_false, Prod.mk.injEq, Outcome.ok.injEq] at h
        obtain ⟨rfl, rfl⟩ := h
        exact hc

theorem fillVisitLog_ok (ins : List PixelCoords → PixelCoords → List PixelCoords)
    (background label : Nat) (W H : Int) (p : PixelCoords) (st st4 : FillState)
    (log l4 : FillLog)
    (h : fillVisitLog ins background label W H p st log = (l4, .ok st4)) :
    ∃ l1 s1 l2 s2 l3 s3,
      fillNeighbourLog ins background label (decide (p.u + 1 < W)) p.v (p.u + 1)
        ⟨p.u + 1, p.v⟩ st log = (l1, .ok s1) ∧
      fillNeighbourLog ins background label (decide (p.u > 0)) p.v (p.u - 1)
        ⟨p.u - 1, p.v⟩ s1 l1 = (l2, .ok s2) ∧
      fillNeighbourLog ins background label (decide (p.v + 1 < H)) (p.v + 1) p.u
        ⟨p.v + 1, p.u⟩ s2 l2 = (l3, .ok s3) ∧
      fillNeighbourLog ins background label (decide (p.v > 0)) (p.v - 1) p.u
        ⟨p.v - 1, p.u⟩ s3 l3 = (l4, .ok st4) := by
  unfold fillVisitLog at h
  rcases h1 : fillNeighbourLog ins background label (decide (p.u + 1 < W)) p.v (p.u + 1)
    ⟨p.u + 1, p.v⟩ st log with ⟨l1, o1⟩
  rw [h1] at h
  cases o1 with
  | outOfBounds => simp at h
  | outOfFuel => simp at h
  | ok s1 =>
    simp only at h
    rcases h2 : fillNeighbourLog ins background label (decide (p.u > 0)) p.v (p.u - 1)
      ⟨p.u - 1, p.v⟩ s1 l1 with ⟨l2, o2⟩
    rw [h2] at h
    cases o2 with
    | outOfBounds => simp at h
    | outOfFuel => simp at h
    | ok s2 =>
      simp only at h
      rcases h3 : fillNeighbourLog ins background label (decide (p.v + 1 < H)) (p.v + 1) p.u
        ⟨p.v + 1, p.u⟩ s2 l2 with ⟨l3, o3⟩
      rw [h3] at h
      cases o3 with
      | outOfBounds => simp at h
      | outOfFuel => simp at h
      | ok s3 =>
        simp only at h
        exact ⟨l1, s1, l2, s2, l3, s3, rfl, h2, h3, h⟩

theorem fillLoopLog_count (ins : List PixelCoords → PixelCoords → List PixelCoords)
    (background label : Nat) (W H : Int) :
    ∀ (fuel : Nat) (st : FillState) (log l1 : FillLog) (r : Image × Nat),
      fillLoopLog ins background label W H fuel st log = (l1, .ok r) →
      log.pushed.length = st.2.2 → l1.pushed.length = r.2 := by
  intro fuel
  induction fuel with
  | zero =>
    rintro ⟨img, stack, count⟩ log l1 r h hc
    cases stack with
    | nil =>
      rw [fillLoopLog] at h
      simp only [Prod.mk.injEq, Outcome.ok.injEq] at h
      obtain ⟨rfl, rfl⟩ := h
      exact hc
    | cons p rest =>
      rw [fillLoopLog] at h
      simp at h
  | succ n ih =>
    rintro ⟨img, stack, count⟩ log l1 r h hc
    cases stack with
    | nil =>
      rw [fillLoopLog] at h
      simp only [Prod.mk.injEq, Outcome.ok.injEq] at h
      obtain ⟨rfl, rfl⟩ := h
      exact hc
    | cons p rest =>
      rw [fillLoopLog] at h
      rcases hv : fillVisitLog ins background label W H p (img, rest, count)
        { log with popped := log.popped ++ [p] } with ⟨l0, o0⟩
      rw [hv] at h
      cases o0 with
      | outOfBounds => simp at h
      | outOfFuel => simp at h
      | ok st1 =>
        simp only at h
        obtain ⟨a1, s1, a2, s2, a3, s3, e1, e2, e3, e4⟩ := fillVisitLog_ok _ _ _ _ _ _ _ _ _ _ hv
        have c1 := fillNeighbourLog_count _ _ _ _ _ _ _ _ _ _ _ e1 hc
        have c2 := fillNeighbourLog_count _ _ _ _ _ _ _ _ _ _ _ e2 c1
        have c3 := fillNeighbourLog_count _ _ _ _ _ _ _ _ _ _ _ e3 c2
        have c4 := fillNeighbourLog_count _ _ _ _ _ _ _ _ _ _ _ e4 c3
        exact ih st1 l0 l1 r h c4

theorem fillWithLog_count (ins : List PixelCoords → PixelCoords → List PixelCoords)
    (fuel : Nat) (img : Image) (u v : Int) (label : Nat) (log : FillLog) (r : Image × Nat)
    (h : fillWithLog ins fuel img u v label = (log, .ok r)) : log.pushed.length = r.2 := by
  unfold fillWithLog at h
  by_cases hv : (!ImageIsValidPixel img u v) = true
  · rw [if_pos hv] at h
    simp only [Prod.mk.injEq, Outcome.ok.injEq] at h
    obtain ⟨rfl, rfl⟩ := h
    rfl
  · rw [if_neg hv] at h
    cases hr : readPixel img v u with
    | none => rw [hr] at h; simp at h
    | some background =>
      rw [hr] at h
      simp only at h
      by_cases hb : background = label
      · rw [if_pos hb] at h
        simp only [Prod.mk.injEq, Outcome.ok.injEq] at h
        obtain ⟨rfl, rfl⟩ := h
        rfl
      · rw [if_neg hb] at h
        cases hw : writePixel img v u label with
        | none => rw [hw] at h; simp at h
        | some img0 =>
          rw [hw] at h
          exact fillLoopLog_count _ _ _ _ _ _ _ _ _ _ h rfl

theorem fillLoopLog_mono (ins : List PixelCoords → PixelCoords → List PixelCoords)
    (background label : Nat) (W H : Int) (k : Nat) :
    ∀ (fuel : Nat) (st : FillState) (log l1 : FillLog) (o : Outcome (Image × Nat)),
      fillLoopLog ins background label W H fuel st log = (l1, o) → o ≠ .outOfFuel →
      fillLoopLog ins background label W H (fuel + k) st log = (l1, o) := by
  intro fuel
  induction fuel with
  | zero =>
    rintro ⟨img, stack, count⟩ log l1 o h ho
    cases stack with
    | nil =>
      rw [fillLoopLog] at h
      rw [fillLoopLog]
      exact h
    | cons p rest =>
      rw [fillLoopLog] at h
      simp only [Prod.mk.injEq] at h
      exact absurd h.2.symm ho
  | succ n ih =>
    rintro ⟨img, stack, count⟩ log l1 o h ho
    cases stack with
    | nil =>
      rw [fillLoopLog] at h
      rw [fillLoopLog]
      exact h
    | cons p rest =>
      rw [Nat.add_right_comm, fillLoopLog]
      rw [fillLoopLog] at h
      rcases hv : fillVisitLog ins background label W H p (img, rest, count)
        { log with popped := log.popped ++ [p] } with ⟨l0, o0⟩
      rw [hv] at h
      cases o0 with
      | outOfBounds => exact h
      | outOfFuel => exact h
      | ok st1 => exact ih st1 l0 l1 o h ho

theorem fillWithLog_mono (ins : List PixelCoords → PixelCoords → List PixelCoords)
    (fuel k : Nat) (img : Image) (u v : Int) (label : Nat) (log : FillLog)
    (o : Outcome (Image × Nat)) (h : fillWithLog ins fuel img u v label = (log, o))
    (ho : o ≠ .outOfFuel) : fillWithLog ins (fuel + k) img u v label = (log, o) := by
  unfold fillWithLog at h ⊢
  by_cases hv : (!ImageIsValidPixel img u v) = true
  · rw [if_pos hv] at h ⊢
    exact h
  · rw [if_neg hv] at h ⊢
    cases hr : readPixel img v u with
    | none => rw [hr] at h; exact h
    | some background =>
      rw [hr] at h
      simp only at h ⊢
      by_cases hb : background = label
      · rw [if_pos hb] at h ⊢
        exact h
      · rw [if_neg hb] at h ⊢
        cases hw : writePixel img v u label with
        | none => rw [hw] at h; exact h
        | some img0 =>
          rw [hw] at h
          exact fillLoopLog_mono _ _ _ _ _ _ _ _ _ _ _ h ho

/-! ## Runs on small images -/

theorem blank22_stack_log :
    fillWithLog StackPush 4 (ImageCreate 2 2) 0 0 2 =
      (⟨[⟨0, 0⟩, ⟨1, 0⟩, ⟨1, 0⟩, ⟨1, 1⟩], [⟨0, 0⟩, ⟨1, 0⟩, ⟨1, 1⟩, ⟨1, 0⟩]⟩,
       .ok ({ ImageCreate 2 2 with image := [[2, 2], [2, 2]] }, 4)) := by
  decide

theorem blank22_queue_log :
    fillWithLog QueueEnqueue 4 (ImageCreate 2 2) 0 0 2 =
      (⟨[⟨0, 0⟩, ⟨1, 0⟩, ⟨1, 0⟩, ⟨1, 1⟩], [⟨0, 0⟩, ⟨1, 0⟩, ⟨1, 0⟩, ⟨1, 1⟩]⟩,
       .ok ({ ImageCreate 2 2 with image := [[2, 2], [2, 2]] }, 4)) := by
  decide

theorem blank12_stack_log :
    fillWithLog StackPush 2 (ImageCreate 1 2) 0 0 2 =
      (⟨[⟨0, 0⟩, ⟨1, 0⟩], [⟨0, 0⟩, ⟨1, 0⟩]⟩, .outOfBounds) := by
  decide

theorem blank12_queue_log :
    fillWithLog QueueEnqueue 2 (ImageCreate 1 2) 0 0 2 =
      (⟨[⟨0, 0⟩, ⟨1, 0⟩], [⟨0, 0⟩, ⟨1, 0⟩]⟩, .outOfBounds) := by
  decide

/-! ## The colours generated by the segmentation -/

/-- Claim C21: ImageIsEqual(a, b) is true exactly when a and b have the same
width, height and num_colors, the same LUT entry at every index below num_colors
and the same label at every pixel; ImageIsDifferent is its negation; images of
different dimensions, and chess images of the same shape built with different
colours, are not equal. -/
theorem ImageIsEqual_iff_fields (a b : Image) :
    (ImageIsEqual a b = true ↔
      a.width = b.width ∧ a.height = b.height ∧ a.num_colors = b.num_colors ∧
      (∀ i < a.num_colors, a.LUT[i]? = b.LUT[i]?) ∧
      (∀ v < a.height, ∀ u < a.width, readPixel a v u = readPixel b v u)) ∧
    ImageIsDifferent a b = (!ImageIsEqual a b) ∧
    (a.width ≠ b.width ∨ a.height ≠ b.height → ImageIsEqual a b = false) ∧
    (∀ w h e c1 c2 : Nat, 0 < w → 0 < h → c1 ≠ c2 → ImageCreateChess w h e c1 = some a →
      ImageCreateChess w h e c2 = some b → ImageIsEqual a b = false) :=
  ⟨isEqual_iff a b, isDifferent_eq a b, isEqual_false_of_dims a b,
    fun w h e c1 c2 hw hh hc ha hb => chess_colors_differ w h e c1 c2 a b hw hh hc ha hb⟩

theorem ImageIsEqual_iff_fields_witness :
    ImageCreateChess 2 2 1 0x0000FF = some chessBlue ∧
    ImageCreateChess 2 2 1 0x00FF00 = some chessGreen ∧
    ImageIsEqual chessBlue chessGreen = false :=
  ⟨by decide, by decide,
    (ImageIsEqual_iff_fields chessBlue chessGreen).2.2.2 2 2 1 0x0000FF 0x00FF00
      (by decide) (by decide) (by decide) (by decide) (by decide)⟩

/-- Claim C22: if the colour occurs in the LUT below num_colors, LUTAllocColor
returns the least index holding it and the image is unchanged; otherwise, with
fewer than FIXED_LUT_SIZE colours, it returns the old num_colors, stores the colour
there, adds 1 to num_colors and keeps the earlier LUT entries, the pixels and the
dimensions. In both cases the LUT holds the colour at the returned index. -/
theorem LUTAllocColor_finds_or_appends (img : Image) (c : Nat)
    (hlen : img.num_colors ≤ img.LUT.length) :
    (∀ i, i < img.num_colors → img.LUT[i]? = some c → (∀ j < i, img.LUT[j]? ≠ some c) →
      LUTAllocColor img c = some (img, i)) ∧
    ((∀ i < img.num_colors, img.LUT[i]? ≠ some c) → img.num_colors < FIXED_LUT_SIZE →
      ∃ img1, LUTAllocColor img c = some (img1, img.num_colors) ∧
        img1.num_colors = img.num_colors + 1 ∧ img1.LUT[img.num_colors]? = some c ∧
        (∀ i < img.num_colors, img1.LUT[i]? = img.LUT[i]?) ∧
        img1.image = img.image ∧ img1.width = img.width ∧ img1.height = img.height) ∧
    (∀ img1 r, LUTAllocColor img c = some (img1, r) →
      r < img1.num_colors ∧ img1.LUT[r]? = some c ∧ img.num_colors ≤ img1.num_colors ∧
      img1.num_colors ≤ img1.LUT.length) :=
  allocColor_spec img c hlen

theorem LUTAllocColor_finds_or_appends_witness :
    chessBlue.num_colors ≤ chessBlue.LUT.length ∧
    LUTAllocColor chessBlue 0x0000FF = some (chessBlue, 2) ∧
    LUTAllocColor chessBlue 0x00FF00 =
      some ({ chessBlue with num_colors := 4,
                             LUT := [0xffffff, 0x000000, 0x0000FF, 0x00FF00] }, 3) :=
  ⟨by decide,
    (LUTAllocColor_finds_or_appends chessBlue 0x0000FF (by decide)).1 2 (by decide) (by decide)
      (by decide),
    by decide⟩

/-- Claim C23: on an image with at most FIXED_LUT_SIZE colours, LUTAllocColor
exits with "LUT Overflow" exactly when num_colors is FIXED_LUT_SIZE and the colour
is not in the LUT; the image it leaves is then the image it was given, so
num_colors and the LUT entries are unchanged. -/
theorem LUTAllocColor_overflow (img : Image) (c : Nat)
    (hn : img.num_colors ≤ FIXED_LUT_SIZE) :
    (LUTAllocColor img c = none ↔
      img.num_colors = FIXED_LUT_SIZE ∧ ∀ i < img.num_colors, img.LUT[i]? ≠ some c) ∧
    ((LUTAllocColorState img c).2 = none ↔ LUTAllocColor img c = none) ∧
    ((LUTAllocColorState img c).2 = none → (LUTAllocColorState img c).1 = img) ∧
    LUTAllocColor img c =
      (LUTAllocColorState img c).2.map fun i => ((LUTAllocColorState img c).1, i) := by
  obtain ⟨a, b, d⟩ := allocColor_fails_iff img c
  refine ⟨?_, b, d, allocColorState_eq img c⟩
  rw [a]
  constructor
  · rintro ⟨h1, h2⟩
    exact ⟨le_antisymm hn h1, h2⟩
  · rintro ⟨h1, h2⟩
    exact ⟨le_of_eq h1.symm, h2⟩

theorem LUTAllocColor_overflow_witness :
    (ImageCreatePalete 1 1 1).num_colors ≤ FIXED_LUT_SIZE ∧
    ((LUTAllocColorState (ImageCreatePalete 1 1 1) 0xABCDEF).2 = none →
      (LUTAllocColorState (ImageCreatePalete 1 1 1) 0xABCDEF).1 = ImageCreatePalete 1 1 1) :=
  ⟨le_of_eq (palete_header 1 1 1).1,
    (LUTAllocColor_overflow (ImageCreatePalete 1 1 1) 0xABCDEF
      (le_of_eq (palete_header 1 1 1).1)).2.2.1⟩

/-- Claim C24: for a well-formed image with the two fixed colours at indices 0
and 1, at most FIXED_LUT_SIZE colours, 24-bit LUT colours and every stored label
below num_colors, ImageLoadPPM applied to the file written by ImageSavePPM returns
an image of the same width and height in which every pixel holds a label whose LUT
colour is the LUT colour of the original pixel, and no two labels have the same
colour. -/
theorem ppm_save_load (img : Image) (hwf : img.WF) (hw : img.width < 2 ^ 31)
    (hh : img.height < 2 ^ 31) (hn : img.num_colors ≤ FIXED_LUT_SIZE)
    (hlen : img.num_colors ≤ img.LUT.length)
    (h0 : img.LUT[0]? = some 0xffffff) (h1 : img.LUT[1]? = some 0x000000)
    (hn2 : 2 ≤ img.num_colors)
    (hcol : ∀ c ∈ img.LUT.take img.num_colors, c < 2 ^ 24)
    (hlab : ∀ row ∈ img.image, ∀ p ∈ row, p < img.num_colors) :
    ∃ J, ImageLoadPPM (ImageSavePPM img).1 = some J ∧ J.WF ∧ J.width = img.width ∧
      J.height = img.height ∧ J.num_colors ≤ FIXED_LUT_SIZE ∧
      (∀ v < img.height, ∀ u < img.width, ∃ p q, readPixel img v u = some p ∧
        readPixel J v u = some q ∧ q < J.num_colors ∧ J.LUT[q]? = img.LUT[p]?) ∧
      (∀ q1 q2, q1 < J.num_colors → q2 < J.num_colors → J.LUT[q1]? = J.LUT[q2]? → q1 = q2) :=
  ppm_round_trip img hwf hw hh hn hlen h0 h1 hn2 hcol hlab

theorem ppm_save_load_witness :
    ImageLoadPPM (ImageSavePPM chessBlue).1 = some chessBlue ∧
    ∃ J, ImageLoadPPM (ImageSavePPM chessBlue).1 = some J ∧ J.WF ∧ J.width = chessBlue.width ∧
      J.height = chessBlue.height ∧ J.num_colors ≤ FIXED_LUT_SIZE ∧
      (∀ v < chessBlue.height, ∀ u < chessBlue.width, ∃ p q, readPixel chessBlue v u = some p ∧
        readPixel J v u = some q ∧ q < J.num_colors ∧ J.LUT[q]? = chessBlue.LUT[p]?) ∧
      (∀ q1 q2, q1 < J.num_colors → q2 < J.num_colors → J.LUT[q1]? = J.LUT[q2]? → q1 = q2) :=
  ⟨by decide,
    ppm_save_load chessBlue (by decide) (by decide) (by decide) (by decide) (by decide)
      (by decide) (by decide) (by decide) (by decide) (by decide)⟩

/-- Claim C25: for a row of w labels 0 or 1, the row step of ImageSavePBM writes
(w + 7) / 8 bytes, each below 256, in which bit 7 - k of byte b is 1 exactly when
pixel 8 * b + k exists and is 1 (so the padding bits are 0), whatever the buffer
held before; and the row step of ImageLoadPBM on these bytes returns the row. -/
theorem pbm_row_encoding (w : Nat) (row bytes raw : List Nat) (hrow : row.length = w)
    (h01 : ∀ p ∈ row, p < 2) (hb : bytes.length = rowBytes w)
    (hr : raw.length = rowBytes w * 8) :
    rowBytes w = (w + 7) / 8 ∧
    (savePBMRow w row bytes).length = rowBytes w ∧
    (∀ b < rowBytes w, (savePBMRow w row bytes).getD b 0 < 256 ∧ ∀ k < 8,
      ((savePBMRow w row bytes).getD b 0).testBit (7 - k) =
        decide (8 * b + k < w ∧ row.getD (8 * b + k) 0 = 1)) ∧
    loadPBMRow w (savePBMRow w row bytes) raw = row :=
  ⟨rfl, pbm_row w row bytes raw hrow h01 hb hr⟩

theorem pbm_row_encoding_witness :
    savePBMRow 10 [1, 0, 1, 1, 0, 0, 0, 1, 1, 1] [77, 99] = [0xB1, 0xC0] ∧
    (rowBytes 10 = (10 + 7) / 8 ∧
     (savePBMRow 10 [1, 0, 1, 1, 0, 0, 0, 1, 1, 1] [77, 99]).length = rowBytes 10 ∧
     (∀ b < rowBytes 10, (savePBMRow 10 [1, 0, 1, 1, 0, 0, 0, 1, 1, 1] [77, 99]).getD b 0 < 256 ∧
       ∀ k < 8, ((savePBMRow 10 [1, 0, 1, 1, 0, 0, 0, 1, 1, 1] [77, 99]).getD b 0).testBit (7 - k) =
         decide (8 * b + k < 10 ∧ [1, 0, 1, 1, 0, 0, 0, 1, 1, 1].getD (8 * b + k) 0 = 1)) ∧
     loadPBMRow 10 (savePBMRow 10 [1, 0, 1, 1, 0, 0, 0, 1, 1, 1] [77, 99])
       (List.replicate 16 5) = [1, 0, 1, 1, 0, 0, 0, 1, 1, 1]) :=
  ⟨by decide,
    pbm_row_encoding 10 [1, 0, 1, 1, 0, 0, 0, 1, 1, 1] [77, 99] (List.replicate 16 5)
      (by decide) (by decide) (by decide) (by decide)⟩

/-- Claim C26, refuted: ImageSavePBM and ImageSavePPM return 0 when the file is
opened and written without error, for every image. -/
theorem save_returns_zero (img : Image) :
    (ImageSavePBM img).2 = 0 ∧ (ImageSavePPM img).2 = 0 :=
  ⟨rfl, rfl⟩

/-! ## Claims on the invariant, the generated colours and the containers -/

/-- Claim C27: the images of ImageCreate, ImageCreateChess, ImageCreatePalete, of
the PBM and PPM loaders, and the copy and the two rotations of an image that
satisfies the invariant, have between 2 and FIXED_LUT_SIZE colours and every
stored label below num_colors; the three fills called with a label below
num_colors keep this and num_colors; ImageSegmentation with one of the three fills
keeps it and does not decrease num_colors. -/
theorem data_model_invariant (fuel : Nat) (f : FillingFunction)
    (hf : f ∈ [ImageRegionFillingRecursive fuel, ImageRegionFillingWithSTACK fuel,
      ImageRegionFillingWithQUEUE fuel]) :
    (∀ w h : Nat, (ImageCreate w h).Inv) ∧
    (∀ (w h e c : Nat) (img : Image), ImageCreateChess w h e c = some img → img.Inv) ∧
    (∀ w h e : Nat, (ImageCreatePalete w h e).Inv) ∧
    (∀ img : Image, img.Inv →
      (ImageCopy img).Inv ∧ (ImageRotate90CW img).Inv ∧ (ImageRotate180CW img).Inv) ∧
    (∀ (file : PBMFile) (img : Image), ImageLoadPBM file = some img → img.Inv) ∧
    (∀ (file : PPMFile) (img : Image), ImageLoadPPM file = some img → img.Inv) ∧
    (∀ (img : Image) (u v : Int) (label : Nat) (r : Image × Nat), img.Inv →
      label < img.num_colors → f img u v label = .ok r →
      r.1.Inv ∧ r.1.num_colors = img.num_colors) ∧
    (∀ (img img1 : Image) (r : Nat), img.Inv → ImageSegmentation img f = .ok (img1, r) →
      img1.Inv ∧ img.num_colors ≤ img1.num_colors) :=
  ⟨inv_create, inv_chess, inv_palete,
    fun img h => ⟨inv_copy img h, (inv_rotate img h).1, (inv_rotate img h).2⟩,
    fun file img h => (inv_loadPBM file img h).1, inv_loadPPM,
    fun img u v label r hi hl h => inv_fill fuel f hf img u v label r hi hl h,
    fun img img1 r hi h => inv_segmentation fuel f hf img img1 r hi h⟩

theorem data_model_invariant_witness :
    chessBlue.Inv ∧
    ImageSegmentation chessBlue (ImageRegionFillingWithSTACK 2) = .ok (chessBlueLabelled, 2) ∧
    (chessBlueLabelled.Inv ∧ chessBlue.num_colors ≤ chessBlueLabelled.num_colors) :=
  ⟨by decide, by decide,
    (data_model_invariant 2 (ImageRegionFillingWithSTACK 2) (by simp)).2.2.2.2.2.2.2
      chessBlue chessBlueLabelled 2 (by decide) (by decide)⟩

/-- Claim C29, refuted: in ImageRegionFillingWithSTACK and ImageRegionFillingWithQUEUE
on the all-white 2x2 image from (0, 0) the coordinate (1, 0) is inserted twice,
once for the right neighbour and once, with u and v swapped, for the neighbour
below. What holds is that each insertion goes with one relabelled pixel: the number
of insertions is the count returned. -/
theorem fill_inserts_twice :
    (∀ (ins : List PixelCoords → PixelCoords → List PixelCoords) (fuel : Nat) (img : Image)
      (u v : Int) (label : Nat),
      (fillWithLog ins fuel img u v label).2 = fillWith ins fuel img u v label) ∧
    (∀ (ins : List PixelCoords → PixelCoords → List PixelCoords) (fuel : Nat) (img : Image)
      (u v : Int) (label : Nat) (log : FillLog) (r : Image × Nat),
      fillWithLog ins fuel img u v label = (log, .ok r) → log.pushed.length = r.2) ∧
    (∀ n : Nat, (fillWithLog StackPush (4 + n) (ImageCreate 2 2) 0 0 2).1.pushed =
      [⟨0, 0⟩, ⟨1, 0⟩, ⟨1, 0⟩, ⟨1, 1⟩]) ∧
    (∀ n : Nat, (fillWithLog QueueEnqueue (4 + n) (ImageCreate 2 2) 0 0 2).1.pushed =
      [⟨0, 0⟩, ⟨1, 0⟩, ⟨1, 0⟩, ⟨1, 1⟩]) ∧
    ¬ ([⟨0, 0⟩, ⟨1, 0⟩, ⟨1, 0⟩, ⟨1, 1⟩] : List PixelCoords).Nodup := by
  refine ⟨fillWithLog_snd, fillWithLog_count, fun n => ?_, fun n => ?_, by decide⟩
  · rw [fillWithLog_mono StackPush 4 n _ _ _ _ _ _ blank22_stack_log (by simp)]
  · rw [fillWithLog_mono QueueEnqueue 4 n _ _ _ _ _ _ blank22_queue_log (by simp)]

/-- Claim C30, refuted: on the all-white image of width 1 and height 2, from the
valid seed (0, 0), both ImageRegionFillingWithSTACK and ImageRegionFillingWithQUEUE
remove the coordinate (1, 0), which ImageIsValidPixel rejects, and then read
img->image[1][1], outside the row, for every bound of 2 iterations or more. -/
theorem fill_removes_invalid :
    ImageIsValidPixel (ImageCreate 1 2) 0 0 = true ∧
    ImageIsValidPixel (ImageCreate 1 2) 1 0 = false ∧
    readPixel (ImageCreate 1 2) 1 1 = none ∧
    (∀ n : Nat, fillWithLog StackPush (2 + n) (ImageCreate 1 2) 0 0 2 =
      (⟨[⟨0, 0⟩, ⟨1, 0⟩], [⟨0, 0⟩, ⟨1, 0⟩]⟩, .outOfBounds)) ∧
    (∀ n : Nat, fillWithLog QueueEnqueue (2 + n) (ImageCreate 1 2) 0 0 2 =
      (⟨[⟨0, 0⟩, ⟨1, 0⟩], [⟨0, 0⟩, ⟨1, 0⟩]⟩, .outOfBounds)) ∧
    (∀ n : Nat, ImageRegionFillingWithSTACK (2 + n) (ImageCreate 1 2) 0 0 2 = .outOfBounds) ∧
    (∀ n : Nat, ImageRegionFillingWithQUEUE (2 + n) (ImageCreate 1 2) 0 0 2 = .outOfBounds) := by
  have hs := fun n => fillWithLog_mono StackPush 2 n _ _ _ _ _ _ blank12_stack_log (by simp)
  have hq := fun n => fillWithLog_mono QueueEnqueue 2 n _ _ _ _ _ _ blank12_queue_log (by simp)
  refine ⟨by decide, by decide, by decide, hs, hq, fun n => ?_, fun n => ?_⟩
  · have := fillWithLog_snd StackPush (2 + n) (ImageCreate 1 2) 0 0 2
    rw [hs n] at this
    exact this.symm
  · have := fillWithLog_snd QueueEnqueue (2 + n) (ImageCreate 1 2) 0 0 2
    rw [hq n] at this
    exact this.symm

/-! ## The iterative fills relabel background pixels, one per insertion -/

theorem Changed.card_bgSet {bg label : Nat} {img img1 : Image} {C : Finset (Int × Int)}
    (h : Changed bg label img img1 C) (hne : label ≠ bg) :
    (bgSet img1 bg).card + C.card = (bgSet img bg).card := by
  have hsub : C ⊆ bgSet img bg := fun q hq => (mem_bgSet _ _ _).2 (h.2.2.2.2.2.1 q hq)
  have heq : bgSet img1 bg = bgSet img bg \ C := by
    ext q
    rw [Finset.mem_sdiff, mem_bgSet, mem_bgSet]
    constructor
    · intro hq
      refine ⟨h.anti hne q hq, fun hc => ?_⟩
      have h2 := hq.2
      rw [h.2.2.2.2.2.2 q, if_pos hc] at h2
      exact hne (Option.some.inj h2)
    · rintro ⟨hq, hc⟩
      refine ⟨by rw [validPixel_congr h.1 h.2.1]; exact hq.1, ?_⟩
      rw [h.2.2.2.2.2.2 q, if_neg hc]
      exact hq.2
  rw [heq, Finset.card_sdiff hsub]
  have := Finset.card_le_card hsub
  omega

theorem FillStep.same (bg label : Nat) (st : FillState) (log : FillLog) (hwf : st.1.WF) :
    FillStep bg label st st log log :=
  ⟨∅, Changed.refl bg label st.1 hwf, by simp, by simp, by simp⟩

theorem FillStep.chain {bg label : Nat} (hne : label ≠ bg) {a b c : FillState}
    {la lb lc : FillLog} (h1 : FillStep bg label a b la lb) (h2 : FillStep bg label b c lb lc) :
    FillStep bg label a c la lc := by
  obtain ⟨D1, c1, n1, s1, p1⟩ := h1
  obtain ⟨D2, c2, n2, s2, p2⟩ := h2
  obtain ⟨k, e⟩ := c1.comp c2 hne
  exact ⟨D1 ∪ D2, k, by rw [e]; omega, by rw [e]; omega, by rw [e]; omega⟩

theorem FillStep.facts {bg label : Nat} (hne : label ≠ bg) {a b : FillState}
    {la lb : FillLog} (h : FillStep bg label a b la lb) :
    b.1.WF ∧ b.1.width = a.1.width ∧ b.1.height = a.1.height ∧
      b.2.1.length + (bgSet b.1 bg).card = a.2.1.length + (bgSet a.1 bg).card ∧
      lb.pushed.length + (bgSet b.1 bg).card = la.pushed.length + (bgSet a.1 bg).card := by
  obtain ⟨D, c, n, s, p⟩ := h
  have hc := c.card_bgSet hne
  exact ⟨c.2.2.2.2.1, c.1, c.2.1, by omega, by omega⟩

theorem bgAt_of_read {img : Image} (hwf : img.WF) (hw : img.width < 2 ^ 31)
    (hh : img.height < 2 ^ 31) {row col : Int} {b : Nat}
    (h : readPixel img row col = some b) : bgAt img b (col, row) := by
  obtain ⟨h1, h2, h3, h4⟩ := readPixel_some_range hwf h
  refine ⟨?_, h⟩
  rw [validPixel_iff, toInt32_of_lt hw, toInt32_of_lt hh]
  exact ⟨h3, h4, h1, h2⟩

theorem fillNeighbourLog_step (ins : List PixelCoords → PixelCoords → List PixelCoords)
    (hins : ∀ s p, (ins s p).length = s.length + 1)
    (bg label : Nat) (guard : Bool) (row col : Int) (p : PixelCoords)
    (st : FillState) (log : FillLog) (hwf : st.1.WF) (hw : st.1.width < 2 ^ 31)
    (hh : st.1.height < 2 ^ 31) :
    (∃ st1 l1, fillNeighbourLog ins bg label guard row col p st log = (l1, .ok st1) ∧
      FillStep bg label st st1 log l1) ∨
    fillNeighbourLog ins bg label guard row col p st log = (log, .outOfBounds) := by
  unfold fillNeighbourLog
  cases guard with
  | false =>
    left
    exact ⟨st, log, by simp, FillStep.same bg label st log hwf⟩
  | true =>
    simp only [if_true]
    cases hr : readPixel st.1 row col with
    | none => right; rfl
    | some q =>
      simp only
      by_cases hq : q = bg
      · subst hq
        simp only [if_true]
        cases hwr : writePixel st.1 row col label with
        | none => right; rfl
        | some img1 =>
          left
          refine ⟨_, _, rfl, {(col, row)}, Changed.single hwf (bgAt_of_read hwf hw hh hr) hwr,
            by simp, ?_, by simp⟩
          simp only [Finset.card_singleton]
          exact hins _ _
      · left
        simp only [hq, if_false]
        exact ⟨st, log, rfl, FillStep.same bg label st log hwf⟩

theorem FillStep.bound {bg label : Nat} (hne : label ≠ bg) {a b : FillState}
    {la lb : FillLog} (h : FillStep bg label a b la lb) :
    lb.pushed.length ≤ la.pushed.length + (bgSet a.1 bg).card := by
  have := (h.facts hne).2.2.2.2
  omega

theorem fillVisitLog_step (ins : List PixelCoords → PixelCoords → List PixelCoords)
    (hins : ∀ s p, (ins s p).length = s.length + 1)
    (bg label : Nat) (hne : label ≠ bg) (W H : Int) (p : PixelCoords)
    (st : FillState) (log : FillLog) (hwf : st.1.WF) (hw : st.1.width < 2 ^ 31)
    (hh : st.1.height < 2 ^ 31) :
    (∃ st1 l1, fillVisitLog ins bg label W H p st log = (l1, .ok st1) ∧
      FillStep bg label st st1 log l1) ∨
    (∃ l1, fillVisitLog ins bg label W H p st log = (l1, .outOfBounds) ∧
      l1.pushed.length ≤ log.pushed.length + (bgSet st.1 bg).card) := by
  unfold fillVisitLog
  rcases fillNeighbourLog_step ins hins bg label (decide (p.u + 1 < W)) p.v (p.u + 1)
    ⟨p.u + 1, p.v⟩ st log hwf hw hh with ⟨s1, l1, e1, f1⟩ | e1
  · rw [e1]
    simp only
    obtain ⟨wf1, w1, h1, -, -⟩ := f1.facts hne
    rcases fillNeighbourLog_step ins hins bg label (decide (p.u > 0)) p.v (p.u - 1)
      ⟨p.u - 1, p.v⟩ s1 l1 wf1 (w1 ▸ hw) (h1 ▸ hh) with ⟨s2, l2, e2, f2⟩ | e2
    · rw [e2]
      simp only
      have f12 := f1.chain hne f2
      obtain ⟨wf2, w2, h2, -, -⟩ := f12.facts hne
      rcases fillNeighbourLog_step ins hins bg label (decide (p.v + 1 < H)) (p.v + 1) p.u
        ⟨p.v + 1, p.u⟩ s2 l2 wf2 (w2 ▸ hw) (h2 ▸ hh) with ⟨s3, l3, e3, f3⟩ | e3
      · rw [e3]
        simp only
        have f13 := f12.chain hne f3
        obtain ⟨wf3, w3, h3, -, -⟩ := f13.facts hne
        rcases fillNeighbourLog_step ins hins bg label (decide (p.v > 0)) (p.v - 1) p.u
          ⟨p.v - 1, p.u⟩ s3 l3 wf3 (w3 ▸ hw) (h3 ▸ hh) with ⟨s4, l4, e4, f4⟩ | e4
        · left
          exact ⟨s4, l4, e4, f13.chain hne f4⟩
        · right
          exact ⟨l3, e4, f13.bound hne⟩
      · right
        rw [e3]
        exact ⟨l2, rfl, f12.bound hne⟩
    · right
      rw [e2]
      exact ⟨l1, rfl, f1.bound hne⟩
  · right
    rw [e1]
    exact ⟨log, rfl, by omega⟩

/-- The loop of the iterative fills with fuel for the container and the remaining
background pixels: it stops, either at an empty container or at an access outside
the rows, and each insertion went with one relabelled background pixel. -/
theorem fillLoopLog_step (ins : List PixelCoords → PixelCoords → List PixelCoords)
    (hins : ∀ s p, (ins s p).length = s.length + 1)
    (bg label : Nat) (hne : label ≠ bg) (W H : Int) :
    ∀ (fuel : Nat) (st : FillState) (log : FillLog), st.1.WF → st.1.width < 2 ^ 31 →
      st.1.height < 2 ^ 31 → st.2.1.length + (bgSet st.1 bg).card ≤ fuel →
      (∃ r l1, fillLoopLog ins bg label W H fuel st log = (l1, .ok r) ∧
        ∃ D : Finset (Int × Int), Changed bg label st.1 r.1 D ∧ r.2 = st.2.2 + D.card ∧
          l1.pushed.length = log.pushed.length + D.card) ∨
      (∃ l1, fillLoopLog ins bg label W H fuel st log = (l1, .outOfBounds) ∧
        l1.pushed.length ≤ log.pushed.length + (bgSet st.1 bg).card) := by
  intro fuel
  induction fuel with
  | zero =>
    rintro ⟨img, stack, count⟩ log hwf hw hh hm
    cases stack with
    | nil =>
      left
      rw [fillLoopLog]
      exact ⟨_, _, rfl, ∅, Changed.refl bg label img hwf, by simp, by simp⟩
    | cons p rest =>
      simp only [List.length_cons] at hm
      omega
  | succ n ih =>
    rintro ⟨img, stack, count⟩ log hwf hw hh hm
    cases stack with
    | nil =>
      left
      rw [fillLoopLog]
      exact ⟨_, _, rfl, ∅, Changed.refl bg label img hwf, by simp, by simp⟩
    | cons p rest =>
      rw [fillLoopLog]
      simp only [List.length_cons] at hm
      rcases fillVisitLog_step ins hins bg label hne W H p (img, rest, count)
        { log with popped := log.popped ++ [p] } hwf hw hh with ⟨st1, l1, e1, f1⟩ | ⟨l1, e1, b1⟩
      · rw [e1]
        simp only
        obtain ⟨wf1, w1, h1, m1, q1⟩ := f1.facts hne
        simp only at w1 h1 m1 q1
        rcases ih st1 l1 wf1 (w1 ▸ hw) (h1 ▸ hh) (by omega) with
          ⟨r, l2, e2, D2, c2, n2, s2⟩ | ⟨l2, e2, b2⟩
        · left
          obtain ⟨D1, c1, n1, -, s1⟩ := f1
          obtain ⟨k, e⟩ := c1.comp c2 hne
          simp only at n1 s1
          exact ⟨r, l2, e2, D1 ∪ D2, k, by rw [e]; omega, by rw [e]; omega⟩
        · right
          exact ⟨l2, e2, by omega⟩
      · right
        rw [e1]
        exact ⟨l1, rfl, b1⟩

theorem stackPush_length (s : List PixelCoords) (p : PixelCoords) :
    (StackPush s p).length = s.length + 1 := by
  simp [StackPush]

theorem queueEnqueue_length (s : List PixelCoords) (p : PixelCoords) :
    (QueueEnqueue s p).length = s.length + 1 := by
  simp [QueueEnqueue]

theorem stackPush_mem (s : List PixelCoords) (p x : PixelCoords) (h : x ∈ StackPush s p) :
    x ∈ s ∨ x = p := by
  simp only [StackPush, List.mem_cons] at h
  tauto

theorem queueEnqueue_mem (s : List PixelCoords) (p x : PixelCoords)
    (h : x ∈ QueueEnqueue s p) : x ∈ s ∨ x = p := by
  simp only [QueueEnqueue, List.mem_append, List.mem_singleton] at h
  exact h

/-- A run of an iterative fill with one unit of fuel per pixel: the loop stops, the
insertions are at most `width * height`, and when the function returns, the
relabelled pixels are pixels that held the label of the seed, one per unit of the
count. -/
theorem fillWithLog_run (ins : List PixelCoords → PixelCoords → List PixelCoords)
    (hins : ∀ s p, (ins s p).length = s.length + 1)
    (fuel : Nat) (img : Image) (u v : Int) (label : Nat) (hwf : img.WF)
    (hw : img.width < 2 ^ 32) (hh : img.height < 2 ^ 32)
    (hfuel : img.width * img.height ≤ fuel) :
    ∃ l1 o, fillWithLog ins fuel img u v label = (l1, o) ∧ o ≠ .outOfFuel ∧
      l1.pushed.length ≤ img.width * img.height ∧
      ∀ r, o = .ok r → ∃ (b : Nat) (D : Finset (Int × Int)),
        Changed b label img r.1 D ∧ r.2 = D.card ∧ l1.pushed.length = D.card ∧
        (D.Nonempty → readPixel img v u = some b ∧ label ≠ b) := by
  unfold fillWithLog
  by_cases hv : ImageIsValidPixel img u v = true
  · have hv0 := (validPixel_iff _ _ _).1 hv
    have hw1 : img.width < 2 ^ 31 := toInt32_pos_lt hw (by omega)
    have hh1 : img.height < 2 ^ 31 := toInt32_pos_lt hh (by omega)
    simp only [hv, Bool.not_true, Bool.false_eq_true, if_false]
    cases hr : readPixel img v u with
    | none => exact ⟨_, _, rfl, by simp, by simp, by simp⟩
    | some b =>
      simp only
      by_cases hb : b = label
      · rw [if_pos hb]
        refine ⟨_, _, rfl, by simp, by simp, ?_⟩
        intro r hr1
        cases hr1
        exact ⟨0, ∅, Changed.refl 0 label img hwf, by simp, by simp, by simp⟩
      · rw [if_neg hb]
        have hne : label ≠ b := fun h => hb h.symm
        cases hwr : writePixel img v u label with
        | none => exact ⟨_, _, rfl, by simp, by simp, by simp⟩
        | some img0 =>
          simp only
          have c0 := Changed.single hwf (show bgAt img b (u, v) from ⟨hv, hr⟩) hwr
          have k0 := c0.card_bgSet hne
          rw [Finset.card_singleton] at k0
          have hsz := bgSet_card_le_size img b
          rcases fillLoopLog_step ins hins b label hne (toInt32 img.width) (toInt32 img.height)
            fuel (img0, ins [] ⟨u, v⟩, 1) ⟨[⟨u, v⟩], []⟩ c0.2.2.2.2.1 (c0.1 ▸ hw1)
            (c0.2.1 ▸ hh1) (by simp only [hins, List.length_nil]; omega) with
            ⟨r, l1, e, D, cD, nD, sD⟩ | ⟨l1, e, bnd⟩
          · simp only [List.length_singleton] at cD sD nD
            obtain ⟨k, ek⟩ := c0.comp cD hne
            have kD := cD.card_bgSet hne
            rw [Finset.card_singleton] at ek
            refine ⟨l1, .ok r, e, by simp, by omega, ?_⟩
            intro r1 hr1
            cases hr1
            exact ⟨b, {(u, v)} ∪ D, k, by omega, by omega, fun _ => ⟨rfl, hne⟩⟩
          · simp only [List.length_singleton] at bnd
            exact ⟨l1, .outOfBounds, e, by simp, by omega, by simp⟩
  · have hv1 : ImageIsValidPixel img u v = false := by simpa using hv
    simp only [hv1, Bool.not_false, if_true]
    refine ⟨_, _, rfl, by simp, by simp, ?_⟩
    intro r hr1
    cases hr1
    exact ⟨0, ∅, Changed.refl 0 label img hwf, by simp, by simp, by simp⟩

/-- Whenever an iterative fill returns, whatever the fuel, the relabelled pixels are
pixels that held the label of the seed, and the count is their number. -/
theorem fillWith_changed (ins : List PixelCoords → PixelCoords → List PixelCoords)
    (hins : ∀ s p, (ins s p).length = s.length + 1)
    (fuel : Nat) (img : Image) (u v : Int) (label : Nat) (r : Image × Nat) (hwf : img.WF)
    (hw : img.width < 2 ^ 32) (hh : img.height < 2 ^ 32)
    (h : fillWith ins fuel img u v label = .ok r) :
    ∃ (b : Nat) (D : Finset (Int × Int)), Changed b label img r.1 D ∧ r.2 = D.card ∧
      (D.Nonempty → readPixel img v u = some b ∧ label ≠ b) := by
  have h1 := fillWith_fuel_mono ins fuel (img.width * img.height) img u v label r h
  obtain ⟨l1, o, e, -, -, hk⟩ := fillWithLog_run ins hins (fuel + img.width * img.height)
    img u v label hwf hw hh (by omega)
  have h2 := fillWithLog_snd ins (fuel + img.width * img.height) img u v label
  rw [e, h1] at h2
  obtain ⟨b, D, c, n, -, s⟩ := hk r h2
  exact ⟨b, D, c, n, s⟩

/-! ## On a square image the iterative fills stay inside the image -/

theorem fillNeighbour_inside (ins : List PixelCoords → PixelCoords → List PixelCoords)
    (hmem : ∀ s p x, x ∈ ins s p → x ∈ s ∨ x = p) (n : Int)
    (bg label : Nat) (guard : Bool) (row col : Int) (p : PixelCoords) (st : FillState)
    (hwf : st.1.WF) (hW : toInt32 st.1.width = n) (hH : toInt32 st.1.height = n)
    (hg : guard = true → 0 ≤ row ∧ row < n ∧ 0 ≤ col ∧ col < n)
    (hp : guard = true → InSquare n p) (hV : ∀ x ∈ st.2.1, InSquare n x) :
    ∃ st1, fillNeighbour ins bg label guard row col p st = .ok st1 ∧ st1.1.WF ∧
      st1.1.width = st.1.width ∧ st1.1.height = st.1.height ∧
      ∀ x ∈ st1.2.1, InSquare n x := by
  unfold fillNeighbour
  cases guard with
  | false => exact ⟨st, by simp, hwf, rfl, rfl, hV⟩
  | true =>
    simp only [if_true]
    obtain ⟨g1, g2, g3, g4⟩ := hg rfl
    have hv : ImageIsValidPixel st.1 col row = true := by
      rw [validPixel_iff, hW, hH]
      exact ⟨g3, g4, g1, g2⟩
    obtain ⟨q, hq⟩ := readPixel_of_valid hwf hv
    rw [hq]
    simp only
    by_cases hb : q = bg
    · rw [if_pos hb]
      obtain ⟨img1, hwr⟩ := writePixel_of_read hq label
      rw [hwr]
      obtain ⟨a1, a2, -, -⟩ := writePixel_frame hwr
      refine ⟨_, rfl, writePixel_WF hwr hwf, a1, a2, ?_⟩
      intro x hx
      rcases hmem _ _ _ hx with hx | rfl
      · exact hV x hx
      · exact hp rfl
    · rw [if_neg hb]
      exact ⟨st, rfl, hwf, rfl, rfl, hV⟩

theorem fillVisit_inside (ins : List PixelCoords → PixelCoords → List PixelCoords)
    (hmem : ∀ s p x, x ∈ ins s p → x ∈ s ∨ x = p) (n : Int)
    (bg label : Nat) (p : PixelCoords) (st : FillState)
    (hwf : st.1.WF) (hW : toInt32 st.1.width = n) (hH : toInt32 st.1.height = n)
    (hp : InSquare n p) (hV : ∀ x ∈ st.2.1, InSquare n x) :
    ∃ st1, fillVisit ins bg label n n p st = .ok st1 ∧ st1.1.WF ∧
      st1.1.width = st.1.width ∧ st1.1.height = st.1.height ∧
      ∀ x ∈ st1.2.1, InSquare n x := by
  obtain ⟨p1, p2, p3, p4⟩ := hp
  unfold fillVisit
  obtain ⟨s1, e1, wf1, w1, h1, v1⟩ := fillNeighbour_inside ins hmem n bg label
    (decide (p.u + 1 < n)) p.v (p.u + 1) ⟨p.u + 1, p.v⟩ st hwf hW hH
    (fun hg => by
      have := of_decide_eq_true hg
      omega)
    (fun hg => by
      have := of_decide_eq_true hg
      exact ⟨by show 0 ≤ p.u + 1; omega, this, p3, p4⟩) hV
  rw [e1]
  simp only [Outcome.bind]
  obtain ⟨s2, e2, wf2, w2, h2, v2⟩ := fillNeighbour_inside ins hmem n bg label
    (decide (p.u > 0)) p.v (p.u - 1) ⟨p.u - 1, p.v⟩ s1 wf1 (by rw [w1]; exact hW)
    (by rw [h1]; exact hH)
    (fun hg => by
      have := of_decide_eq_true hg
      omega)
    (fun hg => by
      have := of_decide_eq_true hg
      exact ⟨by show 0 ≤ p.u - 1; omega, by show p.u - 1 < n; omega, p3, p4⟩) v1
  rw [e2]
  simp only
  obtain ⟨s3, e3, wf3, w3, h3, v3⟩ := fillNeighbour_inside ins hmem n bg label
    (decide (p.v + 1 < n)) (p.v + 1) p.u ⟨p.v + 1, p.u⟩ s2 wf2 (by rw [w2, w1]; exact hW)
    (by rw [h2, h1]; exact hH)
    (fun hg => by
      have := of_decide_eq_true hg
      omega)
    (fun hg => by
      have := of_decide_eq_true hg
      exact ⟨by show 0 ≤ p.v + 1; omega, this, p1, p2⟩) v2
  rw [e3]
  simp only
  obtain ⟨s4, e4, wf4, w4, h4, v4⟩ := fillNeighbour_inside ins hmem n bg label
    (decide (p.v > 0)) (p.v - 1) p.u ⟨p.v - 1, p.u⟩ s3 wf3 (by rw [w3, w2, w1]; exact hW)
    (by rw [h3, h2, h1]; exact hH)
    (fun hg => by
      have := of_decide_eq_true hg
      omega)
    (fun hg => by
      have := of_decide_eq_true hg
      exact ⟨by show 0 ≤ p.v - 1; omega, by show p.v - 1 < n; omega, p1, p2⟩) v3
  exact ⟨s4, e4, wf4, by rw [w4, w3, w2, w1], by rw [h4, h3, h2, h1], v4⟩

theorem fillLoop_inside (ins : List PixelCoords → PixelCoords → List PixelCoords)
    (hmem : ∀ s p x, x ∈ ins s p → x ∈ s ∨ x = p) (n : Int) (bg label : Nat) :
    ∀ (fuel : Nat) (st : FillState), st.1.WF → toInt32 st.1.width = n →
      toInt32 st.1.height = n → (∀ x ∈ st.2.1, InSquare n x) →
      fillLoop ins bg label n n fuel st ≠ .outOfBounds := by
  intro fuel
  induction fuel with
  | zero =>
    rintro ⟨img, stack, count⟩ hwf hW hH hV
    cases stack with
    | nil => rw [fillLoop]; simp
    | cons p rest => rw [fillLoop]; simp
  | succ k ih =>
    rintro ⟨img, stack, count⟩ hwf hW hH hV
    cases stack with
    | nil => rw [fillLoop]; simp
    | cons p rest =>
      rw [fillLoop]
      obtain ⟨st1, e1, wf1, w1, h1, v1⟩ := fillVisit_inside ins hmem n bg label p
        (img, rest, count) hwf hW hH (hV p (List.mem_cons_self _ _))
        (fun x hx => hV x (List.mem_cons_of_mem _ hx))
      rw [e1]
      simp only
      exact ih st1 wf1 (by rw [w1]; exact hW) (by rw [h1]; exact hH) v1

theorem fillWith_inside (ins : List PixelCoords → PixelCoords → List PixelCoords)
    (hmem : ∀ s p x, x ∈ ins s p → x ∈ s ∨ x = p)
    (fuel : Nat) (img : Image) (u v : Int) (label : Nat) (hwf : img.WF)
    (hsq : img.width = img.height) :
    fillWith ins fuel img u v label ≠ .outOfBounds := by
  unfold fillWith
  by_cases hv : ImageIsValidPixel img u v = true
  · simp only [hv, Bool.not_true, Bool.false_eq_true, if_false]
    obtain ⟨b, hb⟩ := readPixel_of_valid hwf hv
    rw [hb]
    simp only
    by_cases hbl : b = label
    · rw [if_pos hbl]; simp
    · rw [if_neg hbl]
      obtain ⟨img0, hwr⟩ := writePixel_of_read hb label
      rw [hwr]
      simp only
      obtain ⟨a1, a2, -, -⟩ := writePixel_frame hwr
      have hv0 := (validPixel_iff _ _ _).1 hv
      rw [← hsq]
      refine fillLoop_inside ins hmem (toInt32 img.width) b label fuel _ (writePixel_WF hwr hwf)
        (by rw [a1]) (by rw [a2, hsq]) ?_
      intro x hx
      rcases hmem _ _ _ hx with hx | rfl
      · cases hx
      · exact ⟨hv0.1, hv0.2.1, hv0.2.2.1, by rw [hsq]; exact hv0.2.2.2⟩
  · have hv1 : ImageIsValidPixel img u v = false := by simpa using hv
    simp [hv1]

/-- On a square image, with one unit of fuel per pixel, the iterative fills return. -/
theorem fillWith_square (ins : List PixelCoords → PixelCoords → List PixelCoords)
    (hins : ∀ s p, (ins s p).length = s.length + 1)
    (hmem : ∀ s p x, x ∈ ins s p → x ∈ s ∨ x = p)
    (fuel : Nat) (img : Image) (u v : Int) (label : Nat) (hwf : img.WF)
    (hsq : img.width = img.height) (hw : img.width < 2 ^ 32)
    (hfuel : img.width * img.height ≤ fuel) :
    ∃ r, fillWith ins fuel img u v label = .ok r := by
  obtain ⟨l1, o, e, ho, -, -⟩ := fillWithLog_run ins hins fuel img u v label hwf hw
    (hsq ▸ hw) hfuel
  have h2 := fillWithLog_snd ins fuel img u v label
  rw [e] at h2
  simp only at h2
  have h3 := fillWith_inside ins hmem fuel img u v label hwf hsq
  rw [← h2] at h3 ⊢
  cases o with
  | ok r => exact ⟨r, rfl⟩
  | outOfBounds => exact absurd rfl h3
  | outOfFuel => exact absurd rfl ho

/-! ## The fills store only at pixels that hold the label of the seed -/

/-- A property of images kept by every store of `label` at a pixel that holds
`background` is kept by the recursive flood fill. -/
theorem floodFillRecursive_keeps_bg (P : Image → Prop) (background label : Nat)
    (hP : ∀ (img img1 : Image) (r c : Int), readPixel img r c = some background →
      writePixel img r c label = some img1 → P img → P img1) :
    ∀ (fuel : Nat) (img : Image) (u v : Int) (r : Image × Nat),
      floodFillRecursive fuel img u v background label = .ok r → P img → P r.1 := by
  intro fuel
  induction fuel with
  | zero =>
    intro img u v r h
    rw [floodFillRecursive] at h
    cases h
  | succ n ih =>
    intro img u v r h hp
    rw [floodFillRecursive] at h
    split at h
    · cases h
      exact hp
    · split at h
      · cases h
      · rename_i p hrd
        split at h
        · cases h
          exact hp
        · rename_i hpb
          have hpb1 : p = background := by
            by_contra hc
            exact hpb hc
          subst hpb1
          split at h
          · cases h
          · rename_i img0 hw
            obtain ⟨r1, e1, h⟩ := Outcome.bind_eq_ok h
            obtain ⟨r2, e2, h⟩ := Outcome.bind_eq_ok h
            obtain ⟨r3, e3, h⟩ := Outcome.bind_eq_ok h
            obtain ⟨r4, e4, h⟩ := Outcome.bind_eq_ok h
            cases h
            exact ih _ _ _ r4 e4 (ih _ _ _ r3 e3 (ih _ _ _ r2 e2 (ih _ _ _ r1 e1
              (hP _ _ _ _ hrd hw hp))))

theorem recursive_keeps_bg (P : Image → Prop) (bg label : Nat)
    (hP : ∀ (img img1 : Image) (r c : Int), readPixel img r c = some bg →
      writePixel img r c label = some img1 → P img → P img1)
    (fuel : Nat) (img : Image) (u v : Int) (r : Image × Nat)
    (h : ImageRegionFillingRecursive fuel img u v label = .ok r)
    (hseed : ImageIsValidPixel img u v = true → readPixel img v u = some bg)
    (hp : P img) : P r.1 := by
  unfold ImageRegionFillingRecursive at h
  split at h
  · cases h
    exact hp
  · rename_i hv
    have hv1 : ImageIsValidPixel img u v = true := by simpa using hv
    split at h
    · cases h
    · rename_i b hb
      have hbg : b = bg := by
        have := hseed hv1
        rw [hb] at this
        exact Option.some.inj this
      subst hbg
      split at h
      · cases h
        exact hp
      · exact floodFillRecursive_keeps_bg P _ label hP fuel img u v r h hp

theorem fillNeighbour_keeps_bg (P : Image → Prop)
    {ins : List PixelCoords → PixelCoords → List PixelCoords}
    {background label : Nat} {guard : Bool} {row col : Int} {p : PixelCoords}
    (hP : ∀ (img img1 : Image) (r c : Int), readPixel img r c = some background →
      writePixel img r c label = some img1 → P img → P img1)
    {st st1 : FillState} (h : fillNeighbour ins background label guard row col p st = .ok st1)
    (hp : P st.1) : P st1.1 := by
  unfold fillNeighbour at h
  split at h
  · split at h
    · cases h
    · rename_i q hrd
      split at h
      · rename_i hq
        subst hq
        split at h
        · cases h
        · rename_i img1 hw
          cases h
          exact hP _ _ _ _ hrd hw hp
      · cases h
        exact hp
  · cases h
    exact hp

theorem fillVisit_keeps_bg (P : Image → Prop)
    {ins : List PixelCoords → PixelCoords → List PixelCoords}
    {background label : Nat} {W H : Int} {p : PixelCoords}
    (hP : ∀ (img img1 : Image) (r c : Int), readPixel img r c = some background →
      writePixel img r c label = some img1 → P img → P img1)
    {st st1 : FillState} (h : fillVisit ins background label W H p st = .ok st1)
    (hp : P st.1) : P st1.1 := by
  unfold fillVisit at h
  obtain ⟨s1, e1, h⟩ := Outcome.bind_eq_ok h
  obtain ⟨s2, e2, h⟩ := Outcome.bind_eq_ok h
  obtain ⟨s3, e3, h⟩ := Outcome.bind_eq_ok h
  exact fillNeighbour_keeps_bg P hP h (fillNeighbour_keeps_bg P hP e3
    (fillNeighbour_keeps_bg P hP e2 (fillNeighbour_keeps_bg P hP e1 hp)))

theorem fillLoop_keeps_bg (P : Image → Prop)
    {ins : List PixelCoords → PixelCoords → List PixelCoords}
    {background label : Nat} {W H : Int}
    (hP : ∀ (img img1 : Image) (r c : Int), readPixel img r c = some background →
      writePixel img r c label = some img1 → P img → P img1) :
    ∀ (fuel : Nat) (st : FillState) (r : Image × Nat),
      fillLoop ins background label W H fuel st = .ok r → P st.1 → P r.1 := by
  intro fuel
  induction fuel with
  | zero =>
    rintro ⟨img, stack, count⟩ r h hp
    cases stack with
    | nil =>
      rw [fillLoop] at h
      cases h
      exact hp
    | cons p rest =>
      rw [fillLoop] at h
      cases h
  | succ n ih =>
    rintro ⟨img, stack, count⟩ r h hp
    cases stack with
    | nil =>
      rw [fillLoop] at h
      cases h
      exact hp
    | cons p rest =>
      rw [fillLoop] at h
      split at h
      · rename_i st1 hv
        exact ih st1 r h (fillVisit_keeps_bg P hP hv hp)
      · cases h
      · cases h

theorem fillWith_keeps_bg (P : Image → Prop)
    (ins : List PixelCoords → PixelCoords → List PixelCoords) (bg label : Nat)
    (hP : ∀ (img img1 : Image) (r c : Int), readPixel img r c = some bg →
      writePixel img r c label = some img1 → P img → P img1)
    (fuel : Nat) (img : Image) (u v : Int) (r : Image × Nat)
    (h : fillWith ins fuel img u v label = .ok r)
    (hseed : ImageIsValidPixel img u v = true → readPixel img v u = some bg)
    (hp : P img) : P r.1 := by
  unfold fillWith at h
  split at h
  · cases h
    exact hp
  · rename_i hv
    have hv1 : ImageIsValidPixel img u v = true := by simpa using hv
    split at h
    · cases h
    · rename_i b hb
      have hbg : b = bg := by
        have := hseed hv1
        rw [hb] at this
        exact Option.some.inj this
      subst hbg
      split at h
      · cases h
        exact hp
      · split at h
        · cases h
        · rename_i img0 hw
          exact fillLoop_keeps_bg P hP fuel _ r h (hP _ _ _ _ hb hw hp)

/-- The three fills keep every property that is kept by the stores of `label` at
pixels holding the label `bg` of the seed. -/
theorem strategies_keep_bg (P : Image → Prop) (bg label : Nat)
    (hP : ∀ (img img1 : Image) (r c : Int), readPixel img r c = some bg →
      writePixel img r c label = some img1 → P img → P img1)
    (fuel : Nat) (f : FillingFunction)
    (hf : f ∈ [ImageRegionFillingRecursive fuel, ImageRegionFillingWithSTACK fuel,
      ImageRegionFillingWithQUEUE fuel])
    (img : Image) (u v : Int) (r : Image × Nat) (h : f img u v label = .ok r)
    (hseed : ImageIsValidPixel img u v = true → readPixel img v u = some bg)
    (hp : P img) : P r.1 := by
  simp only [List.mem_cons, List.mem_singleton, List.not_mem_nil, or_false] at hf
  rcases hf with rfl | rfl | rfl
  · exact recursive_keeps_bg P bg label hP fuel img u v r h hseed hp
  · exact fillWith_keeps_bg P StackPush bg label hP fuel img u v r h hseed hp
  · exact fillWith_keeps_bg P QueueEnqueue bg label hP fuel img u v r h hseed hp

/-- When one of the three fills returns, a valid seed holds `label`. -/
theorem strategies_seed (fuel : Nat) (f : FillingFunction)
    (hf : f ∈ [ImageRegionFillingRecursive fuel, ImageRegionFillingWithSTACK fuel,
      ImageRegionFillingWithQUEUE fuel])
    (img : Image) (u v : Int) (label : Nat) (r : Image × Nat) (h : f img u v label = .ok r)
    (hv : ImageIsValidPixel img u v = true) : readPixel r.1 v u = some label := by
  have hk := strategies_keepHeader fuel f hf img u v label r h
  have hv1 : ImageIsValidPixel r.1 u v = true := by
    rw [validPixel_congr hk.1 hk.2.1]
    exact hv
  simp only [List.mem_cons, List.mem_singleton, List.not_mem_nil, or_false] at hf
  have key : ∀ (a a1 : Image) (r c : Int), writePixel a r c label = some a1 →
      readPixel a v u = some label → readPixel a1 v u = some label := by
    intro a a1 r c hw ha
    rw [readPixel_writePixel hw]
    split
    · rfl
    · exact ha
  rcases hf with rfl | rfl | rfl
  · unfold ImageRegionFillingRecursive at h
    simp only [hv, Bool.not_true, Bool.false_eq_true, if_false] at h
    split at h
    · cases h
    · rename_i b hb
      split at h
      · rename_i hbl
        cases h
        rw [hb, hbl]
      · cases fuel with
        | zero =>
          rw [floodFillRecursive] at h
          cases h
        | succ n =>
          rw [floodFillRecursive] at h
          simp only [hv, Bool.not_true, Bool.false_eq_true, if_false, hb, ne_eq,
            not_true_eq_false] at h
          split at h
          · cases h
          · rename_i img0 hw
            obtain ⟨r1, e1, h⟩ := Outcome.bind_eq_ok h
            obtain ⟨r2, e2, h⟩ := Outcome.bind_eq_ok h
            obtain ⟨r3, e3, h⟩ := Outcome.bind_eq_ok h
            obtain ⟨r4, e4, h⟩ := Outcome.bind_eq_ok h
            cases h
            have h0 : readPixel img0 v u = some label := by
              rw [readPixel_writePixel hw]
              simp
            have k := floodFillRecursive_keeps (fun a => readPixel a v u = some label) b label key
            exact k _ _ _ _ r4 e4 (k _ _ _ _ r3 e3 (k _ _ _ _ r2 e2 (k _ _ _ _ r1 e1 h0)))
  · rcases r with ⟨img1, c⟩
    rcases fillWith_seed h with h1 | h1
    · rw [hv1] at h1
      cases h1
    · exact h1
  · rcases r with ⟨img1, c⟩
    rcases fillWith_seed h with h1 | h1
    · rw [hv1] at h1
      cases h1
    · exact h1

theorem toInt32_cases {n : Nat} (h : n < 2 ^ 32) : toInt32 n = n ∨ toInt32 n < 0 := by
  unfold toInt32
  have : n % 2 ^ 32 = n := Nat.mod_eq_of_lt h
  rw [this]
  split
  · left; rfl
  · right; omega

/-- The seed that `ImageSegmentation` passes for the pixel of row `v` and column
`u` of an image whose dimensions are `uint32` values: either it is not a valid
pixel, or it is that pixel. -/
theorem seed_cases {img : Image} (hw : img.width < 2 ^ 32) (hh : img.height < 2 ^ 32)
    {v u : Nat} (hv : v < img.height) (hu : u < img.width) :
    ImageIsValidPixel img (toInt32 u) (toInt32 v) = false ∨
      (toInt32 u = u ∧ toInt32 v = v) := by
  rcases toInt32_cases (show u < 2 ^ 32 by omega) with h1 | h1
  · rcases toInt32_cases (show v < 2 ^ 32 by omega) with h2 | h2
    · right
      exact ⟨h1, h2⟩
    · left
      rw [← Bool.not_eq_true, validPixel_iff]
      omega
  · left
    rw [← Bool.not_eq_true, validPixel_iff]
    omega

/-! ## The segmentation touches WHITE pixels only, and leaves none -/

theorem segLoopExit_erase (f : FillingFunction) :
    ∀ (l : List (Nat × Nat)) (st : SegState),
      segLoop f l st = (segLoopExit f l st).bind fun x => .ok (x.1, x.2.1) := by
  intro l
  induction l with
  | nil =>
    intro st
    rw [segLoop, segLoopExit]
    rfl
  | cons vu rest ih =>
    intro st
    rw [segLoop, segLoopExit]
    cases hr : readPixel st.img vu.1 vu.2 with
    | none => rfl
    | some p =>
      simp only
      by_cases hp : p = WHITE
      · rw [if_pos hp, if_pos hp]
        by_cases hc : st.currentLabel ≥ FIXED_LUT_SIZE
        · rw [if_pos hc, if_pos hc]
          rfl
        · rw [if_neg hc, if_neg hc]
          cases hf : f { st.img with
              LUT := lutStore st.img.LUT st.currentLabel st.currentColor,
              num_colors := st.img.num_colors + 1 }
              (toInt32 vu.2) (toInt32 vu.1) st.currentLabel with
          | ok r => exact ih _
          | outOfBounds => rfl
          | outOfFuel => rfl
      · rw [if_neg hp, if_neg hp]
        exact ih _

theorem segmentationExit_erase (img : Image) (f : FillingFunction) :
    ImageSegmentation img f = (ImageSegmentationExit img f).bind fun x => .ok (x.1, x.2.1) :=
  segLoopExit_erase f _ _

theorem segLoop_frame (fuel : Nat) (f : FillingFunction)
    (hf : f ∈ [ImageRegionFillingRecursive fuel, ImageRegionFillingWithSTACK fuel,
      ImageRegionFillingWithQUEUE fuel]) :
    ∀ (l : List (Nat × Nat)) (st : SegState) (img1 : Image) (r : Nat),
      st.img.width < 2 ^ 32 → st.img.height < 2 ^ 32 →
      (∀ vu ∈ l, vu.1 < st.img.height ∧ vu.2 < st.img.width) →
      segLoop f l st = .ok (img1, r) →
      img1.width = st.img.width ∧ img1.height = st.img.height ∧
      ∀ (row col : Int) (p : Nat), p ≠ 0 → readPixel st.img row col = some p →
        readPixel img1 row col = some p := by
  intro l
  induction l with
  | nil =>
    intro st img1 r _ _ _ h
    rw [segLoop] at h
    cases h
    exact ⟨rfl, rfl, fun _ _ _ _ h => h⟩
  | cons vu rest ih =>
    intro st img1 r hw hh hl h
    have hrest : ∀ x ∈ rest, x.1 < st.img.height ∧ x.2 < st.img.width :=
      fun x hx => hl x (List.mem_cons_of_mem _ hx)
    rw [segLoop] at h
    split at h
    · cases h
    · rename_i p0 hrd
      split at h
      · rename_i hp0
        split at h
        · cases h
          exact ⟨rfl, rfl, fun _ _ _ _ h => h⟩
        · split at h
          · rename_i r1 hfill
            obtain ⟨a1, b1, -, -⟩ := strategies_keepHeader fuel f hf _ _ _ _ _ hfill
            simp only at a1 b1
            obtain ⟨a2, b2, c2⟩ := ih _ img1 r (by simp only [a1]; exact hw)
              (by simp only [b1]; exact hh)
              (by simp only [a1, b1]; exact hrest) h
            simp only at a2 b2 c2
            refine ⟨a2.trans a1, b2.trans b1, ?_⟩
            intro row col p hp hread
            apply c2 row col p hp
            have hb := hl vu (List.mem_cons_self _ _)
            refine strategies_keep_bg (fun a => readPixel a row col = some p) 0 _ ?_ fuel f hf
              _ _ _ r1 hfill ?_ hread
            · intro a a1 r c hr0 hwr ha
              rw [readPixel_writePixel hwr]
              split
              · rename_i hrc
                rw [hrc.1, hrc.2, hr0] at ha
                exact absurd (Option.some.inj ha).symm hp
              · exact ha
            · intro hvalid
              rcases @seed_cases { st.img with
                  LUT := lutStore st.img.LUT st.currentLabel st.currentColor,
                  num_colors := st.img.num_colors + 1 } hw hh vu.1 vu.2 hb.1 hb.2 with hs | hs
              · rw [hvalid] at hs
                cases hs
              · rw [hs.1, hs.2]
                rw [hp0] at hrd
                exact hrd
          · cases h
          · cases h
      · exact ih st img1 r hw hh hrest h

/-- Whenever the segmentation returns, with any of the three fills, the dimensions
are unchanged and every pixel that did not hold WHITE keeps its label. -/
theorem segmentation_keeps (fuel : Nat) (f : FillingFunction)
    (hf : f ∈ [ImageRegionFillingRecursive fuel, ImageRegionFillingWithSTACK fuel,
      ImageRegionFillingWithQUEUE fuel])
    (img img1 : Image) (r : Nat) (hw : img.width < 2 ^ 32) (hh : img.height < 2 ^ 32)
    (h : ImageSegmentation img f = .ok (img1, r)) :
    img1.width = img.width ∧ img1.height = img.height ∧
    ∀ (row col : Int) (p : Nat), p ≠ 0 → readPixel img row col = some p →
      readPixel img1 row col = some p := by
  refine segLoop_frame fuel f hf _ _ img1 r hw hh ?_ h
  intro vu hvu
  exact (mem_scanOrder _ _ _).1 hvu

theorem segLoopExit_labels (fuel : Nat) (f : FillingFunction)
    (hf : f ∈ [ImageRegionFillingRecursive fuel, ImageRegionFillingWithSTACK fuel,
      ImageRegionFillingWithQUEUE fuel]) :
    ∀ (l : List (Nat × Nat)) (st : SegState) (img1 : Image) (r : Nat),
      st.img.width < 2 ^ 31 → st.img.height < 2 ^ 31 → 0 < st.currentLabel →
      (∀ vu ∈ l, vu.1 < st.img.height ∧ vu.2 < st.img.width) →
      segLoopExit f l st = .ok (img1, r, false) →
      st.regionCount ≤ r ∧
      (∀ vu ∈ l, readPixel img1 vu.1 vu.2 ≠ some 0) ∧
      (∀ row col : Int, readPixel st.img row col ≠ some 0 → readPixel img1 row col ≠ some 0) ∧
      (∀ row col : Int, readPixel img1 row col = readPixel st.img row col ∨
        ∃ L, readPixel img1 row col = some L ∧ st.currentLabel ≤ L ∧
          L < st.currentLabel + (r - st.regionCount)) := by
  intro l
  induction l with
  | nil =>
    intro st img1 r _ _ _ _ h
    rw [segLoopExit] at h
    cases h
    exact ⟨le_refl _, fun _ h => absurd h (List.not_mem_nil _), fun _ _ h => h,
      fun _ _ => Or.inl rfl⟩
  | cons vu rest ih =>
    intro st img1 r hw hh hlab hl h
    have hrest : ∀ x ∈ rest, x.1 < st.img.height ∧ x.2 < st.img.width :=
      fun x hx => hl x (List.mem_cons_of_mem _ hx)
    rw [segLoopExit] at h
    split at h
    · cases h
    · rename_i p0 hrd
      split at h
      · rename_i hp0
        split at h
        · cases h
        · split at h
          · rename_i r1 hfill
            obtain ⟨a1, b1, -, -⟩ := strategies_keepHeader fuel f hf _ _ _ _ _ hfill
            simp only at a1 b1
            obtain ⟨n2, a2, b2, c2⟩ := ih _ img1 r (by simp only [a1]; exact hw)
              (by simp only [b1]; exact hh) (Nat.succ_pos _)
              (by simp only [a1, b1]; exact hrest) h
            simp only at n2 a2 b2 c2
            have hb := hl vu (List.mem_cons_self _ _)
            have hu : toInt32 vu.2 = vu.2 := toInt32_of_lt (by omega)
            have hv : toInt32 vu.1 = vu.1 := toInt32_of_lt (by omega)
            have hvalid : ImageIsValidPixel { st.img with
                LUT := lutStore st.img.LUT st.currentLabel st.currentColor,
                num_colors := st.img.num_colors + 1 } (toInt32 vu.2) (toInt32 vu.1) = true := by
              rw [validPixel_iff, hu, hv]
              simp only
              rw [toInt32_of_lt hw, toInt32_of_lt hh]
              omega
            have hseed := strategies_seed fuel f hf _ _ _ _ r1 hfill hvalid
            rw [hu, hv] at hseed
            have hnz : ∀ row col : Int, readPixel st.img row col ≠ some 0 →
                readPixel r1.1 row col ≠ some 0 := by
              intro row col hne
              refine strategies_keep (fun a => readPixel a row col ≠ some 0) _ ?_ fuel f hf
                _ _ _ r1 hfill hne
              intro a a1 r c hwr ha
              rw [readPixel_writePixel hwr]
              split
              · intro hc
                have := Option.some.inj hc
                omega
              · exact ha
            have hlbl : ∀ row col : Int, readPixel r1.1 row col = readPixel st.img row col ∨
                readPixel r1.1 row col = some st.currentLabel := by
              intro row col
              refine strategies_keep (fun a => readPixel a row col = readPixel st.img row col ∨
                readPixel a row col = some st.currentLabel) _ ?_ fuel f hf
                _ _ _ r1 hfill (Or.inl rfl)
              intro a a1 r c hwr ha
              rw [readPixel_writePixel hwr]
              split
              · right; rfl
              · exact ha
            refine ⟨by omega, ?_, ?_, ?_⟩
            · intro x hx
              rcases List.mem_cons.1 hx with rfl | hx
              · apply b2
                rw [hseed]
                intro hc
                have := Option.some.inj hc
                omega
              · exact a2 x hx
            · intro row col hne
              exact b2 row col (hnz row col hne)
            · intro row col
              rcases c2 row col with e | ⟨L, e, l1, l2⟩
              · rcases hlbl row col with e1 | e1
                · left
                  rw [e, e1]
                · right
                  exact ⟨st.currentLabel, by rw [e, e1], le_refl _, by omega⟩
              · right
                exact ⟨L, e, by omega, by omega⟩
          · cases h
          · cases h
      · rename_i hp0
        obtain ⟨n2, a2, b2, c2⟩ := ih st img1 r hw hh hlab hrest h
        refine ⟨n2, ?_, b2, c2⟩
        intro x hx
        rcases List.mem_cons.1 hx with rfl | hx
        · apply b2
          rw [hrd]
          intro hc
          exact hp0 (Option.some.inj hc)
        · exact a2 x hx

/-- When the scan of the segmentation runs to its end, no pixel holds WHITE, and
every pixel that held WHITE holds one of the appended labels. -/
theorem segmentation_no_white (fuel : Nat) (f : FillingFunction)
    (hf : f ∈ [ImageRegionFillingRecursive fuel, ImageRegionFillingWithSTACK fuel,
      ImageRegionFillingWithQUEUE fuel])
    (img img1 : Image) (r : Nat) (hw : img.width < 2 ^ 31) (hh : img.height < 2 ^ 31)
    (hn : 0 < img.num_colors)
    (h : ImageSegmentationExit img f = .ok (img1, r, false)) :
    (∀ v u : Nat, v < img.height → u < img.width → readPixel img1 v u ≠ some 0) ∧
    (∀ v u : Nat, v < img.height → u < img.width → readPixel img v u = some 0 →
      ∃ L, readPixel img1 v u = some L ∧ img.num_colors ≤ L ∧ L < img.num_colors + r) := by
  unfold ImageSegmentationExit at h
  obtain ⟨-, a, -, c⟩ := segLoopExit_labels fuel f hf (scanOrder img.width img.height)
    { img := img, regionCount := 0, currentColor := 0x0000FF, currentLabel := img.num_colors }
    img1 r hw hh hn (fun vu hvu => (mem_scanOrder _ _ _).1 hvu) h
  simp only [Nat.sub_zero] at c
  have ha : ∀ v u : Nat, v < img.height → u < img.width → readPixel img1 v u ≠ some 0 :=
    fun v u hv hu => a (v, u) ((mem_scanOrder _ _ _).2 ⟨hv, hu⟩)
  refine ⟨ha, ?_⟩
  intro v u hv hu h0
  rcases c v u with e | e
  · rw [h0] at e
    exact absurd e (ha v u hv hu)
  · exact e

/-! ## The segmentation with the recursive fill labels the components -/

theorem adj4_symm {p q : Int × Int} (h : adj4 p q) : adj4 q p := by
  unfold adj4 at h ⊢
  rcases h with h | h | h | h <;> subst h
  · right; left
    ext <;> simp
  · left
    ext <;> simp
  · right; right; right
    ext <;> simp
  · right; right; left
    ext <;> simp

theorem Connected4.symm {img : Image} {bg : Nat} {p q : Int × Int}
    (h : Connected4 img bg p q) : Connected4 img bg q p := by
  induction h with
  | seed h0 => exact Connected4.seed h0
  | step _ ha hb ih =>
    exact (Connected4.step (Connected4.seed hb) (adj4_symm ha) ih.bg_start).trans ih

/-- A path of `img` whose pixels all hold `bg` in `img1` is a path of `img1`. -/
theorem Connected4.lift {img img1 : Image} {bg : Nat} {p : Int × Int}
    (h : ∀ q, Connected4 img bg p q → bgAt img1 bg q) {q : Int × Int}
    (hc : Connected4 img bg p q) : Connected4 img1 bg p q := by
  induction hc with
  | seed h0 => exact Connected4.seed (h p (Connected4.seed h0))
  | step hq ha hb ih => exact Connected4.step ih ha (h _ (Connected4.step hq ha hb))

theorem bgAt_of_image {img img1 : Image} {bg : Nat} (hw : img1.width = img.width)
    (hh : img1.height = img.height) (hi : img1.image = img.image) (q : Int × Int)
    (h : bgAt img1 bg q) : bgAt img bg q := by
  refine ⟨by rw [← validPixel_congr hw hh]; exact h.1, ?_⟩
  have h2 := h.2
  unfold readPixel at h2 ⊢
  rw [hi] at h2
  exact h2

/-- Connectivity depends on the dimensions and the pixel rows only. -/
theorem Connected4.congr {img img1 : Image} {bg : Nat} {p q : Int × Int}
    (hw : img1.width = img.width) (hh : img1.height = img.height)
    (hi : img1.image = img.image) : Connected4 img1 bg p q ↔ Connected4 img bg p q :=
  ⟨fun h => Connected4.mono (bgAt_of_image hw hh hi) h,
   fun h => Connected4.mono (bgAt_of_image hw.symm hh.symm hi.symm) h⟩

theorem coords_of_toNat {q : Int × Int} {v u : Nat} (h1 : 0 ≤ q.1) (h2 : 0 ≤ q.2)
    (h : (q.2.toNat, q.1.toNat) = (v, u)) : q = ((u : Int), (v : Int)) := by
  obtain ⟨a, b⟩ := Prod.mk.inj h
  ext
  · show q.1 = (u : Int)
    omega
  · show q.2 = (v : Int)
    omega

theorem segLoop_components (fuel : Nat) (img : Image) (reps : Finset (Int × Int))
    (hw : img.width < 2 ^ 31) (hh : img.height < 2 ^ 31)
    (hfuel : img.width * img.height < fuel) (hsys : ComponentSystem img 0 reps)
    (hlut : img.num_colors + reps.card ≤ FIXED_LUT_SIZE) (hn0 : 0 < img.num_colors) :
    ∀ (l : List (Nat × Nat)) (st : SegState),
      st.img.WF → st.img.width = img.width → st.img.height = img.height →
      st.currentLabel = img.num_colors + st.regionCount →
      (∀ vu ∈ l, vu.1 < img.height ∧ vu.2 < img.width) →
      (∀ q, bgAt st.img 0 q → bgAt img 0 q ∧ (q.2.toNat, q.1.toNat) ∈ l) →
      (∀ p q, Connected4 img 0 p q → bgAt st.img 0 p → bgAt st.img 0 q) →
      (∀ p q, bgAt img 0 p → bgAt img 0 q → ¬ bgAt st.img 0 p → ¬ bgAt st.img 0 q →
        (readPixel st.img p.2 p.1 = readPixel st.img q.2 q.1 ↔ Connected4 img 0 p q)) →
      (∀ q, bgAt img 0 q → ¬ bgAt st.img 0 q →
        ∃ L, readPixel st.img q.2 q.1 = some L ∧ img.num_colors ≤ L ∧ L < st.currentLabel) →
      (∃ S : Finset (Int × Int), S ⊆ reps ∧ S.card = st.regionCount ∧
        ∀ p ∈ reps, (p ∈ S ↔ ¬ bgAt st.img 0 p)) →
      ∃ img1, segLoop (ImageRegionFillingRecursive fuel) l st = .ok (img1, reps.card) ∧
        img1.WF ∧ img1.width = img.width ∧ img1.height = img.height ∧
        (∀ q, ¬ bgAt img1 0 q) ∧
        (∀ p q, bgAt img 0 p → bgAt img 0 q →
          (readPixel img1 p.2 p.1 = readPixel img1 q.2 q.1 ↔ Connected4 img 0 p q)) ∧
        (∀ q, bgAt img 0 q → ∃ L, readPixel img1 q.2 q.1 = some L ∧ img.num_colors ≤ L ∧
          L < img.num_colors + reps.card) := by
  intro l
  induction l with
  | nil =>
    intro st hwf hsw hsh hlab _ j3 _ j5 j6 j7
    have hnw : ∀ q, ¬ bgAt st.img 0 q := fun q hq => List.not_mem_nil _ (j3 q hq).2
    obtain ⟨S, hS, hcard, hmem⟩ := j7
    have hSeq : S = reps := Finset.Subset.antisymm hS (fun p hp => (hmem p hp).2 (hnw p))
    subst hSeq
    refine ⟨st.img, ?_, hwf, hsw, hsh, hnw, ?_, ?_⟩
    · rw [segLoop, hcard]
    · intro p q hp hq
      exact j5 p q hp hq (hnw p) (hnw q)
    · intro q hq
      obtain ⟨L, e, l1, l2⟩ := j6 q hq (hnw q)
      exact ⟨L, e, l1, by omega⟩
  | cons vu rest ih =>
    intro st hwf hsw hsh hlab hl j3 j4 j5 j6 j7
    have hb := hl vu (List.mem_cons_self _ _)
    have hrest : ∀ x ∈ rest, x.1 < img.height ∧ x.2 < img.width :=
      fun x hx => hl x (List.mem_cons_of_mem _ hx)
    obtain ⟨p0, hrd⟩ := @readPixel_of_lt st.img hwf vu.1 vu.2 (by omega) (by omega)
    have hu : toInt32 vu.2 = vu.2 := toInt32_of_lt (by omega)
    have hv : toInt32 vu.1 = vu.1 := toInt32_of_lt (by omega)
    have hvalid : ImageIsValidPixel st.img (vu.2 : Int) (vu.1 : Int) = true := by
      rw [validPixel_iff, hsw, hsh, toInt32_of_lt hw, toInt32_of_lt hh]
      omega
    rw [segLoop, hrd]
    simp only
    by_cases hp0 : p0 = WHITE
    · rw [if_pos hp0]
      have hp00 : p0 = 0 := hp0
      subst hp00
      have hx : bgAt st.img 0 ((vu.2 : Int), (vu.1 : Int)) := ⟨hvalid, hrd⟩
      have hxo := (j3 _ hx).1
      obtain ⟨p0r, hp0r, hcon⟩ := hsys.2.2 _ hxo
      have hp0w : bgAt st.img 0 p0r := j4 _ _ hcon.symm hx
      obtain ⟨S, hS, hcard, hmem⟩ := j7
      have hp0S : p0r ∉ S := fun hc => (hmem p0r hp0r).1 hc hp0w
      have hins : insert p0r S ⊆ reps := Finset.insert_subset hp0r hS
      have hcard1 : (insert p0r S).card = S.card + 1 := Finset.card_insert_of_not_mem hp0S
      have hle := Finset.card_le_card hins
      have hnot : ¬ st.currentLabel ≥ FIXED_LUT_SIZE := by omega
      rw [if_neg hnot]
      have hne : st.currentLabel ≠ 0 := by omega
      obtain ⟨img2, C, e, hC, hrd2, wf2, w2, h2, -, -⟩ := recursive_component fuel
        { st.img with LUT := lutStore st.img.LUT st.currentLabel st.currentColor,
                      num_colors := st.img.num_colors + 1 }
        (toInt32 vu.2) (toInt32 vu.1) st.currentLabel 0 hwf
        (by rw [hu, hv]; exact hvalid) (by rw [hu, hv]; exact hrd) hne
        (by show st.img.width * st.img.height < fuel; rw [hsw, hsh]; exact hfuel)
      rw [e]
      simp only
      rw [hu, hv] at hC
      have w2s : img2.width = st.img.width := w2
      have h2s : img2.height = st.img.height := h2
      have hrd2s : ∀ q : Int × Int, readPixel img2 q.2 q.1 =
          if q ∈ C then some st.currentLabel else readPixel st.img q.2 q.1 := hrd2
      have hK : ∀ q, q ∈ C ↔ Connected4 img 0 ((vu.2 : Int), (vu.1 : Int)) q := by
        intro q
        have hC1 : q ∈ C ↔ Connected4 st.img 0 ((vu.2 : Int), (vu.1 : Int)) q :=
          (hC q).trans (Connected4.congr rfl rfl rfl)
        rw [hC1]
        constructor
        · intro hc
          exact Connected4.mono (fun q hq => (j3 q hq).1) hc
        · intro hc
          exact Connected4.lift (fun q hq => j4 _ q hq hx) hc
      have hxC : ((vu.2 : Int), (vu.1 : Int)) ∈ C := (hK _).2 (Connected4.seed hxo)
      have hb2 : ∀ q, bgAt img2 0 q ↔ (bgAt st.img 0 q ∧ q ∉ C) := by
        intro q
        constructor
        · intro hq
          have hq2 := hq.2
          rw [hrd2s q] at hq2
          by_cases hqC : q ∈ C
          · rw [if_pos hqC] at hq2
            exact absurd (Option.some.inj hq2) hne
          · rw [if_neg hqC] at hq2
            exact ⟨⟨by rw [← validPixel_congr w2s h2s]; exact hq.1, hq2⟩, hqC⟩
        · rintro ⟨hq, hqC⟩
          refine ⟨by rw [validPixel_congr w2s h2s]; exact hq.1, ?_⟩
          rw [hrd2s q, if_neg hqC]
          exact hq.2
      have hp0C : p0r ∈ C := (hK _).2 hcon.symm
      have hrepC : ∀ p ∈ reps, p ∈ C → p = p0r := by
        intro p hp hpC
        exact (hsys.2.1 p0r hp0r p hp (hcon.trans ((hK p).1 hpC))).symm
      refine ih { img := img2, regionCount := st.regionCount + 1,
                  currentColor := GenerateNextColor st.currentColor,
                  currentLabel := st.currentLabel + 1 }
        wf2 (w2s.trans hsw) (h2s.trans hsh) (by show st.currentLabel + 1 = img.num_colors + (st.regionCount + 1); omega) hrest
        ?_ ?_ ?_ ?_ ?_
      · intro q hq
        obtain ⟨hqs, hqC⟩ := (hb2 q).1 hq
        obtain ⟨a, b⟩ := j3 q hqs
        refine ⟨a, ?_⟩
        rcases List.mem_cons.1 b with b | b
        · exfalso
          have hq0 := (validPixel_iff _ _ _).1 hqs.1
          have := coords_of_toNat hq0.1 hq0.2.2.1 b
          rw [this] at hqC
          exact hqC hxC
        · exact b
      · intro p q hc hp
        obtain ⟨hps, hpC⟩ := (hb2 p).1 hp
        refine (hb2 q).2 ⟨j4 p q hc hps, ?_⟩
        intro hqC
        exact hpC ((hK p).2 (((hK q).1 hqC).trans hc.symm))
      · intro p q hp hq hp2 hq2
        show (readPixel img2 p.2 p.1 = readPixel img2 q.2 q.1 ↔ Connected4 img 0 p q)
        rw [hrd2s p, hrd2s q]
        by_cases hpC : p ∈ C
        · by_cases hqC : q ∈ C
          · rw [if_pos hpC, if_pos hqC]
            exact ⟨fun _ => ((hK p).1 hpC).symm.trans ((hK q).1 hqC), fun _ => rfl⟩
          · rw [if_pos hpC, if_neg hqC]
            have hqs : ¬ bgAt st.img 0 q := fun hc => hq2 ((hb2 q).2 ⟨hc, hqC⟩)
            obtain ⟨L, e1, -, l2⟩ := j6 q hq hqs
            rw [e1]
            constructor
            · intro hc
              have := Option.some.inj hc
              omega
            · intro hc
              exact absurd ((hK q).2 (((hK p).1 hpC).trans hc)) hqC
        · have hps : ¬ bgAt st.img 0 p := fun hc => hp2 ((hb2 p).2 ⟨hc, hpC⟩)
          by_cases hqC : q ∈ C
          · rw [if_neg hpC, if_pos hqC]
            obtain ⟨L, e1, -, l2⟩ := j6 p hp hps
            rw [e1]
            constructor
            · intro hc
              have := Option.some.inj hc
              omega
            · intro hc
              exact absurd ((hK p).2 (((hK q).1 hqC).trans hc.symm)) hpC
          · rw [if_neg hpC, if_neg hqC]
            have hqs : ¬ bgAt st.img 0 q := fun hc => hq2 ((hb2 q).2 ⟨hc, hqC⟩)
            exact j5 p q hp hq hps hqs
      · intro q hq hq2
        show ∃ L, readPixel img2 q.2 q.1 = some L ∧ img.num_colors ≤ L ∧ L < st.currentLabel + 1
        rw [hrd2s q]
        by_cases hqC : q ∈ C
        · rw [if_pos hqC]
          exact ⟨st.currentLabel, rfl, by omega, by omega⟩
        · rw [if_neg hqC]
          have hqs : ¬ bgAt st.img 0 q := fun hc => hq2 ((hb2 q).2 ⟨hc, hqC⟩)
          obtain ⟨L, e1, l1, l2⟩ := j6 q hq hqs
          exact ⟨L, e1, l1, by omega⟩
      · refine ⟨insert p0r S, hins, by rw [hcard1, hcard], ?_⟩
        intro p hp
        show p ∈ insert p0r S ↔ ¬ bgAt img2 0 p
        rw [Finset.mem_insert, hb2 p]
        constructor
        · rintro (rfl | hpS)
          · exact fun hc => hc.2 hp0C
          · exact fun hc => (hmem p hp).1 hpS hc.1
        · intro hc
          by_cases hpC : p ∈ C
          · left
            exact hrepC p hp hpC
          · right
            exact (hmem p hp).2 (fun hps => hc ⟨hps, hpC⟩)
    · rw [if_neg hp0]
      refine ih st hwf hsw hsh hlab hrest ?_ j4 j5 j6 j7
      intro q hq
      obtain ⟨a, b⟩ := j3 q hq
      refine ⟨a, ?_⟩
      rcases List.mem_cons.1 b with b | b
      · exfalso
        have hq0 := (validPixel_iff _ _ _).1 hq.1
        have := coords_of_toNat hq0.1 hq0.2.2.1 b
        have hq2 := hq.2
        rw [this] at hq2
        have hq3 : readPixel st.img (vu.1 : Int) (vu.2 : Int) = some 0 := hq2
        rw [hrd] at hq3
        exact hp0 (Option.some.inj hq3)
      · exact b

/-- With the recursive fill and fuel for the whole image, the segmentation of an
image whose WHITE pixels form `reps.card` components returns `reps.card`, leaves no
WHITE pixel, and gives two pixels that were WHITE the same label exactly when they
were in the same component. -/
theorem segmentation_components (fuel : Nat) (img : Image) (reps : Finset (Int × Int))
    (hwf : img.WF) (hw : img.width < 2 ^ 31) (hh : img.height < 2 ^ 31)
    (hfuel : img.width * img.height < fuel) (hsys : ComponentSystem img 0 reps)
    (hlut : img.num_colors + reps.card ≤ FIXED_LUT_SIZE) (hn0 : 0 < img.num_colors) :
    ∃ img1, ImageSegmentation img (ImageRegionFillingRecursive fuel) = .ok (img1, reps.card) ∧
      img1.WF ∧ img1.width = img.width ∧ img1.height = img.height ∧
      (∀ q, ¬ bgAt img1 0 q) ∧
      (∀ p q, bgAt img 0 p → bgAt img 0 q →
        (readPixel img1 p.2 p.1 = readPixel img1 q.2 q.1 ↔ Connected4 img 0 p q)) ∧
      (∀ q, bgAt img 0 q → ∃ L, readPixel img1 q.2 q.1 = some L ∧ img.num_colors ≤ L ∧
        L < img.num_colors + reps.card) := by
  unfold ImageSegmentation
  refine segLoop_components fuel img reps hw hh hfuel hsys hlut hn0 _ _ hwf rfl rfl rfl
    (fun vu hvu => (mem_scanOrder _ _ _).1 hvu) ?_ ?_ ?_ ?_ ?_
  · intro q hq
    refine ⟨hq, ?_⟩
    have hq0 := (validPixel_iff _ _ _).1 hq.1
    rw [toInt32_of_lt hw, toInt32_of_lt hh] at hq0
    rw [mem_scanOrder]
    show q.2.toNat < img.height ∧ q.1.toNat < img.width
    omega
  · intro p q hc _
    exact hc.bg_end
  · intro p q hp _ hp2
    exact absurd hp hp2
  · intro q hq hq2
    exact absurd hq hq2
  · refine ⟨∅, Finset.empty_subset _, rfl, ?_⟩
    intro p hp
    constructor
    · intro hc
      exact absurd hc (Finset.not_mem_empty _)
    · intro hc
      exact absurd (hsys.1 p hp) hc

/-! ## Termination of the fills -/

/-- With fuel above the number of `bg`-labelled pixels, `floodFillRecursive` returns,
and the number of `bg`-labelled pixels drops by the count it returns. -/
theorem floodFillRecursive_measure (bg label : Nat) (hne : label ≠ bg) (fuel : Nat)
    (img : Image) (u v : Int) (hwf : img.WF) (hfuel : (bgSet img bg).card < fuel) :
    ∃ r, floodFillRecursive fuel img u v bg label = .ok r ∧
      (bgSet r.1 bg).card + r.2 = (bgSet img bg).card := by
  obtain ⟨img1, c, e, C, hC, hc, -⟩ := floodFillRecursive_spec bg label hne fuel img u v hwf hfuel
  refine ⟨(img1, c), e, ?_⟩
  rw [hc]
  exact hC.card_bgSet hne

theorem recursive_total (fuel : Nat) (img : Image) (u v : Int) (label : Nat) (hwf : img.WF)
    (hfuel : img.width * img.height < fuel) :
    ∃ r, ImageRegionFillingRecursive fuel img u v label = .ok r := by
  obtain ⟨img1, c, e, -⟩ := ImageRegionFillingRecursive_seed fuel img u v label hwf hfuel
  exact ⟨_, e⟩

/-- The loop of an iterative fill with one unit of fuel per pixel stops after at
most `width * height` insertions; on a square image the fill returns. -/
theorem fillWith_terminates (ins : List PixelCoords → PixelCoords → List PixelCoords)
    (hins : ∀ s p, (ins s p).length = s.length + 1)
    (hmem : ∀ s p x, x ∈ ins s p → x ∈ s ∨ x = p)
    (fuel : Nat) (img : Image) (u v : Int) (label : Nat) (hwf : img.WF)
    (hw : img.width < 2 ^ 32) (hh : img.height < 2 ^ 32)
    (hfuel : img.width * img.height ≤ fuel) :
    fillWith ins fuel img u v label ≠ .outOfFuel ∧
    (fillWithLog ins fuel img u v label).1.pushed.length ≤ img.width * img.height ∧
    (img.width = img.height → ∃ r, fillWith ins fuel img u v label = .ok r) := by
  obtain ⟨l1, o, e, ho, hp, -⟩ := fillWithLog_run ins hins fuel img u v label hwf hw hh hfuel
  have h2 := fillWithLog_snd ins fuel img u v label
  rw [e] at h2 ⊢
  simp only at h2 ⊢
  rw [← h2]
  exact ⟨ho, hp, fun hsq => by
    rw [h2]
    exact fillWith_square ins hins hmem fuel img u v label hwf hsq hw hfuel⟩

/-- Frame of an iterative fill that returns. -/
theorem fillWith_frame (ins : List PixelCoords → PixelCoords → List PixelCoords)
    (hins : ∀ s p, (ins s p).length = s.length + 1)
    (fuel : Nat) (img : Image) (u v : Int) (label : Nat) (r : Image × Nat) (hwf : img.WF)
    (hw : img.width < 2 ^ 32) (hh : img.height < 2 ^ 32)
    (h : fillWith ins fuel img u v label = .ok r) :
    r.1.width = img.width ∧ r.1.height = img.height ∧ r.1.num_colors = img.num_colors ∧
    r.1.LUT = img.LUT ∧
    ∃ C : Finset (Int × Int), r.2 = C.card ∧
      (∀ q : Int × Int, q ∈ C ↔ readPixel r.1 q.2 q.1 ≠ readPixel img q.2 q.1) ∧
      (∀ q ∈ C, ImageIsValidPixel img q.1 q.2 = true ∧
        readPixel img q.2 q.1 = readPixel img v u ∧ readPixel r.1 q.2 q.1 = some label) := by
  obtain ⟨b, D, c, n, s⟩ := fillWith_changed ins hins fuel img u v label r hwf hw hh h
  obtain ⟨c1, c2, c3, c4, -, c6, c7⟩ := c
  refine ⟨c1, c2, c3, c4, D, n, ?_, ?_⟩
  · intro q
    rw [c7 q]
    by_cases hq : q ∈ D
    · obtain ⟨s1, s2⟩ := s ⟨q, hq⟩
      rw [if_pos hq, (c6 q hq).2]
      simp only [hq, true_iff]
      intro hc
      exact s2 (Option.some.inj hc)
    · rw [if_neg hq]
      simp [hq]
  · intro q hq
    obtain ⟨s1, s2⟩ := s ⟨q, hq⟩
    refine ⟨(c6 q hq).1, by rw [(c6 q hq).2, s1], ?_⟩
    rw [c7 q, if_pos hq]

/-! ## A 3x3 image with three WHITE components -/

/-- A set that contains `p` and every `bg`-labelled neighbour of its pixels contains
the component of `p`. -/
theorem Connected4.closed {img : Image} {bg : Nat} {p : Int × Int} (S : Int × Int → Prop)
    (hp : S p) (hS : ∀ q r, S q → adj4 q r → bgAt img bg r → S r) {q : Int × Int}
    (h : Connected4 img bg p q) : S q := by
  induction h with
  | seed _ => exact hp
  | step _ ha hb ih => exact hS _ _ ih ha hb

theorem threeRegions_bgAt (q : Int × Int) :
    bgAt threeRegions 0 q ↔ q ∈ [((0 : Int), (0 : Int)), (1, 0), (1, 1), (0, 2), (2, 2)] := by
  constructor
  · intro h
    have hv := (validPixel_iff _ _ _).1 h.1
    have h2 := h.2
    obtain ⟨a, b⟩ := q
    have e1 : toInt32 threeRegions.width = 3 := by decide
    have e2 : toInt32 threeRegions.height = 3 := by decide
    rw [e1, e2] at hv
    simp only at hv h2
    obtain ⟨h1, h3, h4, h5⟩ := hv
    interval_cases a <;> interval_cases b <;> first
      | decide
      | exact absurd h2 (by decide)
  · intro h
    simp only [List.mem_cons, List.mem_singleton, List.not_mem_nil, or_false] at h
    rcases h with rfl | rfl | rfl | rfl | rfl <;> exact ⟨by decide, by decide⟩

theorem threeRegions_system :
    ComponentSystem threeRegions 0 {((0 : Int), (0 : Int)), (0, 2), (2, 2)} := by
  have hb : ∀ q ∈ [((0 : Int), (0 : Int)), (1, 0), (1, 1), (0, 2), (2, 2)],
      bgAt threeRegions 0 q := fun q hq => (threeRegions_bgAt q).2 hq
  have step : ∀ (S : Int × Int → Prop) (p : Int × Int), S p →
      (∀ q ∈ [((0 : Int), (0 : Int)), (1, 0), (1, 1), (0, 2), (2, 2)], ∀ r ∈
        [((0 : Int), (0 : Int)), (1, 0), (1, 1), (0, 2), (2, 2)], S q → adj4 q r → S r) →
      ∀ q, Connected4 threeRegions 0 p q → S q := by
    intro S p hp hS q hc
    refine (Connected4.closed (fun x => bgAt threeRegions 0 x ∧ S x) ⟨hc.bg_start, hp⟩ ?_ hc).2
    intro a b ha hab hbb
    exact ⟨hbb, hS a ((threeRegions_bgAt a).1 ha.1) b ((threeRegions_bgAt b).1 hbb) ha.2 hab⟩
  have c1 : ∀ q, Connected4 threeRegions 0 (0, 0) q →
      q ∈ [((0 : Int), (0 : Int)), (1, 0), (1, 1)] := by
    refine step (fun q => q ∈ [((0 : Int), (0 : Int)), (1, 0), (1, 1)]) _ (by decide) ?_
    simp only [adj4]
    decide
  have c2 : ∀ q, Connected4 threeRegions 0 (0, 2) q → q = (0, 2) := by
    refine step (fun q => q = (0, 2)) _ rfl ?_
    simp only [adj4]
    decide
  have c3 : ∀ q, Connected4 threeRegions 0 (2, 2) q → q = (2, 2) := by
    refine step (fun q => q = (2, 2)) _ rfl ?_
    simp only [adj4]
    decide
  refine ⟨?_, ?_, ?_⟩
  · intro p hp
    simp only [Finset.mem_insert, Finset.mem_singleton] at hp
    rcases hp with rfl | rfl | rfl <;> exact hb _ (by decide)
  · intro p hp q hq hc
    simp only [Finset.mem_insert, Finset.mem_singleton] at hp hq
    rcases hp with rfl | rfl | rfl
    · have := c1 q hc
      rcases hq with rfl | rfl | rfl
      · rfl
      · exact absurd this (by decide)
      · exact absurd this (by decide)
    · exact (c2 q hc).symm
    · exact (c3 q hc).symm
  · intro q hq
    have hq1 := (threeRegions_bgAt q).1 hq
    simp only [List.mem_cons, List.mem_singleton, List.not_mem_nil, or_false] at hq1
    have s0 : Connected4 threeRegions 0 (0, 0) (0, 0) := Connected4.seed (hb _ (by decide))
    have s1 : Connected4 threeRegions 0 (0, 0) (1, 0) :=
      Connected4.step s0 (Or.inl rfl) (hb _ (by decide))
    have s2 : Connected4 threeRegions 0 (0, 0) (1, 1) :=
      Connected4.step s1 (Or.inr (Or.inr (Or.inl rfl))) (hb _ (by decide))
    rcases hq1 with rfl | rfl | rfl | rfl | rfl
    · exact ⟨(0, 0), by simp, s0⟩
    · exact ⟨(0, 0), by simp, s1⟩
    · exact ⟨(0, 0), by simp, s2⟩
    · exact ⟨(0, 2), by simp, Connected4.seed (hb _ (by decide))⟩
    · exact ⟨(2, 2), by simp, Connected4.seed (hb _ (by decide))⟩

/-! ## Claims on the segmentation scan, the frame of the fills and termination -/

/-- Claim C31: when the scan of ImageSegmentation runs to its end, that is, the
function does not return at the LUT overflow test, no pixel holds WHITE afterwards,
and every pixel that held WHITE holds one of the appended labels; this holds for
the three fills, for images with at least one colour and dimensions that fit in
an int. The first two parts say that the runs recorded by ImageSegmentationExit
are the runs of ImageSegmentation. -/
theorem segmentation_leaves_no_white (fuel : Nat) (f : FillingFunction)
    (hf : f ∈ [ImageRegionFillingRecursive fuel, ImageRegionFillingWithSTACK fuel,
      ImageRegionFillingWithQUEUE fuel])
    (img img1 : Image) (r : Nat) (hw : img.width < 2 ^ 31) (hh : img.height < 2 ^ 31)
    (hn : 0 < img.num_colors)
    (h : ImageSegmentationExit img f = .ok (img1, r, false)) :
    (∀ (g : FillingFunction) (a : Image),
      ImageSegmentation a g = (ImageSegmentationExit a g).bind fun x => .ok (x.1, x.2.1)) ∧
    ImageSegmentation img f = .ok (img1, r) ∧
    (∀ v u : Nat, v < img.height → u < img.width → readPixel img1 v u ≠ some WHITE) ∧
    (∀ v u : Nat, v < img.height → u < img.width → readPixel img v u = some WHITE →
      ∃ L, readPixel img1 v u = some L ∧ img.num_colors ≤ L ∧ L < img.num_colors + r) := by
  refine ⟨fun g a => segmentationExit_erase a g, ?_,
    segmentation_no_white fuel f hf img img1 r hw hh hn h⟩
  rw [segmentationExit_erase, h]
  rfl

theorem segmentation_leaves_no_white_witness :
    ImageSegmentationExit chessBlue (ImageRegionFillingWithSTACK 2) =
      .ok (chessBlueLabelled, 2, false) ∧
    ((∀ (g : FillingFunction) (a : Image),
       ImageSegmentation a g = (ImageSegmentationExit a g).bind fun x => .ok (x.1, x.2.1)) ∧
     ImageSegmentation chessBlue (ImageRegionFillingWithSTACK 2) = .ok (chessBlueLabelled, 2) ∧
     (∀ v u : Nat, v < chessBlue.height → u < chessBlue.width →
       readPixel chessBlueLabelled v u ≠ some WHITE) ∧
     (∀ v u : Nat, v < chessBlue.height → u < chessBlue.width →
       readPixel chessBlue v u = some WHITE →
       ∃ L, readPixel chessBlueLabelled v u = some L ∧ chessBlue.num_colors ≤ L ∧
         L < chessBlue.num_colors + 2)) :=
  ⟨by decide,
    segmentation_leaves_no_white 2 (ImageRegionFillingWithSTACK 2) (by simp) chessBlue
      chessBlueLabelled 2 (by decide) (by decide) (by decide) (by decide)⟩

/-- Claim C32: for a well-formed image with at least one colour, dimensions that
fit in an int and WHITE pixels forming `reps.card` 4-connected components (one
representative each in `reps`), with room in the LUT for one colour per component,
ImageSegmentation with ImageRegionFillingRecursive, given fuel for the whole image,
returns `reps.card`; afterwards no pixel is WHITE, two pixels that were WHITE hold
the same label exactly when they were connected, and their labels are appended
ones. -/
theorem recursive_segmentation_components (fuel : Nat) (img : Image)
    (reps : Finset (Int × Int)) (hwf : img.WF) (hw : img.width < 2 ^ 31)
    (hh : img.height < 2 ^ 31) (hfuel : img.width * img.height < fuel)
    (hsys : ComponentSystem img WHITE reps)
    (hlut : img.num_colors + reps.card ≤ FIXED_LUT_SIZE) (hn0 : 0 < img.num_colors) :
    ∃ img1, ImageSegmentation img (ImageRegionFillingRecursive fuel) = .ok (img1, reps.card) ∧
      img1.WF ∧ img1.width = img.width ∧ img1.height = img.height ∧
      (∀ q, ¬ bgAt img1 WHITE q) ∧
      (∀ p q, bgAt img WHITE p → bgAt img WHITE q →
        (readPixel img1 p.2 p.1 = readPixel img1 q.2 q.1 ↔ Connected4 img WHITE p q)) ∧
      (∀ q, bgAt img WHITE q → ∃ L, readPixel img1 q.2 q.1 = some L ∧ img.num_colors ≤ L ∧
        L < img.num_colors + reps.card) :=
  segmentation_components fuel img reps hwf hw hh hfuel hsys hlut hn0

theorem recursive_segmentation_components_witness :
    ComponentSystem threeRegions WHITE {((0 : Int), (0 : Int)), (0, 2), (2, 2)} ∧
    ({((0 : Int), (0 : Int)), (0, 2), (2, 2)} : Finset (Int × Int)).card = 3 ∧
    ImageSegmentation threeRegions (ImageRegionFillingRecursive 10) =
      .ok ({ threeRegions with image := [[2, 2, 1], [1, 2, 1], [3, 1, 4]], num_colors := 5, LUT := [0xffffff, 0x000000, 0x0000FF, 0x001ED6, 0x003CAD] }, 3) ∧
    ∃ img1, ImageSegmentation threeRegions (ImageRegionFillingRecursive 10) =
        .ok (img1, ({((0 : Int), (0 : Int)), (0, 2), (2, 2)} : Finset (Int × Int)).card) ∧
      img1.WF ∧ img1.width = threeRegions.width ∧ img1.height = threeRegions.height ∧
      (∀ q, ¬ bgAt img1 WHITE q) ∧
      (∀ p q, bgAt threeRegions WHITE p → bgAt threeRegions WHITE q →
        (readPixel img1 p.2 p.1 = readPixel img1 q.2 q.1 ↔
          Connected4 threeRegions WHITE p q)) ∧
      (∀ q, bgAt threeRegions WHITE q → ∃ L, readPixel img1 q.2 q.1 = some L ∧
        threeRegions.num_colors ≤ L ∧ L < threeRegions.num_colors +
          ({((0 : Int), (0 : Int)), (0, 2), (2, 2)} : Finset (Int × Int)).card) :=
  ⟨threeRegions_system, by decide, by decide,
    recursive_segmentation_components 10 threeRegions {((0 : Int), (0 : Int)), (0, 2), (2, 2)}
      (by decide) (by decide) (by decide) (by decide) threeRegions_system (by decide)
      (by decide)⟩

/-- Claim C34: when ImageSegmentation returns, with any of the three fills, on an
image with `uint32` dimensions, the width and the height are unchanged and every
pixel whose label was not WHITE holds the label it had. -/
theorem segmentation_frame (fuel : Nat) (f : FillingFunction)
    (hf : f ∈ [ImageRegionFillingRecursive fuel, ImageRegionFillingWithSTACK fuel,
      ImageRegionFillingWithQUEUE fuel])
    (img img1 : Image) (r : Nat) (hw : img.width < 2 ^ 32) (hh : img.height < 2 ^ 32)
    (h : ImageSegmentation img f = .ok (img1, r)) :
    img1.width = img.width ∧ img1.height = img.height ∧
    ∀ (row col : Int) (p : Nat), p ≠ WHITE → readPixel img row col = some p →
      readPixel img1 row col = some p :=
  segmentation_keeps fuel f hf img img1 r hw hh h

theorem segmentation_frame_witness :
    ImageSegmentation chessBlue (ImageRegionFillingWithQUEUE 2) = .ok (chessBlueLabelled, 2) ∧
    (chessBlueLabelled.width = chessBlue.width ∧ chessBlueLabelled.height = chessBlue.height ∧
     ∀ (row col : Int) (p : Nat), p ≠ WHITE → readPixel chessBlue row col = some p →
       readPixel chessBlueLabelled row col = some p) :=
  ⟨by decide,
    segmentation_frame 2 (ImageRegionFillingWithQUEUE 2) (by simp) chessBlue chessBlueLabelled 2
      (by decide) (by decide) (by decide)⟩

/-! ## Runs of the iterative fills on images that are not square -/

theorem blank32_queue_log :
    fillWithLog QueueEnqueue 6 (ImageCreate 3 2) 0 0 2 =
      (⟨[⟨0, 0⟩, ⟨1, 0⟩, ⟨1, 0⟩, ⟨2, 0⟩, ⟨1, 1⟩, ⟨1, 2⟩],
        [⟨0, 0⟩, ⟨1, 0⟩, ⟨1, 0⟩, ⟨2, 0⟩, ⟨1, 1⟩, ⟨1, 2⟩]⟩, .outOfBounds) := by
  decide

theorem blank32_queue_segmentation (n : Nat) :
    ImageSegmentation (ImageCreate 3 2) (ImageRegionFillingWithQUEUE (n + 6)) = .outOfBounds :=
  rfl

theorem blank1x16_queue_segmentation (n : Nat) :
    ImageSegmentation (ImageCreate 1 16) (ImageRegionFillingWithQUEUE (n + 2)) = .outOfBounds :=
  rfl

set_option maxRecDepth 100000 in
theorem rowChunks16_queue_eval :
    ImageSegmentation rowChunks16 (ImageRegionFillingWithQUEUE 231) =
      .ok (rowChunks16Labelled, 2) := by
  decide!

theorem rowSlack12_stack_log :
    fillWithLog StackPush 4 rowSlack12 0 0 2 =
      (⟨[⟨0, 0⟩, ⟨1, 0⟩, ⟨1, 1⟩, ⟨0, 1⟩], [⟨0, 0⟩, ⟨1, 0⟩, ⟨1, 1⟩, ⟨0, 1⟩]⟩,
       .ok ({ rowSlack12 with image := [[2, 2], [2, 2]] }, 4)) := by
  decide

theorem rowSlack12_queue_log :
    fillWithLog QueueEnqueue 4 rowSlack12 0 0 2 =
      (⟨[⟨0, 0⟩, ⟨1, 0⟩, ⟨1, 1⟩, ⟨0, 1⟩], [⟨0, 0⟩, ⟨1, 0⟩, ⟨1, 1⟩, ⟨0, 1⟩]⟩,
       .ok ({ rowSlack12 with image := [[2, 2], [2, 2]] }, 4)) := by
  decide

theorem fillWithLog_result (ins : List PixelCoords → PixelCoords → List PixelCoords)
    (fuel k : Nat) (img : Image) (u v : Int) (label : Nat) (log : FillLog)
    (o : Outcome (Image × Nat)) (h : fillWithLog ins fuel img u v label = (log, o))
    (ho : o ≠ .outOfFuel) : fillWith ins (fuel + k) img u v label = o := by
  have h1 := fillWithLog_mono ins fuel k img u v label log o h ho
  have h2 := fillWithLog_snd ins (fuel + k) img u v label
  rw [h1] at h2
  exact h2.symm

/-! ## Claims revisited: blank images with the queue, colours, frame and termination -/

/-- Claim C11, refuted in its general form: on the all-white image ImageCreate(3, 2)
the first fill of the segmentation with ImageRegionFillingWithQUEUE relabels the six
pixels, then removes the coordinate (1, 2), inserted with u and v swapped, and
evaluates `img->image[2][2]` although the image has only the rows 0 and 1; the
segmentation returns a region count for no fuel at all. On ImageCreate(1, 16) the
fill reads past the one-pixel rows, and on the memory `rowChunks16`, where those
cells are listed, the segmentation returns 2 regions. On the 50x50 all-white image
of the tests it returns exactly 1 region. -/
theorem queue_segmentation_blank :
    (ImageCreate 3 2).image.length = 2 ∧
    readPixel (ImageCreate 3 2) 2 2 = none ∧
    (∀ n : Nat, fillWithLog QueueEnqueue (6 + n) (ImageCreate 3 2) 0 0 2 =
      (⟨[⟨0, 0⟩, ⟨1, 0⟩, ⟨1, 0⟩, ⟨2, 0⟩, ⟨1, 1⟩, ⟨1, 2⟩],
        [⟨0, 0⟩, ⟨1, 0⟩, ⟨1, 0⟩, ⟨2, 0⟩, ⟨1, 1⟩, ⟨1, 2⟩]⟩, .outOfBounds)) ∧
    (∀ n : Nat, ImageSegmentation (ImageCreate 3 2) (ImageRegionFillingWithQUEUE (n + 6)) =
      .outOfBounds) ∧
    (∀ (fuel : Nat) (r : Image × Nat),
      ImageSegmentation (ImageCreate 3 2) (ImageRegionFillingWithQUEUE fuel) ≠ .ok r) ∧
    (∀ n : Nat, ImageSegmentation (ImageCreate 1 16) (ImageRegionFillingWithQUEUE (n + 2)) =
      .outOfBounds) ∧
    (∀ n : Nat, ImageSegmentation rowChunks16 (ImageRegionFillingWithQUEUE (231 + n)) =
      .ok (rowChunks16Labelled, 2)) ∧
    (∀ n : Nat, ∃ img1 : Image,
      ImageSegmentation (ImageCreate 50 50) (ImageRegionFillingWithQUEUE (2500 + n)) =
        .ok (img1, 1)) := by
  refine ⟨by decide, by decide,
    fun n => fillWithLog_mono QueueEnqueue 6 n _ _ _ _ _ _ blank32_queue_log (by simp),
    blank32_queue_segmentation, ?_, blank1x16_queue_segmentation,
    fun n => ImageSegmentation_mono _ _ (queue_mono 231 n) _ _ rowChunks16_queue_eval,
    fun n => ?_⟩
  · intro fuel r h
    rcases fuel with _ | _ | _ | _ | _ | _ | n
    · have e : ImageSegmentation (ImageCreate 3 2) (ImageRegionFillingWithQUEUE 0) =
          .outOfFuel := rfl
      rw [e] at h
      cases h
    · have e : ImageSegmentation (ImageCreate 3 2) (ImageRegionFillingWithQUEUE 1) =
          .outOfFuel := rfl
      rw [e] at h
      cases h
    · have e : ImageSegmentation (ImageCreate 3 2) (ImageRegionFillingWithQUEUE 2) =
          .outOfFuel := rfl
      rw [e] at h
      cases h
    · have e : ImageSegmentation (ImageCreate 3 2) (ImageRegionFillingWithQUEUE 3) =
          .outOfFuel := rfl
      rw [e] at h
      cases h
    · have e : ImageSegmentation (ImageCreate 3 2) (ImageRegionFillingWithQUEUE 4) =
          .outOfFuel := rfl
      rw [e] at h
      cases h
    · have e : ImageSegmentation (ImageCreate 3 2) (ImageRegionFillingWithQUEUE 5) =
          .outOfFuel := rfl
      rw [e] at h
      cases h
    · rw [blank32_queue_segmentation n] at h
      cases h
  · obtain ⟨img1, h1, -⟩ := segmentation_sim ⟨50, 50⟩ (ImageRegionFillingWithQUEUE 2500)
      (packedFill ⟨50, 50⟩ QueueEnqueue 2500)
      (fun img bits u v label hp hl => fill_sim _ QueueEnqueue 2500 img bits u v label hp hl)
      (ImageCreate 50 50) 0 (blank_packs 50 50) 1 3 blank50_queue_eval
    exact ⟨img1, ImageSegmentation_mono _ _ (queue_mono 2500 n) _ _ h1⟩

/-- Claim C33, refuted: on ImageCreate(1, 2) with seed (0, 0), both
ImageRegionFillingWithSTACK and ImageRegionFillingWithQUEUE remove the coordinate
(1, 0) and test `img->image[1][1]`, a cell outside the image; when that cell and the
one after row 0 hold 0 (the memory `rowSlack12`), both store the label in them and
count them, and return 4 for an image of 2 pixels. What holds: whenever one of the
two functions returns on a well-formed image, the header is unchanged, the changed
pixels held the label of the seed and hold `label`, and the count is their number. -/
theorem iterative_fill_frame :
    (∀ n : Nat, ImageRegionFillingWithSTACK (2 + n) (ImageCreate 1 2) 0 0 2 = .outOfBounds) ∧
    (∀ n : Nat, ImageRegionFillingWithQUEUE (2 + n) (ImageCreate 1 2) 0 0 2 = .outOfBounds) ∧
    readPixel (ImageCreate 1 2) 1 1 = none ∧
    rowSlack12.width * rowSlack12.height = 2 ∧
    (∀ n : Nat, ImageRegionFillingWithSTACK (4 + n) rowSlack12 0 0 2 =
      .ok ({ rowSlack12 with image := [[2, 2], [2, 2]] }, 4)) ∧
    (∀ n : Nat, ImageRegionFillingWithQUEUE (4 + n) rowSlack12 0 0 2 =
      .ok ({ rowSlack12 with image := [[2, 2], [2, 2]] }, 4)) ∧
    (∀ (fuel : Nat) (f : FillingFunction) (img : Image) (u v : Int) (label : Nat)
      (r : Image × Nat),
      f ∈ [ImageRegionFillingWithSTACK fuel, ImageRegionFillingWithQUEUE fuel] →
      img.WF → img.width < 2 ^ 32 → img.height < 2 ^ 32 → f img u v label = .ok r →
      r.1.width = img.width ∧ r.1.height = img.height ∧ r.1.num_colors = img.num_colors ∧
      r.1.LUT = img.LUT ∧
      ∃ C : Finset (Int × Int), r.2 = C.card ∧
        (∀ q : Int × Int, q ∈ C ↔ readPixel r.1 q.2 q.1 ≠ readPixel img q.2 q.1) ∧
        (∀ q ∈ C, ImageIsValidPixel img q.1 q.2 = true ∧
          readPixel img q.2 q.1 = readPixel img v u ∧
          readPixel r.1 q.2 q.1 = some label)) := by
  refine ⟨fun n => fillWithLog_result StackPush 2 n _ _ _ _ _ _ blank12_stack_log (by simp),
    fun n => fillWithLog_result QueueEnqueue 2 n _ _ _ _ _ _ blank12_queue_log (by simp),
    by decide, by decide,
    fun n => fillWithLog_result StackPush 4 n _ _ _ _ _ _ rowSlack12_stack_log (by simp),
    fun n => fillWithLog_result QueueEnqueue 4 n _ _ _ _ _ _ rowSlack12_queue_log (by simp),
    ?_⟩
  intro fuel f img u v label r hf hwf hw hh h
  simp only [List.mem_cons, List.mem_singleton, List.not_mem_nil, or_false] at hf
  rcases hf with rfl | rfl
  · exact fillWith_frame StackPush stackPush_length fuel img u v label r hwf hw hh h
  · exact fillWith_frame QueueEnqueue queueEnqueue_length fuel img u v label r hwf hw hh h

/-- Claim C35, refuted for the iterative fills: floodFillRecursive with `label`
different from `background` returns when the depth allowed exceeds the number of
background pixels, which drops by the count returned, and ImageRegionFillingRecursive
returns for every seed and label when the depth exceeds `width * height`. On
ImageCreate(1, 2), after `width * height` = 2 insertions, the loops of
ImageRegionFillingWithSTACK and ImageRegionFillingWithQUEUE go on and test
`img->image[1][1]`, outside the image; when that cell and the one after row 0 hold 0
(the memory `rowSlack12`), each loop makes 4 insertions. What holds: on a square
image both loops end within `width * height` iterations and insertions. -/
theorem fills_terminate :
    (∀ (img : Image) (u v : Int) (background label fuel : Nat), img.WF →
      label ≠ background → (bgSet img background).card < fuel →
      ∃ r, floodFillRecursive fuel img u v background label = .ok r ∧
        (bgSet r.1 background).card + r.2 = (bgSet img background).card) ∧
    (∀ (img : Image) (background : Nat),
      (bgSet img background).card ≤ img.width * img.height) ∧
    (∀ (img : Image) (u v : Int) (label fuel : Nat), img.WF →
      img.width * img.height < fuel →
      ∃ r, ImageRegionFillingRecursive fuel img u v label = .ok r) ∧
    (ImageCreate 1 2).width * (ImageCreate 1 2).height = 2 ∧
    (∀ n : Nat, fillWithLog StackPush (2 + n) (ImageCreate 1 2) 0 0 2 =
      (⟨[⟨0, 0⟩, ⟨1, 0⟩], [⟨0, 0⟩, ⟨1, 0⟩]⟩, .outOfBounds)) ∧
    (∀ n : Nat, fillWithLog QueueEnqueue (2 + n) (ImageCreate 1 2) 0 0 2 =
      (⟨[⟨0, 0⟩, ⟨1, 0⟩], [⟨0, 0⟩, ⟨1, 0⟩]⟩, .outOfBounds)) ∧
    readPixel (ImageCreate 1 2) 1 1 = none ∧
    rowSlack12.width * rowSlack12.height = 2 ∧
    (∀ n : Nat, fillWithLog StackPush (4 + n) rowSlack12 0 0 2 =
      (⟨[⟨0, 0⟩, ⟨1, 0⟩, ⟨1, 1⟩, ⟨0, 1⟩], [⟨0, 0⟩, ⟨1, 0⟩, ⟨1, 1⟩, ⟨0, 1⟩]⟩,
       .ok ({ rowSlack12 with image := [[2, 2], [2, 2]] }, 4))) ∧
    (∀ n : Nat, fillWithLog QueueEnqueue (4 + n) rowSlack12 0 0 2 =
      (⟨[⟨0, 0⟩, ⟨1, 0⟩, ⟨1, 1⟩, ⟨0, 1⟩], [⟨0, 0⟩, ⟨1, 0⟩, ⟨1, 1⟩, ⟨0, 1⟩]⟩,
       .ok ({ rowSlack12 with image := [[2, 2], [2, 2]] }, 4))) ∧
    (∀ (img : Image) (u v : Int) (label fuel : Nat), img.WF → img.width = img.height →
      img.width < 2 ^ 32 → img.width * img.height ≤ fuel →
      (∃ r, ImageRegionFillingWithSTACK fuel img u v label = .ok r) ∧
      (fillWithLog StackPush fuel img u v label).1.pushed.length ≤ img.width * img.height ∧
      (∃ r, ImageRegionFillingWithQUEUE fuel img u v label = .ok r) ∧
      (fillWithLog QueueEnqueue fuel img u v label).1.pushed.length ≤
        img.width * img.height) := by
  refine ⟨fun img u v bg label fuel hwf hne hf =>
      floodFillRecursive_measure bg label hne fuel img u v hwf hf,
    fun img bg => bgSet_card_le_size img bg,
    fun img u v label fuel hwf hf => recursive_total fuel img u v label hwf hf,
    by decide,
    fun n => fillWithLog_mono StackPush 2 n _ _ _ _ _ _ blank12_stack_log (by simp),
    fun n => fillWithLog_mono QueueEnqueue 2 n _ _ _ _ _ _ blank12_queue_log (by simp),
    by decide, by decide,
    fun n => fillWithLog_mono StackPush 4 n _ _ _ _ _ _ rowSlack12_stack_log (by simp),
    fun n => fillWithLog_mono QueueEnqueue 4 n _ _ _ _ _ _ rowSlack12_queue_log (by simp),
    ?_⟩
  intro img u v label fuel hwf hsq hw hf
  obtain ⟨-, a2, a3⟩ := fillWith_terminates StackPush stackPush_length stackPush_mem fuel img
    u v label hwf hw (hsq ▸ hw) hf
  obtain ⟨-, b2, b3⟩ := fillWith_terminates QueueEnqueue queueEnqueue_length queueEnqueue_mem
    fuel img u v label hwf hw (hsq ▸ hw) hf
  exact ⟨a3 hsq, a2, b3 hsq, b2⟩

end ImageRGB
